import Mathlib

/-! Image-retrieval core: distance metrics, feature extractors, adaptive weights.

A shallow embedding of the numeric core of the content-based image retrieval
programs (`distance_metrics.cpp`, `feature_extraction.cpp`,
`image_analysis.cpp`).

Conventions of the embedding.

* `float`/`double` values are read as elements of a linearly ordered field `α`
  (the rationals for evaluation, the reals for the theorems that need a square
  root).  The rounding of a single operation is not modelled, with three
  exceptions, where it decides the outcome: a value that is accumulated once
  per pixel (`floatIncr`, and the sums of `extractSaliencyWeightedHistogram`),
  and a value that is truncated to an integer bin index
  (`extractRGChromaticityHistogram`).  There `toFloat32` is the rounding to the
  nearest binary32 value, ties to even.
* `std::vector<float>` is `List α`; an index loop `for (i = 0; i < n; i++)`
  is a left fold over `List.range n`, and `v[i]` inside such a loop is
  `v.getD i 0`.
* `std::sqrt` is passed to the functions that call it as the parameter `sqrt`;
  the theorems instantiate it with `Real.sqrt`.
* the literals `1e-10f`, `1e-6`, `0.1f`, `0.6`, `0.4`, `0.33`, `0.34` are the
  rationals they denote.
* a `cv::Mat` of `Vec3b` pixels is its `rows`, its `cols` and the pixel read
  `image.at<cv::Vec3b>(i, j)`; a channel sample is an `unsigned char`, a
  `Fin 256`.  Bin counts are positive `int`s in the program and natural
  numbers here; the theorems about them assume that the number of bins is
  below `2^31`, where no `int` product overflows.
* `histogram[k]++` on a `float` histogram is `List.modify floatIncr k`: a
  `float` counter that starts at `0` counts exactly up to `2^24 = 16777216`
  and then stays there, because `2^24 + 1` is not a binary32 value and rounds
  back to `2^24`.
* a `CV_32F` matrix is its `rows`, its `cols` and the element read
  `m.at<float>(i, j)`; `std::log` is passed as the parameter `log` and
  instantiated with `Real.log`; OpenCV's element-wise division of an integer
  matrix by a scalar is passed as the parameter `matDiv`.
* `std::sort` is the introsort of libstdc++ (`bits/stl_algo.h` and
  `bits/stl_heap.h` of GCC 12), embedded routine by routine as `stdSort`: a
  vector is a list, an iterator is an index, a range handed to
  `__introsort_loop` is the list of its elements, and a read or write outside
  the vector is `none`. `sortMatches` is that sort with
  `ImageMatch::operator<`. The ranking functions take the sort as the
  parameter `sort`; `IsStdSort` is the contract of the C++ standard, which
  `sortMatches` meets. Reading a file (`cv::imread`), listing a directory
  (`getImageFilenames`) and the OpenCV-based texture extractor are parameters
  too. A program run returns `Except RunError _`.
* the samples of a `CV_16SC3` matrix are a function of row, column and
  channel to `Int`; a write replaces one value of the function, and the
  conversion of an `int` to a `short` is `wrap16`.
-/

namespace CBIR

/-! ## Distance metrics (`distance_metrics.cpp`) -/

section Metrics

variable {α : Type} [LinearOrderedField α]

/-- Threshold `1e-10f` used by both normalisation helpers. -/
def normEps : α := 1 / 10 ^ 10

/-- `sumSquaredDifference`: `-1` on a size mismatch, otherwise the accumulated
squared differences. -/
def sumSquaredDifference (f1 f2 : List α) : α :=
  if f1.length ≠ f2.length then -1
  else
    (List.range f1.length).foldl
      (fun ssd i =>
        let diff := f1.getD i 0 - f2.getD i 0
        ssd + diff * diff) 0

/-- `histogramIntersection`: `0` on a size mismatch, otherwise the sum of the
bin-wise minima. -/
def histogramIntersection (h1 h2 : List α) : α :=
  if h1.length ≠ h2.length then 0
  else
    (List.range h1.length).foldl
      (fun intersection i => intersection + min (h1.getD i 0) (h2.getD i 0)) 0

/-- `normalizeVector`: divide every element by the L2 norm, unless the norm is
below `1e-10`, in which case the input is returned. -/
def normalizeVector (sqrt : α → α) (vec : List α) : List α :=
  let norm := sqrt (vec.foldl (fun norm val => norm + val * val) 0)
  if norm < normEps then vec
  else vec.map (fun x => x / norm)

/-- `normalizeHistogram`: divide every element by the sum of the entries
(`std::accumulate` from `0.0f`), unless the sum is below `1e-10`, in which case
the input is returned. -/
def normalizeHistogram (hist : List α) : List α :=
  let sum := hist.foldl (fun acc x => acc + x) 0
  if sum < normEps then hist
  else hist.map (fun x => x / sum)

/-- `histogramIntersectionDistance`: one minus the intersection of the two
sum-normalised histograms. -/
def histogramIntersectionDistance (h1 h2 : List α) : α :=
  let h1_norm := normalizeHistogram h1
  let h2_norm := normalizeHistogram h2
  let intersection := histogramIntersection h1_norm h2_norm
  1 - intersection

/-- `cosineDistance`: `2` on a size mismatch, otherwise one minus the clamped
dot product of the two L2-normalised vectors. -/
def cosineDistance (sqrt : α → α) (v1 v2 : List α) : α :=
  if v1.length ≠ v2.length then 2
  else
    let v1_norm := normalizeVector sqrt v1
    let v2_norm := normalizeVector sqrt v2
    let dot_product :=
      (List.range v1_norm.length).foldl
        (fun dot i => dot + v1_norm.getD i 0 * v2_norm.getD i 0) 0
    let dot_product := max (-1) (min 1 dot_product)
    1 - dot_product

/-- `euclideanDistance`: `-1` on a size mismatch, otherwise the square root of
the accumulated squared differences. -/
def euclideanDistance (sqrt : α → α) (v1 v2 : List α) : α :=
  if v1.length ≠ v2.length then -1
  else
    sqrt ((List.range v1.length).foldl
      (fun sum i =>
        let diff := v1.getD i 0 - v2.getD i 0
        sum + diff * diff) 0)

end Metrics

/-! ## Images and feature extractors (`feature_extraction.cpp`) -/

/-- A `cv::Vec3b`: three `unsigned char` samples, stored in B, G, R order. -/
structure Vec3b where
  c0 : Fin 256
  c1 : Fin 256
  c2 : Fin 256

/-- A three-channel 8-bit `cv::Mat`, read through `at<cv::Vec3b>(i, j)`. -/
structure Mat where
  rows : Nat
  cols : Nat
  pixel : Nat → Nat → Vec3b

/-- The sub-image `image(cv::Rect(x, y, width, height))`. -/
def Mat.roi (image : Mat) (x y width height : Nat) : Mat where
  rows := height
  cols := width
  pixel := fun i j => image.pixel (y + i) (x + j)

section Extractors

variable {α : Type} [LinearOrderedField α]

/-- The integer nearest to `q`, the even one of the two when `q` lies half-way
between two integers. -/
def roundHalfEven [FloorRing α] (q : α) : Int :=
  let f := Int.floor q
  if q - f < 1 / 2 then f
  else if 1 / 2 < q - f then f + 1
  else if f % 2 = 0 then f
  else f + 1

/-- The binary32 (`float`) value nearest to `x`, ties to even: with
`2^e <= |x| < 2^(e+1)`, the multiple of `2^(e-23)` nearest to `x` (24
significant bits); an exponent below `-126` counts as `-126` (subnormal
values).  Overflow to infinity, at `|x| >= 2^128`, is not modelled. -/
def toFloat32 [FloorRing α] (x : α) : α :=
  let e := max (Int.log 2 |x|) (-126)
  (roundHalfEven (x / 2 ^ (e - 23)) : α) * 2 ^ (e - 23)

/-- The increment `x++` of a `float` counter. Such a counter starts at `0.0f`
and is only ever incremented, so it holds an integer of `0 .. 2^24`. Below
`2^24` the sum `x + 1` is a binary32 value and the increment is exact; at
`2^24` the sum `2^24 + 1` lies half-way between the binary32 values `2^24` and
`2^24 + 2` and rounds to the even one, `2^24`, so the counter stays there. -/
def floatIncr (x : α) : α :=
  if x < 2 ^ 24 then x + 1 else x

/-- `extractBaselineFeature`: the in-bounds pixels of the 7x7 window around
the centre, three samples per pixel, in row-major order. -/
def extractBaselineFeature (image : Mat) : List α :=
  let rows : Int := image.rows
  let cols : Int := image.cols
  let center_row := rows / 2
  let center_col := cols / 2
  let half_size : Int := 3
  (List.range 7).foldl
    (fun feature (di : Nat) =>
      let i := center_row - half_size + (di : Int)
      (List.range 7).foldl
        (fun feature (dj : Nat) =>
          let j := center_col - half_size + (dj : Int)
          if 0 ≤ i ∧ i < rows ∧ 0 ≤ j ∧ j < cols then
            let pixel := image.pixel i.toNat j.toNat
            feature ++ [((pixel.c0.val : Nat) : α), ((pixel.c1.val : Nat) : α),
              ((pixel.c2.val : Nat) : α)]
          else feature)
        feature)
    []

/-- `extractRGChromaticityHistogram`: pixels whose channel sum is below `1e-6`
are skipped; every other pixel increments the `float` cell of its `(r, g)`
chromaticity.  The channel sum is an integer of at most `765`, exact in
`float`; the quotients `R / sum`, `G / sum`, the conversions of the bin counts
to `float` and the products `r * r_bins`, `g * g_bins` are rounded to binary32;
the `(int)` conversion of a non-negative value is the floor. -/
def extractRGChromaticityHistogram [FloorRing α] (image : Mat) (r_bins g_bins : Nat) :
    List α :=
  (List.range image.rows).foldl
    (fun histogram i =>
      (List.range image.cols).foldl
        (fun histogram j =>
          let pixel := image.pixel i j
          let B : α := ((pixel.c0.val : Nat) : α)
          let G : α := ((pixel.c1.val : Nat) : α)
          let R : α := ((pixel.c2.val : Nat) : α)
          let sum := R + G + B
          if sum < 1 / 10 ^ 6 then histogram
          else
            let r := toFloat32 (R / sum)
            let g := toFloat32 (G / sum)
            let r_bin := min (Nat.floor (toFloat32 (r * toFloat32 (r_bins : α)))) (r_bins - 1)
            let g_bin := min (Nat.floor (toFloat32 (g * toFloat32 (g_bins : α)))) (g_bins - 1)
            let bin_index := r_bin * g_bins + g_bin
            histogram.modify floatIncr bin_index)
        histogram)
    (List.replicate (r_bins * g_bins) 0)

/-- `extractRGBHistogram`: every pixel increments the `float` cell of its
joint `(r, g, b)` bin.  `(int)(value * bins / 256.0)` is the integer quotient
`value * bins / 256` (the division by `256.0` is exact in `double`).  The `int`
products are read as natural numbers, which is what they are as long as
`bins^3 < 2^31`. -/
def extractRGBHistogram (image : Mat) (bins_per_channel : Nat) : List α :=
  (List.range image.rows).foldl
    (fun histogram i =>
      (List.range image.cols).foldl
        (fun histogram j =>
          let pixel := image.pixel i j
          let b_bin := min (pixel.c0.val * bins_per_channel / 256) (bins_per_channel - 1)
          let g_bin := min (pixel.c1.val * bins_per_channel / 256) (bins_per_channel - 1)
          let r_bin := min (pixel.c2.val * bins_per_channel / 256) (bins_per_channel - 1)
          let bin_index := r_bin * bins_per_channel * bins_per_channel +
            g_bin * bins_per_channel + b_bin
          histogram.modify floatIncr bin_index)
        histogram)
    (List.replicate (bins_per_channel * bins_per_channel * bins_per_channel) 0)

/-- `extractMultiRegionHistogram`: the RGB histogram of the top half followed
by the RGB histogram of the bottom half. -/
def extractMultiRegionHistogram (image : Mat) (bins_per_channel : Nat) : List α :=
  let mid_row := image.rows / 2
  let top_half := image.roi 0 0 image.cols mid_row
  let top_hist : List α := extractRGBHistogram top_half bins_per_channel
  let bottom_half := image.roi 0 mid_row image.cols (image.rows - mid_row)
  let bottom_hist : List α := extractRGBHistogram bottom_half bins_per_channel
  ([] ++ top_hist) ++ bottom_hist

end Extractors

/-- The four extractors of the pairing scenario, with their bin counts. -/
inductive Extractor where
  | baseline
  | rgbHistogram (bins_per_channel : Nat)
  | rgChromaticity (r_bins g_bins : Nat)
  | multiRegion (bins_per_channel : Nat)

/-- The four metrics of the pairing scenario. -/
inductive Metric where
  | ssd
  | euclidean
  | cosine
  | histogramIntersection

/-- Run an extractor on an image. -/
def Extractor.run {α : Type} [LinearOrderedField α] [FloorRing α] (E : Extractor)
    (image : Mat) : List α :=
  match E with
  | .baseline => extractBaselineFeature image
  | .rgbHistogram b => extractRGBHistogram image b
  | .rgChromaticity r g => extractRGChromaticityHistogram image r g
  | .multiRegion b => extractMultiRegionHistogram image b

/-- Run a metric on two feature vectors. -/
def Metric.run {α : Type} [LinearOrderedField α] (sqrt : α → α) (d : Metric)
    (a b : List α) : α :=
  match d with
  | .ssd => sumSquaredDifference a b
  | .euclidean => euclideanDistance sqrt a b
  | .cosine => cosineDistance sqrt a b
  | .histogramIntersection => histogramIntersectionDistance a b

/-! ## Adaptive weights (`image_analysis.cpp`) -/

/-- The `ImageCharacteristics` struct. -/
structure ImageCharacteristics (α : Type) where
  color_variance : α
  texture_strength : α
  spatial_complexity : α
  brightness_range : α

/-- The `FeatureWeights` struct. -/
structure FeatureWeights (α : Type) where
  color_weight : α
  texture_weight : α
  spatial_weight : α

/-- Lines 187-202 of `computeAdaptiveWeights`: the importance shares, or the
default split when the total importance is not positive. -/
def adaptiveShares {α : Type} [LinearOrderedField α]
    (chars : ImageCharacteristics α) : FeatureWeights α :=
  let color_importance := chars.color_variance * (6 / 10) + chars.brightness_range * (4 / 10)
  let texture_importance := chars.texture_strength
  let spatial_importance := chars.spatial_complexity
  let total := color_importance + texture_importance + spatial_importance
  if total > 0 then
    { color_weight := color_importance / total
      texture_weight := texture_importance / total
      spatial_weight := spatial_importance / total }
  else
    { color_weight := 33 / 100
      texture_weight := 33 / 100
      spatial_weight := 34 / 100 }

/-- Lines 204-207 of `computeAdaptiveWeights`: each share raised to at least
`0.1f`. -/
def adaptiveClamped {α : Type} [LinearOrderedField α]
    (chars : ImageCharacteristics α) : FeatureWeights α :=
  let weights := adaptiveShares chars
  { color_weight := max (1 / 10) weights.color_weight
    texture_weight := max (1 / 10) weights.texture_weight
    spatial_weight := max (1 / 10) weights.spatial_weight }

/-- Line 210 of `computeAdaptiveWeights`: the total of the clamped weights, the
divisor of the renormalisation. -/
def adaptiveClampedTotal {α : Type} [LinearOrderedField α]
    (chars : ImageCharacteristics α) : α :=
  let weights := adaptiveClamped chars
  weights.color_weight + weights.texture_weight + weights.spatial_weight

/-- `computeAdaptiveWeights`: the clamped shares divided by their total
(lines 209-215). -/
def computeAdaptiveWeights {α : Type} [LinearOrderedField α]
    (chars : ImageCharacteristics α) : FeatureWeights α :=
  let weights := adaptiveClamped chars
  let total := adaptiveClampedTotal chars
  { color_weight := weights.color_weight / total
    texture_weight := weights.texture_weight / total
    spatial_weight := weights.spatial_weight / total }

/-- A feature vector of counts or samples: every entry is a natural number. -/
def IsCountVector {α : Type} [LinearOrderedField α] (l : List α) : Prop :=
  ∀ x ∈ l, ∃ n : ℕ, x = (n : α)

/-- The all-black image of the given size. -/
def blackImage (rows cols : Nat) : Mat where
  rows := rows
  cols := cols
  pixel := fun _ _ => ⟨0, 0, 0⟩

/-- A 1x1 image whose single pixel is pure red (B = 0, G = 0, R = 255). -/
def redPixelImage : Mat where
  rows := 1
  cols := 1
  pixel := fun _ _ => ⟨0, 0, 255⟩

/-! ## Staged views of the extractors -/

/-- Lines 76-84 of `extractRGBHistogram`: the linear bin index of one pixel. -/
def rgbBinIndex (pixel : Vec3b) (bins_per_channel : Nat) : Nat :=
  let b_bin := min (pixel.c0.val * bins_per_channel / 256) (bins_per_channel - 1)
  let g_bin := min (pixel.c1.val * bins_per_channel / 256) (bins_per_channel - 1)
  let r_bin := min (pixel.c2.val * bins_per_channel / 256) (bins_per_channel - 1)
  r_bin * bins_per_channel * bins_per_channel + g_bin * bins_per_channel + b_bin

/-- The positions `(i, j)` visited by a nested `for i < rows, for j < cols`
loop, in the order of the visit (row-major). -/
def pixelList (rows cols : Nat) : List (Nat × Nat) :=
  (List.range rows).flatMap (fun i => (List.range cols).map (fun j => (i, j)))

/-- Specification side of the baseline patch: the rows (or columns) of an
extent `n` that are in bounds and lie in the 7-wide window centred at `n / 2`,
in increasing order. -/
def windowIndices (n : Nat) : List Nat :=
  (List.range n).filter (fun i => decide (n / 2 ≤ i + 3 ∧ i ≤ n / 2 + 3))

/-- Specification side of the baseline patch: the channel-interleaved,
row-major flattening of the in-bounds part of the 7x7 window centred at
`(rows / 2, cols / 2)`. -/
def baselineWindowFlatten {α : Type} [LinearOrderedField α] (image : Mat) : List α :=
  (windowIndices image.rows).flatMap (fun i =>
    (windowIndices image.cols).flatMap (fun j =>
      [(((image.pixel i j).c0.val : Nat) : α), (((image.pixel i j).c1.val : Nat) : α),
        (((image.pixel i j).c2.val : Nat) : α)]))

/-- A 2x2 image whose four pixels are pure red (B = 0, G = 0, R = 255). -/
def redImage2x2 : Mat where
  rows := 2
  cols := 2
  pixel := fun _ _ => ⟨0, 0, 255⟩

/-! ## Co-occurrence matrix and Haralick descriptors
(`advanced_texture_matching.cpp`) -/

/-- A single-channel 8-bit `cv::Mat` (the `gray` image of
`computeCooccurrenceMatrix`), read through `at<uchar>(i, j)`. -/
structure GrayMat where
  rows : Nat
  cols : Nat
  pixel : Nat → Nat → Fin 256

/-- A `CV_32F` matrix, read through `at<float>(i, j)`. -/
structure MatF (α : Type) where
  rows : Nat
  cols : Nat
  elem : Nat → Nat → α

/-- The `CooccurrenceFeatures` struct. -/
structure CooccurrenceFeatures (α : Type) where
  energy : α
  entropy : α
  contrast : α
  homogeneity : α

section Cooccurrence

variable {α : Type} [LinearOrderedField α]

/-- `cv::Mat::zeros(rows, cols, CV_32F)`. -/
def MatF.zeros (rows cols : Nat) : MatF α where
  rows := rows
  cols := cols
  elem := fun _ _ => 0

/-- `m.at<float>(a, b)++`: the increment of a `float` counter. -/
def MatF.increment (m : MatF α) (a b : Nat) : MatF α where
  rows := m.rows
  cols := m.cols
  elem := fun i j => if i = a ∧ j = b then floatIncr (m.elem i j) else m.elem i j

/-- `cv::sum(m)[0]`: the sum of all elements, accumulated row by row. -/
def MatF.sum (m : MatF α) : α :=
  (List.range m.rows).foldl
    (fun s i => (List.range m.cols).foldl (fun s j => s + m.elem i j) s) 0

/-- `m /= s`. -/
def MatF.divScalar (m : MatF α) (s : α) : MatF α where
  rows := m.rows
  cols := m.cols
  elem := fun i j => m.elem i j / s

/-- Lines 19-25 of `computeCooccurrenceMatrix`: the quantised level of the
pixel `(i, j)`.  `matDiv x s` is the element that OpenCV's matrix-by-scalar
division `quantized / s` produces from the `CV_32S` element `x`; the two clamps
follow it. -/
def quantizedLevel (matDiv : Int → Int → Int) (gray : GrayMat) (i j : Nat) : Int :=
  let levels : Int := 16
  min (max (matDiv ((gray.pixel i j).val : Int) (256 / levels)) 0) (levels - 1)

/-- Lines 29-34 of `computeCooccurrenceMatrix`: the offset `(dx, dy)` of the
angle. -/
def cooccurrenceOffset (distance angle : Int) : Int × Int :=
  if angle = 0 then (distance, 0)
  else if angle = 45 then (distance, -distance)
  else if angle = 90 then (0, -distance)
  else if angle = 135 then (-distance, -distance)
  else (0, 0)

/-- Lines 36-51 of `computeCooccurrenceMatrix`: the matrix of pair counts. -/
def cooccurrenceCounts (matDiv : Int → Int → Int) (gray : GrayMat) (distance angle : Int) :
    MatF α :=
  let levels : Int := 16
  let dx := (cooccurrenceOffset distance angle).1
  let dy := (cooccurrenceOffset distance angle).2
  (List.range gray.rows).foldl
    (fun cooccurrence (i : Nat) =>
      (List.range gray.cols).foldl
        (fun cooccurrence (j : Nat) =>
          let ni : Int := (i : Int) + dy
          let nj : Int := (j : Int) + dx
          if ni ≥ 0 ∧ ni < (gray.rows : Int) ∧ nj ≥ 0 ∧ nj < (gray.cols : Int) then
            let val1 := quantizedLevel matDiv gray i j
            let val2 := quantizedLevel matDiv gray ni.toNat nj.toNat
            if val1 ≥ 0 ∧ val1 < levels ∧ val2 ≥ 0 ∧ val2 < levels then
              cooccurrence.increment val1.toNat val2.toNat
            else cooccurrence
          else cooccurrence)
        cooccurrence)
    (MatF.zeros 16 16)

/-- `computeCooccurrenceMatrix` on a single-channel image (a 3-channel image is
first converted by `cv::cvtColor` and then treated the same way): the pair
counts, divided by their sum when the sum is positive. -/
def computeCooccurrenceMatrix (matDiv : Int → Int → Int) (gray : GrayMat)
    (distance angle : Int) : MatF α :=
  let cooccurrence : MatF α := cooccurrenceCounts matDiv gray distance angle
  let sum := cooccurrence.sum
  if sum > 0 then cooccurrence.divScalar sum else cooccurrence

/-- `extractCooccurrenceFeatures`: the four Haralick sums over the cells with a
positive value.  `log` is `std::log`. -/
def extractCooccurrenceFeatures (log : α → α) (cooccurrence : MatF α) :
    CooccurrenceFeatures α :=
  (List.range cooccurrence.rows).foldl
    (fun features (i : Nat) =>
      (List.range cooccurrence.cols).foldl
        (fun features (j : Nat) =>
          let val := cooccurrence.elem i j
          if val > 0 then
            { energy := features.energy + val * val
              entropy := features.entropy - val * log (val + 1 / 10 ^ 10)
              contrast := features.contrast
                + ((((i : Int) - (j : Int)) * ((i : Int) - (j : Int)) : Int) : α) * val
              homogeneity := features.homogeneity
                + val / (((1 + ((i : Int) - (j : Int)) * ((i : Int) - (j : Int)) : Int)) : α) }
          else features)
        features)
    { energy := 0, entropy := 0, contrast := 0, homogeneity := 0 }

end Cooccurrence

/-- Specification side of the co-occurrence matrix: the pixels `(i, j)` that
have an in-bounds neighbour at the offset of `(distance, angle)`. -/
def hasNeighbour (gray : GrayMat) (distance angle : Int) (p : Nat × Nat) : Bool :=
  decide (0 ≤ (p.1 : Int) + (cooccurrenceOffset distance angle).2 ∧
    (p.1 : Int) + (cooccurrenceOffset distance angle).2 < (gray.rows : Int) ∧
    0 ≤ (p.2 : Int) + (cooccurrenceOffset distance angle).1 ∧
    (p.2 : Int) + (cooccurrenceOffset distance angle).1 < (gray.cols : Int))

/-- Specification side of the co-occurrence matrix: the pixel `p` has an
in-bounds neighbour, its own level is `a` and its neighbour's level is `b`. -/
def isLevelPair (matDiv : Int → Int → Int) (gray : GrayMat) (distance angle : Int)
    (a b : Nat) (p : Nat × Nat) : Bool :=
  hasNeighbour gray distance angle p &&
  decide (quantizedLevel matDiv gray p.1 p.2 = (a : Int) ∧
    quantizedLevel matDiv gray
      ((p.1 : Int) + (cooccurrenceOffset distance angle).2).toNat
      ((p.2 : Int) + (cooccurrenceOffset distance angle).1).toNat = (b : Int))

/-- Specification side of the co-occurrence matrix: the content of the `float`
counter of cell `(a, b)` after the counting loop, which is the number of pixels
with levels `(a, b)`, stopped at `2^24`. -/
def cellCount (matDiv : Int → Int → Int) (gray : GrayMat) (distance angle : Int)
    (a b : Nat) : Nat :=
  min ((pixelList gray.rows gray.cols).countP (isLevelPair matDiv gray distance angle a b))
    (2 ^ 24)

/-- Specification side of the co-occurrence matrix: the total of the 16x16
counters after the counting loop. -/
def cellTotal (matDiv : Int → Int → Int) (gray : GrayMat) (distance angle : Int) : Nat :=
  ∑ a ∈ Finset.range 16, ∑ b ∈ Finset.range 16, cellCount matDiv gray distance angle a b

/-- A single-row gray image with `cols` samples: `dark` samples `0` followed by
samples `255`. -/
def stepRow (dark cols : Nat) : GrayMat where
  rows := 1
  cols := cols
  pixel := fun _ j => if j < dark then 0 else 255

/-- The co-occurrence matrix with the single cell `(0, 0)` equal to `1` (the
matrix of a constant dark image). -/
def singleCellMatrix {α : Type} [LinearOrderedField α] : MatF α where
  rows := 16
  cols := 16
  elem := fun i j => if i = 0 ∧ j = 0 then 1 else 0

/-! ## Query refinement (`query_refinement.cpp`) -/

section Refinement

variable {α : Type} [LinearOrderedField α]

/-- `refineQueryFeatures`: the input on a size mismatch, otherwise the
elementwise blend `alpha * original + (1 - alpha) * selected`. -/
def refineQueryFeatures (original selected : List α) (alpha : α) : List α :=
  if original.length ≠ selected.length then original
  else
    (List.range original.length).map
      (fun i => alpha * original.getD i 0 + (1 - alpha) * selected.getD i 0)

/-- The private state of a `QueryRefiner`. -/
structure QueryRefiner (α : Type) where
  current_query_features : List α
  feedback_history : List (List α)
  iteration : Nat

/-- The constructor `QueryRefiner(initial)`. -/
def QueryRefiner.new (initial : List α) : QueryRefiner α where
  current_query_features := initial
  feedback_history := []
  iteration := 0

/-- `QueryRefiner::addFeedback`. -/
def QueryRefiner.addFeedback (self : QueryRefiner α) (selected : List α) : QueryRefiner α :=
  let feedback_history := self.feedback_history ++ [selected]
  let iteration := self.iteration + 1
  let alpha : α := 7 / 10 / (iteration : α)
  let alpha := max (3 / 10) alpha
  { current_query_features := refineQueryFeatures self.current_query_features selected alpha
    feedback_history := feedback_history
    iteration := iteration }

/-- `QueryRefiner::getRefinedFeatures`. -/
def QueryRefiner.getRefinedFeatures (self : QueryRefiner α) : List α :=
  self.current_query_features

/-- `QueryRefiner::getIteration`. -/
def QueryRefiner.getIteration (self : QueryRefiner α) : Nat :=
  self.iteration

/-- `QueryRefiner::reset`. -/
def QueryRefiner.reset (self : QueryRefiner α) : QueryRefiner α :=
  { current_query_features := self.current_query_features
    feedback_history := []
    iteration := 0 }

end Refinement

/-- A 1x2 single-channel image with the samples `0` and `255`. -/
def grayPair : GrayMat where
  rows := 1
  cols := 2
  pixel := fun _ j => if j = 0 then 0 else 255

/-! ## Staged views of the chromaticity and saliency histograms -/

/-- Line 49 of `extractRGChromaticityHistogram`: the pixel is skipped because
its channel sum is below `1e-6`. -/
def rgSkipped (α : Type) [LinearOrderedField α] (pixel : Vec3b) : Prop :=
  (((pixel.c2.val : Nat) : α) + ((pixel.c1.val : Nat) : α) + ((pixel.c0.val : Nat) : α))
    < 1 / 10 ^ 6

instance rgSkipped.decidable (α : Type) [LinearOrderedField α] (pixel : Vec3b) :
    Decidable (rgSkipped α pixel) :=
  inferInstanceAs (Decidable (_ < _))

/-- Lines 53-61 of `extractRGChromaticityHistogram`: the cell index of a pixel
that is not skipped. -/
def rgBinIndex (α : Type) [LinearOrderedField α] [FloorRing α] (pixel : Vec3b)
    (r_bins g_bins : Nat) : Nat :=
  let B : α := ((pixel.c0.val : Nat) : α)
  let G : α := ((pixel.c1.val : Nat) : α)
  let R : α := ((pixel.c2.val : Nat) : α)
  let sum := R + G + B
  let r := toFloat32 (R / sum)
  let g := toFloat32 (G / sum)
  let r_bin := min (Nat.floor (toFloat32 (r * toFloat32 (r_bins : α)))) (r_bins - 1)
  let g_bin := min (Nat.floor (toFloat32 (g * toFloat32 (g_bins : α)))) (g_bins - 1)
  r_bin * g_bins + g_bin

/-- A 1x1 image with the pixel `c`. -/
def onePixelImage (c : Vec3b) : Mat where
  rows := 1
  cols := 1
  pixel := fun _ _ => c

/-- `extractSaliencyWeightedHistogram` (`saliency_features.cpp`): every pixel
adds its saliency value to the `float` cell of its joint RGB bin and to the
`float` running total, each sum rounded to binary32; the histogram is divided
by the total when the total is positive (the division is read exactly, as in
`normalizeHistogram`). The loop state is the pair `(histogram, total_weight)`. -/
def extractSaliencyWeightedHistogram {α : Type} [LinearOrderedField α] [FloorRing α]
    (image : Mat) (saliency_map : MatF α) (bins_per_channel : Nat) : List α :=
  let total_bins := bins_per_channel * bins_per_channel * bins_per_channel
  let state : List α × α :=
    (List.range image.rows).foldl
      (fun state (i : Nat) =>
        (List.range image.cols).foldl
          (fun state (j : Nat) =>
            let pixel := image.pixel i j
            let weight := saliency_map.elem i j
            let b_bin := min (pixel.c0.val * bins_per_channel / 256) (bins_per_channel - 1)
            let g_bin := min (pixel.c1.val * bins_per_channel / 256) (bins_per_channel - 1)
            let r_bin := min (pixel.c2.val * bins_per_channel / 256) (bins_per_channel - 1)
            let bin_index := r_bin * bins_per_channel * bins_per_channel +
              g_bin * bins_per_channel + b_bin
            (state.1.modify (fun h => toFloat32 (h + weight)) bin_index,
              toFloat32 (state.2 + weight)))
          state)
      (List.replicate total_bins 0, 0)
  let histogram := state.1
  let total_weight := state.2
  if total_weight > 0 then histogram.map (fun h => h / total_weight) else histogram

/-- Specification side of the saliency-weighted histogram: the `float`
accumulator after `a += w` for the values `w` of `ws` in order, from `a0`. -/
def float32Sum {α : Type} [LinearOrderedField α] [FloorRing α] (a0 : α) (ws : List α) : α :=
  ws.foldl (fun a w => toFloat32 (a + w)) a0

/-- A single-row image of `cols` pixels: one pure-red pixel followed by black
pixels. -/
def spikeImage (cols : Nat) : Mat where
  rows := 1
  cols := cols
  pixel := fun _ j => if j = 0 then ⟨0, 0, 255⟩ else ⟨0, 0, 0⟩

/-- A single-row saliency map of `cols` values: `1` followed by values
`2^-24`. -/
def spikeSaliency {α : Type} [LinearOrderedField α] (cols : Nat) : MatF α where
  rows := 1
  cols := cols
  elem := fun _ j => if j = 0 then 1 else 1 / 2 ^ 24

/-- The saliency map with the same value at every position. -/
def constantSaliency {α : Type} [LinearOrderedField α] (rows cols : Nat) (c : α) : MatF α where
  rows := rows
  cols := cols
  elem := fun _ _ => c

/-! ## `std::sort` (libstdc++, `bits/stl_algo.h` and `bits/stl_heap.h`)

The ranking programs sort their matches with `std::sort`, which is code of the
C++ standard library. The routines below follow the GNU implementation
(libstdc++ of GCC 12), one definition per library routine: the vector is a
list, an iterator is an index into it, `comp(a, b)` is `lt a b`, and a value
that the library moves out of the vector (`__val`, `__value`) is a parameter.
The library's unguarded loops rely on a sentinel inside the vector; here a read
or write outside the vector gives `none`, and running out of `fuel` gives
`none` as well. `stdSort_spec` shows that neither happens. -/

section StdSort

variable {β : Type}

/-- `std::iter_swap(first + i, first + j)`; `none` when an index is outside the
vector. -/
def iter_swap (r : List β) (i j : Nat) : Option (List β) :=
  match r[i]?, r[j]? with
  | some x, some y => some ((r.set i y).set j x)
  | _, _ => none

/-- `std::__move_median_to_first(result, a, b, c, comp)`. -/
def move_median_to_first (lt : β → β → Bool) (r : List β) (result a b c : Nat) :
    Option (List β) :=
  match r[a]?, r[b]?, r[c]? with
  | some xa, some xb, some xc =>
    if lt xa xb then
      if lt xb xc then iter_swap r result b
      else if lt xa xc then iter_swap r result c
      else iter_swap r result a
    else if lt xa xc then iter_swap r result a
    else if lt xb xc then iter_swap r result c
    else iter_swap r result b
  | _, _, _ => none

/-- The loop `while (comp(first, pivot)) ++first;` of `__unguarded_partition`,
walking along `rest`, the vector from index `first` on; `none` when it runs
past the end. -/
def scanUp (lt : β → β → Bool) (p : β) : List β → Nat → Option Nat
  | [], _ => none
  | x :: rest, first => if lt x p then scanUp lt p rest (first + 1) else some first

/-- The loop `while (comp(pivot, last)) --last;` of `__unguarded_partition`;
`none` when it runs below index 0. -/
def scanDown (lt : β → β → Bool) (r : List β) (p : β) : Nat → Option Nat
  | 0 =>
    match r[0]? with
    | some y => if lt p y then none else some 0
    | none => none
  | last + 1 =>
    match r[last + 1]? with
    | some y => if lt p y then scanDown lt r p last else some (last + 1)
    | none => none

/-- `std::__unguarded_partition(first, last, pivot, comp)`: at most `fuel`
rounds of the outer `while (true)`; it returns the vector and the cut. -/
def unguarded_partition (lt : β → β → Bool) :
    Nat → List β → Nat → Nat → Nat → Option (List β × Nat)
  | 0, _, _, _, _ => none
  | fuel + 1, r, first, last, pivot =>
    match r[pivot]? with
    | none => none
    | some p =>
      match scanUp lt p (r.drop first) first with
      | none => none
      | some first =>
        match last with
        | 0 => none
        | last + 1 =>
          match scanDown lt r p last with
          | none => none
          | some last =>
            if first < last then
              match iter_swap r first last with
              | none => none
              | some r => unguarded_partition lt fuel r (first + 1) last pivot
            else some (r, first)

/-- `std::__unguarded_partition_pivot(first, last, comp)` on the range `r`
(`first` is index 0, `last` is `r.length`). Each round of the partition loop
moves `first` up, so `r.length` rounds are enough. -/
def unguarded_partition_pivot (lt : β → β → Bool) (r : List β) : Option (List β × Nat) :=
  let mid := r.length / 2
  match move_median_to_first lt r 0 1 mid (r.length - 1) with
  | none => none
  | some r => unguarded_partition lt r.length r 1 r.length 0

/-- The loop of `std::__push_heap(first, holeIndex, topIndex, value, comp)`,
at most `fuel` rounds. -/
def push_heap (lt : β → β → Bool) (value : β) (topIndex : Nat) :
    Nat → List β → Nat → Option (List β)
  | 0, _, _ => none
  | fuel + 1, r, holeIndex =>
    let parent := (holeIndex - 1) / 2
    if holeIndex > topIndex then
      match r[parent]? with
      | none => none
      | some x =>
        if lt x value then
          if holeIndex < r.length then
            push_heap lt value topIndex fuel (r.set holeIndex x) parent
          else none
        else if holeIndex < r.length then some (r.set holeIndex value) else none
    else if holeIndex < r.length then some (r.set holeIndex value) else none

/-- The first loop of `std::__adjust_heap`: the hole moves down to the larger
child while it has two children; at most `fuel` rounds. It returns the vector
and the hole. -/
def adjust_heap_down (lt : β → β → Bool) (len : Nat) :
    Nat → List β → Nat → Option (List β × Nat)
  | 0, _, _ => none
  | fuel + 1, r, holeIndex =>
    if holeIndex < (len - 1) / 2 then
      let secondChild := 2 * (holeIndex + 1)
      match r[secondChild]?, r[secondChild - 1]? with
      | some x, some y =>
        let secondChild := if lt x y then secondChild - 1 else secondChild
        match r[secondChild]? with
        | some z =>
          if holeIndex < r.length then
            adjust_heap_down lt len fuel (r.set holeIndex z) secondChild
          else none
        | none => none
      | _, _ => none
    else some (r, holeIndex)

/-- `std::__adjust_heap(first, holeIndex, len, value, comp)`, called with
`len ≥ 1`. The hole index goes up in each round of the first loop and down in
each round of `__push_heap`, so `len` rounds are enough for either. -/
def adjust_heap (lt : β → β → Bool) (r : List β) (holeIndex len : Nat) (value : β) :
    Option (List β) :=
  let topIndex := holeIndex
  match adjust_heap_down lt len len r holeIndex with
  | none => none
  | some (r, holeIndex) =>
    if len % 2 = 0 ∧ holeIndex = (len - 2) / 2 then
      let secondChild := 2 * (holeIndex + 1)
      match r[secondChild - 1]? with
      | some z =>
        if holeIndex < r.length then
          push_heap lt value topIndex len (r.set holeIndex z) (secondChild - 1)
        else none
      | none => none
    else push_heap lt value topIndex len r holeIndex

/-- `std::__pop_heap(first, last, result, comp)`, with `last` and `result`
as indices. -/
def pop_heap (lt : β → β → Bool) (r : List β) (last result : Nat) : Option (List β) :=
  match r[result]?, r[0]? with
  | some value, some top => adjust_heap lt (r.set result top) 0 last value
  | _, _ => none

/-- The loop of `std::__make_heap`, from `parent` down to 0. -/
def make_heap_loop (lt : β → β → Bool) (len : Nat) : Nat → List β → Option (List β)
  | 0, r =>
    match r[0]? with
    | some value => adjust_heap lt r 0 len value
    | none => none
  | parent + 1, r =>
    match r[parent + 1]? with
    | some value =>
      match adjust_heap lt r (parent + 1) len value with
      | some r => make_heap_loop lt len parent r
      | none => none
    | none => none

/-- `std::__make_heap(first, last, comp)` on the range `r`. -/
def make_heap (lt : β → β → Bool) (r : List β) : Option (List β) :=
  if r.length < 2 then some r
  else make_heap_loop lt r.length ((r.length - 2) / 2) r

/-- `std::__sort_heap(first, last, comp)`: `while (last - first > 1)
{ --last; __pop_heap(first, last, last, comp); }`. -/
def sort_heap (lt : β → β → Bool) : Nat → List β → Option (List β)
  | 0, r => some r
  | last + 1, r =>
    if last + 1 > 1 then
      match pop_heap lt r last last with
      | some r => sort_heap lt last r
      | none => none
    else some r

/-- `std::__partial_sort(first, last, last, comp)` on the range `r`: with
`middle = last` the loop of `__heap_select` has no round, so what is left is
`__make_heap` followed by `__sort_heap`. -/
def heap_sort_range (lt : β → β → Bool) (r : List β) : Option (List β) :=
  match make_heap lt r with
  | some r => sort_heap lt r.length r
  | none => none

/-- `std::__introsort_loop(first, last, depth_limit, comp)` on the range `r`:
a range of more than 16 elements is heap-sorted when the depth limit is used
up, and otherwise partitioned; the part from the cut on is handled by the
recursive call and the part before the cut by the next round of the `while`
loop, both with the decremented depth limit. -/
def introsort_loop (lt : β → β → Bool) : Nat → List β → Option (List β)
  | 0, r => if r.length > 16 then heap_sort_range lt r else some r
  | depth_limit + 1, r =>
    if r.length > 16 then
      match unguarded_partition_pivot lt r with
      | none => none
      | some (r, cut) =>
        match introsort_loop lt depth_limit (r.drop cut),
          introsort_loop lt depth_limit (r.take cut) with
        | some right, some left => some (left ++ right)
        | _, _ => none
    else some r

/-- The loop of `std::__unguarded_linear_insert(last, comp)` with the value
`val` taken out; `last` is the index of the hole, and `none` stands for a read
before the start of the vector. -/
def unguarded_linear_insert_loop (lt : β → β → Bool) (val : β) :
    Nat → List β → Option (List β)
  | 0, _ => none
  | next + 1, r =>
    match r[next]? with
    | none => none
    | some y =>
      if lt val y then
        if next + 1 < r.length then unguarded_linear_insert_loop lt val next (r.set (next + 1) y)
        else none
      else if next + 1 < r.length then some (r.set (next + 1) val) else none

/-- `std::__unguarded_linear_insert(last, comp)`. -/
def unguarded_linear_insert (lt : β → β → Bool) (r : List β) (last : Nat) : Option (List β) :=
  match r[last]? with
  | none => none
  | some val => unguarded_linear_insert_loop lt val last r

/-- One round of the loop of `std::__insertion_sort(first, last, comp)` with
`first` at index 0: an element less than the first one is moved to the front
(`move_backward`), any other is inserted by `__unguarded_linear_insert`. -/
def insertion_sort_step (lt : β → β → Bool) (r : List β) (i : Nat) : Option (List β) :=
  match r[i]?, r[0]? with
  | some val, some x0 =>
    if lt val x0 then some (val :: (r.take i ++ r.drop (i + 1)))
    else unguarded_linear_insert lt r i
  | _, _ => none

/-- The loop `for (i = ...; i != last; ++i)` of `__insertion_sort`, `count`
more rounds from index `i`. -/
def insertion_sort_loop (lt : β → β → Bool) : Nat → Nat → List β → Option (List β)
  | 0, _, r => some r
  | count + 1, i, r =>
    match insertion_sort_step lt r i with
    | none => none
    | some r => insertion_sort_loop lt count (i + 1) r

/-- `std::__insertion_sort(first, last, comp)` with `first` at index 0. -/
def insertion_sort (lt : β → β → Bool) (r : List β) (last : Nat) : Option (List β) :=
  if last = 0 then some r else insertion_sort_loop lt (last - 1) 1 r

/-- `std::__unguarded_insertion_sort(first, last, comp)`: `count` rounds from
index `i`. -/
def unguarded_insertion_sort (lt : β → β → Bool) : Nat → Nat → List β → Option (List β)
  | 0, _, r => some r
  | count + 1, i, r =>
    match unguarded_linear_insert lt r i with
    | none => none
    | some r => unguarded_insertion_sort lt count (i + 1) r

/-- `std::__final_insertion_sort(first, last, comp)` on the whole vector. -/
def final_insertion_sort (lt : β → β → Bool) (r : List β) : Option (List β) :=
  if r.length > 16 then
    match insertion_sort lt r 16 with
    | none => none
    | some r => unguarded_insertion_sort lt (r.length - 16) 16 r
  else insertion_sort lt r r.length

/-- `std::sort(first, last)` of libstdc++ (`std::__sort` in `bits/stl_algo.h`):
`__introsort_loop` with depth limit `2 * __lg(n)`, then
`__final_insertion_sort`. `none` stands for a read or write outside the
vector. -/
def stdSort (lt : β → β → Bool) (r : List β) : Option (List β) :=
  if r.length = 0 then some r
  else
    match introsort_loop lt (2 * Nat.log2 r.length) r with
    | none => none
    | some r => final_insertion_sort lt r

end StdSort

section HeapPredicates

variable {β κ : Type} [LinearOrder κ]

/-- The max-heap property of the first `len` elements of `r`, on the edges
whose parent index is at least `top`: no element is greater than its parent at
index `(i - 1) / 2`. -/
def HeapFrom (key : β → κ) (r : List β) (len top : Nat) : Prop :=
  ∀ i x y, 0 < i → i < len → top ≤ (i - 1) / 2 → r[i]? = some x →
    r[(i - 1) / 2]? = some y → key x ≤ key y

/-- The heap property of `HeapFrom` while the hole of `__adjust_heap` moves
down: the edges below `top` itself are left out as long as the hole is still
at `top`. -/
def HeapHole (key : β → κ) (r : List β) (len top hole : Nat) : Prop :=
  ∀ i x y, 0 < i → i < len → top ≤ (i - 1) / 2 → ((i - 1) / 2 = top → hole ≠ top) →
    r[i]? = some x → r[(i - 1) / 2]? = some y → key x ≤ key y

/-- The index lies in the subtree of the heap below `top`. -/
inductive InSubtree (top : Nat) : Nat → Prop
  | root : InSubtree top top
  | child (c : Nat) : 0 < c → InSubtree top ((c - 1) / 2) → InSubtree top c

end HeapPredicates

/-! ## Ranking (`baseline_matching.cpp`, `query_refinement_matching.cpp`) -/

/-- The `ImageMatch` struct. -/
structure ImageMatch (α : Type) where
  filename : String
  distance : α

section Ranking

variable {α : Type} [LinearOrderedField α]

/-- The contract of `std::sort(matches.begin(), matches.end())` with
`ImageMatch::operator<` (`distance < other.distance`): the result is a
permutation of the input in which no element is less than an earlier one. The
relative order of elements with equal distance is left open. The ranking
functions take the sorting function as the parameter `sort`; the one the
programs run is `sortMatches`. -/
def IsStdSort (sort : List (ImageMatch α) → List (ImageMatch α)) : Prop :=
  ∀ l, (sort l).Perm l ∧ (sort l).Pairwise (fun a b => ¬ b.distance < a.distance)

/-- One sorting function that meets the contract: insertion sort by distance. -/
def insertionSortMatches (l : List (ImageMatch α)) : List (ImageMatch α) :=
  l.insertionSort (fun a b => a.distance ≤ b.distance)

/-- `ImageMatch::operator<`: `distance < other.distance`. -/
def ImageMatch.lt (a b : ImageMatch α) : Bool :=
  decide (a.distance < b.distance)

/-- `std::sort(matches.begin(), matches.end())` as the ranking programs call
it: the `std::sort` of libstdc++ with `ImageMatch::operator<`. The run always
returns a vector (`stdSort_sortMatches`), so the value for `none` is never
taken. -/
def sortMatches (l : List (ImageMatch α)) : List (ImageMatch α) :=
  (stdSort ImageMatch.lt l).getD l

/-- What a ranking program can run into. -/
inductive RunError where
  | unreadableTarget
  | indexOutOfRange
  | emptyImage
  deriving DecidableEq

/-- The result-printing loop `for (i = 0; i < std::min(num_results,
(int)matches.size()); i++)`, from index `i` for `count` more rounds; it returns
the file names printed, or an error if `matches[i]` is out of range. The vector
`matches` of the programs is called `found` here. -/
def printFrom (found : List (ImageMatch α)) : Nat → Nat → Except RunError (List String)
  | 0, _ => Except.ok []
  | count + 1, i =>
    match found[i]? with
    | none => Except.error RunError.indexOutOfRange
    | some m =>
      match printFrom found count (i + 1) with
      | Except.error e => Except.error e
      | Except.ok rest => Except.ok (m.filename :: rest)

/-- The top-`num_results` report of the ranking programs. -/
def printTop (num_results : Int) (found : List (ImageMatch α)) :
    Except RunError (List String) :=
  printFrom found (min num_results (found.length : Int)).toNat 0

/-- Lines 50-58 of `baseline_matching.cpp`: the matches computed from
pre-computed `(filename, features)` pairs. -/
def baselineMatchesFromCSV (target_features : List α)
    (database_features : List (String × List α)) : List (ImageMatch α) :=
  database_features.foldl
    (fun acc entry =>
      let dist := sumSquaredDifference target_features entry.2
      acc ++ [{ filename := entry.1, distance := dist }])
    []

/-- Lines 59-76 of `baseline_matching.cpp`: the matches computed on the fly;
`imread` returns `none` for a file that cannot be read (`img.empty()`), and
such a file is skipped. -/
def baselineMatchesFromImages (imread : String → Option Mat) (target_features : List α)
    (image_files : List String) : List (ImageMatch α) :=
  image_files.foldl
    (fun acc img_path =>
      match imread img_path with
      | none => acc
      | some img =>
        let features : List α := extractBaselineFeature img
        let dist := sumSquaredDifference target_features features
        acc ++ [{ filename := img_path, distance := dist }])
    []

/-- Lines 24-38 of `searchDatabase`: the matches computed for the readable
images; `texture` is `extractGradientMagnitudeHistogram(img, 16)`, which is
built on OpenCV's Sobel filter. -/
def collectMatches (imread : String → Option Mat) (texture : Mat → List α)
    (query : List α) (paths : List String) : List (ImageMatch α) :=
  paths.foldl
    (fun acc path =>
      match imread path with
      | none => acc
      | some img =>
        let color : List α := extractRGBHistogram img 8
        let features := ([] ++ color) ++ texture img
        let dist := histogramIntersectionDistance query features
        acc ++ [{ filename := path, distance := dist }])
    []

/-- `searchDatabase`: the computed matches, sorted. `getImageFilenames` lists
the files of the directory. -/
def searchDatabase (sort : List (ImageMatch α) → List (ImageMatch α))
    (getImageFilenames : String → List String) (imread : String → Option Mat)
    (texture : Mat → List α) (query : List α) (dir : String) : List (ImageMatch α) :=
  sort (collectMatches imread texture query (getImageFilenames dir))

/-- Lines 79-108 of `main` in `query_refinement_matching.cpp`: `iterations`
more rounds of the feedback loop. Each round reads `matches[1]`, re-reads that
image, feeds its features back and searches again. -/
def refinementLoop (sort : List (ImageMatch α) → List (ImageMatch α))
    (getImageFilenames : String → List String) (imread : String → Option Mat)
    (texture : Mat → List α) (database_dir : String) (num_results : Int) :
    Nat → QueryRefiner α → List (ImageMatch α) → List (List String) →
      Except RunError (List (List String))
  | 0, _, _, printed => Except.ok printed
  | iterations + 1, refiner, found, printed =>
    let selected_rank := 1
    match found[selected_rank]? with
    | none => Except.error RunError.indexOutOfRange
    | some sel =>
      match imread sel.filename with
      | none => Except.error RunError.emptyImage
      | some sel_img =>
        let sel_color : List α := extractRGBHistogram sel_img 8
        let sel_features := ([] ++ sel_color) ++ texture sel_img
        let refiner := refiner.addFeedback sel_features
        let refined := refiner.getRefinedFeatures
        let found := searchDatabase sort getImageFilenames imread texture refined database_dir
        match printTop num_results found with
        | Except.error e => Except.error e
        | Except.ok top =>
          refinementLoop sort getImageFilenames imread texture database_dir num_results
            iterations refiner found (printed ++ [top])

/-- `main` of `query_refinement_matching.cpp` after argument parsing: the
top lists it prints, iteration by iteration, or the error it runs into. -/
def refinementMain (sort : List (ImageMatch α) → List (ImageMatch α))
    (getImageFilenames : String → List String) (imread : String → Option Mat)
    (texture : Mat → List α) (target_path database_dir : String)
    (num_results max_iter : Int) : Except RunError (List (List String)) :=
  match imread target_path with
  | none => Except.error RunError.unreadableTarget
  | some target =>
    let color : List α := extractRGBHistogram target 8
    let initial := ([] ++ color) ++ texture target
    let refiner := QueryRefiner.new initial
    let found := searchDatabase sort getImageFilenames imread texture initial database_dir
    match printTop num_results found with
    | Except.error e => Except.error e
    | Except.ok top =>
      refinementLoop sort getImageFilenames imread texture database_dir num_results
        max_iter.toNat refiner found [top]

/-- The three computed matches of scenario D. -/
def scenarioDMatches : List (ImageMatch α) :=
  [⟨"entry1", 9 / 10⟩, ⟨"entry2", 1 / 10⟩, ⟨"entry3", 5 / 10⟩]

/-- A catalog of twenty files. -/
def tiedCatalog : List String :=
  ["e00", "e01", "e02", "e03", "e04", "e05", "e06", "e07", "e08", "e09",
   "e10", "e11", "e12", "e13", "e14", "e15", "e16", "e17", "e18", "e19"]

/-- The matches of the twenty files of `tiedCatalog`, in catalog order, all at
distance `d`. -/
def tiedMatches (d : α) : List (ImageMatch α) :=
  [⟨"e00", d⟩, ⟨"e01", d⟩, ⟨"e02", d⟩, ⟨"e03", d⟩, ⟨"e04", d⟩, ⟨"e05", d⟩, ⟨"e06", d⟩,
   ⟨"e07", d⟩, ⟨"e08", d⟩, ⟨"e09", d⟩, ⟨"e10", d⟩, ⟨"e11", d⟩, ⟨"e12", d⟩, ⟨"e13", d⟩,
   ⟨"e14", d⟩, ⟨"e15", d⟩, ⟨"e16", d⟩, ⟨"e17", d⟩, ⟨"e18", d⟩, ⟨"e19", d⟩]

end Ranking

/-! ## Separable Sobel filters (`filters.cpp`) -/

/-- The channel `c` of a `cv::Vec3b` (`pixel[c]`). -/
def Vec3b.get (p : Vec3b) (c : Nat) : Fin 256 :=
  if c = 0 then p.c0 else if c = 1 then p.c1 else p.c2

/-- The conversion of an `int` to a `short` on assignment: reduction into
`-32768 .. 32767` modulo `2^16`. -/
def wrap16 (x : Int) : Int :=
  (x + 32768) % 65536 - 32768

/-- The assignment `m.ptr<cv::Vec3s>(i)[j][c] = v` on the samples of a `CV_16SC3`
matrix, which are read as `m i j c`. -/
def setElem (m : Nat → Nat → Nat → Int) (i j c : Nat) (v : Int) : Nat → Nat → Nat → Int :=
  fun i' j' c' => if i' = i ∧ j' = j ∧ c' = c then v else m i' j' c'

/-- The assignment `row[j] = cv::Vec3s(0, 0, 0)` in row `i`. -/
def setVecZero (m : Nat → Nat → Nat → Int) (i j : Nat) : Nat → Nat → Nat → Int :=
  setElem (setElem (setElem m i j 0 0) i j 1 0) i j 2 0

/-- The call `m.row(i).setTo(cv::Scalar(0, 0, 0))` on a matrix with `cols`
columns. -/
def setRowZero (m : Nat → Nat → Nat → Int) (cols i : Nat) : Nat → Nat → Nat → Int :=
  (List.range cols).foldl (fun m (j : Nat) => setVecZero m i j) m

/-- `sobelX3x3`: horizontal derivative into `temp`, then vertical smoothing into
`dst`. `tempInit` and `dstInit` are the contents of the freshly created,
uninitialised matrices; the result is the content of `dst`. The writes
`tempRow[src.cols - 1]` and `dst.row(dst.rows - 1)` are inside the matrices
when the image has at least one row and one column, which is the case wherever
a position of the image is looked at. -/
def sobelX3x3 (src : Mat) (tempInit dstInit : Nat → Nat → Nat → Int) :
    Nat → Nat → Nat → Int :=
  let temp := (List.range src.rows).foldl
    (fun temp (i : Nat) =>
      let temp := (List.range' 1 (src.cols - 1 - 1)).foldl
        (fun temp (j : Nat) =>
          (List.range 3).foldl
            (fun temp (c : Nat) =>
              setElem temp i j c
                (wrap16 (-(((src.pixel i (j - 1)).get c).val : Int)
                  + (((src.pixel i (j + 1)).get c).val : Int))))
            temp)
        temp
      let temp := setVecZero temp i 0
      setVecZero temp i (src.cols - 1))
    tempInit
  let dst := (List.range' 1 (src.rows - 1 - 1)).foldl
    (fun dst (i : Nat) =>
      (List.range src.cols).foldl
        (fun dst (j : Nat) =>
          (List.range 3).foldl
            (fun dst (c : Nat) =>
              setElem dst i j c
                (wrap16 (temp (i - 1) j c + 2 * temp i j c + temp (i + 1) j c)))
            dst)
        dst)
    dstInit
  let dst := setRowZero dst src.cols 0
  setRowZero dst src.cols (src.rows - 1)

/-- `sobelY3x3`: horizontal smoothing into `temp`, then vertical derivative into
`dst`. -/
def sobelY3x3 (src : Mat) (tempInit dstInit : Nat → Nat → Nat → Int) :
    Nat → Nat → Nat → Int :=
  let temp := (List.range src.rows).foldl
    (fun temp (i : Nat) =>
      let temp := (List.range' 1 (src.cols - 1 - 1)).foldl
        (fun temp (j : Nat) =>
          (List.range 3).foldl
            (fun temp (c : Nat) =>
              setElem temp i j c
                (wrap16 ((((src.pixel i (j - 1)).get c).val : Int)
                  + 2 * (((src.pixel i j).get c).val : Int)
                  + (((src.pixel i (j + 1)).get c).val : Int))))
            temp)
        temp
      let temp := setVecZero temp i 0
      setVecZero temp i (src.cols - 1))
    tempInit
  let dst := (List.range' 1 (src.rows - 1 - 1)).foldl
    (fun dst (i : Nat) =>
      (List.range src.cols).foldl
        (fun dst (j : Nat) =>
          (List.range 3).foldl
            (fun dst (c : Nat) =>
              setElem dst i j c (wrap16 (-temp (i - 1) j c + temp (i + 1) j c)))
            dst)
        dst)
    dstInit
  let dst := setRowZero dst src.cols 0
  setRowZero dst src.cols (src.rows - 1)

/-- The first pass of `sobelX3x3` and `sobelY3x3` in their common shape: a
horizontal 3-tap combination `h` into `temp`, with zeroed end columns. -/
def separableTemp (h : Int → Int → Int → Int) (src : Mat)
    (tempInit : Nat → Nat → Nat → Int) : Nat → Nat → Nat → Int :=
  (List.range src.rows).foldl
    (fun temp (i : Nat) =>
      let temp := (List.range' 1 (src.cols - 1 - 1)).foldl
        (fun temp (j : Nat) =>
          (List.range 3).foldl
            (fun temp (c : Nat) =>
              setElem temp i j c
                (wrap16 (h (((src.pixel i (j - 1)).get c).val : Int)
                  (((src.pixel i j).get c).val : Int)
                  (((src.pixel i (j + 1)).get c).val : Int))))
            temp)
        temp
      let temp := setVecZero temp i 0
      setVecZero temp i (src.cols - 1))
    tempInit

/-- The common shape of `sobelX3x3` and `sobelY3x3`: the first pass, then a
vertical 3-tap combination `v` into `dst`, with zeroed end rows. -/
def separable3x3 (h v : Int → Int → Int → Int) (src : Mat)
    (tempInit dstInit : Nat → Nat → Nat → Int) : Nat → Nat → Nat → Int :=
  let temp := separableTemp h src tempInit
  let dst := (List.range' 1 (src.rows - 1 - 1)).foldl
    (fun dst (i : Nat) =>
      (List.range src.cols).foldl
        (fun dst (j : Nat) =>
          (List.range 3).foldl
            (fun dst (c : Nat) =>
              setElem dst i j c
                (wrap16 (v (temp (i - 1) j c) (temp i j c) (temp (i + 1) j c))))
            dst)
        dst)
    dstInit
  let dst := setRowZero dst src.cols 0
  setRowZero dst src.cols (src.rows - 1)

/-- A 3x3 image whose blue channel is `10*i + j` at `(i, j)`, green `0`, red
`255`. -/
def rampImage3x3 : Mat where
  rows := 3
  cols := 3
  pixel := fun i j => ⟨⟨(10 * i + j) % 256, Nat.mod_lt _ (by decide)⟩, 0, 255⟩

/-! ## Folds as sums -/

section FoldLemmas

variable {α : Type} [LinearOrderedField α]

theorem foldl_add_eq {β : Type} (g : β → α) (l : List β) (a : α) :
    l.foldl (fun acc x => acc + g x) a = a + (l.map g).sum := by
  induction l generalizing a with
  | nil => simp
  | cons x xs ih => simp [ih, add_assoc]

theorem foldl_add_zero_eq {β : Type} (g : β → α) (l : List β) :
    l.foldl (fun acc x => acc + g x) 0 = (l.map g).sum := by
  rw [foldl_add_eq, zero_add]

theorem foldl_sum_eq (l : List α) : l.foldl (fun acc x => acc + x) 0 = l.sum := by
  have h := foldl_add_zero_eq (fun x : α => x) l
  simpa using h

theorem foldl_range_eq (g : ℕ → α) (n : ℕ) :
    (List.range n).foldl (fun acc i => acc + g i) 0 = ∑ i ∈ Finset.range n, g i := by
  induction n with
  | zero => simp
  | succ n ih => simp [List.range_succ, Finset.sum_range_succ, ih]

theorem sum_map_eq_range (g : α → α) (l : List α) :
    (l.map g).sum = ∑ i ∈ Finset.range l.length, g (l.getD i 0) := by
  induction l with
  | nil => simp
  | cons x xs ih => simp [Finset.sum_range_succ', ih, add_comm]

theorem foldl_invariant {β γ : Type} (P : β → Prop) (f : β → γ → β)
    (hf : ∀ b c, P b → P (f b c)) (l : List γ) (init : β) (h0 : P init) :
    P (l.foldl f init) := by
  induction l generalizing init with
  | nil => simpa using h0
  | cons x xs ih => exact ih (f init x) (hf init x h0)

/-- The index loop over two mapped copies of one list is a sum over the list. -/
theorem foldl_range_map_map (F : α → α → α) (f g : α → α) (v : List α) :
    (List.range (v.map f).length).foldl
      (fun acc i => acc + F ((v.map f).getD i 0) ((v.map g).getD i 0)) 0
      = (v.map (fun x => F (f x) (g x))).sum := by
  rw [foldl_range_eq, List.length_map]
  induction v with
  | nil => simp
  | cons x xs ih =>
    simp only [List.map_cons, List.length_cons, Finset.sum_range_succ', List.getD_cons_succ,
      List.getD_cons_zero, List.sum_cons, ih]
    exact add_comm _ _

theorem foldl_range_self (F : α → α → α) (v : List α) :
    (List.range v.length).foldl
      (fun acc i => acc + F (v.getD i 0) (v.getD i 0)) 0
      = (v.map (fun x => F x x)).sum := by
  have h := foldl_range_map_map F id id v
  simpa using h

end FoldLemmas

/-! ## The metrics in closed form -/

section MetricLemmas

variable {α : Type} [LinearOrderedField α]

theorem normEps_pos : (0 : α) < normEps := by
  unfold normEps
  positivity

theorem sum_map_div_const (l : List α) (c : α) :
    (l.map (fun x => x / c)).sum = l.sum / c := by
  induction l with
  | nil => simp
  | cons x xs ih => simp [ih, add_div]

theorem sum_eq_zero_of_all_zero (l : List α) (h : ∀ x ∈ l, x = 0) : l.sum = 0 := by
  induction l with
  | nil => simp
  | cons x xs ih =>
    have hx : x = 0 := h x (List.mem_cons_self x xs)
    have hxs : xs.sum = 0 := ih (fun y hy => h y (List.mem_cons_of_mem x hy))
    simp [hx, hxs]

theorem sqSum_eq_zero_of_all_zero (l : List α) (h : ∀ x ∈ l, x = 0) :
    (l.map (fun x => x * x)).sum = 0 := by
  apply sum_eq_zero_of_all_zero
  intro y hy
  obtain ⟨x, hx, rfl⟩ := List.mem_map.1 hy
  simp [h x hx]

theorem sqSum_nonneg (l : List α) : 0 ≤ (l.map (fun x => x * x)).sum := by
  apply List.sum_nonneg
  intro y hy
  obtain ⟨x, _, rfl⟩ := List.mem_map.1 hy
  exact mul_self_nonneg x

theorem sqSum_neg (l : List α) :
    ((l.map (fun x => -x)).map (fun x => x * x)).sum = (l.map (fun x => x * x)).sum := by
  rw [List.map_map]
  congr 1
  apply List.map_congr_left
  intro x _
  simp

theorem length_normalizeHistogram (h : List α) :
    (normalizeHistogram h).length = h.length := by
  unfold normalizeHistogram
  simp only
  split <;> simp

theorem length_normalizeVector (sqrt : α → α) (v : List α) :
    (normalizeVector sqrt v).length = v.length := by
  unfold normalizeVector
  simp only
  split <;> simp

theorem normalizeHistogram_of_lt (h : List α) (hs : h.sum < normEps) :
    normalizeHistogram h = h := by
  unfold normalizeHistogram
  rw [foldl_sum_eq]
  rw [if_pos hs]

theorem normalizeHistogram_of_ge (h : List α) (hs : normEps ≤ h.sum) :
    normalizeHistogram h = h.map (fun x => x / h.sum) := by
  unfold normalizeHistogram
  rw [foldl_sum_eq]
  rw [if_neg (not_lt.2 hs)]

theorem normalizeVector_of_lt (sqrt : α → α) (v : List α)
    (hn : sqrt ((v.map (fun x => x * x)).sum) < normEps) :
    normalizeVector sqrt v = v := by
  unfold normalizeVector
  simp only [foldl_add_zero_eq]
  rw [if_pos hn]

theorem normalizeVector_of_ge (sqrt : α → α) (v : List α)
    (hn : normEps ≤ sqrt ((v.map (fun x => x * x)).sum)) :
    normalizeVector sqrt v = v.map (fun x => x / sqrt ((v.map (fun x => x * x)).sum)) := by
  unfold normalizeVector
  simp only [foldl_add_zero_eq]
  rw [if_neg (not_lt.2 hn)]

theorem histogramIntersection_self (h : List α) : histogramIntersection h h = h.sum := by
  unfold histogramIntersection
  rw [if_neg (by simp)]
  have := foldl_range_self (fun a b : α => min a b) h
  simpa using this

theorem histogramIntersection_of_length_ne (h1 h2 : List α) (hl : h1.length ≠ h2.length) :
    histogramIntersection h1 h2 = 0 := by
  unfold histogramIntersection
  rw [if_pos hl]

theorem histInt_self_of_sum_ge (h : List α) (hs : normEps ≤ h.sum) :
    histogramIntersectionDistance h h = 0 := by
  have hpos : h.sum ≠ 0 := ne_of_gt (lt_of_lt_of_le normEps_pos hs)
  unfold histogramIntersectionDistance
  simp only
  rw [histogramIntersection_self, normalizeHistogram_of_ge h hs, sum_map_div_const,
    div_self hpos, sub_self]

theorem histInt_self_of_all_zero (h : List α) (hz : ∀ x ∈ h, x = 0) :
    histogramIntersectionDistance h h = 1 := by
  have hsum : h.sum = 0 := sum_eq_zero_of_all_zero h hz
  have hlt : h.sum < normEps := by rw [hsum]; exact normEps_pos
  unfold histogramIntersectionDistance
  simp only
  rw [histogramIntersection_self, normalizeHistogram_of_lt h hlt, hsum, sub_zero]

theorem histInt_of_length_ne (h1 h2 : List α) (hl : h1.length ≠ h2.length) :
    histogramIntersectionDistance h1 h2 = 1 := by
  unfold histogramIntersectionDistance
  simp only
  rw [histogramIntersection_of_length_ne, sub_zero]
  rw [length_normalizeHistogram, length_normalizeHistogram]
  exact hl

theorem ssd_eq_sum (a b : List α) (hl : a.length = b.length) :
    sumSquaredDifference a b
      = ∑ i ∈ Finset.range a.length, (a.getD i 0 - b.getD i 0) ^ 2 := by
  unfold sumSquaredDifference
  rw [if_neg (by simpa using hl)]
  simp only
  rw [foldl_range_eq]
  apply Finset.sum_congr rfl
  intro i _
  ring

theorem ssd_of_length_ne (a b : List α) (hl : a.length ≠ b.length) :
    sumSquaredDifference a b = -1 := by
  unfold sumSquaredDifference
  rw [if_pos hl]

theorem euclid_eq_sqrt_sum (sqrt : α → α) (a b : List α) (hl : a.length = b.length) :
    euclideanDistance sqrt a b
      = sqrt (∑ i ∈ Finset.range a.length, (a.getD i 0 - b.getD i 0) ^ 2) := by
  unfold euclideanDistance
  rw [if_neg (by simpa using hl)]
  simp only
  rw [foldl_range_eq]
  congr 1
  apply Finset.sum_congr rfl
  intro i _
  ring

theorem euclid_of_length_ne (sqrt : α → α) (a b : List α) (hl : a.length ≠ b.length) :
    euclideanDistance sqrt a b = -1 := by
  unfold euclideanDistance
  rw [if_pos hl]

theorem cosine_of_length_ne (sqrt : α → α) (a b : List α) (hl : a.length ≠ b.length) :
    cosineDistance sqrt a b = 2 := by
  unfold cosineDistance
  rw [if_pos hl]

theorem ssd_self (a : List α) : sumSquaredDifference a a = 0 := by
  rw [ssd_eq_sum a a rfl]
  simp

end MetricLemmas

/-! ## The metrics over the reals -/

section RealLemmas

theorem sum_map_scaled_mul (l : List ℝ) (c d : ℝ) :
    (l.map (fun x => x / c * (x / d))).sum = (l.map (fun x => x * x)).sum / (c * d) := by
  induction l with
  | nil => simp
  | cons x xs ih =>
    rw [List.map_cons, List.sum_cons, ih, List.map_cons, List.sum_cons, add_div,
      div_mul_div_comm]

theorem sqrt_sqSum_mul_self (v : List ℝ) :
    Real.sqrt ((v.map (fun x => x * x)).sum) * Real.sqrt ((v.map (fun x => x * x)).sum)
      = (v.map (fun x => x * x)).sum :=
  Real.mul_self_sqrt (sqSum_nonneg v)

theorem sqrt_sqSum_ne_zero (v : List ℝ)
    (hn : normEps ≤ Real.sqrt ((v.map (fun x => x * x)).sum)) :
    Real.sqrt ((v.map (fun x => x * x)).sum) ≠ 0 :=
  ne_of_gt (lt_of_lt_of_le normEps_pos hn)

/-- Sum of squares of the scaled vector. -/
theorem sqSum_normalized (v : List ℝ)
    (hn : normEps ≤ Real.sqrt ((v.map (fun x => x * x)).sum)) :
    ((v.map (fun x => x / Real.sqrt ((v.map (fun x => x * x)).sum))).map
      (fun x => x * x)).sum = 1 := by
  have hne := sqrt_sqSum_ne_zero v hn
  rw [List.map_map]
  have h := sum_map_scaled_mul v (Real.sqrt ((v.map (fun x => x * x)).sum))
    (Real.sqrt ((v.map (fun x => x * x)).sum))
  rw [sqrt_sqSum_mul_self] at h
  have hS : (v.map (fun x => x * x)).sum ≠ 0 := by
    intro h0
    apply hne
    rw [h0, Real.sqrt_zero]
  rw [div_self hS] at h
  exact h

theorem cosine_self_of_norm_ge (v : List ℝ)
    (hn : normEps ≤ Real.sqrt ((v.map (fun x => x * x)).sum)) :
    cosineDistance Real.sqrt v v = 0 := by
  have hne := sqrt_sqSum_ne_zero v hn
  have hS : (v.map (fun x => x * x)).sum ≠ 0 := by
    intro h0
    apply hne
    rw [h0, Real.sqrt_zero]
  unfold cosineDistance
  rw [if_neg (by simp)]
  simp only
  rw [normalizeVector_of_ge Real.sqrt v hn]
  rw [foldl_range_map_map (fun a b : ℝ => a * b)]
  rw [sum_map_scaled_mul, sqrt_sqSum_mul_self, div_self hS]
  norm_num

theorem cosine_neg_of_norm_ge (v : List ℝ)
    (hn : normEps ≤ Real.sqrt ((v.map (fun x => x * x)).sum)) :
    cosineDistance Real.sqrt v (v.map (fun x => -x)) = 2 := by
  have hne := sqrt_sqSum_ne_zero v hn
  have hS : (v.map (fun x => x * x)).sum ≠ 0 := by
    intro h0
    apply hne
    rw [h0, Real.sqrt_zero]
  have hn2 : normEps ≤ Real.sqrt (((v.map (fun x => -x)).map (fun x => x * x)).sum) := by
    rw [sqSum_neg]
    exact hn
  unfold cosineDistance
  rw [if_neg (by simp)]
  simp only
  rw [normalizeVector_of_ge Real.sqrt v hn, normalizeVector_of_ge Real.sqrt _ hn2, sqSum_neg,
    List.map_map]
  have hdot := foldl_range_map_map (fun a b : ℝ => a * b)
    (fun x => x / Real.sqrt ((v.map (fun x => x * x)).sum))
    ((fun x => x / Real.sqrt ((v.map (fun x => x * x)).sum)) ∘ fun x => -x) v
  rw [hdot]
  have hsum : (v.map (fun x => x / Real.sqrt ((v.map (fun x => x * x)).sum) *
      ((fun x => x / Real.sqrt ((v.map (fun x => x * x)).sum)) ∘ fun x => -x) x)).sum
      = -1 := by
    have h1 := sum_map_scaled_mul v (Real.sqrt ((v.map (fun x => x * x)).sum))
      (-Real.sqrt ((v.map (fun x => x * x)).sum))
    rw [mul_neg, sqrt_sqSum_mul_self, div_neg, div_self hS] at h1
    rw [← h1]
    congr 1
    apply List.map_congr_left
    intro x _
    simp only [Function.comp]
    rw [neg_div, div_neg]
  rw [hsum]
  norm_num

theorem cosine_self_of_all_zero (v : List ℝ) (hz : ∀ x ∈ v, x = 0) :
    cosineDistance Real.sqrt v v = 1 := by
  have hS : (v.map (fun x => x * x)).sum = 0 := sqSum_eq_zero_of_all_zero v hz
  have hlt : Real.sqrt ((v.map (fun x => x * x)).sum) < normEps := by
    rw [hS, Real.sqrt_zero]
    exact normEps_pos
  unfold cosineDistance
  rw [if_neg (by simp)]
  simp only
  rw [normalizeVector_of_lt Real.sqrt v hlt]
  rw [foldl_range_self (fun a b : ℝ => a * b), hS]
  norm_num

theorem euclid_self (v : List ℝ) : euclideanDistance Real.sqrt v v = 0 := by
  rw [euclid_eq_sqrt_sum Real.sqrt v v rfl]
  simp

end RealLemmas

/-! ## Extractor outputs are vectors of natural numbers -/

section CountLemmas

variable {α : Type} [LinearOrderedField α]

theorem isCount_replicate_zero (n : ℕ) : IsCountVector (List.replicate n (0 : α)) := by
  intro x hx
  refine ⟨0, ?_⟩
  rw [List.eq_of_mem_replicate hx]
  simp

/-- The `float` increment of a counter that holds the integer `n <= 2^24`. -/
theorem floatIncr_natCast (n : ℕ) (hn : n ≤ 2 ^ 24) :
    floatIncr (n : α) = ((min (n + 1) (2 ^ 24) : ℕ) : α) := by
  have h24 : ((2 : α) ^ 24) = (((2 ^ 24 : ℕ)) : α) := by norm_num
  unfold floatIncr
  by_cases h : n < 2 ^ 24
  · have hlt : (n : α) < 2 ^ 24 := by
      rw [h24]
      exact Nat.cast_lt.2 h
    rw [if_pos hlt, min_eq_left (by omega)]
    push_cast
    rfl
  · have hge : ¬ (n : α) < 2 ^ 24 := by
      rw [h24, Nat.cast_lt]
      exact h
    rw [if_neg hge, min_eq_right (by omega)]
    have hn2 : n = 2 ^ 24 := by omega
    rw [hn2]

theorem floatIncr_isNat (x : α) (hx : ∃ n : ℕ, x = (n : α)) :
    ∃ n : ℕ, floatIncr x = (n : α) := by
  obtain ⟨n, rfl⟩ := hx
  unfold floatIncr
  split
  · exact ⟨n + 1, by push_cast; rfl⟩
  · exact ⟨n, rfl⟩

theorem isCount_modify_succ (l : List α) (k : ℕ) (hl : IsCountVector l) :
    IsCountVector (l.modify floatIncr k) := by
  induction l generalizing k with
  | nil => simpa using hl
  | cons a as ih =>
    have ha : ∃ n : ℕ, a = (n : α) := hl a (List.mem_cons_self a as)
    have has : IsCountVector as := fun y hy => hl y (List.mem_cons_of_mem a hy)
    cases k with
    | zero =>
      intro x hx
      rw [List.modify_zero_cons] at hx
      rcases List.mem_cons.1 hx with hx | hx
      · rw [hx]
        exact floatIncr_isNat a ha
      · exact has x hx
    | succ k =>
      intro x hx
      rw [List.modify_succ_cons] at hx
      rcases List.mem_cons.1 hx with hx | hx
      · rw [hx]
        exact ha
      · exact ih k has x hx

theorem isCount_append (l m : List α) (hl : IsCountVector l) (hm : IsCountVector m) :
    IsCountVector (l ++ m) := by
  intro x hx
  rcases List.mem_append.1 hx with hx | hx
  · exact hl x hx
  · exact hm x hx

theorem isCount_nil : IsCountVector ([] : List α) := by
  intro x hx
  cases hx

theorem isCount_baseline (image : Mat) :
    IsCountVector (extractBaselineFeature image : List α) := by
  unfold extractBaselineFeature
  simp only
  apply foldl_invariant IsCountVector
  · intro feature di hf
    apply foldl_invariant IsCountVector
    · intro feature dj hf
      split
      · apply isCount_append _ _ hf
        intro x hx
        simp only [List.mem_cons, List.mem_singleton, List.not_mem_nil, or_false] at hx
        rcases hx with hx | hx | hx
        · exact ⟨_, hx⟩
        · exact ⟨_, hx⟩
        · exact ⟨_, hx⟩
      · exact hf
    · exact hf
  · exact isCount_nil

theorem isCount_rgbHistogram (image : Mat) (bins : ℕ) :
    IsCountVector (extractRGBHistogram image bins : List α) := by
  unfold extractRGBHistogram
  apply foldl_invariant IsCountVector
  · intro histogram i hh
    apply foldl_invariant IsCountVector
    · intro histogram j hh
      exact isCount_modify_succ _ _ hh
    · exact hh
  · exact isCount_replicate_zero _

theorem isCount_rgChromaticity [FloorRing α] (image : Mat) (r_bins g_bins : ℕ) :
    IsCountVector (extractRGChromaticityHistogram image r_bins g_bins : List α) := by
  unfold extractRGChromaticityHistogram
  apply foldl_invariant IsCountVector
  · intro histogram i hh
    apply foldl_invariant IsCountVector
    · intro histogram j hh
      simp only
      split
      · exact hh
      · exact isCount_modify_succ _ _ hh
    · exact hh
  · exact isCount_replicate_zero _

theorem isCount_multiRegion (image : Mat) (bins : ℕ) :
    IsCountVector (extractMultiRegionHistogram image bins : List α) := by
  unfold extractMultiRegionHistogram
  simp only [List.nil_append]
  exact isCount_append _ _ (isCount_rgbHistogram _ _) (isCount_rgbHistogram _ _)

theorem isCount_run [FloorRing α] (E : Extractor) (image : Mat) :
    IsCountVector (E.run image : List α) := by
  cases E with
  | baseline => exact isCount_baseline image
  | rgbHistogram b => exact isCount_rgbHistogram image b
  | rgChromaticity r g => exact isCount_rgChromaticity image r g
  | multiRegion b => exact isCount_multiRegion image b

theorem isCount_nonneg (l : List α) (hl : IsCountVector l) : ∀ x ∈ l, 0 ≤ x := by
  intro x hx
  obtain ⟨n, hn⟩ := hl x hx
  rw [hn]
  exact Nat.cast_nonneg n

theorem isCount_one_le (l : List α) (hl : IsCountVector l) (x : α) (hx : x ∈ l)
    (hne : x ≠ 0) : 1 ≤ x := by
  obtain ⟨n, hn⟩ := hl x hx
  rw [hn] at hne ⊢
  have hn0 : n ≠ 0 := by
    intro h0
    apply hne
    rw [h0]
    simp
  exact_mod_cast Nat.one_le_iff_ne_zero.2 hn0

theorem isCount_one_le_sum (l : List α) (hl : IsCountVector l) (hnz : ∃ x ∈ l, x ≠ 0) :
    1 ≤ l.sum := by
  obtain ⟨x, hx, hne⟩ := hnz
  exact le_trans (isCount_one_le l hl x hx hne)
    (List.single_le_sum (isCount_nonneg l hl) x hx)

theorem isCount_one_le_sqSum (l : List α) (hl : IsCountVector l) (hnz : ∃ x ∈ l, x ≠ 0) :
    1 ≤ (l.map (fun x => x * x)).sum := by
  obtain ⟨x, hx, hne⟩ := hnz
  have h1 : 1 ≤ x := isCount_one_le l hl x hx hne
  have hxx : 1 ≤ x * x := by nlinarith
  have hmem : x * x ∈ l.map (fun x => x * x) := List.mem_map.2 ⟨x, hx, rfl⟩
  have hnn : ∀ y ∈ l.map (fun x => x * x), 0 ≤ y := by
    intro y hy
    obtain ⟨z, _, rfl⟩ := List.mem_map.1 hy
    exact mul_self_nonneg z
  exact le_trans hxx (List.single_le_sum hnn _ hmem)

theorem normEps_le_one : (normEps : α) ≤ 1 := by
  unfold normEps
  rw [div_le_one (by positivity)]
  exact one_le_pow₀ (by norm_num)

end CountLemmas

/-! ## Rounding to binary32 -/

section FloatLemmas

variable {α : Type} [LinearOrderedField α] [FloorRing α]

theorem roundHalfEven_intCast (z : ℤ) : roundHalfEven (z : α) = z := by
  unfold roundHalfEven
  simp only [Int.floor_intCast, sub_self]
  rw [if_pos (by norm_num)]

theorem roundHalfEven_of_lt (q : α) (f : ℤ) (h1 : (f : α) ≤ q) (h2 : q - f < 1 / 2) :
    roundHalfEven q = f := by
  have hf : Int.floor q = f := by
    rw [Int.floor_eq_iff]
    constructor
    · exact h1
    · linarith
  unfold roundHalfEven
  simp only [hf]
  rw [if_pos h2]

theorem roundHalfEven_of_gt (q : α) (f : ℤ) (h1 : 1 / 2 < q - f) (h2 : q < f + 1) :
    roundHalfEven q = f + 1 := by
  have hf : Int.floor q = f := by
    rw [Int.floor_eq_iff]
    constructor
    · linarith
    · exact h2
  unfold roundHalfEven
  simp only [hf]
  rw [if_neg (by linarith), if_pos h1]

theorem roundHalfEven_of_tie_even (q : α) (f : ℤ) (h1 : q - f = 1 / 2) (h2 : f % 2 = 0) :
    roundHalfEven q = f := by
  have hf : Int.floor q = f := by
    rw [Int.floor_eq_iff]
    constructor
    · linarith
    · linarith
  unfold roundHalfEven
  simp only [hf]
  rw [if_neg (by rw [h1]; exact lt_irrefl _), if_neg (by rw [h1]; exact lt_irrefl _), if_pos h2]

/-- A value whose quotient by its unit in the last place is an integer is a
binary32 value: rounding leaves it unchanged. -/
theorem toFloat32_of_int (x : α) (M : ℤ)
    (h : x / 2 ^ (max (Int.log 2 |x|) (-126) - 23) = (M : α)) : toFloat32 x = x := by
  unfold toFloat32
  simp only
  rw [h, roundHalfEven_intCast, ← h]
  have hne : (2 : α) ^ (max (Int.log 2 |x|) (-126) - 23) ≠ 0 := zpow_ne_zero _ (by norm_num)
  field_simp

/-- The rounding of a positive value with a known exponent. -/
theorem toFloat32_eval (x : α) (e m : ℤ) (hx : 0 < x) (h1 : (2 : α) ^ e ≤ x)
    (h2 : x < (2 : α) ^ (e + 1)) (he : -126 ≤ e)
    (hm : roundHalfEven (x / 2 ^ (e - 23)) = m) : toFloat32 x = (m : α) * 2 ^ (e - 23) := by
  have hlog : Int.log 2 |x| = e := by
    rw [abs_of_pos hx]
    apply le_antisymm
    · have := (Int.lt_zpow_iff_log_lt (b := 2) (by norm_num) hx (x := e + 1)).1
        (by exact_mod_cast h2)
      omega
    · exact (Int.zpow_le_iff_le_log (b := 2) (by norm_num) hx).1 (by exact_mod_cast h1)
  unfold toFloat32
  simp only
  rw [hlog, max_eq_left he, hm]

theorem toFloat32_dyadic_lt (n : ℕ) (s : ℤ) (hn : n < 2 ^ 24) (hs : -149 ≤ s) :
    toFloat32 ((n : α) * 2 ^ s) = (n : α) * 2 ^ s := by
  rcases Nat.eq_zero_or_pos n with h0 | hpos
  · subst h0
    apply toFloat32_of_int _ 0
    simp
  · have h2pos : (0 : α) < 2 ^ s := zpow_pos (by norm_num) _
    have hx : 0 < (n : α) * 2 ^ s := mul_pos (Nat.cast_pos.2 hpos) h2pos
    have hn2 : (n : α) < 2 ^ (24 : ℤ) := by
      have : ((2 : α) ^ (24 : ℤ)) = (((2 ^ 24 : ℕ)) : α) := by norm_num
      rw [this]
      exact Nat.cast_lt.2 hn
    have hlt : (n : α) * 2 ^ s < 2 ^ (24 + s) := by
      rw [zpow_add₀ (by norm_num : (2 : α) ≠ 0)]
      exact mul_lt_mul_of_pos_right hn2 h2pos
    have hL : Int.log 2 |(n : α) * 2 ^ s| < 24 + s := by
      rw [abs_of_pos hx]
      exact (Int.lt_zpow_iff_log_lt (b := 2) (by norm_num) hx).1 (by exact_mod_cast hlt)
    have ht : 0 ≤ s - (max (Int.log 2 |(n : α) * 2 ^ s|) (-126) - 23) := by omega
    obtain ⟨t, ht2⟩ := Int.eq_ofNat_of_zero_le ht
    apply toFloat32_of_int _ ((n * 2 ^ t : ℕ) : ℤ)
    rw [mul_div_assoc, ← zpow_sub₀ (by norm_num : (2 : α) ≠ 0), ht2, zpow_natCast]
    push_cast
    rfl

/-- The multiples `n * 2^s` with `n <= 2^24` and `s >= -149` are binary32
values. -/
theorem toFloat32_dyadic (n : ℕ) (s : ℤ) (hn : n ≤ 2 ^ 24) (hs : -149 ≤ s) :
    toFloat32 ((n : α) * 2 ^ s) = (n : α) * 2 ^ s := by
  rcases Nat.lt_or_ge n (2 ^ 24) with h | h
  · exact toFloat32_dyadic_lt n s h hs
  · have hn2 : n = 2 ^ 24 := le_antisymm hn h
    have hx : (n : α) * 2 ^ s = ((2 ^ 23 : ℕ) : α) * 2 ^ (s + 1) := by
      rw [hn2, zpow_add₀ (by norm_num : (2 : α) ≠ 0)]
      push_cast
      ring
    rw [hx]
    exact toFloat32_dyadic_lt (2 ^ 23) (s + 1) (by norm_num) (by omega)

/-- The integers up to `2^24` are binary32 values. -/
theorem toFloat32_natCast (n : ℕ) (hn : n ≤ 2 ^ 24) : toFloat32 (n : α) = (n : α) := by
  have h := @toFloat32_dyadic α _ _ n 0 hn (by norm_num)
  simpa using h

/-- `2^24 + 1` is not a binary32 value; it rounds to `2^24`. -/
theorem toFloat32_two_pow_succ : toFloat32 ((2 : α) ^ 24 + 1) = 2 ^ 24 := by
  have hx : (0 : α) < 2 ^ 24 + 1 := by positivity
  rw [toFloat32_eval ((2 : α) ^ 24 + 1) 24 8388608 hx (by norm_num) (by norm_num) (by norm_num)
    (roundHalfEven_of_tie_even _ _ (by norm_num) (by norm_num))]
  norm_num

/-- On the values a `float` counter holds, `floatIncr` is the binary32 sum
`x + 1`. -/
theorem floatIncr_eq_toFloat32 (n : ℕ) (hn : n ≤ 2 ^ 24) :
    floatIncr (n : α) = toFloat32 ((n : α) + 1) := by
  rw [floatIncr_natCast n hn]
  rcases Nat.lt_or_ge n (2 ^ 24) with h | h
  · rw [min_eq_left (by omega)]
    have h1 : ((n : α) + 1) = ((n + 1 : ℕ) : α) := by push_cast; rfl
    rw [h1, toFloat32_natCast (n + 1) (by omega)]
  · have hn2 : n = 2 ^ 24 := le_antisymm hn h
    have e : (((2 : ℕ) ^ 24 : ℕ) : α) = (2 : α) ^ 24 := by
      norm_num
    rw [min_eq_right (by omega), hn2, e, toFloat32_two_pow_succ]

end FloatLemmas

/-! ## Helper facts for the degenerate inputs -/

section Degenerate

theorem rgChromaticity_black_all_zero {α : Type} [LinearOrderedField α] [FloorRing α]
    (rows cols r_bins g_bins : ℕ) :
    ∀ x ∈ (extractRGChromaticityHistogram (blackImage rows cols) r_bins g_bins : List α),
      x = 0 := by
  unfold extractRGChromaticityHistogram
  apply foldl_invariant (fun l : List α => ∀ x ∈ l, x = 0)
  · intro histogram i hh
    apply foldl_invariant (fun l : List α => ∀ x ∈ l, x = 0)
    · intro histogram j hh
      have hlt : ((0 : ℕ) : α) + ((0 : ℕ) : α) + ((0 : ℕ) : α) < 1 / 10 ^ 6 := by
        simp only [Nat.cast_zero, add_zero]
        positivity
      simp only [blackImage, Fin.val_zero]
      rw [if_pos hlt]
      exact hh
    · exact hh
  · intro x hx
    exact List.eq_of_mem_replicate hx

theorem tiny_norm : Real.sqrt ((([1 / 10 ^ 11] : List ℝ).map (fun x => x * x)).sum)
    = 1 / 10 ^ 11 := by
  have h : (([1 / 10 ^ 11] : List ℝ).map (fun x => x * x)).sum
      = (1 / 10 ^ 11) * (1 / 10 ^ 11) := by
    simp
  rw [h, Real.sqrt_mul_self (by positivity)]

theorem norm_three_four : Real.sqrt ((([3, 4] : List ℝ).map (fun x => x * x)).sum) = 5 := by
  have h : (([3, 4] : List ℝ).map (fun x => x * x)).sum = 5 * 5 := by
    norm_num
  rw [h, Real.sqrt_mul_self (by norm_num)]

theorem norm_singleton_one : Real.sqrt ((([1] : List ℝ).map (fun x => x * x)).sum) = 1 := by
  simp

theorem adaptiveClamped_ge {α : Type} [LinearOrderedField α] (chars : ImageCharacteristics α) :
    1 / 10 ≤ (adaptiveClamped chars).color_weight ∧
    1 / 10 ≤ (adaptiveClamped chars).texture_weight ∧
    1 / 10 ≤ (adaptiveClamped chars).spatial_weight := by
  unfold adaptiveClamped
  exact ⟨le_max_left _ _, le_max_left _ _, le_max_left _ _⟩

theorem adaptiveClampedTotal_ge {α : Type} [LinearOrderedField α]
    (chars : ImageCharacteristics α) : 3 / 10 ≤ adaptiveClampedTotal chars := by
  obtain ⟨h1, h2, h3⟩ := adaptiveClamped_ge chars
  unfold adaptiveClampedTotal
  simp only
  linarith

end Degenerate

/-! ## Claims about the distance metrics -/

section MetricClaims

/-- C1, as stated, fails: the nonzero vector `[1e-11]` has L2 norm below the
`1e-10` guard of `normalizeVector`, so it is compared unnormalised and its
cosine distance to itself is `1 - 1e-22`, not `0`. -/
theorem cosine_self_tiny_vector :
    (∃ x ∈ ([1 / 10 ^ 11] : List ℝ), x ≠ 0) ∧
    cosineDistance Real.sqrt [1 / 10 ^ 11] [1 / 10 ^ 11] = 1 - 1 / 10 ^ 22 ∧
    cosineDistance Real.sqrt [1 / 10 ^ 11] [1 / 10 ^ 11] ≠ 0 := by
  have hlt : Real.sqrt ((([1 / 10 ^ 11] : List ℝ).map (fun x => x * x)).sum) < normEps := by
    rw [tiny_norm]
    unfold normEps
    norm_num
  have hval : cosineDistance Real.sqrt [1 / 10 ^ 11] [1 / 10 ^ 11] = 1 - 1 / 10 ^ 22 := by
    unfold cosineDistance
    rw [if_neg (by simp)]
    simp only
    rw [normalizeVector_of_lt Real.sqrt _ hlt, foldl_range_self (fun a b : ℝ => a * b)]
    norm_num
  refine ⟨⟨1 / 10 ^ 11, by simp, by norm_num⟩, hval, ?_⟩
  rw [hval]
  norm_num

/-- C1 (amended): for every real vector `v` whose L2 norm is at least `1e-10`,
`cosineDistance(v, v) = 0` and `cosineDistance(v, -v) = 2`, where `-v` negates
every component. -/
theorem cosine_self_zero_opposite_two (v : List ℝ)
    (hn : (1 : ℝ) / 10 ^ 10 ≤ Real.sqrt ((v.map (fun x => x * x)).sum)) :
    cosineDistance Real.sqrt v v = 0 ∧
    cosineDistance Real.sqrt v (v.map (fun x => -x)) = 2 :=
  ⟨cosine_self_of_norm_ge v hn, cosine_neg_of_norm_ge v hn⟩

/-- Witness for C1 (amended) at `v = [3, 4]`, whose norm is `5`. -/
theorem cosine_self_zero_opposite_two_witness :
    (1 : ℝ) / 10 ^ 10 ≤ Real.sqrt ((([3, 4] : List ℝ).map (fun x => x * x)).sum) ∧
    cosineDistance Real.sqrt [3, 4] [3, 4] = 0 ∧
    cosineDistance Real.sqrt [3, 4] (([3, 4] : List ℝ).map (fun x => -x)) = 2 :=
  ⟨by rw [norm_three_four]; norm_num,
   cosine_self_zero_opposite_two [3, 4] (by rw [norm_three_four]; norm_num)⟩

/-- C2, as stated, fails: the nonzero histogram `[1e-11]` has entry sum below
the `1e-10` guard of `normalizeHistogram`, so it is compared unnormalised and
its intersection distance to itself is `1 - 1e-11`, not `0`. -/
theorem histInt_self_tiny_histogram :
    (∃ x ∈ ([1 / 10 ^ 11] : List ℝ), x ≠ 0) ∧
    histogramIntersectionDistance ([1 / 10 ^ 11] : List ℝ) [1 / 10 ^ 11] = 1 - 1 / 10 ^ 11 ∧
    histogramIntersectionDistance ([1 / 10 ^ 11] : List ℝ) [1 / 10 ^ 11] ≠ 0 := by
  have hlt : ([1 / 10 ^ 11] : List ℝ).sum < normEps := by
    unfold normEps
    norm_num
  have hval : histogramIntersectionDistance ([1 / 10 ^ 11] : List ℝ) [1 / 10 ^ 11]
      = 1 - 1 / 10 ^ 11 := by
    unfold histogramIntersectionDistance
    simp only
    rw [normalizeHistogram_of_lt _ hlt, histogramIntersection_self]
    norm_num
  refine ⟨⟨1 / 10 ^ 11, by simp, by norm_num⟩, hval, ?_⟩
  rw [hval]
  norm_num

/-- C2 (amended): for every histogram `h` whose entry sum is at least `1e-10`,
`histogramIntersectionDistance(h, h) = 0`. -/
theorem histInt_self_zero {α : Type} [LinearOrderedField α] (h : List α)
    (hs : (1 : α) / 10 ^ 10 ≤ h.sum) :
    histogramIntersectionDistance h h = 0 :=
  histInt_self_of_sum_ge h hs

/-- Witness for C2 (amended) at the histogram `[1, 3]`. -/
theorem histInt_self_zero_witness :
    (1 : ℚ) / 10 ^ 10 ≤ ([1, 3] : List ℚ).sum ∧
    histogramIntersectionDistance ([1, 3] : List ℚ) [1, 3] = 0 :=
  ⟨by norm_num, histInt_self_zero [1, 3] (by norm_num)⟩

/-- C3, as stated, fails: an all-black image under the default 16x16
rg-chromaticity extractor gives the all-zero feature vector, whose cosine
distance to itself is `1`, not `0`. -/
theorem identical_black_image_cosine :
    (∀ x ∈ (Extractor.run (Extractor.rgChromaticity 16 16) (blackImage 2 2) : List ℝ), x = 0) ∧
    Metric.run Real.sqrt Metric.cosine
      (Extractor.run (Extractor.rgChromaticity 16 16) (blackImage 2 2))
      (Extractor.run (Extractor.rgChromaticity 16 16) (blackImage 2 2)) = 1 ∧
    Metric.run Real.sqrt Metric.cosine
      (Extractor.run (Extractor.rgChromaticity 16 16) (blackImage 2 2))
      (Extractor.run (Extractor.rgChromaticity 16 16) (blackImage 2 2)) ≠ 0 := by
  have hz : ∀ x ∈ (Extractor.run (Extractor.rgChromaticity 16 16) (blackImage 2 2) : List ℝ),
      x = 0 := rgChromaticity_black_all_zero 2 2 16 16
  have hval : Metric.run Real.sqrt Metric.cosine
      (Extractor.run (Extractor.rgChromaticity 16 16) (blackImage 2 2))
      (Extractor.run (Extractor.rgChromaticity 16 16) (blackImage 2 2)) = 1 :=
    cosine_self_of_all_zero _ hz
  refine ⟨hz, hval, ?_⟩
  rw [hval]
  norm_num

/-- C3 (amended): for every image `I`, every extractor `E` among the four and
every metric `d` among the four: under `sumSquaredDifference` and
`euclideanDistance`, `d(E(I), E(I)) = 0`; under `cosineDistance` and
`histogramIntersectionDistance`, `d(E(I), E(I)) = 0` when `E(I)` has a nonzero
entry and `d(E(I), E(I)) = 1` when `E(I)` is all zero. -/
theorem identical_images_distance (image : Mat) (E : Extractor) (d : Metric) :
    ((d = Metric.ssd ∨ d = Metric.euclidean) →
      d.run Real.sqrt (E.run image) (E.run image) = 0) ∧
    ((d = Metric.cosine ∨ d = Metric.histogramIntersection) →
      ((∃ x ∈ (E.run image : List ℝ), x ≠ 0) →
        d.run Real.sqrt (E.run image) (E.run image) = 0) ∧
      ((∀ x ∈ (E.run image : List ℝ), x = 0) →
        d.run Real.sqrt (E.run image) (E.run image) = 1)) := by
  have hc : IsCountVector (E.run image : List ℝ) := isCount_run E image
  cases d with
  | ssd =>
    refine ⟨fun _ => ssd_self _, fun h => ?_⟩
    rcases h with h | h <;> cases h
  | euclidean =>
    refine ⟨fun _ => euclid_self _, fun h => ?_⟩
    rcases h with h | h <;> cases h
  | cosine =>
    refine ⟨fun h => ?_, fun _ => ⟨fun hnz => ?_, fun hz => cosine_self_of_all_zero _ hz⟩⟩
    · rcases h with h | h <;> cases h
    · apply cosine_self_of_norm_ge
      refine le_trans normEps_le_one ?_
      rw [Real.le_sqrt' one_pos]
      simpa using isCount_one_le_sqSum _ hc hnz
  | histogramIntersection =>
    refine ⟨fun h => ?_, fun _ => ⟨fun hnz => ?_, fun hz => histInt_self_of_all_zero _ hz⟩⟩
    · rcases h with h | h <;> cases h
    · apply histInt_self_of_sum_ge
      exact le_trans normEps_le_one (isCount_one_le_sum _ hc hnz)

theorem rgbHistogram_redPixel :
    (extractRGBHistogram redPixelImage 2 : List ℝ) = [0, 0, 0, 0, 1, 0, 0, 0] := by
  have h255 : ((255 : Fin 256) : ℕ) = 255 := rfl
  simp [extractRGBHistogram, redPixelImage, List.replicate, List.range_succ, h255, floatIncr]

/-- Witness for C3 (amended): a pure-red 1x1 image under the RGB histogram
extractor with 2 bins per channel and the cosine metric. -/
theorem identical_images_distance_witness :
    (∃ x ∈ (Extractor.run (Extractor.rgbHistogram 2) redPixelImage : List ℝ), x ≠ 0) ∧
    Metric.run Real.sqrt Metric.cosine (Extractor.run (Extractor.rgbHistogram 2) redPixelImage)
      (Extractor.run (Extractor.rgbHistogram 2) redPixelImage) = 0 :=
  have hnz : ∃ x ∈ (Extractor.run (Extractor.rgbHistogram 2) redPixelImage : List ℝ), x ≠ 0 :=
    ⟨1, by simp [Extractor.run, rgbHistogram_redPixel], one_ne_zero⟩
  ⟨hnz,
   ((identical_images_distance redPixelImage (Extractor.rgbHistogram 2) Metric.cosine).2
      (Or.inl rfl)).1 hnz⟩

/-- C4: `normalizeHistogram` keeps the length; when the entry sum is at least
`1e-10` every entry is divided by the sum, the result sums to `1`, and
non-negative inputs give non-negative outputs; an all-zero histogram is
returned unchanged. -/
theorem normalizeHistogram_spec {α : Type} [LinearOrderedField α] (h : List α) :
    (normalizeHistogram h).length = h.length ∧
    ((1 : α) / 10 ^ 10 ≤ h.sum →
      (normalizeHistogram h).sum = 1 ∧
      normalizeHistogram h = h.map (fun x => x / h.sum) ∧
      (∀ i, i < h.length → (normalizeHistogram h).getD i 0 = h.getD i 0 / h.sum) ∧
      ((∀ x ∈ h, 0 ≤ x) → ∀ y ∈ normalizeHistogram h, 0 ≤ y)) ∧
    ((∀ x ∈ h, x = 0) → normalizeHistogram h = h) := by
  refine ⟨length_normalizeHistogram h, fun hs => ?_, fun hz => ?_⟩
  · have hs2 : normEps ≤ h.sum := hs
    have hpos : 0 < h.sum := lt_of_lt_of_le normEps_pos hs2
    have heq : normalizeHistogram h = h.map (fun x => x / h.sum) :=
      normalizeHistogram_of_ge h hs2
    refine ⟨?_, heq, ?_, ?_⟩
    · rw [heq, sum_map_div_const, div_self (ne_of_gt hpos)]
    · intro i hi
      rw [heq]
      have hi2 : i < (h.map (fun x => x / h.sum)).length := by
        rw [List.length_map]
        exact hi
      rw [List.getD_eq_getElem _ _ hi2, List.getD_eq_getElem _ _ hi, List.getElem_map]
    · intro hnn y hy
      rw [heq] at hy
      obtain ⟨x, hx, rfl⟩ := List.mem_map.1 hy
      exact div_nonneg (hnn x hx) (le_of_lt hpos)
  · apply normalizeHistogram_of_lt
    rw [sum_eq_zero_of_all_zero h hz]
    exact normEps_pos

/-- Witness for C4 at the histograms `[1, 3]` (normalised to `[1/4, 3/4]`) and
`[0, 0]` (returned unchanged). -/
theorem normalizeHistogram_spec_witness :
    ((1 : ℚ) / 10 ^ 10 ≤ ([1, 3] : List ℚ).sum ∧
      (normalizeHistogram ([1, 3] : List ℚ)).sum = 1 ∧
      normalizeHistogram ([1, 3] : List ℚ) = ([1, 3] : List ℚ).map (fun x => x / 4)) ∧
    normalizeHistogram ([0, 0] : List ℚ) = [0, 0] :=
  have h13 := (normalizeHistogram_spec ([1, 3] : List ℚ)).2.1 (by norm_num)
  ⟨⟨by norm_num, h13.1, by
      have h := h13.2.1
      norm_num at h ⊢
      exact h⟩,
   (normalizeHistogram_spec ([0, 0] : List ℚ)).2.2 (by simp)⟩

/-- C5, as stated, fails: the unit vector `[1]` has L2 norm `1`, not below
`1e-10`, and `normalizeVector` still returns it unchanged (it is scaled by
`1/1`). -/
theorem normalizeVector_unit_unchanged :
    normalizeVector Real.sqrt ([1] : List ℝ) = [1] ∧
    ¬ (Real.sqrt ((([1] : List ℝ).map (fun x => x * x)).sum) < 1 / 10 ^ 10) := by
  have hge : normEps ≤ Real.sqrt ((([1] : List ℝ).map (fun x => x * x)).sum) := by
    rw [norm_singleton_one]
    exact normEps_le_one
  refine ⟨?_, ?_⟩
  · rw [normalizeVector_of_ge Real.sqrt _ hge, norm_singleton_one]
    simp
  · rw [norm_singleton_one]
    norm_num

/-- C5 (amended): with `n` the L2 norm of `v`: when `n < 1e-10`,
`normalizeVector` returns `v` unchanged; otherwise `n` is not zero and it
returns `v` scaled by `1/n`, a vector of the same length whose L2 norm is `1`.
The result equals the input exactly when `n < 1e-10` or `n = 1`. -/
theorem normalizeVector_spec (v : List ℝ) :
    (Real.sqrt ((v.map (fun x => x * x)).sum) < 1 / 10 ^ 10 →
      normalizeVector Real.sqrt v = v) ∧
    (¬ (Real.sqrt ((v.map (fun x => x * x)).sum) < 1 / 10 ^ 10) →
      Real.sqrt ((v.map (fun x => x * x)).sum) ≠ 0 ∧
      normalizeVector Real.sqrt v
        = v.map (fun x => x / Real.sqrt ((v.map (fun x => x * x)).sum)) ∧
      (normalizeVector Real.sqrt v).length = v.length ∧
      Real.sqrt (((normalizeVector Real.sqrt v).map (fun x => x * x)).sum) = 1) ∧
    (normalizeVector Real.sqrt v = v ↔
      (Real.sqrt ((v.map (fun x => x * x)).sum) < 1 / 10 ^ 10 ∨
        Real.sqrt ((v.map (fun x => x * x)).sum) = 1)) := by
  have hbig : ¬ (Real.sqrt ((v.map (fun x => x * x)).sum) < 1 / 10 ^ 10) →
      Real.sqrt ((v.map (fun x => x * x)).sum) ≠ 0 ∧
      normalizeVector Real.sqrt v
        = v.map (fun x => x / Real.sqrt ((v.map (fun x => x * x)).sum)) ∧
      (normalizeVector Real.sqrt v).length = v.length ∧
      Real.sqrt (((normalizeVector Real.sqrt v).map (fun x => x * x)).sum) = 1 := by
    intro hge
    have hge2 : normEps ≤ Real.sqrt ((v.map (fun x => x * x)).sum) := not_lt.1 hge
    refine ⟨sqrt_sqSum_ne_zero v hge2, normalizeVector_of_ge Real.sqrt v hge2,
      length_normalizeVector Real.sqrt v, ?_⟩
    rw [normalizeVector_of_ge Real.sqrt v hge2, sqSum_normalized v hge2, Real.sqrt_one]
  refine ⟨fun hlt => normalizeVector_of_lt Real.sqrt v hlt, hbig, ?_⟩
  constructor
  · intro heq
    by_cases hlt : Real.sqrt ((v.map (fun x => x * x)).sum) < 1 / 10 ^ 10
    · exact Or.inl hlt
    · right
      have h1 := (hbig hlt).2.2.2
      rw [heq] at h1
      exact h1
  · intro h
    rcases h with hlt | h1
    · exact normalizeVector_of_lt Real.sqrt v hlt
    · have hge : normEps ≤ Real.sqrt ((v.map (fun x => x * x)).sum) := by
        rw [h1]
        exact normEps_le_one
      rw [normalizeVector_of_ge Real.sqrt v hge, h1]
      simp

/-- Witness for C5 (amended): `[1e-11]` is below the guard and returned
unchanged; `[3, 4]` has norm `5` and is scaled to a unit vector. -/
theorem normalizeVector_spec_witness :
    normalizeVector Real.sqrt ([1 / 10 ^ 11] : List ℝ) = [1 / 10 ^ 11] ∧
    (normalizeVector Real.sqrt ([3, 4] : List ℝ) = [3 / 5, 4 / 5] ∧
      Real.sqrt (((normalizeVector Real.sqrt ([3, 4] : List ℝ)).map (fun x => x * x)).sum)
        = 1) :=
  have hbig := (normalizeVector_spec ([3, 4] : List ℝ)).2.1
    (by rw [norm_three_four]; norm_num)
  ⟨(normalizeVector_spec ([1 / 10 ^ 11] : List ℝ)).1 (by rw [tiny_norm]; norm_num),
   by
     have h := hbig.2.1
     rw [norm_three_four] at h
     rw [h]
     simp,
   hbig.2.2.2⟩

/-- C6: for equal-length real vectors, `sumSquaredDifference(a, b)` is the sum
over `i` of `(a_i - b_i)^2`, and `euclideanDistance(a, b)` is the non-negative
square root of that sum, so `euclideanDistance(a, b)^2 = sumSquaredDifference(a, b)`. -/
theorem ssd_and_euclidean_formula (a b : List ℝ) (hl : a.length = b.length) :
    sumSquaredDifference a b
      = ∑ i ∈ Finset.range a.length, (a.getD i 0 - b.getD i 0) ^ 2 ∧
    euclideanDistance Real.sqrt a b
      = Real.sqrt (∑ i ∈ Finset.range a.length, (a.getD i 0 - b.getD i 0) ^ 2) ∧
    0 ≤ euclideanDistance Real.sqrt a b ∧
    euclideanDistance Real.sqrt a b ^ 2 = sumSquaredDifference a b := by
  have hnn : 0 ≤ ∑ i ∈ Finset.range a.length, (a.getD i 0 - b.getD i 0) ^ 2 :=
    Finset.sum_nonneg (fun i _ => sq_nonneg _)
  refine ⟨ssd_eq_sum a b hl, euclid_eq_sqrt_sum Real.sqrt a b hl, ?_, ?_⟩
  · rw [euclid_eq_sqrt_sum Real.sqrt a b hl]
    exact Real.sqrt_nonneg _
  · rw [euclid_eq_sqrt_sum Real.sqrt a b hl, ssd_eq_sum a b hl, Real.sq_sqrt hnn]

/-- Witness for C6 at `a = [1, 2]`, `b = [4, 6]`: the squared differences sum
to `25`. -/
theorem ssd_and_euclidean_formula_witness :
    ([1, 2] : List ℝ).length = ([4, 6] : List ℝ).length ∧
    sumSquaredDifference ([1, 2] : List ℝ) [4, 6] = 25 ∧
    euclideanDistance Real.sqrt ([1, 2] : List ℝ) [4, 6] ^ 2 = 25 :=
  have h := ssd_and_euclidean_formula ([1, 2] : List ℝ) [4, 6] rfl
  have h25 : sumSquaredDifference ([1, 2] : List ℝ) [4, 6] = 25 := by
    rw [h.1]
    norm_num [Finset.sum_range_succ]
  ⟨rfl, h25, by rw [h.2.2.2, h25]⟩

/-- C7: `sumSquaredDifference` and `euclideanDistance` both return `-1` for
inputs of different lengths and a value `>= 0` for inputs of equal length. -/
theorem ssd_euclidean_error_value (a b : List ℝ) :
    (a.length ≠ b.length →
      sumSquaredDifference a b = -1 ∧ euclideanDistance Real.sqrt a b = -1) ∧
    (a.length = b.length →
      0 ≤ sumSquaredDifference a b ∧ 0 ≤ euclideanDistance Real.sqrt a b) := by
  refine ⟨fun hl => ⟨ssd_of_length_ne a b hl, euclid_of_length_ne Real.sqrt a b hl⟩,
    fun hl => ⟨?_, ?_⟩⟩
  · rw [ssd_eq_sum a b hl]
    exact Finset.sum_nonneg (fun i _ => sq_nonneg _)
  · rw [euclid_eq_sqrt_sum Real.sqrt a b hl]
    exact Real.sqrt_nonneg _

/-- Witness for C7: `[1]` against `[1, 2]` (different lengths) and `[1, 2]`
against `[4, 6]` (equal lengths). -/
theorem ssd_euclidean_error_value_witness :
    (sumSquaredDifference ([1] : List ℝ) [1, 2] = -1 ∧
      euclideanDistance Real.sqrt ([1] : List ℝ) [1, 2] = -1) ∧
    (0 ≤ sumSquaredDifference ([1, 2] : List ℝ) [4, 6] ∧
      0 ≤ euclideanDistance Real.sqrt ([1, 2] : List ℝ) [4, 6]) :=
  ⟨(ssd_euclidean_error_value ([1] : List ℝ) [1, 2]).1 (by decide),
   (ssd_euclidean_error_value ([1, 2] : List ℝ) [4, 6]).2 rfl⟩

/-- C8, as stated, fails: the value returned on a length mismatch is also
returned for equal-length inputs. `cosineDistance` gives `2` both for `[1]`
against `[1, 1]` and for `[1]` against `[-1]`; `histogramIntersectionDistance`
gives `1` both for `[1]` against `[1, 1]` and for `[1, 0]` against `[0, 1]`. -/
theorem mismatch_value_not_reserved :
    (cosineDistance Real.sqrt ([1] : List ℝ) [1, 1] = 2 ∧
      ([1] : List ℝ).length = ([-1] : List ℝ).length ∧
      cosineDistance Real.sqrt ([1] : List ℝ) [-1] = 2) ∧
    (histogramIntersectionDistance ([1] : List ℝ) [1, 1] = 1 ∧
      ([1, 0] : List ℝ).length = ([0, 1] : List ℝ).length ∧
      histogramIntersectionDistance ([1, 0] : List ℝ) [0, 1] = 1) := by
  refine ⟨⟨cosine_of_length_ne _ _ _ (by decide), rfl, ?_⟩,
    ⟨histInt_of_length_ne _ _ (by decide), rfl, ?_⟩⟩
  · have h := cosine_neg_of_norm_ge ([1] : List ℝ)
      (by rw [norm_singleton_one]; exact normEps_le_one)
    simpa using h
  · norm_num [histogramIntersectionDistance, histogramIntersection, normalizeHistogram,
      normEps, List.range_succ]

/-- C8 (amended): for every pair of inputs of different lengths,
`cosineDistance` returns `2` and `histogramIntersectionDistance` returns `1`;
neither value is reserved for the mismatch, each is also the distance of some
equal-length pair. -/
theorem mismatch_fixed_value :
    (∀ a b : List ℝ, a.length ≠ b.length →
      cosineDistance Real.sqrt a b = 2 ∧ histogramIntersectionDistance a b = 1) ∧
    (∃ a b : List ℝ, a.length = b.length ∧ cosineDistance Real.sqrt a b = 2) ∧
    (∃ a b : List ℝ, a.length = b.length ∧ histogramIntersectionDistance a b = 1) := by
  refine ⟨fun a b hl => ⟨cosine_of_length_ne Real.sqrt a b hl, histInt_of_length_ne a b hl⟩,
    ⟨[1], [-1], rfl, ?_⟩, ⟨[1, 0], [0, 1], rfl, ?_⟩⟩
  · have h := cosine_neg_of_norm_ge ([1] : List ℝ)
      (by rw [norm_singleton_one]; exact normEps_le_one)
    simpa using h
  · norm_num [histogramIntersectionDistance, histogramIntersection, normalizeHistogram,
      normEps, List.range_succ]

/-- Witness for C8 (amended) at `[1]` against `[1, 1]`. -/
theorem mismatch_fixed_value_witness :
    ([1] : List ℝ).length ≠ ([1, 1] : List ℝ).length ∧
    cosineDistance Real.sqrt ([1] : List ℝ) [1, 1] = 2 ∧
    histogramIntersectionDistance ([1] : List ℝ) [1, 1] = 1 :=
  ⟨by decide, mismatch_fixed_value.1 [1] [1, 1] (by decide)⟩

end MetricClaims

/-! ## Claims about the adaptive weights -/

section WeightClaims

/-- C9: for every `ImageCharacteristics` input the three weights returned by
`computeAdaptiveWeights` sum to `1`, and the divisor of the renormalisation, the
total of the clamped weights, is at least `0.3`, hence not zero. -/
theorem adaptive_weights_sum_one {α : Type} [LinearOrderedField α]
    (chars : ImageCharacteristics α) :
    (computeAdaptiveWeights chars).color_weight
      + (computeAdaptiveWeights chars).texture_weight
      + (computeAdaptiveWeights chars).spatial_weight = 1 ∧
    3 / 10 ≤ adaptiveClampedTotal chars ∧
    adaptiveClampedTotal chars ≠ 0 := by
  have hge : (3 : α) / 10 ≤ adaptiveClampedTotal chars := adaptiveClampedTotal_ge chars
  have hpos : (0 : α) < adaptiveClampedTotal chars := lt_of_lt_of_le (by norm_num) hge
  refine ⟨?_, hge, ne_of_gt hpos⟩
  unfold computeAdaptiveWeights
  simp only
  rw [← add_div, ← add_div]
  exact div_self (ne_of_gt hpos)

/-- C10 fails on the code: for the characteristics `color_variance = 1`,
`texture_strength = 0`, `spatial_complexity = 0`, `brightness_range = 1` the
shares `(1, 0, 0)` are clamped to `(1, 0.1, 0.1)` and divided by `1.2`, so the
returned texture and spatial weights are `1/12`, below `0.1`. -/
theorem adaptive_weight_below_minimum :
    (computeAdaptiveWeights (⟨1, 0, 0, 1⟩ : ImageCharacteristics ℝ)).color_weight = 5 / 6 ∧
    (computeAdaptiveWeights (⟨1, 0, 0, 1⟩ : ImageCharacteristics ℝ)).texture_weight = 1 / 12 ∧
    (computeAdaptiveWeights (⟨1, 0, 0, 1⟩ : ImageCharacteristics ℝ)).spatial_weight = 1 / 12 ∧
    (computeAdaptiveWeights (⟨1, 0, 0, 1⟩ : ImageCharacteristics ℝ)).texture_weight < 1 / 10 := by
  norm_num [computeAdaptiveWeights, adaptiveClampedTotal, adaptiveClamped, adaptiveShares]

end WeightClaims

/-! ## Claims about the default split and the query refiner -/

section RefinerClaims

theorem adaptiveShares_default {α : Type} [LinearOrderedField α]
    (chars : ImageCharacteristics α)
    (h : chars.color_variance * (6 / 10) + chars.brightness_range * (4 / 10)
      + chars.texture_strength + chars.spatial_complexity ≤ 0) :
    adaptiveShares chars = ⟨33 / 100, 33 / 100, 34 / 100⟩ := by
  unfold adaptiveShares
  simp only
  rw [if_neg (not_lt.2 h)]

/-- C11: when the total importance `0.6*color_variance + 0.4*brightness_range
+ texture_strength + spatial_complexity` is not positive,
`computeAdaptiveWeights` takes the default split (the branch without the
division by the total), the renormalising divisor is `1`, and the returned
weights are `(0.33, 0.33, 0.34)`, none of them zero. -/
theorem adaptive_default_split {α : Type} [LinearOrderedField α]
    (chars : ImageCharacteristics α)
    (h : (6 / 10) * chars.color_variance + (4 / 10) * chars.brightness_range
      + chars.texture_strength + chars.spatial_complexity ≤ 0) :
    adaptiveShares chars = ⟨33 / 100, 33 / 100, 34 / 100⟩ ∧
    adaptiveClampedTotal chars = 1 ∧
    (computeAdaptiveWeights chars).color_weight = 33 / 100 ∧
    (computeAdaptiveWeights chars).texture_weight = 33 / 100 ∧
    (computeAdaptiveWeights chars).spatial_weight = 34 / 100 ∧
    (computeAdaptiveWeights chars).color_weight ≠ 0 ∧
    (computeAdaptiveWeights chars).texture_weight ≠ 0 ∧
    (computeAdaptiveWeights chars).spatial_weight ≠ 0 := by
  have hs : adaptiveShares chars = ⟨33 / 100, 33 / 100, 34 / 100⟩ := by
    apply adaptiveShares_default
    rw [mul_comm chars.color_variance, mul_comm chars.brightness_range]
    exact h
  have hc : adaptiveClamped chars = ⟨33 / 100, 33 / 100, 34 / 100⟩ := by
    unfold adaptiveClamped
    rw [hs]
    norm_num
  have ht : adaptiveClampedTotal chars = 1 := by
    unfold adaptiveClampedTotal
    rw [hc]
    norm_num
  have h1 : (computeAdaptiveWeights chars).color_weight = 33 / 100 := by
    unfold computeAdaptiveWeights
    rw [hc, ht]
    norm_num
  have h2 : (computeAdaptiveWeights chars).texture_weight = 33 / 100 := by
    unfold computeAdaptiveWeights
    rw [hc, ht]
    norm_num
  have h3 : (computeAdaptiveWeights chars).spatial_weight = 34 / 100 := by
    unfold computeAdaptiveWeights
    rw [hc, ht]
    norm_num
  refine ⟨hs, ht, h1, h2, h3, ?_, ?_, ?_⟩
  · rw [h1]; norm_num
  · rw [h2]; norm_num
  · rw [h3]; norm_num

/-- Witness for C11 at the all-zero characteristics. -/
theorem adaptive_default_split_witness :
    (computeAdaptiveWeights (⟨0, 0, 0, 0⟩ : ImageCharacteristics ℚ)).color_weight = 33 / 100 ∧
    (computeAdaptiveWeights (⟨0, 0, 0, 0⟩ : ImageCharacteristics ℚ)).texture_weight = 33 / 100 ∧
    (computeAdaptiveWeights (⟨0, 0, 0, 0⟩ : ImageCharacteristics ℚ)).spatial_weight = 34 / 100 :=
  have h := adaptive_default_split (⟨0, 0, 0, 0⟩ : ImageCharacteristics ℚ) (by norm_num)
  ⟨h.2.2.1, h.2.2.2.1, h.2.2.2.2.1⟩

theorem refineQueryFeatures_length {α : Type} [LinearOrderedField α]
    (original selected : List α) (alpha : α) :
    (refineQueryFeatures original selected alpha).length = original.length := by
  unfold refineQueryFeatures
  split <;> simp

theorem refineQueryFeatures_getD {α : Type} [LinearOrderedField α]
    (original selected : List α) (alpha : α) (hl : original.length = selected.length)
    (i : ℕ) (hi : i < original.length) :
    (refineQueryFeatures original selected alpha).getD i 0
      = alpha * original.getD i 0 + (1 - alpha) * selected.getD i 0 := by
  unfold refineQueryFeatures
  rw [if_neg (by simpa using hl)]
  have hi2 : i < ((List.range original.length).map
      (fun i => alpha * original.getD i 0 + (1 - alpha) * selected.getD i 0)).length := by
    simpa using hi
  rw [List.getD_eq_getElem _ _ hi2, List.getElem_map, List.getElem_range]

/-- C19: for a `QueryRefiner` whose current vector has the same length as
`selected`, `addFeedback(selected)` increases the iteration count `n` by one,
uses `alpha = max(0.3, 0.7/(n+1))`, replaces every component `q_i` by
`alpha*q_i + (1-alpha)*selected_i` (the length is kept), and appends `selected`
to the history. -/
theorem addFeedback_spec {α : Type} [LinearOrderedField α] (r : QueryRefiner α)
    (selected : List α) (hl : r.current_query_features.length = selected.length) :
    (r.addFeedback selected).iteration = r.iteration + 1 ∧
    (r.addFeedback selected).feedback_history = r.feedback_history ++ [selected] ∧
    (r.addFeedback selected).getRefinedFeatures.length = r.current_query_features.length ∧
    ∀ i, i < r.current_query_features.length →
      (r.addFeedback selected).getRefinedFeatures.getD i 0
        = max (3 / 10) (7 / 10 / ((r.iteration + 1 : ℕ) : α)) * r.current_query_features.getD i 0
          + (1 - max (3 / 10) (7 / 10 / ((r.iteration + 1 : ℕ) : α))) * selected.getD i 0 := by
  refine ⟨rfl, rfl, ?_, ?_⟩
  · exact refineQueryFeatures_length _ _ _
  · intro i hi
    exact refineQueryFeatures_getD _ _ _ hl i hi

theorem scenarioB_first :
    ((QueryRefiner.new [(1 : ℚ), 0, 0, 0]).addFeedback [0, 1, 0, 0]).getRefinedFeatures
      = [7 / 10, 3 / 10, 0, 0] := by
  norm_num [QueryRefiner.new, QueryRefiner.addFeedback, QueryRefiner.getRefinedFeatures,
    refineQueryFeatures, List.range_succ]

theorem scenarioB_second :
    (((QueryRefiner.new [(1 : ℚ), 0, 0, 0]).addFeedback [0, 1, 0, 0]).addFeedback
      [0, 1, 0, 0]).getRefinedFeatures = [245 / 1000, 755 / 1000, 0, 0] := by
  norm_num [QueryRefiner.new, QueryRefiner.addFeedback, QueryRefiner.getRefinedFeatures,
    refineQueryFeatures, List.range_succ]

/-- Witness for C19 (scenario B): from the initial vector `[1, 0, 0, 0]`,
`addFeedback([0, 1, 0, 0])` gives iteration 1 and `[0.7, 0.3, 0, 0]`; a second
`addFeedback([0, 1, 0, 0])` gives iteration 2 and `[0.245, 0.755, 0, 0]`. -/
theorem addFeedback_spec_witness :
    ((QueryRefiner.new [(1 : ℚ), 0, 0, 0]).addFeedback [0, 1, 0, 0]).iteration = 0 + 1 ∧
    ((QueryRefiner.new [(1 : ℚ), 0, 0, 0]).addFeedback [0, 1, 0, 0]).getRefinedFeatures
      = [7 / 10, 3 / 10, 0, 0] ∧
    (((QueryRefiner.new [(1 : ℚ), 0, 0, 0]).addFeedback [0, 1, 0, 0]).addFeedback
      [0, 1, 0, 0]).iteration = 2 ∧
    (((QueryRefiner.new [(1 : ℚ), 0, 0, 0]).addFeedback [0, 1, 0, 0]).addFeedback
      [0, 1, 0, 0]).getRefinedFeatures = [245 / 1000, 755 / 1000, 0, 0] :=
  ⟨(addFeedback_spec (QueryRefiner.new [(1 : ℚ), 0, 0, 0]) [0, 1, 0, 0] rfl).1,
   scenarioB_first, rfl, scenarioB_second⟩

/-- C20 fails on the code: `reset()` clears the history and the iteration count
but leaves the refined vector in place. After `QueryRefiner([1, 0, 0, 0])`,
`addFeedback([0, 1, 0, 0])` and `reset()`, `getRefinedFeatures()` returns
`[0.7, 0.3, 0, 0]`, not the original `[1, 0, 0, 0]`. -/
theorem reset_keeps_refined_vector :
    (((QueryRefiner.new [(1 : ℚ), 0, 0, 0]).addFeedback [0, 1, 0, 0]).reset).iteration = 0 ∧
    (((QueryRefiner.new [(1 : ℚ), 0, 0, 0]).addFeedback [0, 1, 0, 0]).reset).feedback_history
      = [] ∧
    (((QueryRefiner.new [(1 : ℚ), 0, 0, 0]).addFeedback [0, 1, 0, 0]).reset).getRefinedFeatures
      = [7 / 10, 3 / 10, 0, 0] ∧
    (((QueryRefiner.new [(1 : ℚ), 0, 0, 0]).addFeedback [0, 1, 0, 0]).reset).getRefinedFeatures
      ≠ [1, 0, 0, 0] := by
  have h : (((QueryRefiner.new [(1 : ℚ), 0, 0, 0]).addFeedback
      [0, 1, 0, 0]).reset).getRefinedFeatures = [7 / 10, 3 / 10, 0, 0] := scenarioB_first
  refine ⟨rfl, rfl, h, ?_⟩
  rw [h]
  norm_num

end RefinerClaims

/-! ## Nested loops and counting folds -/

section LoopLemmas

theorem foldl_nested_list {β : Type} (step : β → ℕ → ℕ → β) (l : List ℕ) (cols : ℕ)
    (init : β) :
    l.foldl (fun acc i => (List.range cols).foldl (fun acc j => step acc i j) acc) init
      = (l.flatMap (fun i => (List.range cols).map (fun j => (i, j)))).foldl
          (fun acc p => step acc p.1 p.2) init := by
  induction l generalizing init with
  | nil => rfl
  | cons x xs ih =>
    rw [List.foldl_cons, List.flatMap_cons, List.foldl_append, List.foldl_map, ih]

/-- A nested row/column loop is one pass over `pixelList`. -/
theorem foldl_nested_eq {β : Type} (step : β → ℕ → ℕ → β) (rows cols : ℕ) (init : β) :
    (List.range rows).foldl
        (fun acc i => (List.range cols).foldl (fun acc j => step acc i j) acc) init
      = (pixelList rows cols).foldl (fun acc p => step acc p.1 p.2) init :=
  foldl_nested_list step (List.range rows) cols init

theorem length_pixelList (rows cols : ℕ) : (pixelList rows cols).length = rows * cols := by
  unfold pixelList
  induction rows with
  | zero => simp
  | succ n ih =>
    rw [List.range_succ, List.flatMap_append, List.length_append, ih]
    simp [Nat.succ_mul]

theorem mem_pixelList (rows cols : ℕ) (p : ℕ × ℕ) :
    p ∈ pixelList rows cols ↔ p.1 < rows ∧ p.2 < cols := by
  unfold pixelList
  simp only [List.mem_flatMap, List.mem_range, List.mem_map]
  constructor
  · rintro ⟨i, hi, j, hj, rfl⟩
    exact ⟨hi, hj⟩
  · rintro ⟨h1, h2⟩
    exact ⟨p.1, h1, p.2, h2, rfl⟩

variable {α : Type} [LinearOrderedField α]

theorem sum_modify_succ (h : List α) (k : ℕ) (hk : k < h.length) :
    (h.modify (fun c => c + 1) k).sum = h.sum + 1 := by
  induction h generalizing k with
  | nil => simp at hk
  | cons a as ih =>
    cases k with
    | zero =>
      rw [List.modify_zero_cons, List.sum_cons, List.sum_cons]
      ring
    | succ k =>
      have hk2 : k < as.length := by simpa using hk
      rw [List.modify_succ_cons, List.sum_cons, List.sum_cons, ih k hk2]
      ring

theorem getD_modify_succ (h : List α) (n k : ℕ) (hk : k < h.length) :
    (h.modify (fun c => c + 1) n).getD k 0 = h.getD k 0 + if n = k then 1 else 0 := by
  rw [List.getD_eq_getElem?_getD, List.getD_eq_getElem?_getD, List.getElem?_modify,
    List.getElem?_eq_getElem hk]
  by_cases hnk : n = k
  · simp [hnk]
  · simp [hnk]

/-- Length of a histogram after a counting pass. -/
theorem length_countFold {ι : Type} (idx : ι → ℕ) (l : List ι) (init : List α) :
    (l.foldl (fun h x => h.modify (fun c => c + 1) (idx x)) init).length = init.length := by
  induction l generalizing init with
  | nil => rfl
  | cons x xs ih => rw [List.foldl_cons, ih, List.length_modify]

/-- Sum of a histogram after a counting pass whose indices are all in range. -/
theorem sum_countFold {ι : Type} (idx : ι → ℕ) (l : List ι) (init : List α)
    (hidx : ∀ x ∈ l, idx x < init.length) :
    (l.foldl (fun h x => h.modify (fun c => c + 1) (idx x)) init).sum
      = init.sum + (l.length : α) := by
  induction l generalizing init with
  | nil => simp
  | cons x xs ih =>
    have hx : idx x < init.length := hidx x (List.mem_cons_self x xs)
    rw [List.foldl_cons, ih, sum_modify_succ init (idx x) hx]
    · rw [List.length_cons]
      push_cast
      ring
    · intro y hy
      rw [List.length_modify]
      exact hidx y (List.mem_cons_of_mem x hy)

/-- Entry `k` of a histogram after a counting pass. -/
theorem getD_countFold {ι : Type} (idx : ι → ℕ) (l : List ι) (init : List α) (k : ℕ)
    (hk : k < init.length) :
    (l.foldl (fun h x => h.modify (fun c => c + 1) (idx x)) init).getD k 0
      = init.getD k 0 + ((l.countP (fun x => decide (idx x = k)) : ℕ) : α) := by
  induction l generalizing init with
  | nil => simp
  | cons x xs ih =>
    have hk2 : k < (init.modify (fun c => c + 1) (idx x)).length := by
      rw [List.length_modify]
      exact hk
    rw [List.foldl_cons, ih _ hk2, getD_modify_succ init (idx x) k hk, List.countP_cons]
    by_cases hxk : idx x = k
    · simp [hxk]
      ring
    · simp [hxk]

theorem sum_replicate_zero (n : ℕ) : (List.replicate n (0 : α)).sum = 0 := by
  simp

theorem getD_replicate_zero (n k : ℕ) : (List.replicate n (0 : α)).getD k 0 = 0 := by
  rw [List.getD_eq_getElem?_getD]
  by_cases hk : k < n
  · simp [List.getElem?_replicate, hk]
  · simp [List.getElem?_replicate, hk]

theorem list_ext_getD (l₁ l₂ : List α) (hl : l₁.length = l₂.length)
    (h : ∀ k, k < l₁.length → l₁.getD k 0 = l₂.getD k 0) : l₁ = l₂ := by
  apply List.ext_getElem hl
  intro k h1 h2
  have := h k h1
  rwa [List.getD_eq_getElem _ _ h1, List.getD_eq_getElem _ _ h2] at this

theorem getD_modify_incr (h : List α) (n k : ℕ) (hk : k < h.length) :
    (h.modify floatIncr n).getD k 0
      = if n = k then floatIncr (h.getD k 0) else h.getD k 0 := by
  rw [List.getD_eq_getElem?_getD, List.getD_eq_getElem?_getD, List.getElem?_modify,
    List.getElem?_eq_getElem hk]
  by_cases hnk : n = k
  · simp [hnk]
  · simp [hnk]

/-- Length of a histogram after a pass of `float` increments. -/
theorem length_incrFold {ι : Type} (idx : ι → ℕ) (l : List ι) (init : List α) :
    (l.foldl (fun h x => h.modify floatIncr (idx x)) init).length = init.length := by
  induction l generalizing init with
  | nil => rfl
  | cons x xs ih => rw [List.foldl_cons, ih, List.length_modify]

/-- Entry `k` of a histogram after a pass of `float` increments: the count of
the items of bin `k` on top of the initial integer `m`, stopped at `2^24`. -/
theorem getD_incrFold {ι : Type} (idx : ι → ℕ) (l : List ι) (init : List α) (k m : ℕ)
    (hk : k < init.length) (hm : init.getD k 0 = (m : α)) (hm24 : m ≤ 2 ^ 24) :
    (l.foldl (fun h x => h.modify floatIncr (idx x)) init).getD k 0
      = ((min (m + l.countP (fun x => decide (idx x = k))) (2 ^ 24) : ℕ) : α) := by
  induction l generalizing init m with
  | nil =>
    simp only [List.foldl_nil, List.countP_nil, add_zero]
    rw [hm, min_eq_left hm24]
  | cons x xs ih =>
    have hk2 : k < (init.modify floatIncr (idx x)).length := by
      rw [List.length_modify]
      exact hk
    rw [List.foldl_cons, List.countP_cons]
    by_cases hxk : idx x = k
    · have hnew : (init.modify floatIncr (idx x)).getD k 0
          = ((min (m + 1) (2 ^ 24) : ℕ) : α) := by
        rw [getD_modify_incr init (idx x) k hk, if_pos hxk, hm, floatIncr_natCast m hm24]
      rw [ih _ (min (m + 1) (2 ^ 24)) hk2 hnew (min_le_right _ _)]
      simp only [hxk, decide_True, if_true]
      congr 1
      omega
    · have hnew : (init.modify floatIncr (idx x)).getD k 0 = (m : α) := by
        rw [getD_modify_incr init (idx x) k hk, if_neg hxk, hm]
      rw [ih _ m hk2 hnew hm24]
      simp [hxk]

/-- A pass of `float` increments from an all-zero histogram in which no bin
receives more than `2^24` items is the exact counting pass. -/
theorem incrFold_eq_countFold {ι : Type} (idx : ι → ℕ) (l : List ι) (n : ℕ)
    (hsmall : ∀ k, k < n → l.countP (fun x => decide (idx x = k)) ≤ 2 ^ 24) :
    l.foldl (fun h x => h.modify floatIncr (idx x)) (List.replicate n (0 : α))
      = l.foldl (fun h x => h.modify (fun c => c + 1) (idx x)) (List.replicate n (0 : α)) := by
  apply list_ext_getD
  · rw [length_incrFold, length_countFold]
  · intro k hk
    rw [length_incrFold, List.length_replicate] at hk
    rw [getD_incrFold idx l _ k 0 (by simpa using hk) (by rw [getD_replicate_zero]; simp)
        (Nat.zero_le _),
      getD_countFold idx l _ k (by simpa using hk), getD_replicate_zero, zero_add, zero_add,
      min_eq_left (hsmall k hk)]

end LoopLemmas

/-! ## The RGB histogram as a count -/

section RgbLemmas

variable {α : Type} [LinearOrderedField α]

theorem rgbHistogram_eq_incrFold (image : Mat) (bins : ℕ) :
    (extractRGBHistogram image bins : List α)
      = (pixelList image.rows image.cols).foldl
          (fun h p => h.modify floatIncr (rgbBinIndex (image.pixel p.1 p.2) bins))
          (List.replicate (bins * bins * bins) 0) := by
  unfold extractRGBHistogram
  exact foldl_nested_eq
    (fun (h : List α) i j => h.modify floatIncr (rgbBinIndex (image.pixel i j) bins))
    image.rows image.cols _

/-- When no bin receives more than `2^24` pixels, the histogram is the exact
counting pass. -/
theorem rgbHistogram_eq_countFold (image : Mat) (bins : ℕ)
    (hsmall : ∀ k, k < bins * bins * bins →
      (pixelList image.rows image.cols).countP
        (fun p => decide (rgbBinIndex (image.pixel p.1 p.2) bins = k)) ≤ 2 ^ 24) :
    (extractRGBHistogram image bins : List α)
      = (pixelList image.rows image.cols).foldl
          (fun h p => h.modify (fun c => c + 1) (rgbBinIndex (image.pixel p.1 p.2) bins))
          (List.replicate (bins * bins * bins) 0) := by
  rw [rgbHistogram_eq_incrFold]
  exact incrFold_eq_countFold (fun p : ℕ × ℕ => rgbBinIndex (image.pixel p.1 p.2) bins) _ _
    hsmall

theorem countP_le_pixels (rows cols : ℕ) (q : ℕ × ℕ → Bool) :
    (pixelList rows cols).countP q ≤ rows * cols := by
  rw [← length_pixelList rows cols]
  exact List.countP_le_length q

theorem rgbBinIndex_lt (pixel : Vec3b) (bins : ℕ) (hB : 1 ≤ bins) :
    rgbBinIndex pixel bins < bins * bins * bins := by
  obtain ⟨b, rfl⟩ : ∃ b, bins = b + 1 := ⟨bins - 1, by omega⟩
  unfold rgbBinIndex
  simp only [Nat.add_sub_cancel]
  have h0 : min (pixel.c0.val * (b + 1) / 256) b ≤ b := min_le_right _ _
  have h1 : min (pixel.c1.val * (b + 1) / 256) b ≤ b := min_le_right _ _
  have h2 : min (pixel.c2.val * (b + 1) / 256) b ≤ b := min_le_right _ _
  have h3 : min (pixel.c2.val * (b + 1) / 256) b * (b + 1) * (b + 1) ≤ b * (b + 1) * (b + 1) :=
    Nat.mul_le_mul_right _ (Nat.mul_le_mul_right _ h2)
  have h4 : min (pixel.c1.val * (b + 1) / 256) b * (b + 1) ≤ b * (b + 1) :=
    Nat.mul_le_mul_right _ h1
  have h5 : b * (b + 1) * (b + 1) + b * (b + 1) + b < (b + 1) * (b + 1) * (b + 1) := by
    ring_nf
    omega
  omega

theorem length_rgbHistogram (image : Mat) (bins : ℕ) :
    (extractRGBHistogram image bins : List α).length = bins * bins * bins := by
  rw [rgbHistogram_eq_incrFold, length_incrFold, List.length_replicate]

theorem sum_rgbHistogram (image : Mat) (bins : ℕ) (hB : 1 ≤ bins)
    (hsmall : ∀ k, k < bins * bins * bins →
      (pixelList image.rows image.cols).countP
        (fun p => decide (rgbBinIndex (image.pixel p.1 p.2) bins = k)) ≤ 2 ^ 24) :
    (extractRGBHistogram image bins : List α).sum = ((image.rows * image.cols : ℕ) : α) := by
  rw [rgbHistogram_eq_countFold image bins hsmall, sum_countFold, sum_replicate_zero,
    length_pixelList, zero_add]
  intro p _
  rw [List.length_replicate]
  exact rgbBinIndex_lt _ _ hB

theorem getD_rgbHistogram (image : Mat) (bins k : ℕ) (hk : k < bins * bins * bins) :
    (extractRGBHistogram image bins : List α).getD k 0
      = ((min ((pixelList image.rows image.cols).countP
          (fun p => decide (rgbBinIndex (image.pixel p.1 p.2) bins = k))) (2 ^ 24) : ℕ) : α) := by
  rw [rgbHistogram_eq_incrFold,
    getD_incrFold _ _ _ k 0 (by simpa using hk) (by rw [getD_replicate_zero]; simp)
      (Nat.zero_le _), zero_add]

theorem countP_uniform (image : Mat) (bins k : ℕ) (c : Vec3b)
    (hc : ∀ i j, i < image.rows → j < image.cols → image.pixel i j = c) :
    (pixelList image.rows image.cols).countP
        (fun p => decide (rgbBinIndex (image.pixel p.1 p.2) bins = k))
      = if rgbBinIndex c bins = k then image.rows * image.cols else 0 := by
  by_cases hk : rgbBinIndex c bins = k
  · rw [if_pos hk, ← length_pixelList image.rows image.cols, List.countP_eq_length]
    intro p hp
    rw [mem_pixelList] at hp
    rw [hc p.1 p.2 hp.1 hp.2]
    simpa using hk
  · rw [if_neg hk, List.countP_eq_zero]
    intro p hp
    rw [mem_pixelList] at hp
    rw [hc p.1 p.2 hp.1 hp.2]
    simpa using hk

end RgbLemmas

/-! ## Claims about the colour histograms -/

section HistogramClaims

/-- C12, as stated, fails on images with more than `2^24` pixels in one bin:
the all-black 4097x4097 image with one bin per channel has
`4097*4097 = 16785409` pixels, all in bin `0`, and the `float` counter of that
bin stops at `2^24 = 16777216`, so the entries sum to `16777216`. -/
theorem rgbHistogram_sum_saturates :
    (extractRGBHistogram (blackImage 4097 4097) 1 : List ℚ) = [16777216] ∧
    (extractRGBHistogram (blackImage 4097 4097) 1 : List ℚ).sum = 16777216 ∧
    (((blackImage 4097 4097).rows * (blackImage 4097 4097).cols : ℕ) : ℚ) = 16785409 ∧
    (extractRGBHistogram (blackImage 4097 4097) 1 : List ℚ).sum
      ≠ (((blackImage 4097 4097).rows * (blackImage 4097 4097).cols : ℕ) : ℚ) := by
  have hl : (extractRGBHistogram (blackImage 4097 4097) 1 : List ℚ) = [16777216] := by
    apply list_ext_getD
    · rw [length_rgbHistogram]
      rfl
    · intro k hk
      rw [length_rgbHistogram] at hk
      have hk0 : k = 0 := by omega
      subst hk0
      rw [getD_rgbHistogram _ _ 0 (by decide),
        countP_uniform (blackImage 4097 4097) 1 0 ⟨0, 0, 0⟩ (fun _ _ _ _ => rfl)]
      have hidx : rgbBinIndex ⟨0, 0, 0⟩ 1 = 0 := by decide
      rw [if_pos hidx]
      simp only [blackImage, List.getD_cons_zero]
      norm_num
  have hn : (((blackImage 4097 4097).rows * (blackImage 4097 4097).cols : ℕ) : ℚ)
      = 16785409 := by
    simp only [blackImage]
    norm_num
  refine ⟨hl, ?_, hn, ?_⟩
  · rw [hl]
    norm_num
  · rw [hl, hn]
    norm_num

/-- C12 (amended): for every 3-channel 8-bit image and every bin count `B >= 1`
with `B^3 < 2^31`, `extractRGBHistogram(image, B)` has length `B^3`, the bin
index of every pixel is below `B^3`, and entry `k` is the number of pixels of
bin `k`, stopped at `2^24`. When no bin receives more than `2^24` pixels, in
particular when `rows*cols <= 2^24`, the entries sum to `rows*cols`. -/
theorem rgbHistogram_length_and_sum {α : Type} [LinearOrderedField α] (image : Mat) (B : ℕ)
    (hB : 1 ≤ B) (_hB31 : B ^ 3 < 2 ^ 31) :
    (extractRGBHistogram image B : List α).length = B ^ 3 ∧
    (∀ i j, rgbBinIndex (image.pixel i j) B < B ^ 3) ∧
    (∀ k, k < B ^ 3 →
      (extractRGBHistogram image B : List α).getD k 0
        = ((min ((pixelList image.rows image.cols).countP
            (fun p => decide (rgbBinIndex (image.pixel p.1 p.2) B = k))) (2 ^ 24) : ℕ) : α)) ∧
    ((∀ k, k < B ^ 3 →
        (pixelList image.rows image.cols).countP
          (fun p => decide (rgbBinIndex (image.pixel p.1 p.2) B = k)) ≤ 2 ^ 24) →
      (extractRGBHistogram image B : List α).sum = ((image.rows * image.cols : ℕ) : α)) ∧
    (image.rows * image.cols ≤ 2 ^ 24 →
      (extractRGBHistogram image B : List α).sum = ((image.rows * image.cols : ℕ) : α)) := by
  have h3 : B ^ 3 = B * B * B := by ring
  rw [h3]
  refine ⟨length_rgbHistogram image B, fun i j => rgbBinIndex_lt _ _ hB,
    fun k hk => getD_rgbHistogram image B k hk, fun hsmall => sum_rgbHistogram image B hB hsmall,
    fun hpix => sum_rgbHistogram image B hB
      (fun k _ => le_trans (countP_le_pixels _ _ _) hpix)⟩

/-- Witness for C12 (amended) at the 2x2 pure-red image with 2 bins per
channel. -/
theorem rgbHistogram_length_and_sum_witness :
    (extractRGBHistogram redImage2x2 2 : List ℚ).length = 2 ^ 3 ∧
    (extractRGBHistogram redImage2x2 2 : List ℚ).sum = ((2 * 2 : ℕ) : ℚ) :=
  have h := @rgbHistogram_length_and_sum ℚ _ redImage2x2 2 (by decide) (by decide)
  ⟨h.1, h.2.2.2.2 (by decide)⟩

/-- C13, as stated, fails on a one-colour image with more than `2^24` pixels:
the all-black 4097x4097 image with 2 bins per channel has all its
`16785409` pixels in bin `0`, whose `float` counter stops at `16777216`. -/
theorem rgbHistogram_uniform_saturates :
    rgbBinIndex ⟨0, 0, 0⟩ 2 = 0 ∧
    (extractRGBHistogram (blackImage 4097 4097) 2 : List ℚ).getD (rgbBinIndex ⟨0, 0, 0⟩ 2) 0
      = 16777216 ∧
    (extractRGBHistogram (blackImage 4097 4097) 2 : List ℚ).getD (rgbBinIndex ⟨0, 0, 0⟩ 2) 0
      ≠ (((blackImage 4097 4097).rows * (blackImage 4097 4097).cols : ℕ) : ℚ) := by
  have hidx : rgbBinIndex ⟨0, 0, 0⟩ 2 = 0 := by decide
  have hv : (extractRGBHistogram (blackImage 4097 4097) 2 : List ℚ).getD
      (rgbBinIndex ⟨0, 0, 0⟩ 2) 0 = 16777216 := by
    rw [hidx, getD_rgbHistogram _ _ 0 (by decide),
      countP_uniform (blackImage 4097 4097) 2 0 ⟨0, 0, 0⟩ (fun _ _ _ _ => rfl), if_pos hidx]
    simp only [blackImage]
    norm_num
  refine ⟨hidx, hv, ?_⟩
  rw [hv]
  simp only [blackImage]
  norm_num

/-- C13 (amended): for `B^3 < 2^31`, `extractRGBHistogram` counts each pixel in
the bin with joint index `r_bin*B^2 + g_bin*B + b_bin`, each channel bin being
`value*B/256` (integer quotient) clamped to `B-1`: entry `k < B^3` is the number
of pixels whose index is `k`, stopped at `2^24`. Hence, for `B >= 1` and an
image whose pixels all have the colour `c`, the bin of `c` holds
`min(rows*cols, 2^24)`, which is `rows*cols` when `rows*cols <= 2^24`, and every
other bin holds `0`. -/
theorem rgbHistogram_bins {α : Type} [LinearOrderedField α] (image : Mat) (B : ℕ)
    (_hB31 : B ^ 3 < 2 ^ 31) :
    (∀ p : Vec3b, rgbBinIndex p B
      = min (p.c2.val * B / 256) (B - 1) * B ^ 2 + min (p.c1.val * B / 256) (B - 1) * B
        + min (p.c0.val * B / 256) (B - 1)) ∧
    (∀ k, k < B ^ 3 →
      (extractRGBHistogram image B : List α).getD k 0
        = ((min ((pixelList image.rows image.cols).countP
            (fun p => decide (rgbBinIndex (image.pixel p.1 p.2) B = k))) (2 ^ 24) : ℕ) : α)) ∧
    (∀ c : Vec3b, 1 ≤ B →
      (∀ i j, i < image.rows → j < image.cols → image.pixel i j = c) →
      rgbBinIndex c B < B ^ 3 ∧
      (extractRGBHistogram image B : List α).getD (rgbBinIndex c B) 0
        = ((min (image.rows * image.cols) (2 ^ 24) : ℕ) : α) ∧
      (image.rows * image.cols ≤ 2 ^ 24 →
        (extractRGBHistogram image B : List α).getD (rgbBinIndex c B) 0
          = ((image.rows * image.cols : ℕ) : α)) ∧
      ∀ k, k < B ^ 3 → k ≠ rgbBinIndex c B →
        (extractRGBHistogram image B : List α).getD k 0 = 0) := by
  have h3 : B ^ 3 = B * B * B := by ring
  refine ⟨fun p => ?_, fun k hk => ?_, fun c hB hc => ⟨?_, ?_, fun hpix => ?_,
    fun k hk hne => ?_⟩⟩
  · unfold rgbBinIndex
    simp only
    ring
  · exact getD_rgbHistogram image B k (by rw [← h3]; exact hk)
  · rw [h3]
    exact rgbBinIndex_lt c B hB
  · rw [getD_rgbHistogram image B _ (rgbBinIndex_lt c B hB), countP_uniform image B _ c hc,
      if_pos rfl]
  · rw [getD_rgbHistogram image B _ (rgbBinIndex_lt c B hB), countP_uniform image B _ c hc,
      if_pos rfl, min_eq_left hpix]
  · rw [getD_rgbHistogram image B k (by rw [← h3]; exact hk), countP_uniform image B k c hc,
      if_neg (fun h => hne h.symm)]
    simp

theorem rgbBinIndex_red : rgbBinIndex ⟨0, 0, 255⟩ 2 = 4 := by
  decide

theorem rgbHistogram_red2x2 :
    (extractRGBHistogram redImage2x2 2 : List ℚ) = [0, 0, 0, 0, 4, 0, 0, 0] := by
  have h255 : ((255 : Fin 256) : ℕ) = 255 := rfl
  norm_num [extractRGBHistogram, redImage2x2, List.replicate, List.range_succ, h255, floatIncr]

/-- Witness for C13 (scenario A): the 2x2 image of `(R=255, G=0, B=0)` with 2
bins per channel gives the 8-element histogram with `4` at index `4` and `0`
elsewhere. -/
theorem rgbHistogram_bins_witness :
    rgbBinIndex ⟨0, 0, 255⟩ 2 = 4 ∧
    (extractRGBHistogram redImage2x2 2 : List ℚ).getD (rgbBinIndex ⟨0, 0, 255⟩ 2) 0
      = ((2 * 2 : ℕ) : ℚ) ∧
    (∀ k, k < 2 ^ 3 → k ≠ rgbBinIndex ⟨0, 0, 255⟩ 2 →
      (extractRGBHistogram redImage2x2 2 : List ℚ).getD k 0 = 0) ∧
    (extractRGBHistogram redImage2x2 2 : List ℚ) = [0, 0, 0, 0, 4, 0, 0, 0] :=
  have h := (@rgbHistogram_bins ℚ _ redImage2x2 2 (by decide)).2.2 ⟨0, 0, 255⟩ (by decide)
    (fun _ _ _ _ => rfl)
  ⟨rgbBinIndex_red, h.2.2.1 (by decide), h.2.2.2, rgbHistogram_red2x2⟩

end HistogramClaims

/-! ## The baseline patch -/

section BaselineLemmas

theorem foldl_append_ite {β ι : Type} (c : ι → Prop) [DecidablePred c] (g : ι → List β)
    (l : List ι) (init : List β) :
    l.foldl (fun acc x => if c x then acc ++ g x else acc) init
      = init ++ l.flatMap (fun x => if c x then g x else []) := by
  induction l generalizing init with
  | nil => simp
  | cons x xs ih =>
    rw [List.foldl_cons, ih, List.flatMap_cons]
    by_cases hx : c x
    · simp [hx]
    · simp [hx]

theorem foldl_append_flatMap {β ι : Type} (g : ι → List β) (l : List ι) (init : List β) :
    l.foldl (fun acc x => acc ++ g x) init = init ++ l.flatMap g := by
  induction l generalizing init with
  | nil => simp
  | cons x xs ih => rw [List.foldl_cons, ih, List.flatMap_cons, List.append_assoc]

theorem flatMap_ite_eq {β ι : Type} (c : ι → Prop) [DecidablePred c] (f : ι → ℕ)
    (G : ℕ → List β) (l : List ι) :
    l.flatMap (fun x => if c x then G (f x) else [])
      = ((l.filter (fun x => decide (c x))).map f).flatMap G := by
  induction l with
  | nil => rfl
  | cons x xs ih =>
    rw [List.flatMap_cons, ih]
    by_cases hx : c x
    · simp [hx]
    · simp [hx]

theorem flatMap_and_ite {β ι : Type} (r : Prop) [Decidable r] (c : ι → Prop) [DecidablePred c]
    (g : ι → List β) (l : List ι) :
    l.flatMap (fun x => if r ∧ c x then g x else [])
      = if r then l.flatMap (fun x => if c x then g x else []) else [] := by
  by_cases hr : r
  · simp [hr]
  · simp [hr]

theorem filter_range_interval (n lo hi : ℕ) :
    (List.range n).filter (fun i => decide (lo ≤ i ∧ i ≤ hi))
      = List.range' lo (min n (hi + 1) - lo) := by
  induction n with
  | zero => simp
  | succ n ih =>
    rw [List.range_succ, List.filter_append, ih]
    by_cases h : lo ≤ n ∧ n ≤ hi
    · have h1 : min (n + 1) (hi + 1) - lo = (min n (hi + 1) - lo) + 1 := by omega
      have h2 : lo + 1 * (min n (hi + 1) - lo) = n := by omega
      rw [h1, List.range'_concat, h2]
      simp [h]
    · have h1 : min (n + 1) (hi + 1) - lo = min n (hi + 1) - lo := by omega
      rw [h1]
      simp [h]

theorem windowIndices_eq_range' (n : ℕ) :
    windowIndices n = List.range' (n / 2 - 3) (min n 7) := by
  unfold windowIndices
  have h : (fun i => decide (n / 2 ≤ i + 3 ∧ i ≤ n / 2 + 3))
      = (fun i => decide (n / 2 - 3 ≤ i ∧ i ≤ n / 2 + 3)) := by
    funext i
    congr 1
    apply propext
    omega
  rw [h, filter_range_interval]
  congr 1
  omega

theorem length_windowIndices (n : ℕ) : (windowIndices n).length = min n 7 := by
  rw [windowIndices_eq_range', List.length_range']

/-- The seven window offsets around the centre `n / 2`, with the out-of-bounds
ones dropped, are the in-bounds window indices. -/
theorem window_list (n : ℕ) :
    ((List.range 7).filter
        (fun d : ℕ => decide (0 ≤ (n : Int) / 2 - 3 + (d : Int) ∧
          (n : Int) / 2 - 3 + (d : Int) < (n : Int)))).map
        (fun d : ℕ => ((n : Int) / 2 - 3 + (d : Int)).toNat)
      = windowIndices n := by
  by_cases hn : n < 7
  · interval_cases n <;> decide
  · have h7 : 7 ≤ n := not_lt.1 hn
    rw [windowIndices_eq_range']
    have hall : (List.range 7).filter
        (fun d : ℕ => decide (0 ≤ (n : Int) / 2 - 3 + (d : Int) ∧
          (n : Int) / 2 - 3 + (d : Int) < (n : Int))) = List.range 7 := by
      rw [List.filter_eq_self]
      intro d hd
      rw [List.mem_range] at hd
      simp only [decide_eq_true_eq]
      omega
    rw [hall, min_eq_right h7, List.range'_eq_map_range]
    apply List.map_congr_left
    intro d hd
    rw [List.mem_range] at hd
    omega

theorem window_flatMap {β : Type} (n : ℕ) (G : ℕ → List β) :
    (List.range 7).flatMap
        (fun d : ℕ => if 0 ≤ (n : Int) / 2 - 3 + (d : Int) ∧
            (n : Int) / 2 - 3 + (d : Int) < (n : Int)
          then G ((n : Int) / 2 - 3 + (d : Int)).toNat else [])
      = (windowIndices n).flatMap G := by
  rw [flatMap_ite_eq (fun d : ℕ => 0 ≤ (n : Int) / 2 - 3 + (d : Int) ∧
    (n : Int) / 2 - 3 + (d : Int) < (n : Int))
    (fun d : ℕ => ((n : Int) / 2 - 3 + (d : Int)).toNat) G, window_list]

theorem length_flatMap_const {β ι : Type} (f : ι → List β) (k : ℕ) (l : List ι)
    (hf : ∀ x, (f x).length = k) : (l.flatMap f).length = l.length * k := by
  induction l with
  | nil => simp
  | cons x xs ih =>
    rw [List.flatMap_cons, List.length_append, ih, hf, List.length_cons]
    ring

variable {α : Type} [LinearOrderedField α]

theorem baseline_eq_window (image : Mat) :
    (extractBaselineFeature image : List α) = baselineWindowFlatten image := by
  unfold extractBaselineFeature baselineWindowFlatten
  simp only
  have hinner : ∀ (feature : List α) (di : ℕ),
      (List.range 7).foldl
        (fun feature (dj : ℕ) =>
          if 0 ≤ (image.rows : Int) / 2 - 3 + (di : Int) ∧
              (image.rows : Int) / 2 - 3 + (di : Int) < (image.rows : Int) ∧
              0 ≤ (image.cols : Int) / 2 - 3 + (dj : Int) ∧
              (image.cols : Int) / 2 - 3 + (dj : Int) < (image.cols : Int) then
            feature ++
              [(((image.pixel ((image.rows : Int) / 2 - 3 + (di : Int)).toNat
                  ((image.cols : Int) / 2 - 3 + (dj : Int)).toNat).c0.val : ℕ) : α),
                (((image.pixel ((image.rows : Int) / 2 - 3 + (di : Int)).toNat
                  ((image.cols : Int) / 2 - 3 + (dj : Int)).toNat).c1.val : ℕ) : α),
                (((image.pixel ((image.rows : Int) / 2 - 3 + (di : Int)).toNat
                  ((image.cols : Int) / 2 - 3 + (dj : Int)).toNat).c2.val : ℕ) : α)]
          else feature)
        feature
      = feature ++
          (if 0 ≤ (image.rows : Int) / 2 - 3 + (di : Int) ∧
              (image.rows : Int) / 2 - 3 + (di : Int) < (image.rows : Int) then
            (fun i => (windowIndices image.cols).flatMap (fun j =>
              [(((image.pixel i j).c0.val : ℕ) : α), (((image.pixel i j).c1.val : ℕ) : α),
                (((image.pixel i j).c2.val : ℕ) : α)]))
              ((image.rows : Int) / 2 - 3 + (di : Int)).toNat
          else []) := by
    intro feature di
    rw [foldl_append_ite
      (fun dj : ℕ => 0 ≤ (image.rows : Int) / 2 - 3 + (di : Int) ∧
        (image.rows : Int) / 2 - 3 + (di : Int) < (image.rows : Int) ∧
        0 ≤ (image.cols : Int) / 2 - 3 + (dj : Int) ∧
        (image.cols : Int) / 2 - 3 + (dj : Int) < (image.cols : Int))]
    congr 1
    by_cases hr : 0 ≤ (image.rows : Int) / 2 - 3 + (di : Int) ∧
        (image.rows : Int) / 2 - 3 + (di : Int) < (image.rows : Int)
    · rw [if_pos hr]
      simp only [hr, true_and]
      exact window_flatMap image.cols
        (fun j => [(((image.pixel ((image.rows : Int) / 2 - 3 + (di : Int)).toNat j).c0.val : ℕ) : α),
          (((image.pixel ((image.rows : Int) / 2 - 3 + (di : Int)).toNat j).c1.val : ℕ) : α),
          (((image.pixel ((image.rows : Int) / 2 - 3 + (di : Int)).toNat j).c2.val : ℕ) : α)])
    · rw [if_neg hr]
      have hfalse : ∀ dj : ℕ, ¬ (0 ≤ (image.rows : Int) / 2 - 3 + (di : Int) ∧
          (image.rows : Int) / 2 - 3 + (di : Int) < (image.rows : Int) ∧
          0 ≤ (image.cols : Int) / 2 - 3 + (dj : Int) ∧
          (image.cols : Int) / 2 - 3 + (dj : Int) < (image.cols : Int)) := by
        intro dj h
        exact hr ⟨h.1, h.2.1⟩
      simp [hfalse]
  simp only [hinner]
  rw [foldl_append_flatMap, List.nil_append]
  exact window_flatMap image.rows
    (fun i => (windowIndices image.cols).flatMap (fun j =>
      [(((image.pixel i j).c0.val : ℕ) : α), (((image.pixel i j).c1.val : ℕ) : α),
        (((image.pixel i j).c2.val : ℕ) : α)]))

theorem length_baselineWindowFlatten (image : Mat) :
    (baselineWindowFlatten image : List α).length
      = 3 * min image.rows 7 * min image.cols 7 := by
  unfold baselineWindowFlatten
  rw [length_flatMap_const _ (min image.cols 7 * 3), length_windowIndices]
  · ring
  · intro i
    rw [length_flatMap_const _ 3, length_windowIndices]
    intro j
    rfl

end BaselineLemmas

/-- C15: `extractBaselineFeature` returns the channel-interleaved, row-major
flattening of the in-bounds part of the 7x7 window centred at
`(rows/2, cols/2)`; its length is `3*min(rows,7)*min(cols,7)`, which is `147`
exactly when `rows >= 7` and `cols >= 7` and smaller otherwise. -/
theorem baseline_patch {α : Type} [LinearOrderedField α] (image : Mat) :
    (extractBaselineFeature image : List α) = baselineWindowFlatten image ∧
    (extractBaselineFeature image : List α).length
      = 3 * min image.rows 7 * min image.cols 7 ∧
    ((extractBaselineFeature image : List α).length = 147 ↔
      7 ≤ image.rows ∧ 7 ≤ image.cols) ∧
    (¬ (7 ≤ image.rows ∧ 7 ≤ image.cols) →
      (extractBaselineFeature image : List α).length < 147) := by
  have hlen : (extractBaselineFeature image : List α).length
      = 3 * min image.rows 7 * min image.cols 7 := by
    rw [baseline_eq_window, length_baselineWindowFlatten]
  have hr : min image.rows 7 ≤ 7 := min_le_right _ _
  have hc : min image.cols 7 ≤ 7 := min_le_right _ _
  have hsmall : ¬ (7 ≤ image.rows ∧ 7 ≤ image.cols) →
      3 * min image.rows 7 * min image.cols 7 < 147 := by
    intro h
    by_cases h1 : 7 ≤ image.rows
    · have h2 : min image.cols 7 ≤ 6 := by
        have : ¬ 7 ≤ image.cols := fun h2 => h ⟨h1, h2⟩
        omega
      have h3 : min image.rows 7 * min image.cols 7 ≤ 7 * 6 := Nat.mul_le_mul hr h2
      rw [Nat.mul_assoc]
      omega
    · have h2 : min image.rows 7 ≤ 6 := by omega
      have h3 : min image.rows 7 * min image.cols 7 ≤ 6 * 7 := Nat.mul_le_mul h2 hc
      rw [Nat.mul_assoc]
      omega
  refine ⟨baseline_eq_window image, hlen, ⟨fun h => ?_, fun h => ?_⟩, fun h => ?_⟩
  · by_contra hne
    have := hsmall hne
    omega
  · rw [hlen, min_eq_right h.1, min_eq_right h.2]
  · rw [hlen]
    exact hsmall h

/-- Witness for C15: a 3x2 image gives `3*3*2 = 18` samples, fewer than `147`. -/
theorem baseline_patch_witness :
    ¬ (7 ≤ (blackImage 3 2).rows ∧ 7 ≤ (blackImage 3 2).cols) ∧
    (extractBaselineFeature (blackImage 3 2) : List ℚ).length = 18 ∧
    (extractBaselineFeature (blackImage 3 2) : List ℚ).length < 147 :=
  have hno : ¬ (7 ≤ (blackImage 3 2).rows ∧ 7 ≤ (blackImage 3 2).cols) := by
    decide
  ⟨hno, (@baseline_patch ℚ _ (blackImage 3 2)).2.1,
   (@baseline_patch ℚ _ (blackImage 3 2)).2.2.2 hno⟩

/-! ## The co-occurrence matrix as a table of counts -/

section CooccurrenceLemmas

variable {α : Type} [LinearOrderedField α]

theorem quantizedLevel_nonneg (matDiv : Int → Int → Int) (gray : GrayMat) (i j : ℕ) :
    0 ≤ quantizedLevel matDiv gray i j := by
  unfold quantizedLevel
  simp only
  omega

theorem quantizedLevel_lt (matDiv : Int → Int → Int) (gray : GrayMat) (i j : ℕ) :
    quantizedLevel matDiv gray i j < 16 := by
  unfold quantizedLevel
  simp only
  omega

/-- Entry `(a, b)` after a pass of guarded `float` increments: the count of
the items of cell `(a, b)` on top of the initial integer `m`, stopped at
`2^24`. -/
theorem elem_incrementFold {ι : Type} (c : ι → Bool) (f g : ι → ℕ) (l : List ι)
    (init : MatF α) (a b m : ℕ) (hm : init.elem a b = (m : α)) (hm24 : m ≤ 2 ^ 24) :
    (l.foldl (fun M x => if c x = true then M.increment (f x) (g x) else M) init).elem a b
      = ((min (m + l.countP (fun x => c x && decide (f x = a ∧ g x = b))) (2 ^ 24) : ℕ) : α) := by
  induction l generalizing init m with
  | nil =>
    simp only [List.foldl_nil, List.countP_nil, add_zero]
    rw [hm, min_eq_left hm24]
  | cons x xs ih =>
    rw [List.foldl_cons, List.countP_cons]
    by_cases hc : c x = true
    · by_cases hab : f x = a ∧ g x = b
      · have hnew : (init.increment (f x) (g x)).elem a b
            = ((min (m + 1) (2 ^ 24) : ℕ) : α) := by
          unfold MatF.increment
          simp only
          rw [if_pos ⟨hab.1.symm, hab.2.symm⟩, hm, floatIncr_natCast m hm24]
        rw [if_pos hc, ih _ (min (m + 1) (2 ^ 24)) hnew (min_le_right _ _)]
        simp only [hc, hab, and_self, decide_True, Bool.and_self, if_true]
        congr 1
        omega
      · have hab2 : ¬ (a = f x ∧ b = g x) := fun h => hab ⟨h.1.symm, h.2.symm⟩
        have hnew : (init.increment (f x) (g x)).elem a b = (m : α) := by
          unfold MatF.increment
          simp only
          rw [if_neg hab2, hm]
        rw [if_pos hc, ih _ m hnew hm24]
        simp [hc, hab]
    · rw [if_neg hc, ih _ m hm hm24]
      simp [hc]

theorem rows_incrementFold {ι : Type} (c : ι → Bool) (f g : ι → ℕ) (l : List ι)
    (init : MatF α) :
    (l.foldl (fun m x => if c x = true then m.increment (f x) (g x) else m) init).rows
        = init.rows ∧
    (l.foldl (fun m x => if c x = true then m.increment (f x) (g x) else m) init).cols
        = init.cols := by
  induction l generalizing init with
  | nil => exact ⟨rfl, rfl⟩
  | cons x xs ih =>
    rw [List.foldl_cons]
    by_cases hc : c x = true
    · simp only [hc, if_true]
      exact ih (init.increment (f x) (g x))
    · simp only [hc]
      exact ih init

theorem sum_ite_pair (A B i j : ℕ) (hi : i < A) (hj : j < B) :
    ∑ a ∈ Finset.range A, ∑ b ∈ Finset.range B, (if i = a ∧ j = b then 1 else 0) = 1 := by
  rw [Finset.sum_eq_single i]
  · rw [Finset.sum_eq_single j]
    · simp
    · intro b _ hb
      simp [Ne.symm hb]
    · intro h
      exact absurd (Finset.mem_range.2 hj) h
  · intro a _ ha
    apply Finset.sum_eq_zero
    intro b _
    simp [Ne.symm ha]
  · intro h
    exact absurd (Finset.mem_range.2 hi) h

/-- The counts of all cells add up to the number of counted items. -/
theorem sum_countP_cells {ι : Type} (c : ι → Bool) (f g : ι → ℕ) (A B : ℕ) (l : List ι)
    (hf : ∀ x, f x < A) (hg : ∀ x, g x < B) :
    ∑ a ∈ Finset.range A, ∑ b ∈ Finset.range B,
        l.countP (fun x => c x && decide (f x = a ∧ g x = b))
      = l.countP c := by
  induction l with
  | nil => simp
  | cons x xs ih =>
    simp only [List.countP_cons, Finset.sum_add_distrib, ih]
    congr 1
    by_cases hc : c x = true
    · simp only [hc, Bool.true_and, decide_eq_true_eq, if_true]
      exact sum_ite_pair A B (f x) (g x) (hf x) (hg x)
    · simp [hc]

theorem sum_pixelList_list (g : ℕ → ℕ → α) (l : List ℕ) (cols : ℕ) :
    ((l.flatMap (fun i => (List.range cols).map (fun j => (i, j)))).map
        (fun p => g p.1 p.2)).sum
      = (l.map (fun i => ∑ j ∈ Finset.range cols, g i j)).sum := by
  induction l with
  | nil => simp
  | cons x xs ih =>
    rw [List.flatMap_cons, List.map_append, List.sum_append, ih, List.map_cons, List.sum_cons,
      List.map_map]
    congr 1

theorem sum_map_range (g : ℕ → α) (n : ℕ) :
    ((List.range n).map g).sum = ∑ i ∈ Finset.range n, g i := by
  rw [← foldl_range_eq, foldl_add_zero_eq]

theorem sum_pixelList (g : ℕ → ℕ → α) (rows cols : ℕ) :
    ((pixelList rows cols).map (fun p => g p.1 p.2)).sum
      = ∑ i ∈ Finset.range rows, ∑ j ∈ Finset.range cols, g i j := by
  unfold pixelList
  rw [sum_pixelList_list, sum_map_range]

/-- `cv::sum` as a double sum. -/
theorem MatF_sum_eq (m : MatF α) :
    m.sum = ∑ i ∈ Finset.range m.rows, ∑ j ∈ Finset.range m.cols, m.elem i j := by
  unfold MatF.sum
  rw [foldl_nested_eq (fun (s : α) i j => s + m.elem i j) m.rows m.cols 0,
    foldl_add_zero_eq (fun p : ℕ × ℕ => m.elem p.1 p.2), sum_pixelList]

/-- The counting loop of `computeCooccurrenceMatrix` is one pass over the
pixels with an in-bounds neighbour. -/
theorem cooccurrenceCounts_eq (matDiv : Int → Int → Int) (gray : GrayMat)
    (distance angle : Int) :
    (cooccurrenceCounts matDiv gray distance angle : MatF α)
      = (pixelList gray.rows gray.cols).foldl
          (fun m p =>
            if hasNeighbour gray distance angle p = true then
              m.increment (quantizedLevel matDiv gray p.1 p.2).toNat
                (quantizedLevel matDiv gray
                  ((p.1 : Int) + (cooccurrenceOffset distance angle).2).toNat
                  ((p.2 : Int) + (cooccurrenceOffset distance angle).1).toNat).toNat
            else m)
          (MatF.zeros 16 16) := by
  unfold cooccurrenceCounts
  simp only
  rw [foldl_nested_eq
    (fun (cooccurrence : MatF α) (i j : ℕ) =>
      if (i : Int) + (cooccurrenceOffset distance angle).2 ≥ 0 ∧
          (i : Int) + (cooccurrenceOffset distance angle).2 < (gray.rows : Int) ∧
          (j : Int) + (cooccurrenceOffset distance angle).1 ≥ 0 ∧
          (j : Int) + (cooccurrenceOffset distance angle).1 < (gray.cols : Int) then
        if quantizedLevel matDiv gray i j ≥ 0 ∧ quantizedLevel matDiv gray i j < 16 ∧
            quantizedLevel matDiv gray
              ((i : Int) + (cooccurrenceOffset distance angle).2).toNat
              ((j : Int) + (cooccurrenceOffset distance angle).1).toNat ≥ 0 ∧
            quantizedLevel matDiv gray
              ((i : Int) + (cooccurrenceOffset distance angle).2).toNat
              ((j : Int) + (cooccurrenceOffset distance angle).1).toNat < 16 then
          cooccurrence.increment (quantizedLevel matDiv gray i j).toNat
            (quantizedLevel matDiv gray
              ((i : Int) + (cooccurrenceOffset distance angle).2).toNat
              ((j : Int) + (cooccurrenceOffset distance angle).1).toNat).toNat
        else cooccurrence
      else cooccurrence)]
  congr 1
  funext m p
  have hlv : quantizedLevel matDiv gray p.1 p.2 ≥ 0 ∧ quantizedLevel matDiv gray p.1 p.2 < 16 ∧
      quantizedLevel matDiv gray
        ((p.1 : Int) + (cooccurrenceOffset distance angle).2).toNat
        ((p.2 : Int) + (cooccurrenceOffset distance angle).1).toNat ≥ 0 ∧
      quantizedLevel matDiv gray
        ((p.1 : Int) + (cooccurrenceOffset distance angle).2).toNat
        ((p.2 : Int) + (cooccurrenceOffset distance angle).1).toNat < 16 :=
    ⟨quantizedLevel_nonneg _ _ _ _, quantizedLevel_lt _ _ _ _,
      quantizedLevel_nonneg _ _ _ _, quantizedLevel_lt _ _ _ _⟩
  rw [if_pos hlv]
  unfold hasNeighbour
  simp only [decide_eq_true_eq, ge_iff_le]

theorem isLevelPair_eq (matDiv : Int → Int → Int) (gray : GrayMat) (distance angle : Int)
    (a b : ℕ) (p : ℕ × ℕ) :
    (hasNeighbour gray distance angle p &&
      decide ((quantizedLevel matDiv gray p.1 p.2).toNat = a ∧
        (quantizedLevel matDiv gray
          ((p.1 : Int) + (cooccurrenceOffset distance angle).2).toNat
          ((p.2 : Int) + (cooccurrenceOffset distance angle).1).toNat).toNat = b))
      = isLevelPair matDiv gray distance angle a b p := by
  unfold isLevelPair
  congr 1
  have h1 := quantizedLevel_nonneg matDiv gray p.1 p.2
  have h2 := quantizedLevel_nonneg matDiv gray
    ((p.1 : Int) + (cooccurrenceOffset distance angle).2).toNat
    ((p.2 : Int) + (cooccurrenceOffset distance angle).1).toNat
  apply decide_eq_decide.2
  omega

/-- Entry `(a, b)` of the count matrix. -/
theorem elem_cooccurrenceCounts (matDiv : Int → Int → Int) (gray : GrayMat)
    (distance angle : Int) (a b : ℕ) :
    (cooccurrenceCounts matDiv gray distance angle : MatF α).elem a b
      = ((cellCount matDiv gray distance angle a b : ℕ) : α) := by
  rw [cooccurrenceCounts_eq,
    elem_incrementFold _ _ _ _ _ a b 0 (by simp [MatF.zeros]) (Nat.zero_le _)]
  simp only [isLevelPair_eq, zero_add]
  rfl

theorem dims_cooccurrenceCounts (matDiv : Int → Int → Int) (gray : GrayMat)
    (distance angle : Int) :
    (cooccurrenceCounts matDiv gray distance angle : MatF α).rows = 16 ∧
    (cooccurrenceCounts matDiv gray distance angle : MatF α).cols = 16 := by
  rw [cooccurrenceCounts_eq]
  exact rows_incrementFold _ _ _ _ _

/-- The count matrix sums to the total of its counters. -/
theorem sum_cooccurrenceCounts (matDiv : Int → Int → Int) (gray : GrayMat)
    (distance angle : Int) :
    (cooccurrenceCounts matDiv gray distance angle : MatF α).sum
      = ((cellTotal matDiv gray distance angle : ℕ) : α) := by
  rw [MatF_sum_eq, (dims_cooccurrenceCounts matDiv gray distance angle).1,
    (dims_cooccurrenceCounts matDiv gray distance angle).2]
  simp only [elem_cooccurrenceCounts]
  unfold cellTotal
  push_cast
  rfl

/-- The numbers of level pairs of all cells add up to the number of pixels with
an in-bounds neighbour. -/
theorem sum_levelPairs (matDiv : Int → Int → Int) (gray : GrayMat) (distance angle : Int) :
    ∑ a ∈ Finset.range 16, ∑ b ∈ Finset.range 16,
        (pixelList gray.rows gray.cols).countP (isLevelPair matDiv gray distance angle a b)
      = (pixelList gray.rows gray.cols).countP (hasNeighbour gray distance angle) := by
  have h := sum_countP_cells (hasNeighbour gray distance angle)
    (fun p : ℕ × ℕ => (quantizedLevel matDiv gray p.1 p.2).toNat)
    (fun p : ℕ × ℕ => (quantizedLevel matDiv gray
      ((p.1 : Int) + (cooccurrenceOffset distance angle).2).toNat
      ((p.2 : Int) + (cooccurrenceOffset distance angle).1).toNat).toNat)
    16 16 (pixelList gray.rows gray.cols)
    (fun p => by
      have h1 := quantizedLevel_nonneg matDiv gray p.1 p.2
      have h2 := quantizedLevel_lt matDiv gray p.1 p.2
      show (quantizedLevel matDiv gray p.1 p.2).toNat < 16
      omega)
    (fun p => by
      have h1 := quantizedLevel_nonneg matDiv gray
        ((p.1 : Int) + (cooccurrenceOffset distance angle).2).toNat
        ((p.2 : Int) + (cooccurrenceOffset distance angle).1).toNat
      have h2 := quantizedLevel_lt matDiv gray
        ((p.1 : Int) + (cooccurrenceOffset distance angle).2).toNat
        ((p.2 : Int) + (cooccurrenceOffset distance angle).1).toNat
      show (quantizedLevel matDiv gray
        ((p.1 : Int) + (cooccurrenceOffset distance angle).2).toNat
        ((p.2 : Int) + (cooccurrenceOffset distance angle).1).toNat).toNat < 16
      omega)
  simp only [isLevelPair_eq] at h
  exact h

theorem levelPairs_le_neighbours (matDiv : Int → Int → Int) (gray : GrayMat)
    (distance angle : Int) (a b : ℕ) :
    (pixelList gray.rows gray.cols).countP (isLevelPair matDiv gray distance angle a b)
      ≤ (pixelList gray.rows gray.cols).countP (hasNeighbour gray distance angle) := by
  apply List.countP_mono_left
  intro p _ h
  unfold isLevelPair at h
  rw [Bool.and_eq_true] at h
  exact h.1

/-- When no cell receives more than `2^24` pairs, the total of the counters is
the number of pixels with an in-bounds neighbour. -/
theorem cellTotal_of_small (matDiv : Int → Int → Int) (gray : GrayMat) (distance angle : Int)
    (hsmall : ∀ a b, a < 16 → b < 16 →
      (pixelList gray.rows gray.cols).countP (isLevelPair matDiv gray distance angle a b)
        ≤ 2 ^ 24) :
    cellTotal matDiv gray distance angle
      = (pixelList gray.rows gray.cols).countP (hasNeighbour gray distance angle) := by
  rw [← sum_levelPairs matDiv gray distance angle]
  unfold cellTotal
  apply Finset.sum_congr rfl
  intro a ha
  apply Finset.sum_congr rfl
  intro b hb
  unfold cellCount
  exact min_eq_left (hsmall a b (Finset.mem_range.1 ha) (Finset.mem_range.1 hb))

theorem cellTotal_pos (matDiv : Int → Int → Int) (gray : GrayMat) (distance angle : Int)
    (hN : 0 < (pixelList gray.rows gray.cols).countP (hasNeighbour gray distance angle)) :
    0 < cellTotal matDiv gray distance angle := by
  by_contra hzero
  have h0 : cellTotal matDiv gray distance angle = 0 := by omega
  unfold cellTotal at h0
  rw [Finset.sum_eq_zero_iff] at h0
  have hall : ∑ a ∈ Finset.range 16, ∑ b ∈ Finset.range 16,
      (pixelList gray.rows gray.cols).countP (isLevelPair matDiv gray distance angle a b)
        = 0 := by
    apply Finset.sum_eq_zero
    intro a ha
    apply Finset.sum_eq_zero
    intro b hb
    have h1 := Finset.sum_eq_zero_iff.1 (h0 a ha) b hb
    unfold cellCount at h1
    omega
  rw [sum_levelPairs] at hall
  omega

theorem cellTotal_zero (matDiv : Int → Int → Int) (gray : GrayMat) (distance angle : Int)
    (hN : (pixelList gray.rows gray.cols).countP (hasNeighbour gray distance angle) = 0) :
    cellTotal matDiv gray distance angle = 0 := by
  unfold cellTotal
  apply Finset.sum_eq_zero
  intro a _
  apply Finset.sum_eq_zero
  intro b _
  unfold cellCount
  have h := levelPairs_le_neighbours matDiv gray distance angle a b
  omega

end CooccurrenceLemmas

/-! ## Claims about the co-occurrence matrix -/

section CooccurrenceClaims

theorem cooccurrenceMatrix_of_pos {α : Type} [LinearOrderedField α]
    (matDiv : Int → Int → Int) (gray : GrayMat) (distance angle : Int)
    (hN : 0 < (pixelList gray.rows gray.cols).countP (hasNeighbour gray distance angle)) :
    (computeCooccurrenceMatrix matDiv gray distance angle : MatF α)
      = (cooccurrenceCounts matDiv gray distance angle : MatF α).divScalar
          ((cellTotal matDiv gray distance angle : ℕ) : α) := by
  unfold computeCooccurrenceMatrix
  simp only
  rw [sum_cooccurrenceCounts,
    if_pos (by exact_mod_cast cellTotal_pos matDiv gray distance angle hN)]

theorem cooccurrenceMatrix_of_zero {α : Type} [LinearOrderedField α]
    (matDiv : Int → Int → Int) (gray : GrayMat) (distance angle : Int)
    (hN : (pixelList gray.rows gray.cols).countP (hasNeighbour gray distance angle) = 0) :
    (computeCooccurrenceMatrix matDiv gray distance angle : MatF α)
      = cooccurrenceCounts matDiv gray distance angle := by
  unfold computeCooccurrenceMatrix
  simp only
  rw [sum_cooccurrenceCounts, cellTotal_zero matDiv gray distance angle hN, if_neg (by simp)]

theorem cooccurrenceMatrix_elem_of_pos {α : Type} [LinearOrderedField α]
    (matDiv : Int → Int → Int) (gray : GrayMat) (distance angle : Int)
    (hN : 0 < (pixelList gray.rows gray.cols).countP (hasNeighbour gray distance angle))
    (a b : ℕ) :
    (computeCooccurrenceMatrix matDiv gray distance angle : MatF α).elem a b
      = ((cellCount matDiv gray distance angle a b : ℕ) : α)
        / ((cellTotal matDiv gray distance angle : ℕ) : α) := by
  rw [cooccurrenceMatrix_of_pos matDiv gray distance angle hN]
  simp only [MatF.divScalar]
  rw [elem_cooccurrenceCounts]

theorem cooccurrenceMatrix_dims {α : Type} [LinearOrderedField α]
    (matDiv : Int → Int → Int) (gray : GrayMat) (distance angle : Int) :
    (computeCooccurrenceMatrix matDiv gray distance angle : MatF α).rows = 16 ∧
    (computeCooccurrenceMatrix matDiv gray distance angle : MatF α).cols = 16 := by
  have hdims := @dims_cooccurrenceCounts α _ matDiv gray distance angle
  by_cases hN : 0 < (pixelList gray.rows gray.cols).countP (hasNeighbour gray distance angle)
  · rw [cooccurrenceMatrix_of_pos matDiv gray distance angle hN]
    exact hdims
  · rw [cooccurrenceMatrix_of_zero matDiv gray distance angle (by omega)]
    exact hdims

theorem cooccurrenceMatrix_sum_of_pos {α : Type} [LinearOrderedField α]
    (matDiv : Int → Int → Int) (gray : GrayMat) (distance angle : Int)
    (hN : 0 < (pixelList gray.rows gray.cols).countP (hasNeighbour gray distance angle)) :
    (∑ a ∈ Finset.range 16, ∑ b ∈ Finset.range 16,
      (computeCooccurrenceMatrix matDiv gray distance angle : MatF α).elem a b) = 1 := by
  have hT : ((cellTotal matDiv gray distance angle : ℕ) : α) ≠ 0 := by
    exact_mod_cast (ne_of_gt (cellTotal_pos matDiv gray distance angle hN))
  simp only [cooccurrenceMatrix_elem_of_pos matDiv gray distance angle hN]
  simp only [← Finset.sum_div]
  have hcast : (∑ a ∈ Finset.range 16, ∑ b ∈ Finset.range 16,
      ((cellCount matDiv gray distance angle a b : ℕ) : α))
      = ((cellTotal matDiv gray distance angle : ℕ) : α) := by
    unfold cellTotal
    push_cast
    rfl
  rw [hcast, div_self hT]

theorem levelPairs_zero (matDiv : Int → Int → Int) (gray : GrayMat) (distance angle : Int)
    (a b : ℕ)
    (hN : (pixelList gray.rows gray.cols).countP (hasNeighbour gray distance angle) = 0) :
    (pixelList gray.rows gray.cols).countP (isLevelPair matDiv gray distance angle a b) = 0 := by
  have h := levelPairs_le_neighbours matDiv gray distance angle a b
  omega

/-- The facts of the co-occurrence matrix shared by the claims about it. -/
theorem cooccurrenceMatrix_facts {α : Type} [LinearOrderedField α]
    (matDiv : Int → Int → Int) (gray : GrayMat) (distance angle : Int) :
    (∀ a b, 0 ≤ (computeCooccurrenceMatrix matDiv gray distance angle : MatF α).elem a b) ∧
    (0 < (pixelList gray.rows gray.cols).countP (hasNeighbour gray distance angle) →
      (∀ a b, a < 16 → b < 16 →
        (pixelList gray.rows gray.cols).countP (isLevelPair matDiv gray distance angle a b)
          ≤ 2 ^ 24) →
      ∀ a b, a < 16 → b < 16 →
        (computeCooccurrenceMatrix matDiv gray distance angle : MatF α).elem a b
          = (((pixelList gray.rows gray.cols).countP
                (isLevelPair matDiv gray distance angle a b) : ℕ) : α)
            / (((pixelList gray.rows gray.cols).countP
                (hasNeighbour gray distance angle) : ℕ) : α)) ∧
    ((pixelList gray.rows gray.cols).countP (hasNeighbour gray distance angle) = 0 →
      ∀ a b, (computeCooccurrenceMatrix matDiv gray distance angle : MatF α).elem a b = 0) := by
  have hzero : (pixelList gray.rows gray.cols).countP (hasNeighbour gray distance angle) = 0 →
      ∀ a b, (computeCooccurrenceMatrix matDiv gray distance angle : MatF α).elem a b = 0 := by
    intro hN a b
    rw [cooccurrenceMatrix_of_zero matDiv gray distance angle hN, elem_cooccurrenceCounts]
    unfold cellCount
    rw [levelPairs_zero matDiv gray distance angle a b hN]
    simp
  refine ⟨?_, ?_, hzero⟩
  · intro a b
    by_cases hN : 0 < (pixelList gray.rows gray.cols).countP (hasNeighbour gray distance angle)
    · rw [cooccurrenceMatrix_elem_of_pos matDiv gray distance angle hN a b]
      exact div_nonneg (Nat.cast_nonneg _) (Nat.cast_nonneg _)
    · rw [hzero (by omega) a b]
  · intro hN hsmall a b ha hb
    rw [cooccurrenceMatrix_elem_of_pos matDiv gray distance angle hN a b,
      cellTotal_of_small matDiv gray distance angle hsmall]
    unfold cellCount
    rw [min_eq_left (hsmall a b ha hb)]

/-- C16 (amended): for every single-channel image, distance and angle (and
whatever the element-wise quantising division yields),
`computeCooccurrenceMatrix` returns a 16x16 matrix with all entries `>= 0`.
With `N` the number of pixels that have an in-bounds neighbour at the derived
offset: when `N > 0` the entries sum to `1` and entry `(a, b)` is the counter
of the cell (the number of such pixels with levels `(a, b)`, stopped at
`2^24`) divided by the total of the counters; when no cell has more than `2^24`
pairs, in particular when `rows*cols <= 2^24`, entry `(a, b)` is the number of
pairs with levels `(a, b)` divided by `N`; when `N = 0` every entry is `0`; and
the matrix is all zero exactly when `N = 0`. -/
theorem cooccurrence_matrix_spec {α : Type} [LinearOrderedField α]
    (matDiv : Int → Int → Int) (gray : GrayMat) (distance angle : Int) :
    ((computeCooccurrenceMatrix matDiv gray distance angle : MatF α).rows = 16 ∧
      (computeCooccurrenceMatrix matDiv gray distance angle : MatF α).cols = 16) ∧
    (∀ a b, 0 ≤ (computeCooccurrenceMatrix matDiv gray distance angle : MatF α).elem a b) ∧
    (0 < (pixelList gray.rows gray.cols).countP (hasNeighbour gray distance angle) →
      (∑ a ∈ Finset.range 16, ∑ b ∈ Finset.range 16,
        (computeCooccurrenceMatrix matDiv gray distance angle : MatF α).elem a b) = 1 ∧
      ∀ a b, (computeCooccurrenceMatrix matDiv gray distance angle : MatF α).elem a b
        = ((min ((pixelList gray.rows gray.cols).countP
              (isLevelPair matDiv gray distance angle a b)) (2 ^ 24) : ℕ) : α)
          / ((∑ c ∈ Finset.range 16, ∑ d ∈ Finset.range 16,
              min ((pixelList gray.rows gray.cols).countP
                (isLevelPair matDiv gray distance angle c d)) (2 ^ 24) : ℕ) : α)) ∧
    (0 < (pixelList gray.rows gray.cols).countP (hasNeighbour gray distance angle) →
      (∀ a b, a < 16 → b < 16 →
        (pixelList gray.rows gray.cols).countP (isLevelPair matDiv gray distance angle a b)
          ≤ 2 ^ 24) →
      ∀ a b, a < 16 → b < 16 →
        (computeCooccurrenceMatrix matDiv gray distance angle : MatF α).elem a b
          = (((pixelList gray.rows gray.cols).countP
                (isLevelPair matDiv gray distance angle a b) : ℕ) : α)
            / (((pixelList gray.rows gray.cols).countP
                (hasNeighbour gray distance angle) : ℕ) : α)) ∧
    (0 < (pixelList gray.rows gray.cols).countP (hasNeighbour gray distance angle) →
      gray.rows * gray.cols ≤ 2 ^ 24 →
      ∀ a b, a < 16 → b < 16 →
        (computeCooccurrenceMatrix matDiv gray distance angle : MatF α).elem a b
          = (((pixelList gray.rows gray.cols).countP
                (isLevelPair matDiv gray distance angle a b) : ℕ) : α)
            / (((pixelList gray.rows gray.cols).countP
                (hasNeighbour gray distance angle) : ℕ) : α)) ∧
    ((pixelList gray.rows gray.cols).countP (hasNeighbour gray distance angle) = 0 →
      ∀ a b, (computeCooccurrenceMatrix matDiv gray distance angle : MatF α).elem a b = 0) ∧
    ((∀ a b, a < 16 → b < 16 →
        (computeCooccurrenceMatrix matDiv gray distance angle : MatF α).elem a b = 0) ↔
      (pixelList gray.rows gray.cols).countP (hasNeighbour gray distance angle) = 0) := by
  obtain ⟨hnn, hsmall, hzero⟩ := @cooccurrenceMatrix_facts α _ matDiv gray distance angle
  refine ⟨cooccurrenceMatrix_dims matDiv gray distance angle, hnn, ?_, hsmall, ?_, hzero, ?_⟩
  · intro hN
    exact ⟨cooccurrenceMatrix_sum_of_pos matDiv gray distance angle hN,
      fun a b => cooccurrenceMatrix_elem_of_pos matDiv gray distance angle hN a b⟩
  · intro hN hpix
    exact hsmall hN (fun a b _ _ => le_trans (countP_le_pixels _ _ _) hpix)
  · constructor
    · intro hall
      by_contra hne
      have hN : 0 < (pixelList gray.rows gray.cols).countP
          (hasNeighbour gray distance angle) := Nat.pos_of_ne_zero hne
      have hone := @cooccurrenceMatrix_sum_of_pos α _ matDiv gray distance angle hN
      have hz : (∑ a ∈ Finset.range 16, ∑ b ∈ Finset.range 16,
          (computeCooccurrenceMatrix matDiv gray distance angle : MatF α).elem a b) = 0 := by
        apply Finset.sum_eq_zero
        intro a ha
        apply Finset.sum_eq_zero
        intro b hb
        exact hall a b (Finset.mem_range.1 ha) (Finset.mem_range.1 hb)
      rw [hz] at hone
      exact zero_ne_one hone
    · intro hN a b _ _
      exact hzero hN a b

theorem grayPair_neighbours :
    (pixelList grayPair.rows grayPair.cols).countP (hasNeighbour grayPair 1 0) = 1 := by
  decide

theorem grayPair_levelPairs :
    (pixelList grayPair.rows grayPair.cols).countP
      (isLevelPair (fun x s => x / s) grayPair 1 0 0 15) = 1 := by
  decide

/-- Witness for C16 (amended): the 1x2 image with samples `0` and `255`,
distance 1 and angle 0 has one pixel with an in-bounds neighbour; its pair of
levels is `(0, 15)`, so that entry is `1`. -/
theorem cooccurrence_matrix_spec_witness :
    0 < (pixelList grayPair.rows grayPair.cols).countP (hasNeighbour grayPair 1 0) ∧
    (computeCooccurrenceMatrix (fun x s => x / s) grayPair 1 0 : MatF ℚ).elem 0 15 = 1 :=
  have hN : 0 < (pixelList grayPair.rows grayPair.cols).countP (hasNeighbour grayPair 1 0) := by
    rw [grayPair_neighbours]
    exact Nat.one_pos
  ⟨hN, by
    have h := (@cooccurrence_matrix_spec ℚ _ (fun x s => x / s) grayPair 1 0).2.2.2.2.1 hN
      (by decide) 0 15 (by decide) (by decide)
    rw [grayPair_neighbours, grayPair_levelPairs] at h
    rw [h]
    norm_num⟩

end CooccurrenceClaims

/-! ## The Haralick descriptors as sums -/

section HaralickLemmas

variable {α : Type} [LinearOrderedField α]

/-- A guarded accumulation into the four descriptor fields. -/
theorem featureFold_fields {ι : Type} (c : ι → Prop) [DecidablePred c]
    (e1 e2 e3 e4 : ι → α) (l : List ι) (init : CooccurrenceFeatures α) :
    (l.foldl (fun features x =>
        if c x then
          { energy := features.energy + e1 x
            entropy := features.entropy - e2 x
            contrast := features.contrast + e3 x
            homogeneity := features.homogeneity + e4 x }
        else features) init).energy
      = init.energy + (l.map (fun x => if c x then e1 x else 0)).sum ∧
    (l.foldl (fun features x =>
        if c x then
          { energy := features.energy + e1 x
            entropy := features.entropy - e2 x
            contrast := features.contrast + e3 x
            homogeneity := features.homogeneity + e4 x }
        else features) init).entropy
      = init.entropy - (l.map (fun x => if c x then e2 x else 0)).sum ∧
    (l.foldl (fun features x =>
        if c x then
          { energy := features.energy + e1 x
            entropy := features.entropy - e2 x
            contrast := features.contrast + e3 x
            homogeneity := features.homogeneity + e4 x }
        else features) init).contrast
      = init.contrast + (l.map (fun x => if c x then e3 x else 0)).sum ∧
    (l.foldl (fun features x =>
        if c x then
          { energy := features.energy + e1 x
            entropy := features.entropy - e2 x
            contrast := features.contrast + e3 x
            homogeneity := features.homogeneity + e4 x }
        else features) init).homogeneity
      = init.homogeneity + (l.map (fun x => if c x then e4 x else 0)).sum := by
  induction l generalizing init with
  | nil => simp
  | cons x xs ih =>
    simp only [List.foldl_cons, List.map_cons, List.sum_cons]
    by_cases hx : c x
    · simp only [hx, if_true]
      obtain ⟨h1, h2, h3, h4⟩ := ih
        { energy := init.energy + e1 x
          entropy := init.entropy - e2 x
          contrast := init.contrast + e3 x
          homogeneity := init.homogeneity + e4 x }
      rw [h1, h2, h3, h4]
      refine ⟨?_, ?_, ?_, ?_⟩ <;> ring
    · simp only [hx, if_false]
      obtain ⟨h1, h2, h3, h4⟩ := ih init
      rw [h1, h2, h3, h4]
      refine ⟨?_, ?_, ?_, ?_⟩ <;> ring

/-- The four descriptors of `extractCooccurrenceFeatures` as double sums over
the cells, a cell contributing only when its value is positive. -/
theorem haralick_sums (log : α → α) (P : MatF α) :
    (extractCooccurrenceFeatures log P).energy
      = ∑ i ∈ Finset.range P.rows, ∑ j ∈ Finset.range P.cols,
          (if P.elem i j > 0 then P.elem i j * P.elem i j else 0) ∧
    (extractCooccurrenceFeatures log P).entropy
      = -∑ i ∈ Finset.range P.rows, ∑ j ∈ Finset.range P.cols,
          (if P.elem i j > 0 then P.elem i j * log (P.elem i j + 1 / 10 ^ 10) else 0) ∧
    (extractCooccurrenceFeatures log P).contrast
      = ∑ i ∈ Finset.range P.rows, ∑ j ∈ Finset.range P.cols,
          (if P.elem i j > 0 then
            ((((i : Int) - (j : Int)) * ((i : Int) - (j : Int)) : Int) : α) * P.elem i j
          else 0) ∧
    (extractCooccurrenceFeatures log P).homogeneity
      = ∑ i ∈ Finset.range P.rows, ∑ j ∈ Finset.range P.cols,
          (if P.elem i j > 0 then
            P.elem i j / (((1 + ((i : Int) - (j : Int)) * ((i : Int) - (j : Int)) : Int)) : α)
          else 0) := by
  unfold extractCooccurrenceFeatures
  rw [foldl_nested_eq
    (fun (features : CooccurrenceFeatures α) (i j : ℕ) =>
      if P.elem i j > 0 then
        { energy := features.energy + P.elem i j * P.elem i j
          entropy := features.entropy - P.elem i j * log (P.elem i j + 1 / 10 ^ 10)
          contrast := features.contrast
            + ((((i : Int) - (j : Int)) * ((i : Int) - (j : Int)) : Int) : α) * P.elem i j
          homogeneity := features.homogeneity
            + P.elem i j / (((1 + ((i : Int) - (j : Int)) * ((i : Int) - (j : Int)) : Int)) : α) }
      else features)]
  obtain ⟨h1, h2, h3, h4⟩ := featureFold_fields
    (fun p : ℕ × ℕ => P.elem p.1 p.2 > 0)
    (fun p : ℕ × ℕ => P.elem p.1 p.2 * P.elem p.1 p.2)
    (fun p : ℕ × ℕ => P.elem p.1 p.2 * log (P.elem p.1 p.2 + 1 / 10 ^ 10))
    (fun p : ℕ × ℕ =>
      ((((p.1 : Int) - (p.2 : Int)) * ((p.1 : Int) - (p.2 : Int)) : Int) : α) * P.elem p.1 p.2)
    (fun p : ℕ × ℕ =>
      P.elem p.1 p.2
        / (((1 + ((p.1 : Int) - (p.2 : Int)) * ((p.1 : Int) - (p.2 : Int)) : Int)) : α))
    (pixelList P.rows P.cols)
    { energy := 0, entropy := 0, contrast := 0, homogeneity := 0 }
  refine ⟨?_, ?_, ?_, ?_⟩
  · rw [h1, zero_add]
    exact sum_pixelList (fun i j => if P.elem i j > 0 then P.elem i j * P.elem i j else 0) _ _
  · rw [h2, zero_sub]
    congr 1
    exact sum_pixelList (fun i j =>
      if P.elem i j > 0 then P.elem i j * log (P.elem i j + 1 / 10 ^ 10) else 0) _ _
  · rw [h3, zero_add]
    exact sum_pixelList (fun i j =>
      if P.elem i j > 0 then
        ((((i : Int) - (j : Int)) * ((i : Int) - (j : Int)) : Int) : α) * P.elem i j
      else 0) _ _
  · rw [h4, zero_add]
    exact sum_pixelList (fun i j =>
      if P.elem i j > 0 then
        P.elem i j / (((1 + ((i : Int) - (j : Int)) * ((i : Int) - (j : Int)) : Int)) : α)
      else 0) _ _

theorem sum_singleCell (F : ℕ → ℕ → α) (hF : ∀ i j, ¬ (i = 0 ∧ j = 0) → F i j = 0) :
    ∑ i ∈ Finset.range 16, ∑ j ∈ Finset.range 16, F i j = F 0 0 := by
  rw [Finset.sum_eq_single 0]
  · rw [Finset.sum_eq_single 0]
    · intro j _ hj
      exact hF 0 j (fun h => hj h.2)
    · intro h
      exact absurd (Finset.mem_range.2 (by norm_num)) h
  · intro i _ hi
    apply Finset.sum_eq_zero
    intro j _
    exact hF i j (fun h => hi h.1)
  · intro h
    exact absurd (Finset.mem_range.2 (by norm_num)) h

end HaralickLemmas

/-! ## Claims about the Haralick descriptors -/

section HaralickClaims

/-- C17: for every co-occurrence matrix `P` with non-negative entries (and
every `log`), `extractCooccurrenceFeatures` returns
`energy = sum of p^2`, `contrast = sum of (i-j)^2 * p` and
`homogeneity = sum of p / (1 + (i-j)^2)`, the sums running over all cells. -/
theorem haralick_energy_contrast_homogeneity {α : Type} [LinearOrderedField α]
    (log : α → α) (P : MatF α)
    (hnn : ∀ i j, i < P.rows → j < P.cols → 0 ≤ P.elem i j) :
    (extractCooccurrenceFeatures log P).energy
      = ∑ i ∈ Finset.range P.rows, ∑ j ∈ Finset.range P.cols, P.elem i j ^ 2 ∧
    (extractCooccurrenceFeatures log P).contrast
      = ∑ i ∈ Finset.range P.rows, ∑ j ∈ Finset.range P.cols,
          ((i : α) - (j : α)) ^ 2 * P.elem i j ∧
    (extractCooccurrenceFeatures log P).homogeneity
      = ∑ i ∈ Finset.range P.rows, ∑ j ∈ Finset.range P.cols,
          P.elem i j / (1 + ((i : α) - (j : α)) ^ 2) := by
  obtain ⟨h1, _, h3, h4⟩ := haralick_sums log P
  have hcell : ∀ i j, i ∈ Finset.range P.rows → j ∈ Finset.range P.cols →
      ¬ (P.elem i j > 0) → P.elem i j = 0 := by
    intro i j hi hj hp
    exact le_antisymm (not_lt.1 hp) (hnn i j (Finset.mem_range.1 hi) (Finset.mem_range.1 hj))
  refine ⟨?_, ?_, ?_⟩
  · rw [h1]
    apply Finset.sum_congr rfl
    intro i hi
    apply Finset.sum_congr rfl
    intro j hj
    by_cases hp : P.elem i j > 0
    · rw [if_pos hp]
      ring
    · rw [if_neg hp, hcell i j hi hj hp]
      ring
  · rw [h3]
    apply Finset.sum_congr rfl
    intro i hi
    apply Finset.sum_congr rfl
    intro j hj
    by_cases hp : P.elem i j > 0
    · rw [if_pos hp]
      push_cast
      ring
    · rw [if_neg hp, hcell i j hi hj hp]
      ring
  · rw [h4]
    apply Finset.sum_congr rfl
    intro i hi
    apply Finset.sum_congr rfl
    intro j hj
    by_cases hp : P.elem i j > 0
    · rw [if_pos hp]
      push_cast
      congr 1
      ring
    · rw [if_neg hp, hcell i j hi hj hp]
      simp

/-- Witness for C17 at the matrix whose single nonzero cell is `(0, 0) = 1`:
energy `1`, contrast `0`, homogeneity `1`. -/
theorem haralick_energy_contrast_homogeneity_witness :
    (extractCooccurrenceFeatures (fun x => x) (singleCellMatrix : MatF ℚ)).energy = 1 ∧
    (extractCooccurrenceFeatures (fun x => x) (singleCellMatrix : MatF ℚ)).contrast = 0 ∧
    (extractCooccurrenceFeatures (fun x => x) (singleCellMatrix : MatF ℚ)).homogeneity = 1 := by
  have hnn : ∀ i j, i < (singleCellMatrix : MatF ℚ).rows → j < (singleCellMatrix : MatF ℚ).cols →
      0 ≤ (singleCellMatrix : MatF ℚ).elem i j := by
    intro i j _ _
    unfold singleCellMatrix
    simp only
    split <;> norm_num
  obtain ⟨h1, h2, h3⟩ := haralick_energy_contrast_homogeneity (fun x : ℚ => x)
    (singleCellMatrix : MatF ℚ) hnn
  have hr : (singleCellMatrix : MatF ℚ).rows = 16 := rfl
  have hc : (singleCellMatrix : MatF ℚ).cols = 16 := rfl
  rw [hr, hc] at h1 h2 h3
  refine ⟨?_, ?_, ?_⟩
  · rw [h1, sum_singleCell]
    · simp [singleCellMatrix]
    · intro i j hij
      simp [singleCellMatrix, hij]
  · rw [h2, sum_singleCell]
    · simp [singleCellMatrix]
    · intro i j hij
      simp [singleCellMatrix, hij]
  · rw [h3, sum_singleCell]
    · simp [singleCellMatrix]
    · intro i j hij
      simp [singleCellMatrix, hij]

/-- C18, as stated, fails: the code takes the logarithm of `p + 1e-10`, not of
`p`. For the matrix with the single cell `(0, 0) = 1` the entropy returned is
`-ln(1 + 1e-10)`, which is negative, while minus the sum of `p * ln(p)` over
the positive cells is `0`. -/
theorem entropy_single_cell_not_zero :
    (extractCooccurrenceFeatures Real.log (singleCellMatrix : MatF ℝ)).entropy
      = -Real.log (1 + 1 / 10 ^ 10) ∧
    (extractCooccurrenceFeatures Real.log (singleCellMatrix : MatF ℝ)).entropy < 0 ∧
    (extractCooccurrenceFeatures Real.log (singleCellMatrix : MatF ℝ)).entropy ≠ 0 ∧
    -(∑ i ∈ Finset.range 16, ∑ j ∈ Finset.range 16,
        (if (singleCellMatrix : MatF ℝ).elem i j > 0 then
          (singleCellMatrix : MatF ℝ).elem i j * Real.log ((singleCellMatrix : MatF ℝ).elem i j)
        else 0)) = 0 := by
  have hval : (extractCooccurrenceFeatures Real.log (singleCellMatrix : MatF ℝ)).entropy
      = -Real.log (1 + 1 / 10 ^ 10) := by
    have h := (haralick_sums Real.log (singleCellMatrix : MatF ℝ)).2.1
    have hr : (singleCellMatrix : MatF ℝ).rows = 16 := rfl
    have hc : (singleCellMatrix : MatF ℝ).cols = 16 := rfl
    rw [hr, hc] at h
    rw [h, sum_singleCell]
    · simp [singleCellMatrix]
    · intro i j hij
      simp [singleCellMatrix, hij]
  have hlog : 0 < Real.log (1 + 1 / 10 ^ 10) := Real.log_pos (by norm_num)
  refine ⟨hval, ?_, ?_, ?_⟩
  · rw [hval]
    linarith
  · rw [hval]
    linarith
  · rw [sum_singleCell]
    · simp [singleCellMatrix]
    · intro i j hij
      simp [singleCellMatrix, hij]

/-- C18 (amended): for every co-occurrence matrix `P`, the entropy returned by
`extractCooccurrenceFeatures` equals minus the sum of `p * ln(p + 1e-10)` over
the cells with `p > 0`. -/
theorem haralick_entropy (P : MatF ℝ) :
    (extractCooccurrenceFeatures Real.log P).entropy
      = -∑ i ∈ Finset.range P.rows, ∑ j ∈ Finset.range P.cols,
          (if P.elem i j > 0 then P.elem i j * Real.log (P.elem i j + 1 / 10 ^ 10) else 0) :=
  (haralick_sums Real.log P).2.1

end HaralickClaims

/-! ## Claims about the refiner's state and the convex blend -/

section RefinerBlendClaims

/-- C21 fails on the code: with a `selected` vector of another length,
`addFeedback` still appends to the history and increments the iteration count;
only the query vector is left unchanged. After `QueryRefiner([1, 0, 0, 0])`,
`addFeedback([0, 1])` leaves the vector `[1, 0, 0, 0]` but gives iteration `1`
and the history `[[0, 1]]`. -/
theorem addFeedback_mismatch_changes_state :
    ([(1 : ℚ), 0, 0, 0]).length ≠ ([(0 : ℚ), 1]).length ∧
    ((QueryRefiner.new [(1 : ℚ), 0, 0, 0]).addFeedback [0, 1]).getRefinedFeatures
      = [1, 0, 0, 0] ∧
    ((QueryRefiner.new [(1 : ℚ), 0, 0, 0]).addFeedback [0, 1]).iteration = 1 ∧
    ((QueryRefiner.new [(1 : ℚ), 0, 0, 0]).addFeedback [0, 1]).feedback_history = [[0, 1]] ∧
    ((QueryRefiner.new [(1 : ℚ), 0, 0, 0]).addFeedback [0, 1]).iteration
      ≠ (QueryRefiner.new [(1 : ℚ), 0, 0, 0]).iteration ∧
    ((QueryRefiner.new [(1 : ℚ), 0, 0, 0]).addFeedback [0, 1]).feedback_history
      ≠ (QueryRefiner.new [(1 : ℚ), 0, 0, 0]).feedback_history := by
  refine ⟨by decide, ?_, rfl, rfl, by decide, ?_⟩
  · simp [QueryRefiner.new, QueryRefiner.addFeedback, QueryRefiner.getRefinedFeatures,
      refineQueryFeatures]
  · simp [QueryRefiner.new, QueryRefiner.addFeedback]

variable {α : Type} [LinearOrderedField α]

theorem feedbackAlpha_bounds (n : ℕ) :
    (3 : α) / 10 ≤ max (3 / 10) (7 / 10 / ((n + 1 : ℕ) : α)) ∧
    max (3 / 10) (7 / 10 / ((n + 1 : ℕ) : α)) ≤ (7 : α) / 10 := by
  refine ⟨le_max_left _ _, max_le (by norm_num) ?_⟩
  have h1 : (1 : α) ≤ ((n + 1 : ℕ) : α) := by
    exact_mod_cast Nat.succ_le_succ (Nat.zero_le n)
  exact div_le_self (by norm_num) h1

theorem feedbackAlpha_values (n : ℕ) :
    (n = 0 → max (3 / 10) (7 / 10 / ((n + 1 : ℕ) : α)) = (7 : α) / 10) ∧
    (n = 1 → max (3 / 10) (7 / 10 / ((n + 1 : ℕ) : α)) = (7 : α) / 20) ∧
    (2 ≤ n → max (3 / 10) (7 / 10 / ((n + 1 : ℕ) : α)) = (3 : α) / 10) := by
  refine ⟨?_, ?_, ?_⟩
  · rintro rfl
    norm_num
  · rintro rfl
    norm_num
  · intro hn
    apply max_eq_left
    have h3 : (3 : α) ≤ ((n + 1 : ℕ) : α) := by
      exact_mod_cast Nat.succ_le_succ hn
    rw [div_le_iff₀ (by linarith)]
    linarith

theorem blend_between (a x y : α) (h0 : 0 ≤ a) (h1 : a ≤ 1) :
    min x y ≤ a * x + (1 - a) * y ∧ a * x + (1 - a) * y ≤ max x y := by
  have hb : 0 ≤ 1 - a := by linarith
  constructor
  · have hx : min x y ≤ x := min_le_left _ _
    have hy : min x y ≤ y := min_le_right _ _
    have e1 : a * min x y ≤ a * x := mul_le_mul_of_nonneg_left hx h0
    have e2 : (1 - a) * min x y ≤ (1 - a) * y := mul_le_mul_of_nonneg_left hy hb
    linarith
  · have hx : x ≤ max x y := le_max_left _ _
    have hy : y ≤ max x y := le_max_right _ _
    have e1 : a * x ≤ a * max x y := mul_le_mul_of_nonneg_left hx h0
    have e2 : (1 - a) * y ≤ (1 - a) * max x y := mul_le_mul_of_nonneg_left hy hb
    linarith

theorem sum_eq_range_getD (l : List α) :
    l.sum = ∑ i ∈ Finset.range l.length, l.getD i 0 := by
  have h := sum_map_eq_range (fun x : α => x) l
  simpa using h

theorem refineQueryFeatures_sum (original selected : List α) (alpha : α)
    (hl : original.length = selected.length) :
    (refineQueryFeatures original selected alpha).sum
      = alpha * original.sum + (1 - alpha) * selected.sum := by
  unfold refineQueryFeatures
  rw [if_neg (by simpa using hl), sum_map_range, sum_eq_range_getD original,
    sum_eq_range_getD selected, ← hl, Finset.mul_sum, Finset.mul_sum, ← Finset.sum_add_distrib]

theorem refineQueryFeatures_mem (original selected : List α) (alpha : α)
    (hl : original.length = selected.length) (y : α)
    (hy : y ∈ refineQueryFeatures original selected alpha) :
    ∃ i, i < original.length ∧
      y = alpha * original.getD i 0 + (1 - alpha) * selected.getD i 0 := by
  unfold refineQueryFeatures at hy
  rw [if_neg (by simpa using hl)] at hy
  obtain ⟨i, hi, rfl⟩ := List.mem_map.1 hy
  exact ⟨i, List.mem_range.1 hi, rfl⟩

theorem getD_nonneg_of_all (l : List α) (h : ∀ x ∈ l, 0 ≤ x) (i : ℕ) : 0 ≤ l.getD i 0 := by
  by_cases hi : i < l.length
  · rw [List.getD_eq_getElem _ _ hi]
    exact h _ (List.getElem_mem hi)
  · rw [List.getD_eq_default _ _ (not_lt.1 hi)]

/-- C28: for a `QueryRefiner` whose current vector has the same length as
`selected`, the `alpha` of `addFeedback` lies in `[0.3, 0.7]` (`0.7` at
iteration 1, `0.35` at iteration 2, `0.3` from iteration 3 on); every new
component is `alpha*q_i + (1-alpha)*selected_i` and lies between `q_i` and
`selected_i`; the new component sum is `alpha*sum(q) + (1-alpha)*sum(selected)`;
and if both vectors are non-negative with sum `1`, so is the new query. -/
theorem addFeedback_convex (r : QueryRefiner α) (selected : List α)
    (hl : r.current_query_features.length = selected.length) :
    ((3 : α) / 10 ≤ max (3 / 10) (7 / 10 / ((r.iteration + 1 : ℕ) : α)) ∧
      max (3 / 10) (7 / 10 / ((r.iteration + 1 : ℕ) : α)) ≤ (7 : α) / 10) ∧
    ((r.addFeedback selected).iteration = 1 →
      max (3 / 10) (7 / 10 / ((r.iteration + 1 : ℕ) : α)) = (7 : α) / 10) ∧
    ((r.addFeedback selected).iteration = 2 →
      max (3 / 10) (7 / 10 / ((r.iteration + 1 : ℕ) : α)) = (7 : α) / 20) ∧
    (3 ≤ (r.addFeedback selected).iteration →
      max (3 / 10) (7 / 10 / ((r.iteration + 1 : ℕ) : α)) = (3 : α) / 10) ∧
    (∀ i, i < r.current_query_features.length →
      (r.addFeedback selected).getRefinedFeatures.getD i 0
        = max (3 / 10) (7 / 10 / ((r.iteration + 1 : ℕ) : α)) * r.current_query_features.getD i 0
          + (1 - max (3 / 10) (7 / 10 / ((r.iteration + 1 : ℕ) : α))) * selected.getD i 0 ∧
      min (r.current_query_features.getD i 0) (selected.getD i 0)
        ≤ (r.addFeedback selected).getRefinedFeatures.getD i 0 ∧
      (r.addFeedback selected).getRefinedFeatures.getD i 0
        ≤ max (r.current_query_features.getD i 0) (selected.getD i 0)) ∧
    (r.addFeedback selected).getRefinedFeatures.sum
      = max (3 / 10) (7 / 10 / ((r.iteration + 1 : ℕ) : α)) * r.current_query_features.sum
        + (1 - max (3 / 10) (7 / 10 / ((r.iteration + 1 : ℕ) : α))) * selected.sum ∧
    ((∀ x ∈ r.current_query_features, 0 ≤ x) → r.current_query_features.sum = 1 →
      (∀ x ∈ selected, 0 ≤ x) → selected.sum = 1 →
      (∀ y ∈ (r.addFeedback selected).getRefinedFeatures, 0 ≤ y) ∧
      (r.addFeedback selected).getRefinedFeatures.sum = 1) := by
  obtain ⟨hlo, hhi⟩ := @feedbackAlpha_bounds α _ r.iteration
  obtain ⟨hv0, hv1, hv2⟩ := @feedbackAlpha_values α _ r.iteration
  have h0 : (0 : α) ≤ max (3 / 10) (7 / 10 / ((r.iteration + 1 : ℕ) : α)) := by linarith
  have h1 : max (3 / 10) (7 / 10 / ((r.iteration + 1 : ℕ) : α)) ≤ (1 : α) := by linarith
  have hit : (r.addFeedback selected).iteration = r.iteration + 1 := rfl
  have hsum : (r.addFeedback selected).getRefinedFeatures.sum
      = max (3 / 10) (7 / 10 / ((r.iteration + 1 : ℕ) : α)) * r.current_query_features.sum
        + (1 - max (3 / 10) (7 / 10 / ((r.iteration + 1 : ℕ) : α))) * selected.sum :=
    refineQueryFeatures_sum _ _ _ hl
  refine ⟨⟨hlo, hhi⟩, ?_, ?_, ?_, ?_, hsum, ?_⟩
  · intro h
    exact hv0 (by omega)
  · intro h
    exact hv1 (by omega)
  · intro h
    exact hv2 (by omega)
  · intro i hi
    have hc : (r.addFeedback selected).getRefinedFeatures.getD i 0
        = max (3 / 10) (7 / 10 / ((r.iteration + 1 : ℕ) : α)) * r.current_query_features.getD i 0
          + (1 - max (3 / 10) (7 / 10 / ((r.iteration + 1 : ℕ) : α))) * selected.getD i 0 :=
      refineQueryFeatures_getD _ _ _ hl i hi
    refine ⟨hc, ?_, ?_⟩
    · rw [hc]
      exact (blend_between _ _ _ h0 h1).1
    · rw [hc]
      exact (blend_between _ _ _ h0 h1).2
  · intro hq hqs hs hss
    refine ⟨?_, ?_⟩
    · intro y hy
      obtain ⟨i, _, rfl⟩ := refineQueryFeatures_mem _ _ _ hl y hy
      have e1 := getD_nonneg_of_all _ hq i
      have e2 := getD_nonneg_of_all _ hs i
      have hb : (0 : α) ≤ 1 - max (3 / 10) (7 / 10 / ((r.iteration + 1 : ℕ) : α)) := by linarith
      exact add_nonneg (mul_nonneg h0 e1) (mul_nonneg hb e2)
    · rw [hsum, hqs, hss]
      ring

end RefinerBlendClaims

/-- Witness for C28: from `[1, 0, 0, 0]`, feedback `[0, 1, 0, 0]` is blended
with `alpha = 0.7` into a non-negative vector of sum `1`. -/
theorem addFeedback_convex_witness :
    max (3 / 10) (7 / 10 / ((0 + 1 : ℕ) : ℚ)) = 7 / 10 ∧
    (∀ y ∈ ((QueryRefiner.new [(1 : ℚ), 0, 0, 0]).addFeedback [0, 1, 0, 0]).getRefinedFeatures,
      0 ≤ y) ∧
    ((QueryRefiner.new [(1 : ℚ), 0, 0, 0]).addFeedback [0, 1, 0, 0]).getRefinedFeatures.sum = 1 :=
  have h := addFeedback_convex (QueryRefiner.new [(1 : ℚ), 0, 0, 0]) [0, 1, 0, 0] rfl
  have hq : ∀ x ∈ (QueryRefiner.new [(1 : ℚ), 0, 0, 0]).current_query_features, 0 ≤ x := by
    intro x hx
    simp only [QueryRefiner.new, List.mem_cons, List.mem_singleton, List.not_mem_nil,
      or_false] at hx
    rcases hx with rfl | rfl | rfl | rfl <;> norm_num
  have hs : ∀ x ∈ ([0, 1, 0, 0] : List ℚ), 0 ≤ x := by
    intro x hx
    simp only [List.mem_cons, List.mem_singleton, List.not_mem_nil, or_false] at hx
    rcases hx with rfl | rfl | rfl | rfl <;> norm_num
  have hfin := h.2.2.2.2.2.2 hq (by norm_num [QueryRefiner.new]) hs (by norm_num)
  ⟨h.2.1 rfl, hfin.1, hfin.2⟩

/-! ## The co-occurrence matrix at the zero offset -/

section ZeroOffsetLemmas

variable {α : Type} [LinearOrderedField α]

theorem cooccurrenceOffset_other (distance angle : Int) (h0 : angle ≠ 0) (h45 : angle ≠ 45)
    (h90 : angle ≠ 90) (h135 : angle ≠ 135) :
    cooccurrenceOffset distance angle = (0, 0) := by
  unfold cooccurrenceOffset
  rw [if_neg h0, if_neg h45, if_neg h90, if_neg h135]

theorem hasNeighbour_zero_offset (gray : GrayMat) (distance angle : Int)
    (hoff : cooccurrenceOffset distance angle = (0, 0)) (p : ℕ × ℕ)
    (hp : p ∈ pixelList gray.rows gray.cols) :
    hasNeighbour gray distance angle p = true := by
  rw [mem_pixelList] at hp
  unfold hasNeighbour
  rw [hoff]
  simp only [decide_eq_true_eq]
  omega

theorem countP_hasNeighbour_zero_offset (gray : GrayMat) (distance angle : Int)
    (hoff : cooccurrenceOffset distance angle = (0, 0)) :
    (pixelList gray.rows gray.cols).countP (hasNeighbour gray distance angle)
      = gray.rows * gray.cols := by
  rw [← length_pixelList gray.rows gray.cols, List.countP_eq_length]
  intro p hp
  exact hasNeighbour_zero_offset gray distance angle hoff p hp

theorem isLevelPair_zero_offset (matDiv : Int → Int → Int) (gray : GrayMat)
    (distance angle : Int) (hoff : cooccurrenceOffset distance angle = (0, 0)) (a b : ℕ)
    (p : ℕ × ℕ) (hp : p ∈ pixelList gray.rows gray.cols) :
    isLevelPair matDiv gray distance angle a b p
      = decide (quantizedLevel matDiv gray p.1 p.2 = (a : Int) ∧ a = b) := by
  unfold isLevelPair
  rw [hasNeighbour_zero_offset gray distance angle hoff p hp, hoff]
  simp only [Bool.true_and, add_zero, Int.toNat_ofNat]
  apply decide_eq_decide.2
  constructor
  · rintro ⟨h1, h2⟩
    refine ⟨h1, ?_⟩
    have : (a : Int) = (b : Int) := by rw [← h1, h2]
    exact_mod_cast this
  · rintro ⟨h1, rfl⟩
    exact ⟨h1, h1⟩

theorem levelPairs_zero_offset (matDiv : Int → Int → Int) (gray : GrayMat)
    (distance angle : Int) (hoff : cooccurrenceOffset distance angle = (0, 0)) (a b : ℕ) :
    (pixelList gray.rows gray.cols).countP (isLevelPair matDiv gray distance angle a b)
      = if a = b then
          (pixelList gray.rows gray.cols).countP
            (fun p => decide (quantizedLevel matDiv gray p.1 p.2 = (a : Int)))
        else 0 := by
  by_cases hab : a = b
  · rw [if_pos hab]
    apply List.countP_congr
    intro p hp
    rw [isLevelPair_zero_offset matDiv gray distance angle hoff a b p hp]
    simp [hab]
  · rw [if_neg hab, List.countP_eq_zero]
    intro p hp
    rw [isLevelPair_zero_offset matDiv gray distance angle hoff a b p hp]
    simp [hab]

/-- Contrast and homogeneity of a 16x16 matrix with non-negative entries that
vanishes off the diagonal. -/
theorem haralick_of_diagonal (log : α → α) (P : MatF α) (hr : P.rows = 16) (hc : P.cols = 16)
    (hnn : ∀ a b, 0 ≤ P.elem a b) (hoff : ∀ a b, a ≠ b → P.elem a b = 0) :
    (extractCooccurrenceFeatures log P).contrast = 0 ∧
    (extractCooccurrenceFeatures log P).homogeneity
      = ∑ a ∈ Finset.range 16, ∑ b ∈ Finset.range 16, P.elem a b := by
  obtain ⟨_, _, h3, h4⟩ := haralick_sums log P
  rw [hr, hc] at h3 h4
  constructor
  · rw [h3]
    apply Finset.sum_eq_zero
    intro i _
    apply Finset.sum_eq_zero
    intro j _
    by_cases hij : i = j
    · subst hij
      simp
    · rw [hoff i j hij]
      simp
  · rw [h4]
    apply Finset.sum_congr rfl
    intro i _
    apply Finset.sum_congr rfl
    intro j _
    by_cases hij : i = j
    · subst hij
      by_cases hp : P.elem i i > 0
      · rw [if_pos hp]
        simp
      · rw [if_neg hp]
        exact le_antisymm (hnn i i) (not_lt.1 hp)
    · rw [hoff i j hij]
      simp

/-- At the zero offset the counters are on the diagonal: their total is the
total of the level counters. -/
theorem cellTotal_zero_offset (matDiv : Int → Int → Int) (gray : GrayMat)
    (distance angle : Int) (hoff : cooccurrenceOffset distance angle = (0, 0)) :
    cellTotal matDiv gray distance angle
      = ∑ c ∈ Finset.range 16,
          min ((pixelList gray.rows gray.cols).countP
            (fun p => decide (quantizedLevel matDiv gray p.1 p.2 = (c : Int)))) (2 ^ 24) := by
  unfold cellTotal
  apply Finset.sum_congr rfl
  intro c hc
  rw [Finset.sum_eq_single c]
  · unfold cellCount
    rw [levelPairs_zero_offset matDiv gray distance angle hoff c c, if_pos rfl]
  · intro d _ hd
    unfold cellCount
    rw [levelPairs_zero_offset matDiv gray distance angle hoff c d, if_neg (Ne.symm hd)]
    simp
  · intro h
    exact absurd hc h

theorem countP_range_interval (lo hi n : ℕ) :
    (List.range n).countP (fun j => decide (lo ≤ j ∧ j < hi)) = min hi n - lo := by
  induction n with
  | zero => simp
  | succ n ih =>
    rw [List.range_succ, List.countP_append, ih]
    by_cases h : lo ≤ n ∧ n < hi
    · have h1 : [n].countP (fun j => decide (lo ≤ j ∧ j < hi)) = 1 := by
        simp [List.countP_cons, h]
      rw [h1]
      omega
    · have h1 : [n].countP (fun j => decide (lo ≤ j ∧ j < hi)) = 0 := by
        simp only [List.countP_cons, List.countP_nil, decide_eq_true_eq, h, if_false]
      rw [h1]
      omega

theorem countP_pixelList_row (q : ℕ × ℕ → Bool) (n : ℕ) :
    (pixelList 1 n).countP q = (List.range n).countP (fun j => q (0, j)) := by
  have h : pixelList 1 n = (List.range n).map (fun j => (0, j)) := by
    simp [pixelList, List.range_succ]
  rw [h, List.countP_map]
  rfl

theorem quantizedLevel_stepRow (dark cols i j : ℕ) :
    quantizedLevel (fun x s => x / s) (stepRow dark cols) i j = if j < dark then 0 else 15 := by
  unfold quantizedLevel stepRow
  by_cases h : j < dark
  · simp only [h, if_true]
    decide
  · simp only [h, if_false]
    decide

/-- The number of samples of level `a` in a step row. -/
theorem levelCount_stepRow (dark cols a : ℕ) (hd : dark ≤ cols) :
    (pixelList (stepRow dark cols).rows (stepRow dark cols).cols).countP
        (fun p => decide (quantizedLevel (fun x s => x / s) (stepRow dark cols) p.1 p.2
          = (a : Int)))
      = if a = 0 then dark else if a = 15 then cols - dark else 0 := by
  have hrows : (stepRow dark cols).rows = 1 := rfl
  have hcols : (stepRow dark cols).cols = cols := rfl
  rw [hrows, hcols, countP_pixelList_row]
  simp only [quantizedLevel_stepRow]
  by_cases h0 : a = 0
  · have hint := countP_range_interval 0 dark cols
    rw [min_eq_left hd, Nat.sub_zero] at hint
    rw [if_pos h0]
    refine Eq.trans ?_ hint
    apply List.countP_congr
    intro j _
    simp only [decide_eq_true_eq]
    subst h0
    by_cases hj : j < dark
    · simp [hj]
    · simp [hj]
  · rw [if_neg h0]
    by_cases h15 : a = 15
    · rw [if_pos h15]
      have hint := countP_range_interval dark cols cols
      rw [min_self] at hint
      refine Eq.trans ?_ hint
      apply List.countP_congr
      intro j hj
      rw [List.mem_range] at hj
      simp only [decide_eq_true_eq]
      subst h15
      by_cases hjd : j < dark
      · simp only [hjd, if_true]
        constructor
        · intro h
          norm_num at h
        · intro h
          omega
      · simp only [hjd, if_false]
        constructor
        · intro _
          omega
        · intro _
          rfl
    · rw [if_neg h15, List.countP_eq_zero]
      intro j _
      simp only [decide_eq_true_eq]
      by_cases hjd : j < dark
      · simp only [hjd, if_true]
        intro h
        apply h0
        exact_mod_cast h.symm
      · simp only [hjd, if_false]
        intro h
        apply h15
        exact_mod_cast h.symm

theorem neighbours_stepRow (dark cols : ℕ) :
    (pixelList (stepRow dark cols).rows (stepRow dark cols).cols).countP
        (hasNeighbour (stepRow dark cols) 1 0) = cols - 1 := by
  have hrows : (stepRow dark cols).rows = 1 := rfl
  have hcols : (stepRow dark cols).cols = cols := rfl
  have hoff : cooccurrenceOffset 1 0 = (1, 0) := by decide
  have hint := countP_range_interval 0 (cols - 1) cols
  rw [min_eq_left (Nat.sub_le _ _), Nat.sub_zero] at hint
  rw [hrows, hcols, countP_pixelList_row]
  refine Eq.trans ?_ hint
  apply List.countP_congr
  intro j _
  unfold hasNeighbour
  rw [hoff, hrows, hcols]
  simp only [decide_eq_true_eq]
  omega

/-- The numbers of level pairs of a step row at distance 1 and angle 0. -/
theorem levelPairs_stepRow (dark cols a b : ℕ) (hd : 1 ≤ dark) (hc : dark < cols) :
    (pixelList (stepRow dark cols).rows (stepRow dark cols).cols).countP
        (isLevelPair (fun x s => x / s) (stepRow dark cols) 1 0 a b)
      = if a = 0 ∧ b = 0 then dark - 1
        else if a = 0 ∧ b = 15 then 1
        else if a = 15 ∧ b = 15 then cols - 1 - dark
        else 0 := by
  have hrows : (stepRow dark cols).rows = 1 := rfl
  have hcols : (stepRow dark cols).cols = cols := rfl
  have hoff : cooccurrenceOffset 1 0 = (1, 0) := by decide
  have hpred : ∀ j : ℕ, isLevelPair (fun x s => x / s) (stepRow dark cols) 1 0 a b (0, j) = true
      ↔ (j + 1 < cols ∧ (if j < dark then (0 : Int) else 15) = (a : Int) ∧
          (if j + 1 < dark then (0 : Int) else 15) = (b : Int)) := by
    intro j
    unfold isLevelPair hasNeighbour
    rw [hoff, hrows, hcols]
    simp only [quantizedLevel_stepRow, Bool.and_eq_true, decide_eq_true_eq]
    have h1 : ((j : Int) + 1).toNat = j + 1 := by omega
    rw [h1]
    constructor
    · rintro ⟨h, h2⟩
      exact ⟨by omega, h2⟩
    · rintro ⟨h, h2⟩
      exact ⟨by omega, h2⟩
  rw [hrows, hcols, countP_pixelList_row]
  by_cases h00 : a = 0 ∧ b = 0
  · have hint := countP_range_interval 0 (dark - 1) cols
    rw [min_eq_left (by omega), Nat.sub_zero] at hint
    rw [if_pos h00]
    refine Eq.trans ?_ hint
    apply List.countP_congr
    intro j _
    rw [hpred j, decide_eq_true_eq]
    obtain ⟨rfl, rfl⟩ := h00
    split_ifs <;> simp <;> omega
  · rw [if_neg h00]
    by_cases h01 : a = 0 ∧ b = 15
    · have hint := countP_range_interval (dark - 1) dark cols
      rw [min_eq_left (by omega)] at hint
      rw [if_pos h01]
      refine Eq.trans ?_ (hint.trans (by omega))
      apply List.countP_congr
      intro j _
      rw [hpred j, decide_eq_true_eq]
      obtain ⟨rfl, rfl⟩ := h01
      split_ifs <;> simp <;> omega
    · rw [if_neg h01]
      by_cases h11 : a = 15 ∧ b = 15
      · have hint := countP_range_interval dark (cols - 1) cols
        rw [min_eq_left (by omega)] at hint
        rw [if_pos h11]
        refine Eq.trans ?_ hint
        apply List.countP_congr
        intro j _
        rw [hpred j, decide_eq_true_eq]
        obtain ⟨rfl, rfl⟩ := h11
        split_ifs <;> simp <;> omega
      · rw [if_neg h11, List.countP_eq_zero]
        intro j _
        rw [hpred j]
        split_ifs <;> omega

end ZeroOffsetLemmas

/-! ## Claim about the angles of the co-occurrence matrix -/

section AngleClaims

theorem cellTotal_stepRow :
    cellTotal (fun x s => x / s) (stepRow 33554433 50331650) 1 0 = 33554433 := by
  unfold cellTotal cellCount
  simp only [levelPairs_stepRow 33554433 50331650 _ _ (by norm_num) (by norm_num)]
  decide

/-- C16, as stated, fails on an image with more than `2^24` pairs in one cell:
the single row of `33554433` samples `0` followed by `16777217` samples `255`,
at distance 1 and angle 0, has `50331649` pairs, `33554432` of them with levels
`(0, 0)`; the `float` counter of cell `(0, 0)` stops at `16777216`, the other
two counters hold `1` and `16777216`, and entry `(0, 0)` is
`16777216/33554433`, not `33554432/50331649`. -/
theorem cooccurrence_entry_saturates :
    (pixelList (stepRow 33554433 50331650).rows (stepRow 33554433 50331650).cols).countP
        (hasNeighbour (stepRow 33554433 50331650) 1 0) = 50331649 ∧
    (pixelList (stepRow 33554433 50331650).rows (stepRow 33554433 50331650).cols).countP
        (isLevelPair (fun x s => x / s) (stepRow 33554433 50331650) 1 0 0 0) = 33554432 ∧
    (computeCooccurrenceMatrix (fun x s => x / s) (stepRow 33554433 50331650) 1 0 :
      MatF ℚ).elem 0 0 = 16777216 / 33554433 ∧
    (computeCooccurrenceMatrix (fun x s => x / s) (stepRow 33554433 50331650) 1 0 :
      MatF ℚ).elem 0 0 ≠ 33554432 / 50331649 := by
  have hN : (pixelList (stepRow 33554433 50331650).rows
      (stepRow 33554433 50331650).cols).countP
        (hasNeighbour (stepRow 33554433 50331650) 1 0) = 50331649 := by
    rw [neighbours_stepRow]
  have hc : (pixelList (stepRow 33554433 50331650).rows
      (stepRow 33554433 50331650).cols).countP
        (isLevelPair (fun x s => x / s) (stepRow 33554433 50331650) 1 0 0 0) = 33554432 := by
    rw [levelPairs_stepRow 33554433 50331650 0 0 (by norm_num) (by norm_num)]
    rfl
  have he : (computeCooccurrenceMatrix (fun x s => x / s) (stepRow 33554433 50331650) 1 0 :
      MatF ℚ).elem 0 0 = 16777216 / 33554433 := by
    rw [cooccurrenceMatrix_elem_of_pos _ _ 1 0 (by rw [hN]; norm_num) 0 0, cellTotal_stepRow]
    unfold cellCount
    rw [hc]
    norm_num
  refine ⟨hN, hc, he, ?_⟩
  rw [he]
  norm_num

/-- The matrix of a step row at a zero offset: entry `(0, 0)`. -/
theorem stepRow_zero_offset_entry (dark cols : ℕ) (angle : Int) (hd : dark ≤ cols)
    (hpos : 0 < cols) (h0 : angle ≠ 0) (h45 : angle ≠ 45) (h90 : angle ≠ 90)
    (h135 : angle ≠ 135) :
    (computeCooccurrenceMatrix (fun x s => x / s) (stepRow dark cols) 1 angle : MatF ℚ).elem 0 0
      = ((min dark (2 ^ 24) : ℕ) : ℚ)
        / ((min dark (2 ^ 24) + min (cols - dark) (2 ^ 24) : ℕ) : ℚ) := by
  have hoff := cooccurrenceOffset_other 1 angle h0 h45 h90 h135
  have hN : 0 < (pixelList (stepRow dark cols).rows (stepRow dark cols).cols).countP
      (hasNeighbour (stepRow dark cols) 1 angle) := by
    rw [countP_hasNeighbour_zero_offset _ 1 angle hoff]
    exact Nat.mul_pos Nat.one_pos hpos
  rw [cooccurrenceMatrix_elem_of_pos _ _ 1 angle hN 0 0, cellTotal_zero_offset _ _ 1 angle hoff]
  unfold cellCount
  rw [levelPairs_zero_offset _ _ 1 angle hoff 0 0, if_pos rfl]
  simp only [levelCount_stepRow dark cols _ hd]
  simp [Finset.sum_range_succ]

/-- C30, as stated, fails on an image with more than `2^24` pixels at one level:
the single row of `2^25` samples `0` followed by `2^24` samples `255`, at the
angle 30, has two thirds of its pixels at level `0`, but the `float` counter of
cell `(0, 0)` stops at `2^24` and the entry is `1/2`. -/
theorem cooccurrence_diagonal_saturates :
    cooccurrenceOffset 1 30 = (0, 0) ∧
    (computeCooccurrenceMatrix (fun x s => x / s) (stepRow 33554432 50331648) 1 30 :
      MatF ℚ).elem 0 0 = 1 / 2 ∧
    (((pixelList (stepRow 33554432 50331648).rows (stepRow 33554432 50331648).cols).countP
        (fun p => decide (quantizedLevel (fun x s => x / s) (stepRow 33554432 50331648) p.1 p.2
          = ((0 : ℕ) : Int))) : ℕ) : ℚ)
      / (((stepRow 33554432 50331648).rows * (stepRow 33554432 50331648).cols : ℕ) : ℚ)
      = 2 / 3 := by
  refine ⟨by decide, ?_, ?_⟩
  · rw [stepRow_zero_offset_entry 33554432 50331648 30 (by norm_num) (by norm_num)
      (by decide) (by decide) (by decide) (by decide)]
    norm_num
  · rw [levelCount_stepRow 33554432 50331648 0 (by norm_num), if_pos rfl]
    simp only [stepRow]
    norm_num

/-- C30 (amended): `computeCooccurrenceMatrix` maps angle 0 to the offset
`(d, 0)`, 45 to `(d, -d)`, 90 to `(0, -d)` and 135 to `(-d, -d)`; every other
angle gives the offset `(0, 0)`, and then, for every non-empty image, the
matrix is diagonal: entry `(a, b)` is `0` for `a != b`; entry `(a, a)` is the
counter of level `a` (the number of pixels at level `a`, stopped at `2^24`)
divided by the total of the 16 counters, which is the fraction of pixels at
level `a` when no level has more than `2^24` pixels (in particular when
`rows*cols <= 2^24`); the contrast is `0` and the homogeneity is `1`. -/
theorem cooccurrence_angle_offsets {α : Type} [LinearOrderedField α] (log : α → α)
    (matDiv : Int → Int → Int) (gray : GrayMat) (distance angle : Int) :
    cooccurrenceOffset distance 0 = (distance, 0) ∧
    cooccurrenceOffset distance 45 = (distance, -distance) ∧
    cooccurrenceOffset distance 90 = (0, -distance) ∧
    cooccurrenceOffset distance 135 = (-distance, -distance) ∧
    (angle ≠ 0 → angle ≠ 45 → angle ≠ 90 → angle ≠ 135 →
      cooccurrenceOffset distance angle = (0, 0) ∧
      (0 < gray.rows → 0 < gray.cols →
        (∀ a b, a ≠ b →
          (computeCooccurrenceMatrix matDiv gray distance angle : MatF α).elem a b = 0) ∧
        (∀ a, (computeCooccurrenceMatrix matDiv gray distance angle : MatF α).elem a a
          = ((min ((pixelList gray.rows gray.cols).countP
                (fun p => decide (quantizedLevel matDiv gray p.1 p.2 = (a : Int))))
              (2 ^ 24) : ℕ) : α)
            / ((∑ c ∈ Finset.range 16,
                min ((pixelList gray.rows gray.cols).countP
                  (fun p => decide (quantizedLevel matDiv gray p.1 p.2 = (c : Int))))
                (2 ^ 24) : ℕ) : α)) ∧
        ((∀ c : ℕ, c < 16 →
            (pixelList gray.rows gray.cols).countP
              (fun p => decide (quantizedLevel matDiv gray p.1 p.2 = (c : Int))) ≤ 2 ^ 24) →
          ∀ a, a < 16 →
            (computeCooccurrenceMatrix matDiv gray distance angle : MatF α).elem a a
              = (((pixelList gray.rows gray.cols).countP
                    (fun p => decide (quantizedLevel matDiv gray p.1 p.2 = (a : Int))) : ℕ) : α)
                / ((gray.rows * gray.cols : ℕ) : α)) ∧
        (gray.rows * gray.cols ≤ 2 ^ 24 →
          ∀ a, a < 16 →
            (computeCooccurrenceMatrix matDiv gray distance angle : MatF α).elem a a
              = (((pixelList gray.rows gray.cols).countP
                    (fun p => decide (quantizedLevel matDiv gray p.1 p.2 = (a : Int))) : ℕ) : α)
                / ((gray.rows * gray.cols : ℕ) : α)) ∧
        (extractCooccurrenceFeatures log
          (computeCooccurrenceMatrix matDiv gray distance angle : MatF α)).contrast = 0 ∧
        (extractCooccurrenceFeatures log
          (computeCooccurrenceMatrix matDiv gray distance angle : MatF α)).homogeneity = 1)) := by
  refine ⟨by simp [cooccurrenceOffset], by simp [cooccurrenceOffset],
    by simp [cooccurrenceOffset], by simp [cooccurrenceOffset], ?_⟩
  intro h0 h45 h90 h135
  have hoff := cooccurrenceOffset_other distance angle h0 h45 h90 h135
  refine ⟨hoff, ?_⟩
  intro hr hc
  have hcount := countP_hasNeighbour_zero_offset gray distance angle hoff
  have hN : 0 < (pixelList gray.rows gray.cols).countP (hasNeighbour gray distance angle) := by
    rw [hcount]
    exact Nat.mul_pos hr hc
  obtain ⟨hnn, hsmall, _⟩ := @cooccurrenceMatrix_facts α _ matDiv gray distance angle
  have hzero : ∀ a b, a ≠ b →
      (computeCooccurrenceMatrix matDiv gray distance angle : MatF α).elem a b = 0 := by
    intro a b hab
    rw [cooccurrenceMatrix_elem_of_pos matDiv gray distance angle hN a b]
    unfold cellCount
    rw [levelPairs_zero_offset matDiv gray distance angle hoff a b, if_neg hab]
    simp
  have hfrac : (∀ c : ℕ, c < 16 →
      (pixelList gray.rows gray.cols).countP
        (fun p => decide (quantizedLevel matDiv gray p.1 p.2 = (c : Int))) ≤ 2 ^ 24) →
      ∀ a, a < 16 →
        (computeCooccurrenceMatrix matDiv gray distance angle : MatF α).elem a a
          = (((pixelList gray.rows gray.cols).countP
                (fun p => decide (quantizedLevel matDiv gray p.1 p.2 = (a : Int))) : ℕ) : α)
            / ((gray.rows * gray.cols : ℕ) : α) := by
    intro hlev a ha
    have hcells : ∀ c d, c < 16 → d < 16 →
        (pixelList gray.rows gray.cols).countP
          (isLevelPair matDiv gray distance angle c d) ≤ 2 ^ 24 := by
      intro c d hc16 _
      rw [levelPairs_zero_offset matDiv gray distance angle hoff c d]
      split
      · exact hlev c hc16
      · exact Nat.zero_le _
    rw [hsmall hN hcells a a ha ha, levelPairs_zero_offset matDiv gray distance angle hoff a a,
      if_pos rfl, hcount]
  obtain ⟨hd1, hd2⟩ := @cooccurrenceMatrix_dims α _ matDiv gray distance angle
  obtain ⟨hcon, hhom⟩ := haralick_of_diagonal log _ hd1 hd2 hnn hzero
  refine ⟨hzero, ?_, hfrac, ?_, hcon, ?_⟩
  · intro a
    rw [cooccurrenceMatrix_elem_of_pos matDiv gray distance angle hN a a,
      cellTotal_zero_offset matDiv gray distance angle hoff]
    unfold cellCount
    rw [levelPairs_zero_offset matDiv gray distance angle hoff a a, if_pos rfl]
  · intro hpix
    exact hfrac (fun c _ => le_trans (countP_le_pixels _ _ _) hpix)
  · rw [hhom]
    exact cooccurrenceMatrix_sum_of_pos matDiv gray distance angle hN

/-- Witness for C30 (amended): the 1x2 image with samples `0` and `255` at
angle 30 has the offset `(0, 0)`, contrast `0` and homogeneity `1`. -/
theorem cooccurrence_angle_offsets_witness :
    cooccurrenceOffset 1 30 = (0, 0) ∧
    (extractCooccurrenceFeatures (fun x => x)
      (computeCooccurrenceMatrix (fun x s => x / s) grayPair 1 30 : MatF ℚ)).contrast = 0 ∧
    (extractCooccurrenceFeatures (fun x => x)
      (computeCooccurrenceMatrix (fun x s => x / s) grayPair 1 30 : MatF ℚ)).homogeneity = 1 :=
  have h := (@cooccurrence_angle_offsets ℚ _ (fun x => x) (fun x s => x / s) grayPair 1
    30).2.2.2.2 (by decide) (by decide) (by decide) (by decide)
  have h2 := h.2 (by decide) (by decide)
  ⟨h.1, h2.2.2.2.2.1, h2.2.2.2.2.2⟩

end AngleClaims

/-! ## The rg-chromaticity histogram as a count -/

section ChromaticityLemmas

theorem foldl_guard_eq_filter {β ι : Type} (c : ι → Prop) [DecidablePred c] (f : β → ι → β)
    (l : List ι) (init : β) :
    l.foldl (fun h x => if c x then h else f h x) init
      = (l.filter (fun x => decide (¬ c x))).foldl f init := by
  induction l generalizing init with
  | nil => rfl
  | cons x xs ih =>
    rw [List.foldl_cons, ih]
    by_cases hx : c x
    · simp [hx]
    · simp [hx]

variable {α : Type} [LinearOrderedField α]

theorem rgSkipped_iff (pixel : Vec3b) :
    rgSkipped α pixel ↔ pixel.c2.val + pixel.c1.val + pixel.c0.val = 0 := by
  unfold rgSkipped
  have hcast : (((pixel.c2.val : ℕ) : α) + ((pixel.c1.val : ℕ) : α) + ((pixel.c0.val : ℕ) : α))
      = ((pixel.c2.val + pixel.c1.val + pixel.c0.val : ℕ) : α) := by
    push_cast
    rfl
  rw [hcast]
  constructor
  · intro h
    by_contra hne
    have h1 : 1 ≤ pixel.c2.val + pixel.c1.val + pixel.c0.val := Nat.one_le_iff_ne_zero.2 hne
    have h2 : (1 : α) ≤ ((pixel.c2.val + pixel.c1.val + pixel.c0.val : ℕ) : α) := by
      exact_mod_cast h1
    have h3 : (1 : α) / 10 ^ 6 < 1 := by
      rw [div_lt_one (by positivity)]
      exact one_lt_pow₀ (by norm_num) (by norm_num)
    linarith
  · intro h
    rw [h]
    simp only [Nat.cast_zero]
    positivity

theorem nonblack_filter (image : Mat) :
    (fun p : ℕ × ℕ => decide (¬ rgSkipped α (image.pixel p.1 p.2)))
      = (fun p : ℕ × ℕ => decide ((image.pixel p.1 p.2).c2.val + (image.pixel p.1 p.2).c1.val
          + (image.pixel p.1 p.2).c0.val ≠ 0)) := by
  funext p
  apply decide_eq_decide.2
  rw [rgSkipped_iff]

variable [FloorRing α]

theorem rgChromaticity_eq_incrFold (image : Mat) (r_bins g_bins : ℕ) :
    (extractRGChromaticityHistogram image r_bins g_bins : List α)
      = ((pixelList image.rows image.cols).filter
            (fun p => decide (¬ rgSkipped α (image.pixel p.1 p.2)))).foldl
          (fun h p => h.modify floatIncr (rgBinIndex α (image.pixel p.1 p.2) r_bins g_bins))
          (List.replicate (r_bins * g_bins) 0) := by
  have h := foldl_nested_eq
    (fun (histogram : List α) (i j : ℕ) =>
      if rgSkipped α (image.pixel i j) then histogram
      else histogram.modify floatIncr (rgBinIndex α (image.pixel i j) r_bins g_bins))
    image.rows image.cols (List.replicate (r_bins * g_bins) 0)
  refine Eq.trans h ?_
  exact foldl_guard_eq_filter (fun p : ℕ × ℕ => rgSkipped α (image.pixel p.1 p.2))
    (fun (h : List α) (p : ℕ × ℕ) => h.modify floatIncr
      (rgBinIndex α (image.pixel p.1 p.2) r_bins g_bins)) _ _

theorem rgBinIndex_lt (pixel : Vec3b) (r_bins g_bins : ℕ) (hr : 1 ≤ r_bins)
    (hg : 1 ≤ g_bins) : rgBinIndex α pixel r_bins g_bins < r_bins * g_bins := by
  obtain ⟨r, rfl⟩ : ∃ r, r_bins = r + 1 := ⟨r_bins - 1, by omega⟩
  obtain ⟨g, rfl⟩ : ∃ g, g_bins = g + 1 := ⟨g_bins - 1, by omega⟩
  unfold rgBinIndex
  simp only [Nat.add_sub_cancel]
  have h4 : r * (g + 1) + g < (r + 1) * (g + 1) := by
    ring_nf
    omega
  exact Nat.lt_of_le_of_lt
    (Nat.add_le_add (Nat.mul_le_mul_right _ (min_le_right _ _)) (min_le_right _ _)) h4

theorem countP_filter_eq {ι : Type} (p q : ι → Bool) (l : List ι) :
    (l.filter p).countP q = l.countP (fun x => p x && q x) := by
  induction l with
  | nil => rfl
  | cons x xs ih =>
    by_cases hp : p x = true
    · by_cases hq : q x = true
      · simp [List.filter_cons, List.countP_cons, hp, hq, ih]
      · simp [List.filter_cons, List.countP_cons, hp, hq, ih]
    · simp [List.filter_cons, List.countP_cons, hp, ih]

/-- Entry `k` of the chromaticity histogram: the number of non-black pixels of
cell `k`, stopped at `2^24`. -/
theorem getD_rgChromaticity (image : Mat) (r_bins g_bins k : ℕ) (hk : k < r_bins * g_bins) :
    (extractRGChromaticityHistogram image r_bins g_bins : List α).getD k 0
      = ((min ((pixelList image.rows image.cols).countP
            (fun p => decide ((image.pixel p.1 p.2).c2.val + (image.pixel p.1 p.2).c1.val
                + (image.pixel p.1 p.2).c0.val ≠ 0) &&
              decide (rgBinIndex α (image.pixel p.1 p.2) r_bins g_bins = k))) (2 ^ 24) : ℕ) : α) := by
  rw [rgChromaticity_eq_incrFold, nonblack_filter,
    getD_incrFold _ _ _ k 0 (by simpa using hk) (by rw [getD_replicate_zero]; simp)
      (Nat.zero_le _), zero_add, countP_filter_eq]

/-- When no cell receives more than `2^24` pixels, the entries of the
chromaticity histogram sum to the number of non-black pixels. -/
theorem sum_rgChromaticity (image : Mat) (r_bins g_bins : ℕ) (hr : 1 ≤ r_bins)
    (hg : 1 ≤ g_bins)
    (hsmall : ∀ k, k < r_bins * g_bins →
      (pixelList image.rows image.cols).countP
        (fun p => decide ((image.pixel p.1 p.2).c2.val + (image.pixel p.1 p.2).c1.val
            + (image.pixel p.1 p.2).c0.val ≠ 0) &&
          decide (rgBinIndex α (image.pixel p.1 p.2) r_bins g_bins = k)) ≤ 2 ^ 24) :
    (extractRGChromaticityHistogram image r_bins g_bins : List α).sum
      = (((pixelList image.rows image.cols).countP
          (fun p => decide ((image.pixel p.1 p.2).c2.val + (image.pixel p.1 p.2).c1.val
              + (image.pixel p.1 p.2).c0.val ≠ 0)) : ℕ) : α) := by
  rw [rgChromaticity_eq_incrFold, nonblack_filter,
    incrFold_eq_countFold
      (fun p : ℕ × ℕ => rgBinIndex α (image.pixel p.1 p.2) r_bins g_bins) _ _
      (fun k hk => by rw [countP_filter_eq]; exact hsmall k hk),
    sum_countFold, sum_replicate_zero, zero_add, ← List.countP_eq_length_filter]
  intro p _
  rw [List.length_replicate]
  exact rgBinIndex_lt _ _ _ hr hg

end ChromaticityLemmas

/-! ## Claim about the rg-chromaticity histogram -/

section ChromaticityClaims

theorem toFloat32_r_example :
    toFloat32 (toFloat32 ((13 : ℚ) / (13 + 9 + 0)) * toFloat32 (22 : ℚ))
      = 13631487 / 1048576 := by
  have h22 : toFloat32 (22 : ℚ) = 22 := by
    have h := @toFloat32_natCast ℚ _ _ 22 (by norm_num)
    simpa using h
  have hr : toFloat32 ((13 : ℚ) / (13 + 9 + 0)) = 9913809 / 16777216 := by
    rw [toFloat32_eval ((13 : ℚ) / (13 + 9 + 0)) (-1) 9913809 (by norm_num) (by norm_num)
      (by norm_num) (by norm_num) (roundHalfEven_of_lt _ _ (by norm_num) (by norm_num))]
    norm_num
  rw [h22, hr,
    toFloat32_eval ((9913809 : ℚ) / 16777216 * 22) 3 13631487 (by norm_num) (by norm_num)
      (by norm_num) (by norm_num) (roundHalfEven_of_lt _ _ (by norm_num) (by norm_num))]
  norm_num

theorem toFloat32_g_example :
    toFloat32 (toFloat32 ((9 : ℚ) / (13 + 9 + 0)) * toFloat32 (22 : ℚ)) = 9 := by
  have h22 : toFloat32 (22 : ℚ) = 22 := by
    have h := @toFloat32_natCast ℚ _ _ 22 (by norm_num)
    simpa using h
  have hg : toFloat32 ((9 : ℚ) / (13 + 9 + 0)) = 13726813 / 33554432 := by
    rw [toFloat32_eval ((9 : ℚ) / (13 + 9 + 0)) (-2) 13726813 (by norm_num) (by norm_num)
      (by norm_num) (by norm_num) (roundHalfEven_of_lt _ _ (by norm_num) (by norm_num))]
    norm_num
  rw [h22, hg,
    toFloat32_eval ((13726813 : ℚ) / 33554432 * 22) 3 9437184 (by norm_num) (by norm_num)
      (by norm_num) (by norm_num) (roundHalfEven_of_gt _ 9437183 (by norm_num) (by norm_num))]
  norm_num

/-- The cell of the pixel `(R, G, B) = (13, 9, 0)` with 22x22 cells, as the
code computes it in binary32. -/
theorem rgBinIndex_example : rgBinIndex ℚ ⟨0, 9, 13⟩ 22 22 = 273 := by
  have h13 : ((13 : Fin 256) : ℕ) = 13 := rfl
  have h9 : ((9 : Fin 256) : ℕ) = 9 := rfl
  have h0 : ((0 : Fin 256) : ℕ) = 0 := rfl
  have hfr : Nat.floor ((13631487 : ℚ) / 1048576) = 12 := by
    rw [Nat.floor_eq_iff (by norm_num)]
    norm_num
  have hfg : Nat.floor (9 : ℚ) = 9 := by
    exact Nat.floor_natCast 9
  unfold rgBinIndex
  simp only [h13, h9, h0, Nat.cast_ofNat, Nat.cast_zero]
  rw [toFloat32_r_example, toFloat32_g_example, hfr, hfg]
  decide

/-- C25, as stated, fails where the binary32 product falls below an integer
that the exact product reaches: for the pixel `(R, G, B) = (13, 9, 0)` and
22x22 cells, `R/(R+G+B) * 22` is exactly `13` but the code computes
`12.99999905` (`13/22` rounds down to a `float`, and so does the product), so
the pixel is counted in cell `12*22 + 9 = 273`, not in `13*22 + 9 = 295`. -/
theorem rgChromaticity_float_bin :
    toFloat32 (toFloat32 ((13 : ℚ) / (13 + 9 + 0)) * toFloat32 (22 : ℚ))
      = 13631487 / 1048576 ∧
    rgBinIndex ℚ ⟨0, 9, 13⟩ 22 22 = 273 ∧
    min (Nat.floor ((13 : ℚ) / (13 + 9 + 0) * 22)) (22 - 1) * 22
      + min (Nat.floor ((9 : ℚ) / (13 + 9 + 0) * 22)) (22 - 1) = 295 ∧
    (extractRGChromaticityHistogram (onePixelImage ⟨0, 9, 13⟩) 22 22 : List ℚ).getD 273 0 = 1 ∧
    (extractRGChromaticityHistogram (onePixelImage ⟨0, 9, 13⟩) 22 22 : List ℚ).getD 295 0
      = 0 := by
  have hclaim : min (Nat.floor ((13 : ℚ) / (13 + 9 + 0) * 22)) (22 - 1) * 22
      + min (Nat.floor ((9 : ℚ) / (13 + 9 + 0) * 22)) (22 - 1) = 295 := by
    have h1 : (13 : ℚ) / (13 + 9 + 0) * 22 = ((13 : ℕ) : ℚ) := by norm_num
    have h2 : (9 : ℚ) / (13 + 9 + 0) * 22 = ((9 : ℕ) : ℚ) := by norm_num
    rw [h1, h2, Nat.floor_natCast, Nat.floor_natCast]
    decide
  have hpix : pixelList (onePixelImage ⟨0, 9, 13⟩).rows (onePixelImage ⟨0, 9, 13⟩).cols
      = [(0, 0)] := by
    decide
  have h13 : ((13 : Fin 256) : ℕ) = 13 := rfl
  have h9 : ((9 : Fin 256) : ℕ) = 9 := rfl
  refine ⟨toFloat32_r_example, rgBinIndex_example, hclaim, ?_, ?_⟩
  · rw [getD_rgChromaticity _ 22 22 273 (by norm_num), hpix]
    simp [onePixelImage, rgBinIndex_example, h13, h9]
  · rw [getD_rgChromaticity _ 22 22 295 (by norm_num), hpix]
    simp [onePixelImage, rgBinIndex_example, h13, h9]

/-- C25 (amended): for every 3-channel image and bin counts `Br, Bg >= 1` with
`Br, Bg <= 2^24` and `Br*Bg < 2^31`, `extractRGChromaticityHistogram` returns
`Br*Bg` counts; a pixel is skipped exactly when `R+G+B = 0`; every other pixel
increments the cell `r_bin*Bg + g_bin`, below `Br*Bg`, where
`r_bin = min(floor(fl(fl(R/(R+G+B)) * Br)), Br-1)`,
`g_bin = min(floor(fl(fl(G/(R+G+B)) * Bg)), Bg-1)` and `fl` rounds to the
nearest binary32 value; entry `k` is the number of non-black pixels whose cell
is `k`, stopped at `2^24`; and when no cell receives more than `2^24` pixels, in
particular when `rows*cols <= 2^24`, the counts sum to the number of pixels that
are not pure black. -/
theorem rgChromaticity_spec {α : Type} [LinearOrderedField α] [FloorRing α] (image : Mat)
    (Br Bg : ℕ) (hr : 1 ≤ Br) (hg : 1 ≤ Bg) (hr24 : Br ≤ 2 ^ 24) (hg24 : Bg ≤ 2 ^ 24)
    (_h31 : Br * Bg < 2 ^ 31) :
    (extractRGChromaticityHistogram image Br Bg : List α).length = Br * Bg ∧
    (∀ p : Vec3b, rgSkipped α p ↔ p.c2.val + p.c1.val + p.c0.val = 0) ∧
    (∀ p : Vec3b, rgBinIndex α p Br Bg
      = min (Nat.floor (toFloat32 (toFloat32 (((p.c2.val : ℕ) : α)
            / (((p.c2.val : ℕ) : α) + ((p.c1.val : ℕ) : α) + ((p.c0.val : ℕ) : α)))
            * (Br : α)))) (Br - 1) * Bg
        + min (Nat.floor (toFloat32 (toFloat32 (((p.c1.val : ℕ) : α)
            / (((p.c2.val : ℕ) : α) + ((p.c1.val : ℕ) : α) + ((p.c0.val : ℕ) : α)))
            * (Bg : α)))) (Bg - 1)) ∧
    (∀ p : Vec3b, rgBinIndex α p Br Bg < Br * Bg) ∧
    (∀ k, k < Br * Bg →
      (extractRGChromaticityHistogram image Br Bg : List α).getD k 0
        = ((min ((pixelList image.rows image.cols).countP
            (fun p => decide ((image.pixel p.1 p.2).c2.val + (image.pixel p.1 p.2).c1.val
                + (image.pixel p.1 p.2).c0.val ≠ 0) &&
              decide (rgBinIndex α (image.pixel p.1 p.2) Br Bg = k))) (2 ^ 24) : ℕ) : α)) ∧
    ((∀ k, k < Br * Bg →
        (pixelList image.rows image.cols).countP
          (fun p => decide ((image.pixel p.1 p.2).c2.val + (image.pixel p.1 p.2).c1.val
              + (image.pixel p.1 p.2).c0.val ≠ 0) &&
            decide (rgBinIndex α (image.pixel p.1 p.2) Br Bg = k)) ≤ 2 ^ 24) →
      (extractRGChromaticityHistogram image Br Bg : List α).sum
        = (((pixelList image.rows image.cols).countP
            (fun p => decide ((image.pixel p.1 p.2).c2.val + (image.pixel p.1 p.2).c1.val
                + (image.pixel p.1 p.2).c0.val ≠ 0)) : ℕ) : α)) ∧
    (image.rows * image.cols ≤ 2 ^ 24 →
      (extractRGChromaticityHistogram image Br Bg : List α).sum
        = (((pixelList image.rows image.cols).countP
            (fun p => decide ((image.pixel p.1 p.2).c2.val + (image.pixel p.1 p.2).c1.val
                + (image.pixel p.1 p.2).c0.val ≠ 0)) : ℕ) : α)) := by
  refine ⟨?_, fun p => rgSkipped_iff p, fun p => ?_,
    fun p => rgBinIndex_lt p Br Bg hr hg, fun k hk => getD_rgChromaticity image Br Bg k hk,
    fun hsmall => sum_rgChromaticity image Br Bg hr hg hsmall,
    fun hpix => sum_rgChromaticity image Br Bg hr hg
      (fun k _ => le_trans (countP_le_pixels _ _ _) hpix)⟩
  · rw [rgChromaticity_eq_incrFold, length_incrFold, List.length_replicate]
  · unfold rgBinIndex
    simp only
    rw [toFloat32_natCast Br hr24, toFloat32_natCast Bg hg24]

theorem red2x2_nonblack :
    (pixelList redImage2x2.rows redImage2x2.cols).countP
      (fun p => decide ((redImage2x2.pixel p.1 p.2).c2.val + (redImage2x2.pixel p.1 p.2).c1.val
        + (redImage2x2.pixel p.1 p.2).c0.val ≠ 0)) = 4 := by
  decide

/-- Witness for C25 (amended): the 2x2 pure-red image with 2x2 cells has four
non-black pixels, so the four counts sum to `4`. -/
theorem rgChromaticity_spec_witness :
    (extractRGChromaticityHistogram redImage2x2 2 2 : List ℚ).length = 2 * 2 ∧
    (extractRGChromaticityHistogram redImage2x2 2 2 : List ℚ).sum = ((4 : ℕ) : ℚ) :=
  have h := @rgChromaticity_spec ℚ _ _ redImage2x2 2 2 (by decide) (by decide) (by decide)
    (by decide) (by decide)
  ⟨h.1, by rw [h.2.2.2.2.2.2 (by decide), red2x2_nonblack]⟩

end ChromaticityClaims

/-! ## The saliency-weighted histogram as binary32 running sums -/

section SaliencyLemmas

variable {α : Type} [LinearOrderedField α]

theorem sum_map_ite_const {ι : Type} (P : ι → Prop) [DecidablePred P] (c : α) (l : List ι) :
    (l.map (fun x => if P x then c else 0)).sum
      = c * ((l.countP (fun x => decide (P x)) : ℕ) : α) := by
  induction l with
  | nil => simp
  | cons x xs ih =>
    rw [List.map_cons, List.sum_cons, ih, List.countP_cons]
    by_cases hx : P x
    · simp [hx]
      ring
    · simp [hx]

theorem sum_map_const {ι : Type} (c : α) (l : List ι) :
    (l.map (fun _ => c)).sum = c * (l.length : α) := by
  induction l with
  | nil => simp
  | cons x xs ih =>
    rw [List.map_cons, List.sum_cons, ih, List.length_cons]
    push_cast
    ring

theorem sum_map_congr_mem {ι : Type} (f g : ι → α) (l : List ι)
    (h : ∀ x ∈ l, f x = g x) : (l.map f).sum = (l.map g).sum := by
  rw [List.map_congr_left h]

theorem getD_map_div (l : List α) (c : α) (k : ℕ) :
    (l.map (fun x => x / c)).getD k 0 = l.getD k 0 / c := by
  by_cases hk : k < l.length
  · have hk2 : k < (l.map (fun x => x / c)).length := by
      rw [List.length_map]
      exact hk
    rw [List.getD_eq_getElem _ _ hk2, List.getD_eq_getElem _ _ hk, List.getElem_map]
  · have hk2 : (l.map (fun x => x / c)).length ≤ k := by
      rw [List.length_map]
      exact not_lt.1 hk
    rw [List.getD_eq_default _ _ hk2, List.getD_eq_default _ _ (not_lt.1 hk), zero_div]

/-- The sum over the items of one bin, as a sum over all items. -/
theorem sum_filter_map {ι : Type} (idx : ι → ℕ) (u : ι → α) (l : List ι) (k : ℕ) :
    ((l.filter (fun x => decide (idx x = k))).map u).sum
      = (l.map (fun x => if idx x = k then u x else 0)).sum := by
  induction l with
  | nil => rfl
  | cons x xs ih =>
    by_cases hx : idx x = k
    · simp [List.filter_cons, hx, ih]
    · simp [List.filter_cons, hx, ih]

/-- The per-bin sums add up to the sum over all items. -/
theorem sum_bins_eq {ι : Type} (idx : ι → ℕ) (u : ι → α) (l : List ι) (n : ℕ)
    (hidx : ∀ x ∈ l, idx x < n) :
    ∑ k ∈ Finset.range n, (l.map (fun x => if idx x = k then u x else 0)).sum
      = (l.map u).sum := by
  induction l with
  | nil => simp
  | cons x xs ih =>
    simp only [List.map_cons, List.sum_cons, Finset.sum_add_distrib]
    rw [ih (fun y hy => hidx y (List.mem_cons_of_mem x hy)), Finset.sum_ite_eq,
      if_pos (Finset.mem_range.2 (hidx x (List.mem_cons_self x xs)))]

theorem natSum_filter_le {ι : Type} (q : ι → Bool) (u : ι → ℕ) (l : List ι) :
    ((l.filter q).map u).sum ≤ (l.map u).sum := by
  induction l with
  | nil => simp
  | cons x xs ih =>
    by_cases hx : q x = true
    · rw [List.filter_cons_of_pos hx]
      simp only [List.map_cons, List.sum_cons]
      omega
    · rw [List.filter_cons_of_neg hx]
      simp only [List.map_cons, List.sum_cons]
      omega

variable [FloorRing α]

theorem getD_modify_fl (h : List α) (n k : ℕ) (w : α) (hk : k < h.length) :
    (h.modify (fun c => toFloat32 (c + w)) n).getD k 0
      = if n = k then toFloat32 (h.getD k 0 + w) else h.getD k 0 := by
  rw [List.getD_eq_getElem?_getD, List.getD_eq_getElem?_getD, List.getElem?_modify,
    List.getElem?_eq_getElem hk]
  by_cases hnk : n = k
  · simp [hnk]
  · simp [hnk]

/-- The weighted pass in binary32: the total is the running sum over all
items, and entry `k` is the running sum over the items of bin `k`, in the order
of the pass. -/
theorem floatWeightedFold {ι : Type} (idx : ι → ℕ) (w : ι → α) (l : List ι) (init : List α)
    (t0 : α) :
    (l.foldl (fun st x => (st.1.modify (fun h => toFloat32 (h + w x)) (idx x),
        toFloat32 (st.2 + w x))) (init, t0)).2
      = float32Sum t0 (l.map w) ∧
    (l.foldl (fun st x => (st.1.modify (fun h => toFloat32 (h + w x)) (idx x),
        toFloat32 (st.2 + w x))) (init, t0)).1.length
      = init.length ∧
    (∀ k, k < init.length →
      (l.foldl (fun st x => (st.1.modify (fun h => toFloat32 (h + w x)) (idx x),
          toFloat32 (st.2 + w x))) (init, t0)).1.getD k 0
        = float32Sum (init.getD k 0) ((l.filter (fun x => decide (idx x = k))).map w)) := by
  induction l generalizing init t0 with
  | nil =>
    refine ⟨rfl, rfl, fun k _ => rfl⟩
  | cons x xs ih =>
    obtain ⟨h1, h2, h3⟩ := ih (init.modify (fun h => toFloat32 (h + w x)) (idx x))
      (toFloat32 (t0 + w x))
    simp only [List.foldl_cons, List.map_cons]
    refine ⟨?_, ?_, ?_⟩
    · rw [h1]
      rfl
    · rw [h2, List.length_modify]
    · intro k hk
      rw [h3 k (by rw [List.length_modify]; exact hk), getD_modify_fl _ _ _ _ hk]
      by_cases hx : idx x = k
      · simp only [hx, if_true, List.filter_cons, decide_True, List.map_cons]
        rfl
      · simp only [hx, if_false, List.filter_cons, decide_False]
        rfl

/-- A running sum of multiples of `2^s` whose units add up to at most `2^24`
is exact. -/
theorem float32Sum_exact (s : ℤ) (hs : -149 ≤ s) (ns : List ℕ) (m : ℕ)
    (h : m + ns.sum ≤ 2 ^ 24) :
    float32Sum ((m : α) * 2 ^ s) (ns.map (fun (n : ℕ) => (n : α) * 2 ^ s))
      = ((m + ns.sum : ℕ) : α) * 2 ^ s := by
  induction ns generalizing m with
  | nil => simp [float32Sum]
  | cons n ns ih =>
    rw [List.sum_cons] at h
    have hstep : toFloat32 ((m : α) * 2 ^ s + (n : α) * 2 ^ s) = ((m + n : ℕ) : α) * 2 ^ s := by
      have e : (m : α) * 2 ^ s + (n : α) * 2 ^ s = ((m + n : ℕ) : α) * 2 ^ s := by
        push_cast
        ring
      rw [e, toFloat32_dyadic (m + n) s (by omega) hs]
    have hrec := ih (m + n) (by omega)
    unfold float32Sum at hrec ⊢
    rw [List.map_cons, List.foldl_cons, hstep, hrec, List.sum_cons]
    congr 2
    omega

theorem float32Sum_units {ι : Type} (s : ℤ) (hs : -149 ≤ s) (u : ι → ℕ) (w : ι → α)
    (l : List ι) (hw : ∀ x ∈ l, w x = (u x : α) * 2 ^ s) (h : (l.map u).sum ≤ 2 ^ 24) :
    float32Sum 0 (l.map w) = (l.map w).sum := by
  have hmap : l.map w = (l.map u).map (fun (n : ℕ) => (n : α) * 2 ^ s) := by
    rw [List.map_map]
    exact List.map_congr_left hw
  have h0 : (0 : α) = ((0 : ℕ) : α) * 2 ^ s := by simp
  rw [hmap, h0, float32Sum_exact s hs (l.map u) 0 (by omega), zero_add, List.sum_map_mul_right]
  congr 1
  exact Nat.cast_list_sum _

/-- The pair of accumulators after the double loop of
`extractSaliencyWeightedHistogram`. -/
theorem saliencyHistogram_eq (image : Mat) (saliency_map : MatF α) (bins : ℕ) :
    (extractSaliencyWeightedHistogram image saliency_map bins : List α)
      = if ((pixelList image.rows image.cols).foldl
              (fun st p => (st.1.modify (fun h => toFloat32 (h + saliency_map.elem p.1 p.2))
                  (rgbBinIndex (image.pixel p.1 p.2) bins),
                toFloat32 (st.2 + saliency_map.elem p.1 p.2)))
              (List.replicate (bins * bins * bins) (0 : α), (0 : α))).2 > 0 then
          (((pixelList image.rows image.cols).foldl
              (fun st p => (st.1.modify (fun h => toFloat32 (h + saliency_map.elem p.1 p.2))
                  (rgbBinIndex (image.pixel p.1 p.2) bins),
                toFloat32 (st.2 + saliency_map.elem p.1 p.2)))
              (List.replicate (bins * bins * bins) (0 : α), (0 : α))).1).map
            (fun h => h /
              ((pixelList image.rows image.cols).foldl
                (fun st p => (st.1.modify (fun h => toFloat32 (h + saliency_map.elem p.1 p.2))
                    (rgbBinIndex (image.pixel p.1 p.2) bins),
                  toFloat32 (st.2 + saliency_map.elem p.1 p.2)))
                (List.replicate (bins * bins * bins) (0 : α), (0 : α))).2)
        else
          ((pixelList image.rows image.cols).foldl
              (fun st p => (st.1.modify (fun h => toFloat32 (h + saliency_map.elem p.1 p.2))
                  (rgbBinIndex (image.pixel p.1 p.2) bins),
                toFloat32 (st.2 + saliency_map.elem p.1 p.2)))
              (List.replicate (bins * bins * bins) (0 : α), (0 : α))).1 := by
  have h := foldl_nested_eq
    (fun (st : List α × α) (i j : ℕ) =>
      (st.1.modify (fun h => toFloat32 (h + saliency_map.elem i j))
          (rgbBinIndex (image.pixel i j) bins),
        toFloat32 (st.2 + saliency_map.elem i j)))
    image.rows image.cols (List.replicate (bins * bins * bins) (0 : α), (0 : α))
  rw [← h]
  rfl

/-- Length and entries of the saliency-weighted histogram: entry `k` is the
binary32 running sum over the pixels of bin `k`, divided by the binary32
running sum over all pixels when that is positive. -/
theorem saliencyHistogram_facts (image : Mat) (saliency_map : MatF α) (bins : ℕ) :
    (extractSaliencyWeightedHistogram image saliency_map bins : List α).length
      = bins * bins * bins ∧
    (∀ k, k < bins * bins * bins →
      (extractSaliencyWeightedHistogram image saliency_map bins : List α).getD k 0
        = if 0 < float32Sum 0 ((pixelList image.rows image.cols).map
              (fun p => saliency_map.elem p.1 p.2)) then
            float32Sum 0 (((pixelList image.rows image.cols).filter
                (fun p => decide (rgbBinIndex (image.pixel p.1 p.2) bins = k))).map
                (fun p => saliency_map.elem p.1 p.2))
              / float32Sum 0 ((pixelList image.rows image.cols).map
                  (fun p => saliency_map.elem p.1 p.2))
          else
            float32Sum 0 (((pixelList image.rows image.cols).filter
                (fun p => decide (rgbBinIndex (image.pixel p.1 p.2) bins = k))).map
                (fun p => saliency_map.elem p.1 p.2))) := by
  obtain ⟨h1, h2, h3⟩ := floatWeightedFold
    (fun p : ℕ × ℕ => rgbBinIndex (image.pixel p.1 p.2) bins)
    (fun p : ℕ × ℕ => saliency_map.elem p.1 p.2)
    (pixelList image.rows image.cols) (List.replicate (bins * bins * bins) (0 : α)) 0
  rw [List.length_replicate] at h2 h3
  rw [saliencyHistogram_eq]
  simp only [h1]
  refine ⟨?_, ?_⟩
  · split
    · rw [List.length_map, h2]
    · exact h2
  · intro k hk
    by_cases hpos : 0 < float32Sum 0 ((pixelList image.rows image.cols).map
        (fun p => saliency_map.elem p.1 p.2))
    · rw [if_pos hpos, if_pos hpos, getD_map_div, h3 k hk, getD_replicate_zero]
    · rw [if_neg hpos, if_neg hpos, h3 k hk, getD_replicate_zero]

/-- When every saliency value is a multiple of `2^s` and the units add up to at
most `2^24`, no sum is rounded: the entries are the exact ratios and sum to
`1`. -/
theorem saliencyHistogram_exact (image : Mat) (saliency_map : MatF α) (bins : ℕ)
    (hB : 1 ≤ bins) (s : ℤ) (units : ℕ → ℕ → ℕ) (hs : -149 ≤ s)
    (hunits : ∀ i j, i < image.rows → j < image.cols →
      saliency_map.elem i j = (units i j : α) * 2 ^ s)
    (hsum : ((pixelList image.rows image.cols).map (fun p => units p.1 p.2)).sum ≤ 2 ^ 24) :
    (∀ k, k < bins * bins * bins →
      (extractSaliencyWeightedHistogram image saliency_map bins : List α).getD k 0
        = if 0 < ((pixelList image.rows image.cols).map
              (fun p => saliency_map.elem p.1 p.2)).sum then
            ((pixelList image.rows image.cols).map
                (fun p => if rgbBinIndex (image.pixel p.1 p.2) bins = k
                  then saliency_map.elem p.1 p.2 else 0)).sum
              / ((pixelList image.rows image.cols).map
                  (fun p => saliency_map.elem p.1 p.2)).sum
          else
            ((pixelList image.rows image.cols).map
                (fun p => if rgbBinIndex (image.pixel p.1 p.2) bins = k
                  then saliency_map.elem p.1 p.2 else 0)).sum) ∧
    (0 < ((pixelList image.rows image.cols).map (fun p => saliency_map.elem p.1 p.2)).sum →
      (extractSaliencyWeightedHistogram image saliency_map bins : List α).sum = 1) := by
  obtain ⟨hlen, hget⟩ := saliencyHistogram_facts image saliency_map bins
  have hw : ∀ p ∈ pixelList image.rows image.cols,
      saliency_map.elem p.1 p.2 = ((units p.1 p.2 : ℕ) : α) * 2 ^ s := by
    intro p hp
    rw [mem_pixelList] at hp
    exact hunits p.1 p.2 hp.1 hp.2
  have hT : float32Sum 0 ((pixelList image.rows image.cols).map
      (fun p => saliency_map.elem p.1 p.2))
      = ((pixelList image.rows image.cols).map (fun p => saliency_map.elem p.1 p.2)).sum :=
    float32Sum_units s hs (fun p : ℕ × ℕ => units p.1 p.2)
      (fun p : ℕ × ℕ => saliency_map.elem p.1 p.2) _ hw hsum
  have hA : ∀ k, float32Sum 0 (((pixelList image.rows image.cols).filter
      (fun p => decide (rgbBinIndex (image.pixel p.1 p.2) bins = k))).map
      (fun p => saliency_map.elem p.1 p.2))
      = ((pixelList image.rows image.cols).map
          (fun p => if rgbBinIndex (image.pixel p.1 p.2) bins = k
            then saliency_map.elem p.1 p.2 else 0)).sum := by
    intro k
    rw [float32Sum_units s hs (fun p : ℕ × ℕ => units p.1 p.2)
      (fun p : ℕ × ℕ => saliency_map.elem p.1 p.2) _
      (fun p hp => hw p (List.mem_of_mem_filter hp))
      (le_trans (natSum_filter_le _ _ _) hsum)]
    exact sum_filter_map (fun p : ℕ × ℕ => rgbBinIndex (image.pixel p.1 p.2) bins)
      (fun p : ℕ × ℕ => saliency_map.elem p.1 p.2) _ k
  have hentry : ∀ k, k < bins * bins * bins →
      (extractSaliencyWeightedHistogram image saliency_map bins : List α).getD k 0
        = if 0 < ((pixelList image.rows image.cols).map
              (fun p => saliency_map.elem p.1 p.2)).sum then
            ((pixelList image.rows image.cols).map
                (fun p => if rgbBinIndex (image.pixel p.1 p.2) bins = k
                  then saliency_map.elem p.1 p.2 else 0)).sum
              / ((pixelList image.rows image.cols).map
                  (fun p => saliency_map.elem p.1 p.2)).sum
          else
            ((pixelList image.rows image.cols).map
                (fun p => if rgbBinIndex (image.pixel p.1 p.2) bins = k
                  then saliency_map.elem p.1 p.2 else 0)).sum := by
    intro k hk
    rw [hget k hk, hT, hA k]
  refine ⟨hentry, ?_⟩
  intro hpos
  rw [sum_eq_range_getD, hlen]
  have hcongr : ∀ k ∈ Finset.range (bins * bins * bins),
      (extractSaliencyWeightedHistogram image saliency_map bins : List α).getD k 0
        = ((pixelList image.rows image.cols).map
            (fun p => if rgbBinIndex (image.pixel p.1 p.2) bins = k
              then saliency_map.elem p.1 p.2 else 0)).sum
          / ((pixelList image.rows image.cols).map
              (fun p => saliency_map.elem p.1 p.2)).sum := by
    intro k hk
    rw [hentry k (Finset.mem_range.1 hk), if_pos hpos]
  rw [Finset.sum_congr rfl hcongr, ← Finset.sum_div,
    sum_bins_eq (fun p : ℕ × ℕ => rgbBinIndex (image.pixel p.1 p.2) bins)
      (fun p : ℕ × ℕ => saliency_map.elem p.1 p.2) _ _ (fun p _ => rgbBinIndex_lt _ _ hB),
    div_self (ne_of_gt hpos)]

/-- With a constant positive saliency `m * 2^s` whose units add up to at most
`2^24` over the image, the weighted histogram is the normalised RGB
histogram. -/
theorem saliencyHistogram_constant (image : Mat) (saliency_map : MatF α) (bins : ℕ)
    (hB : 1 ≤ bins) (s : ℤ) (m : ℕ) (hs : -149 ≤ s) (hm : 1 ≤ m)
    (hsum : m * (image.rows * image.cols) ≤ 2 ^ 24)
    (hsal : ∀ i j, i < image.rows → j < image.cols →
      saliency_map.elem i j = (m : α) * 2 ^ s) :
    (extractSaliencyWeightedHistogram image saliency_map bins : List α)
      = normalizeHistogram (extractRGBHistogram image bins) := by
  have hc : (0 : α) < (m : α) * 2 ^ s :=
    mul_pos (by exact_mod_cast hm) (zpow_pos (by norm_num) _)
  have hlen := (saliencyHistogram_facts image saliency_map bins).1
  have hunitsum : ((pixelList image.rows image.cols).map (fun _ : ℕ × ℕ => m)).sum
      = m * (image.rows * image.cols) := by
    rw [List.map_const', List.sum_replicate, length_pixelList, smul_eq_mul, Nat.mul_comm]
  obtain ⟨hentry, _⟩ := saliencyHistogram_exact image saliency_map bins hB s (fun _ _ => m) hs
    hsal (by rw [hunitsum]; exact hsum)
  have hpix : image.rows * image.cols ≤ 2 ^ 24 :=
    le_trans (Nat.le_mul_of_pos_left _ (by omega)) hsum
  have hT : ((pixelList image.rows image.cols).map (fun p => saliency_map.elem p.1 p.2)).sum
      = (m : α) * 2 ^ s * ((image.rows * image.cols : ℕ) : α) := by
    rw [sum_map_congr_mem (fun p : ℕ × ℕ => saliency_map.elem p.1 p.2)
      (fun _ => (m : α) * 2 ^ s), sum_map_const, length_pixelList]
    intro p hp
    rw [mem_pixelList] at hp
    exact hsal p.1 p.2 hp.1 hp.2
  have hbin : ∀ k, ((pixelList image.rows image.cols).map
      (fun p => if rgbBinIndex (image.pixel p.1 p.2) bins = k
        then saliency_map.elem p.1 p.2 else 0)).sum
      = (m : α) * 2 ^ s * (((pixelList image.rows image.cols).countP
          (fun p => decide (rgbBinIndex (image.pixel p.1 p.2) bins = k)) : ℕ) : α) := by
    intro k
    rw [← sum_map_ite_const]
    apply sum_map_congr_mem
    intro p hp
    rw [mem_pixelList] at hp
    rw [hsal p.1 p.2 hp.1 hp.2]
  have hsmall : ∀ k, k < bins * bins * bins →
      (pixelList image.rows image.cols).countP
        (fun p => decide (rgbBinIndex (image.pixel p.1 p.2) bins = k)) ≤ 2 ^ 24 :=
    fun k _ => le_trans (countP_le_pixels _ _ _) hpix
  have hrgbsum := @sum_rgbHistogram α _ image bins hB hsmall
  apply list_ext_getD
  · rw [hlen, length_normalizeHistogram, length_rgbHistogram]
  · intro k hk
    rw [hlen] at hk
    rw [hentry k hk, hT, hbin k]
    by_cases hN : 0 < image.rows * image.cols
    · have hNα : (0 : α) < ((image.rows * image.cols : ℕ) : α) := by exact_mod_cast hN
      have hN1 : (1 : α) ≤ ((image.rows * image.cols : ℕ) : α) := by exact_mod_cast hN
      have hge : normEps ≤ (extractRGBHistogram image bins : List α).sum := by
        rw [hrgbsum]
        exact le_trans normEps_le_one hN1
      rw [if_pos (mul_pos hc hNα), normalizeHistogram_of_ge _ hge, getD_map_div,
        hrgbsum, getD_rgbHistogram image bins k hk, min_eq_left (hsmall k hk)]
      exact mul_div_mul_left _ _ (ne_of_gt hc)
    · have hN0 : image.rows * image.cols = 0 := by omega
      have hlt : (extractRGBHistogram image bins : List α).sum < normEps := by
        rw [hrgbsum, hN0]
        simpa using (normEps_pos : (0 : α) < normEps)
      have hempty : pixelList image.rows image.cols = [] := by
        apply List.eq_nil_of_length_eq_zero
        rw [length_pixelList, hN0]
      rw [hN0, normalizeHistogram_of_lt _ hlt, getD_rgbHistogram image bins k hk, hempty]
      simp

end SaliencyLemmas

/-! ## Claim about the saliency-weighted histogram -/

section SaliencyClaims

theorem pixelList_row (n : ℕ) : pixelList 1 n = (List.range n).map (fun j => (0, j)) := by
  simp [pixelList, List.range_succ]

theorem pixelList_row_succ (m : ℕ) :
    pixelList 1 (m + 1) = (0, 0) :: (List.range m).map (fun j => (0, j + 1)) := by
  rw [pixelList_row, List.range_succ_eq_map, List.map_cons, List.map_map]
  rfl

theorem rgbBinIndex_black : rgbBinIndex ⟨0, 0, 0⟩ 2 = 0 := by
  decide

/-- The saliency values of the pixels of bin `k` of the spike image, in scan
order: the leading `1` in bin `4`, the `m` values `2^-24` in bin `0`. -/
theorem spike_binWeights (m k : ℕ) :
    ((pixelList (spikeImage (m + 1)).rows (spikeImage (m + 1)).cols).filter
        (fun p => decide (rgbBinIndex ((spikeImage (m + 1)).pixel p.1 p.2) 2 = k))).map
        (fun p => (spikeSaliency (m + 1) : MatF ℚ).elem p.1 p.2)
      = (if k = 4 then [(1 : ℚ)] else [])
        ++ (if k = 0 then List.replicate m ((1 : ℚ) / 2 ^ 24) else []) := by
  have hrows : (spikeImage (m + 1)).rows = 1 := rfl
  have hcols : (spikeImage (m + 1)).cols = m + 1 := rfl
  have hred : (spikeImage (m + 1)).pixel 0 0 = ⟨0, 0, 255⟩ := rfl
  have hblack : ∀ j : ℕ, (spikeImage (m + 1)).pixel 0 (j + 1) = ⟨0, 0, 0⟩ := fun j => rfl
  have hw0 : (spikeSaliency (m + 1) : MatF ℚ).elem 0 0 = 1 := rfl
  have hw : ∀ j : ℕ, (spikeSaliency (m + 1) : MatF ℚ).elem 0 (j + 1) = 1 / 2 ^ 24 := fun j => rfl
  rw [hrows, hcols, pixelList_row_succ, List.filter_cons]
  have htail : (((List.range m).map (fun j => ((0 : ℕ), j + 1))).filter
      (fun p => decide (rgbBinIndex ((spikeImage (m + 1)).pixel p.1 p.2) 2 = k))).map
      (fun p => (spikeSaliency (m + 1) : MatF ℚ).elem p.1 p.2)
      = if k = 0 then List.replicate m ((1 : ℚ) / 2 ^ 24) else [] := by
    by_cases hk : k = 0
    · rw [if_pos hk, List.filter_eq_self.2, List.map_map]
      · have hconst : ((fun p : ℕ × ℕ => (spikeSaliency (m + 1) : MatF ℚ).elem p.1 p.2)
            ∘ fun j => ((0 : ℕ), j + 1)) = fun _ => (1 : ℚ) / 2 ^ 24 := by
          funext j
          exact hw j
        rw [hconst, List.map_const', List.length_range]
      · intro p hp
        obtain ⟨j, _, rfl⟩ := List.mem_map.1 hp
        simp only [hblack, rgbBinIndex_black, hk, decide_True]
    · rw [if_neg hk, List.filter_eq_nil_iff.2, List.map_nil]
      intro p hp
      obtain ⟨j, _, rfl⟩ := List.mem_map.1 hp
      simp only [hblack, rgbBinIndex_black, decide_eq_true_eq]
      exact fun h => hk h.symm
  by_cases h4 : k = 4
  · simp only [hred, rgbBinIndex_red, h4, decide_True, if_true, List.map_cons, hw0]
    rw [← h4, htail]
    rfl
  · have h4b : ¬ (4 = k) := fun h => h4 h.symm
    simp only [hred, rgbBinIndex_red, h4b, decide_False, h4, if_false, Bool.false_eq_true]
    rw [htail]
    rfl

theorem float32Sum_spike_total (m : ℕ) :
    float32Sum (1 : ℚ) (List.replicate m ((1 : ℚ) / 2 ^ 24)) = 1 := by
  have hstep : toFloat32 ((1 : ℚ) + 1 / 2 ^ 24) = 1 := by
    rw [toFloat32_eval ((1 : ℚ) + 1 / 2 ^ 24) 0 8388608 (by norm_num) (by norm_num)
      (by norm_num) (by norm_num) (roundHalfEven_of_tie_even _ _ (by norm_num) (by norm_num))]
    norm_num
  induction m with
  | zero => rfl
  | succ m ih =>
    unfold float32Sum at ih ⊢
    rw [List.replicate_succ, List.foldl_cons, hstep, ih]

theorem float32Sum_spike_bin (m : ℕ) (hm : m ≤ 2 ^ 24) :
    float32Sum (0 : ℚ) (List.replicate m ((1 : ℚ) / 2 ^ 24)) = (m : ℚ) / 2 ^ 24 := by
  have h := @float32Sum_exact ℚ _ _ (-24) (by norm_num) (List.replicate m 1) 0
    (by rw [List.sum_replicate]; simpa using hm)
  simp only [List.map_replicate, Nat.cast_zero, zero_mul, Nat.cast_one, one_mul,
    List.sum_replicate, smul_eq_mul, mul_one, zero_add] at h
  have e : ((2 : ℚ) ^ (-24 : ℤ)) = 1 / 2 ^ 24 := by norm_num
  rw [e] at h
  rw [h]
  ring

theorem float32_one : toFloat32 ((0 : ℚ) + 1) = 1 := by
  have h := @toFloat32_natCast ℚ _ _ 1 (by norm_num)
  simpa using h

/-- The saliency-weighted histogram of the spike image. -/
theorem spike_histogram :
    (extractSaliencyWeightedHistogram (spikeImage 16777217)
      (spikeSaliency 16777217 : MatF ℚ) 2) = [1, 0, 0, 0, 1, 0, 0, 0] := by
  obtain ⟨hlen, hget⟩ := saliencyHistogram_facts (spikeImage 16777217)
    (spikeSaliency 16777217 : MatF ℚ) 2
  have hT : float32Sum 0 ((pixelList (spikeImage 16777217).rows
      (spikeImage 16777217).cols).map
      (fun p => (spikeSaliency 16777217 : MatF ℚ).elem p.1 p.2)) = 1 := by
    have hrows : (spikeImage 16777217).rows = 1 := rfl
    have hcols : (spikeImage 16777217).cols = 16777216 + 1 := rfl
    rw [hrows, hcols, pixelList_row_succ, List.map_cons, List.map_map]
    have hconst : ((fun p : ℕ × ℕ => (spikeSaliency 16777217 : MatF ℚ).elem p.1 p.2)
        ∘ fun j => ((0 : ℕ), j + 1)) = fun _ => (1 : ℚ) / 2 ^ 24 := by
      funext j
      rfl
    have hw0 : (spikeSaliency 16777217 : MatF ℚ).elem 0 0 = 1 := rfl
    rw [hconst, List.map_const', List.length_range, hw0]
    unfold float32Sum
    rw [List.foldl_cons, float32_one]
    exact float32Sum_spike_total 16777216
  have hA := spike_binWeights 16777216
  have hentry : ∀ k, k < 2 * 2 * 2 →
      (extractSaliencyWeightedHistogram (spikeImage 16777217)
        (spikeSaliency 16777217 : MatF ℚ) 2).getD k 0
        = if k = 4 then 1 else if k = 0 then 1 else 0 := by
    intro k hk
    rw [hget k hk, hT, if_pos one_pos, div_one, hA k]
    by_cases h4 : k = 4
    · have h0 : ¬ k = 0 := by omega
      rw [if_pos h4, if_neg h0, if_pos h4, List.append_nil]
      unfold float32Sum
      rw [List.foldl_cons, float32_one]
      rfl
    · rw [if_neg h4, if_neg h4, List.nil_append]
      by_cases h0 : k = 0
      · rw [if_pos h0, if_pos h0, float32Sum_spike_bin 16777216 (by norm_num)]
        norm_num
      · rw [if_neg h0, if_neg h0]
        rfl
  apply list_ext_getD
  · rw [hlen]
    rfl
  · intro k hk
    rw [hlen] at hk
    rw [hentry k hk]
    have hk8 : k < 8 := hk
    interval_cases k <;> rfl

/-- C26, as stated, fails once the `float` sums round: the single-row image of
one red pixel followed by `2^24` black pixels, with the saliency `1` on the red
pixel and `2^-24` on every black pixel, has half of its saliency in bin `0` and
half in bin `4`; but the running total stays at `1` (the sum `1 + 2^-24` rounds
back to `1`) while bin `0` accumulates `2^24 * 2^-24 = 1`, so both entries are
`1` and the entries sum to `2`. -/
theorem saliencyHistogram_rounds :
    (extractSaliencyWeightedHistogram (spikeImage 16777217)
      (spikeSaliency 16777217 : MatF ℚ) 2) = [1, 0, 0, 0, 1, 0, 0, 0] ∧
    (extractSaliencyWeightedHistogram (spikeImage 16777217)
      (spikeSaliency 16777217 : MatF ℚ) 2).sum = 2 ∧
    ((pixelList (spikeImage 16777217).rows (spikeImage 16777217).cols).map
        (fun p => (spikeSaliency 16777217 : MatF ℚ).elem p.1 p.2)).sum = 2 ∧
    ((pixelList (spikeImage 16777217).rows (spikeImage 16777217).cols).map
        (fun p => if rgbBinIndex ((spikeImage 16777217).pixel p.1 p.2) 2 = 0
          then (spikeSaliency 16777217 : MatF ℚ).elem p.1 p.2 else 0)).sum = 1 ∧
    (extractSaliencyWeightedHistogram (spikeImage 16777217)
      (spikeSaliency 16777217 : MatF ℚ) 2).getD 0 0 ≠ 1 / 2 := by
  have hrows : (spikeImage 16777217).rows = 1 := rfl
  have hcols : (spikeImage 16777217).cols = 16777216 + 1 := rfl
  have hconst : ((fun p : ℕ × ℕ => (spikeSaliency 16777217 : MatF ℚ).elem p.1 p.2)
      ∘ fun j => ((0 : ℕ), j + 1)) = fun _ => (1 : ℚ) / 2 ^ 24 := by
    funext j
    rfl
  have hw0 : (spikeSaliency 16777217 : MatF ℚ).elem 0 0 = 1 := rfl
  refine ⟨spike_histogram, ?_, ?_, ?_, ?_⟩
  · rw [spike_histogram]
    norm_num
  · rw [hrows, hcols, pixelList_row_succ, List.map_cons, List.map_map, hconst,
      List.map_const', List.length_range, List.sum_cons, List.sum_replicate, hw0]
    norm_num
  · rw [← sum_filter_map (fun p : ℕ × ℕ => rgbBinIndex ((spikeImage 16777217).pixel p.1 p.2) 2)
      (fun p : ℕ × ℕ => (spikeSaliency 16777217 : MatF ℚ).elem p.1 p.2)]
    have h := spike_binWeights 16777216 0
    rw [h]
    simp only [if_true, List.sum_replicate]
    norm_num
  · rw [spike_histogram]
    norm_num

variable {α : Type} [LinearOrderedField α] [FloorRing α]

/-- C26 (amended): for every image, every saliency map and every `B >= 1` with
`B^3 < 2^31`, `extractSaliencyWeightedHistogram` has length `B^3` and uses the
bin index of `extractRGBHistogram`; entry `k` is the binary32 running sum of the
saliency over the pixels of bin `k`, in scan order, divided by the binary32
running sum over all pixels when that is positive. When every saliency value is
a multiple of one power of two `2^s`, `s >= -149`, and these multiples add up
to at most `2^24` units, no sum is rounded: with a positive total, entry `k` is
the saliency summed over the pixels of bin `k` divided by the saliency summed
over all pixels, and the entries sum to `1`; and with a constant saliency
`m * 2^s`, `m >= 1`, `m * rows * cols <= 2^24`, the result equals
`normalizeHistogram(extractRGBHistogram(image, B))`. -/
theorem saliencyHistogram_spec (image : Mat) (saliency_map : MatF α) (B : ℕ) (hB : 1 ≤ B)
    (_hB31 : B ^ 3 < 2 ^ 31) :
    (extractSaliencyWeightedHistogram image saliency_map B : List α).length = B ^ 3 ∧
    (∀ k, k < B ^ 3 →
      (extractSaliencyWeightedHistogram image saliency_map B : List α).getD k 0
        = if 0 < float32Sum 0 ((pixelList image.rows image.cols).map
              (fun p => saliency_map.elem p.1 p.2)) then
            float32Sum 0 (((pixelList image.rows image.cols).filter
                (fun p => decide (rgbBinIndex (image.pixel p.1 p.2) B = k))).map
                (fun p => saliency_map.elem p.1 p.2))
              / float32Sum 0 ((pixelList image.rows image.cols).map
                  (fun p => saliency_map.elem p.1 p.2))
          else
            float32Sum 0 (((pixelList image.rows image.cols).filter
                (fun p => decide (rgbBinIndex (image.pixel p.1 p.2) B = k))).map
                (fun p => saliency_map.elem p.1 p.2))) ∧
    (∀ (s : ℤ) (units : ℕ → ℕ → ℕ), -149 ≤ s →
      (∀ i j, i < image.rows → j < image.cols →
        saliency_map.elem i j = (units i j : α) * 2 ^ s) →
      ((pixelList image.rows image.cols).map (fun p => units p.1 p.2)).sum ≤ 2 ^ 24 →
      0 < ((pixelList image.rows image.cols).map (fun p => saliency_map.elem p.1 p.2)).sum →
      (∀ k, k < B ^ 3 →
        (extractSaliencyWeightedHistogram image saliency_map B : List α).getD k 0
          = ((pixelList image.rows image.cols).map
              (fun p => if rgbBinIndex (image.pixel p.1 p.2) B = k
                then saliency_map.elem p.1 p.2 else 0)).sum
            / ((pixelList image.rows image.cols).map
                (fun p => saliency_map.elem p.1 p.2)).sum) ∧
      (extractSaliencyWeightedHistogram image saliency_map B : List α).sum = 1) ∧
    (∀ (s : ℤ) (m : ℕ), -149 ≤ s → 1 ≤ m → m * (image.rows * image.cols) ≤ 2 ^ 24 →
      (∀ i j, i < image.rows → j < image.cols → saliency_map.elem i j = (m : α) * 2 ^ s) →
      (extractSaliencyWeightedHistogram image saliency_map B : List α)
        = normalizeHistogram (extractRGBHistogram image B)) := by
  have h3 : B ^ 3 = B * B * B := by ring
  rw [h3]
  obtain ⟨hlen, hget⟩ := saliencyHistogram_facts image saliency_map B
  refine ⟨hlen, hget, ?_, ?_⟩
  · intro s units hs hunits hsum hpos
    obtain ⟨hentry, hone⟩ := saliencyHistogram_exact image saliency_map B hB s units hs hunits
      hsum
    refine ⟨fun k hk => ?_, hone hpos⟩
    rw [hentry k hk, if_pos hpos]
  · intro s m hs hm hsum hsal
    exact saliencyHistogram_constant image saliency_map B hB s m hs hm hsum hsal

end SaliencyClaims

/-- Witness for C26 (amended): the 2x2 pure-red image with the constant
saliency `1/2 = 1 * 2^-1` and 2 bins per channel gives the normalised RGB
histogram, which sums to `1`. -/
theorem saliencyHistogram_spec_witness :
    (extractSaliencyWeightedHistogram redImage2x2 (constantSaliency 2 2 (1 / 2 : ℚ)) 2).length
      = 2 ^ 3 ∧
    extractSaliencyWeightedHistogram redImage2x2 (constantSaliency 2 2 (1 / 2 : ℚ)) 2
      = normalizeHistogram (extractRGBHistogram redImage2x2 2) ∧
    extractSaliencyWeightedHistogram redImage2x2 (constantSaliency 2 2 (1 / 2 : ℚ)) 2
      = [0, 0, 0, 0, 1, 0, 0, 0] :=
  have h := saliencyHistogram_spec redImage2x2 (constantSaliency 2 2 (1 / 2 : ℚ)) 2 (by decide)
    (by decide)
  have hc := h.2.2.2 (-1) 1 (by decide) (by decide) (by decide)
    (fun _ _ _ _ => by
      show (1 / 2 : ℚ) = ((1 : ℕ) : ℚ) * 2 ^ (-1 : ℤ)
      norm_num)
  ⟨h.1, hc, by
    rw [hc, rgbHistogram_red2x2]
    norm_num [normalizeHistogram, normEps]⟩

/-! ## The `std::sort` of libstdc++ returns a sorted permutation -/

section StdSortLemmas

variable {β κ : Type} [LinearOrder κ]

/-- Exchanging two elements of a list gives a permutation of it. -/
theorem perm_swap_set (r : List β) (i j : Nat) (x y : β)
    (hi : r[i]? = some x) (hj : r[j]? = some y) : ((r.set i y).set j x).Perm r := by
  classical
  have hil : i < r.length := (List.getElem?_eq_some_iff.1 hi).1
  have hjl : j < r.length := (List.getElem?_eq_some_iff.1 hj).1
  have hxi : r[i] = x := (List.getElem?_eq_some_iff.1 hi).2
  have hyj : r[j] = y := (List.getElem?_eq_some_iff.1 hj).2
  rw [List.perm_iff_count]
  intro b
  have hx1 : b = x → 1 ≤ r.count b := fun h => by
    rw [Nat.succ_le_iff, List.count_pos_iff]
    rw [h, ← hxi]; exact List.getElem_mem _
  have hy1 : b = y → 1 ≤ r.count b := fun h => by
    rw [Nat.succ_le_iff, List.count_pos_iff]
    rw [h, ← hyj]; exact List.getElem_mem _
  by_cases hij : i = j
  · subst hij
    have hxy : x = y := by rw [← hxi, ← hyj]
    subst hxy
    rw [List.set_set, List.count_set _ _ _ _ hil]
    simp only [hxi, beq_iff_eq]
    split_ifs with h
    · have := hx1 h.symm
      omega
    · omega
  · have hjl2 : j < (r.set i y).length := by rw [List.length_set]; exact hjl
    rw [List.count_set _ _ _ _ hjl2, List.count_set _ _ _ _ hil]
    have hj2 : (r.set i y)[j] = y := by
      rw [List.getElem_set_ne hij]; exact hyj
    simp only [hj2, hxi, beq_iff_eq]
    have h1 := hx1
    have h2 := hy1
    by_cases hbx : x = b <;> by_cases hby : y = b <;> simp only [hbx, hby, if_true, if_false]
    · have := hx1 hbx.symm; omega
    · have := hx1 hbx.symm; omega
    · have := hy1 hby.symm; omega
    · omega

theorem iter_swap_eq (r : List β) (i j : Nat) (x y : β)
    (hi : r[i]? = some x) (hj : r[j]? = some y) :
    iter_swap r i j = some ((r.set i y).set j x) := by
  simp only [iter_swap, hi, hj]

theorem scanUp_spec (lt : β → β → Bool) (p : β) (r : List β) (d first s : Nat) (x : β)
    (hd : s = first + d) (hx : r[s]? = some x) (hstop : lt x p = false) :
    ∃ f, scanUp lt p (r.drop first) first = some f ∧ first ≤ f ∧ f ≤ s ∧
      (∀ j y, first ≤ j → j < f → r[j]? = some y → lt y p = true) ∧
      (∃ y, r[f]? = some y ∧ lt y p = false) := by
  induction d generalizing first with
  | zero =>
    have hs : s = first := by omega
    subst hs
    have hsl : s < r.length := (List.getElem?_eq_some_iff.1 hx).1
    have hxs : r[s] = x := (List.getElem?_eq_some_iff.1 hx).2
    refine ⟨s, ?_, le_refl _, le_refl _, fun j y h1 h2 => by omega, x, hx, hstop⟩
    rw [List.drop_eq_getElem_cons hsl, scanUp, hxs, hstop]
    simp
  | succ d ih =>
    have hsl : s < r.length := (List.getElem?_eq_some_iff.1 hx).1
    have hfl : first < r.length := by omega
    rw [List.drop_eq_getElem_cons hfl, scanUp]
    by_cases hc : lt r[first] p = true
    · rw [if_pos hc]
      obtain ⟨f, hf, h1, h2, h3, h4⟩ := ih (first + 1) (by omega)
      refine ⟨f, hf, by omega, h2, fun j y hj1 hj2 hy => ?_, h4⟩
      rcases Nat.eq_or_lt_of_le hj1 with h | h
      · subst h
        rw [List.getElem?_eq_getElem hfl] at hy
        cases hy
        exact hc
      · exact h3 j y h hj2 hy
    · rw [if_neg hc]
      refine ⟨first, rfl, le_refl _, by omega, fun j y h1 h2 => by omega, r[first],
        List.getElem?_eq_getElem hfl, by simpa using hc⟩

theorem scanDown_spec (lt : β → β → Bool) (p : β) (r : List β) (last s : Nat) (x : β)
    (hs : s ≤ last) (hl : last < r.length) (hx : r[s]? = some x) (hstop : lt p x = false) :
    ∃ l, scanDown lt r p last = some l ∧ s ≤ l ∧ l ≤ last ∧
      (∀ j y, l < j → j ≤ last → r[j]? = some y → lt p y = true) ∧
      (∃ y, r[l]? = some y ∧ lt p y = false) := by
  induction last with
  | zero =>
    have h0 : s = 0 := by omega
    subst h0
    refine ⟨0, ?_, le_refl _, le_refl _, fun j y h1 h2 => by omega, x, hx, hstop⟩
    rw [scanDown, hx]
    simp [hstop]
  | succ last ih =>
    rw [scanDown, List.getElem?_eq_getElem hl]
    by_cases hc : lt p r[last + 1] = true
    · simp only [hc, if_true]
      have hne : s ≠ last + 1 := by
        intro h
        subst h
        rw [List.getElem?_eq_getElem hl] at hx
        cases hx
        rw [hc] at hstop
        exact Bool.noConfusion hstop
      obtain ⟨l, hlq, h1, h2, h3, h4⟩ := ih (by omega) (by omega)
      refine ⟨l, hlq, h1, by omega, fun j y hj1 hj2 hy => ?_, h4⟩
      rcases Nat.eq_or_lt_of_le hj2 with h | h
      · subst h
        rw [List.getElem?_eq_getElem hl] at hy
        cases hy
        exact hc
      · exact h3 j y hj1 (by omega) hy
    · simp only [hc]
      refine ⟨last + 1, by simp, hs, le_refl _, fun j y h1 h2 => by omega, r[last + 1],
        List.getElem?_eq_getElem hl, by simpa using hc⟩

theorem lt_false_iff (key : β → κ) (lt : β → β → Bool)
    (hlt : ∀ a b, lt a b = true ↔ key a < key b) (a b : β) :
    lt a b = false ↔ key b ≤ key a := by
  rw [← not_lt, ← hlt a b]
  simp

/-- The partition loop of `__unguarded_partition` with the pivot at index 0:
with an element not less than the pivot at or after `first`, the loop stays
inside the vector, uses at most `last - first` rounds and returns a cut with
the elements not greater than the pivot before it and the elements not less
than the pivot from it on. -/
theorem unguarded_partition_spec (key : β → κ) (lt : β → β → Bool)
    (hlt : ∀ a b, lt a b = true ↔ key a < key b) (p : β) (fuel : Nat) (r : List β)
    (first last : Nat) (hp : r[0]? = some p) (h1 : 1 ≤ first) (h2 : first ≤ last)
    (h3 : last ≤ r.length) (hfuel : last - first < fuel)
    (hL : ∀ j y, j < first → r[j]? = some y → key y ≤ key p)
    (hR : ∀ j y, last ≤ j → r[j]? = some y → key p ≤ key y)
    (hS : ∃ s y, first ≤ s ∧ r[s]? = some y ∧ key p ≤ key y) :
    ∃ r2 cut, unguarded_partition lt fuel r first last 0 = some (r2, cut) ∧ r2.Perm r ∧
      1 ≤ cut ∧ cut < r.length ∧
      (∀ j y, j < cut → r2[j]? = some y → key y ≤ key p) ∧
      (∀ j y, cut ≤ j → r2[j]? = some y → key p ≤ key y) := by
  induction fuel generalizing r first last with
  | zero => omega
  | succ fuel ih =>
    obtain ⟨s, ys, hs1, hs2, hs3⟩ := hS
    have hsl : s < r.length := (List.getElem?_eq_some_iff.1 hs2).1
    obtain ⟨f, hf, hf1, hf2, hf3, yf, hf4, hf5⟩ :=
      scanUp_spec lt p r (s - first) first s ys (by omega) hs2
        ((lt_false_iff key lt hlt _ _).2 hs3)
    obtain ⟨last1, hlast⟩ : ∃ k, last = k + 1 := ⟨last - 1, by omega⟩
    subst hlast
    obtain ⟨l, hl, _, hl2, hl3, yl, hl4, hl5⟩ :=
      scanDown_spec lt p r last1 0 p (Nat.zero_le _) (by omega) hp
        ((lt_false_iff key lt hlt _ _).2 (le_refl _))
    have hfl : f < r.length := by omega
    have hLf : ∀ j y, j < f → r[j]? = some y → key y ≤ key p := by
      intro j y hj hy
      rcases Nat.lt_or_ge j first with h | h
      · exact hL j y h hy
      · exact le_of_lt ((hlt _ _).1 (hf3 j y h hj hy))
    have hRl : ∀ j y, l < j → r[j]? = some y → key p ≤ key y := by
      intro j y hj hy
      rcases Nat.lt_or_ge last1 j with h | h
      · exact hR j y (by omega) hy
      · exact le_of_lt ((hlt _ _).1 (hl3 j y hj h hy))
    have hkf : key p ≤ key yf := (lt_false_iff key lt hlt _ _).1 hf5
    have hkl : key yl ≤ key p := (lt_false_iff key lt hlt _ _).1 hl5
    rw [unguarded_partition, hp]
    simp only [hf, hl]
    by_cases hc : f < l
    · rw [if_pos hc, iter_swap_eq r f l yf yl hf4 hl4]
      simp only
      have hperm := perm_swap_set r f l yf yl hf4 hl4
      have hlen : ((r.set f yl).set l yf).length = r.length := by simp
      have hget : ∀ j, ((r.set f yl).set l yf)[j]?
          = if l = j then some yf else if f = j then some yl else r[j]? := by
        intro j
        rw [List.getElem?_set, List.getElem?_set, List.length_set]
        have hll : l < r.length := by omega
        simp only [hll, hfl, if_true]
      obtain ⟨r2, cut, e, hperm2, c1, c2, c3, c4⟩ :=
        ih ((r.set f yl).set l yf) (f + 1) l
          (by rw [hget, if_neg (by omega), if_neg (by omega)]; exact hp)
          (by omega) (by omega) (by rw [hlen]; omega) (by omega)
          (fun j y hj hy => by
            rw [hget] at hy
            by_cases e1 : l = j
            · omega
            · by_cases e2 : f = j
              · simp only [e1, e2, if_false, if_true] at hy
                cases hy
                exact hkl
              · simp only [e1, e2, if_false] at hy
                exact hLf j y (by omega) hy)
          (fun j y hj hy => by
            rw [hget] at hy
            by_cases e1 : l = j
            · simp only [e1, if_true] at hy
              cases hy
              exact hkf
            · have e2 : f ≠ j := by omega
              simp only [e1, e2, if_false] at hy
              exact hRl j y (by omega) hy)
          ⟨l, yf, by omega, by rw [hget]; simp, hkf⟩
      exact ⟨r2, cut, e, hperm2.trans hperm, c1, by rw [hlen] at c2; exact c2, c3, c4⟩
    · rw [if_neg hc]
      refine ⟨r, f, rfl, List.Perm.refl _, by omega, hfl, hLf, fun j y hj hy => ?_⟩
      rcases Nat.lt_or_ge l j with h | h
      · exact hRl j y h hy
      · have hjf : j = f := by omega
        subst hjf
        rw [hf4] at hy
        cases hy
        exact hkf

theorem swap_zero_spec (r : List β) (m s : Nat) (x0 xm xs : β)
    (h0 : r[0]? = some x0) (hm : r[m]? = some xm) (hs : r[s]? = some xs)
    (hm0 : m ≠ 0) (hs0 : s ≠ 0) (hsm : s ≠ m) :
    ∃ r1, iter_swap r 0 m = some r1 ∧ r1.Perm r ∧ r1[0]? = some xm ∧ r1[s]? = some xs := by
  have h0l : 0 < r.length := (List.getElem?_eq_some_iff.1 h0).1
  have hml : m < r.length := (List.getElem?_eq_some_iff.1 hm).1
  refine ⟨_, iter_swap_eq r 0 m x0 xm h0 hm, perm_swap_set r 0 m x0 xm h0 hm, ?_, ?_⟩
  · rw [List.getElem?_set, if_neg hm0, List.getElem?_set, if_pos rfl, if_pos h0l]
  · rw [List.getElem?_set, if_neg (Ne.symm hsm), List.getElem?_set, if_neg (Ne.symm hs0)]
    exact hs

/-- After `__move_median_to_first` the pivot at index 0 is the median of three
elements, and one of the other two, not less than the pivot, is still at an
index of at least 1: it stops the first upward scan. -/
theorem move_median_spec (key : β → κ) (lt : β → β → Bool)
    (hlt : ∀ a b, lt a b = true ↔ key a < key b) (r : List β) (hlen : 4 ≤ r.length) :
    ∃ r1 p s y, move_median_to_first lt r 0 1 (r.length / 2) (r.length - 1) = some r1 ∧
      r1.Perm r ∧ r1[0]? = some p ∧ 1 ≤ s ∧ r1[s]? = some y ∧ key p ≤ key y := by
  have hmid1 : r.length / 2 < r.length := by omega
  have hmid2 : 2 ≤ r.length / 2 := by omega
  have hmid3 : r.length / 2 < r.length - 1 := by omega
  have h0 : r[0]? = some r[0] := List.getElem?_eq_getElem _
  have ha : r[1]? = some r[1] := List.getElem?_eq_getElem _
  have hb : r[r.length / 2]? = some r[r.length / 2] := List.getElem?_eq_getElem _
  have hc : r[r.length - 1]? = some r[r.length - 1] := List.getElem?_eq_getElem _
  have hf := lt_false_iff key lt hlt
  unfold move_median_to_first
  rw [ha, hb, hc]
  simp only
  by_cases c1 : lt r[1] r[r.length / 2] = true
  · rw [if_pos c1]
    by_cases c2 : lt r[r.length / 2] r[r.length - 1] = true
    · rw [if_pos c2]
      obtain ⟨r1, e, hp, g0, gs⟩ := swap_zero_spec r (r.length / 2) (r.length - 1) _ _ _ h0 hb hc
        (by omega) (by omega) (by omega)
      exact ⟨r1, _, r.length - 1, _, e, hp, g0, by omega, gs, le_of_lt ((hlt _ _).1 c2)⟩
    · rw [if_neg c2]
      by_cases c3 : lt r[1] r[r.length - 1] = true
      · rw [if_pos c3]
        obtain ⟨r1, e, hp, g0, gs⟩ := swap_zero_spec r (r.length - 1) (r.length / 2) _ _ _ h0 hc
          hb (by omega) (by omega) (by omega)
        exact ⟨r1, _, r.length / 2, _, e, hp, g0, by omega, gs,
          (hf _ _).1 (by simpa using c2)⟩
      · rw [if_neg c3]
        obtain ⟨r1, e, hp, g0, gs⟩ := swap_zero_spec r 1 (r.length / 2) _ _ _ h0 ha
          hb (by omega) (by omega) (by omega)
        exact ⟨r1, _, r.length / 2, _, e, hp, g0, by omega, gs, le_of_lt ((hlt _ _).1 c1)⟩
  · rw [if_neg c1]
    by_cases c2 : lt r[1] r[r.length - 1] = true
    · rw [if_pos c2]
      obtain ⟨r1, e, hp, g0, gs⟩ := swap_zero_spec r 1 (r.length - 1) _ _ _ h0 ha
        hc (by omega) (by omega) (by omega)
      exact ⟨r1, _, r.length - 1, _, e, hp, g0, by omega, gs, le_of_lt ((hlt _ _).1 c2)⟩
    · rw [if_neg c2]
      by_cases c3 : lt r[r.length / 2] r[r.length - 1] = true
      · rw [if_pos c3]
        obtain ⟨r1, e, hp, g0, gs⟩ := swap_zero_spec r (r.length - 1) 1 _ _ _ h0 hc
          ha (by omega) (by omega) (by omega)
        exact ⟨r1, _, 1, _, e, hp, g0, le_refl _, gs, (hf _ _).1 (by simpa using c2)⟩
      · rw [if_neg c3]
        obtain ⟨r1, e, hp, g0, gs⟩ := swap_zero_spec r (r.length / 2) 1 _ _ _ h0 hb
          ha (by omega) (by omega) (by omega)
        exact ⟨r1, _, 1, _, e, hp, g0, le_refl _, gs, (hf _ _).1 (by simpa using c1)⟩

theorem unguarded_partition_pivot_spec (key : β → κ) (lt : β → β → Bool)
    (hlt : ∀ a b, lt a b = true ↔ key a < key b) (r : List β) (hlen : 4 ≤ r.length) :
    ∃ r2 cut p, unguarded_partition_pivot lt r = some (r2, cut) ∧ r2.Perm r ∧
      1 ≤ cut ∧ cut < r.length ∧
      (∀ x ∈ r2.take cut, key x ≤ key p) ∧ (∀ y ∈ r2.drop cut, key p ≤ key y) := by
  obtain ⟨r1, p, s, y, e1, hp1, g0, hs, gs, hk⟩ := move_median_spec key lt hlt r hlen
  have hl1 : r1.length = r.length := hp1.length_eq
  obtain ⟨r2, cut, e2, hp2, c1, c2, c3, c4⟩ :=
    unguarded_partition_spec key lt hlt p r1.length r1 1 r1.length g0 (le_refl _) (by omega)
      (le_refl _) (by omega)
      (fun j z hj hz => by
        have hj0 : j = 0 := by omega
        subst hj0
        rw [g0] at hz
        cases hz
        exact le_refl _)
      (fun j z hj hz => by
        have := (List.getElem?_eq_some_iff.1 hz).1
        omega)
      ⟨s, y, hs, gs, hk⟩
  refine ⟨r2, cut, p, ?_, hp2.trans hp1, c1, by omega, ?_, ?_⟩
  · unfold unguarded_partition_pivot
    simp only [e1, e2]
  · intro x hx
    obtain ⟨i, hi, hxi⟩ := List.mem_take_iff_getElem.1 hx
    exact c3 i x (by omega) (by rw [← hxi]; exact List.getElem?_eq_getElem _)
  · intro x hx
    obtain ⟨i, hi, hxi⟩ := List.mem_drop_iff_getElem.1 hx
    exact c4 (cut + i) x (by omega) (by rw [← hxi]; exact List.getElem?_eq_getElem _)

theorem getElemOpt_append_cons (A : List β) (y : β) (rest : List β) :
    (A ++ y :: rest)[A.length]? = some y := by
  rw [List.getElem?_append_right (le_refl _)]
  simp

theorem set_append_cons (A : List β) (y v : β) (rest : List β) :
    (A ++ y :: rest).set A.length v = A ++ v :: rest := by
  rw [List.set_append_right _ _ (le_refl _)]
  simp

/-- The loop of `__unguarded_linear_insert` on `A ++ h :: B` with the hole at
`h`: when `A` has an element that `val` is not less than, the loop stops at the
last such element `z` and puts `val` right after it. -/
theorem linear_insert_loop_spec (lt : β → β → Bool) (val : β) (A : List β) (h : β)
    (B : List β) (hstop : ∃ y ∈ A, lt val y = false) :
    ∃ A1 z A2, A = A1 ++ z :: A2 ∧ lt val z = false ∧ (∀ y ∈ A2, lt val y = true) ∧
      unguarded_linear_insert_loop lt val A.length (A ++ h :: B)
        = some (A1 ++ z :: val :: (A2 ++ B)) := by
  induction A using List.reverseRecOn generalizing h B with
  | nil =>
    obtain ⟨y, hy, _⟩ := hstop
    simp at hy
  | append_singleton A y ih =>
    have hlen : (A ++ [y]).length = A.length + 1 := by simp
    have hr : A ++ [y] ++ h :: B = A ++ y :: h :: B := by simp
    have hget : (A ++ y :: h :: B)[A.length]? = some y := getElemOpt_append_cons A y _
    have hset : ∀ v, (A ++ y :: h :: B).set (A.length + 1) v = A ++ y :: v :: B := by
      intro v
      have := set_append_cons (A ++ [y]) h v B
      rw [hlen, hr] at this
      rw [this]
      simp
    have hlt2 : A.length + 1 < (A ++ y :: h :: B).length := by simp
    rw [hlen, hr, unguarded_linear_insert_loop, hget]
    simp only [hlt2, if_true, hset]
    by_cases hc : lt val y = true
    · rw [if_pos hc]
      have hstop2 : ∃ y2 ∈ A, lt val y2 = false := by
        obtain ⟨y2, hy2, hf⟩ := hstop
        rcases List.mem_append.1 hy2 with hm | hm
        · exact ⟨y2, hm, hf⟩
        · simp only [List.mem_singleton] at hm
          subst hm
          rw [hc] at hf
          exact Bool.noConfusion hf
      obtain ⟨A1, z, A2, e, hz, hA2, hrun⟩ := ih y (y :: B) hstop2
      refine ⟨A1, z, A2 ++ [y], by rw [e]; simp, hz, ?_, ?_⟩
      · intro y2 hy2
        rcases List.mem_append.1 hy2 with hm | hm
        · exact hA2 y2 hm
        · simp only [List.mem_singleton] at hm
          subst hm
          exact hc
      · rw [hrun]
        simp
    · rw [if_neg hc]
      exact ⟨A, y, [], rfl, by simpa using hc, fun _ h => by simp at h, by simp⟩

theorem unguarded_linear_insert_spec (lt : β → β → Bool) (val : β) (A B : List β)
    (hstop : ∃ y ∈ A, lt val y = false) :
    ∃ A1 z A2, A = A1 ++ z :: A2 ∧ lt val z = false ∧ (∀ y ∈ A2, lt val y = true) ∧
      unguarded_linear_insert lt (A ++ val :: B) A.length
        = some (A1 ++ z :: val :: (A2 ++ B)) := by
  obtain ⟨A1, z, A2, e, hz, hA2, hrun⟩ := linear_insert_loop_spec lt val A val B hstop
  refine ⟨A1, z, A2, e, hz, hA2, ?_⟩
  rw [unguarded_linear_insert, getElemOpt_append_cons]
  exact hrun

theorem sorted_insert (key : β → κ) (A1 A2 : List β) (val : β)
    (hs : (A1 ++ A2).Pairwise (fun a b => key a ≤ key b))
    (h1 : ∀ y ∈ A1, key y ≤ key val) (h2 : ∀ y ∈ A2, key val < key y) :
    (A1 ++ val :: A2).Pairwise (fun a b => key a ≤ key b) := by
  rw [List.pairwise_append] at hs ⊢
  refine ⟨hs.1, List.pairwise_cons.2 ⟨fun y hy => le_of_lt (h2 y hy), hs.2.1⟩, ?_⟩
  intro a ha b hb
  rcases List.mem_cons.1 hb with h | h
  · rw [h]; exact h1 a ha
  · exact hs.2.2 a ha b h

theorem filter_insert (key : β → κ) (A1 A2 : List β) (val : β)
    (h2 : ∀ y ∈ A2, key val < key y) (k : κ) :
    (A1 ++ val :: A2).filter (fun a => decide (key a = k))
      = (A1 ++ A2 ++ [val]).filter (fun a => decide (key a = k)) := by
  simp only [List.filter_append, List.filter_cons, List.filter_nil, List.append_assoc]
  by_cases hk : key val = k
  · have hA2 : A2.filter (fun a => decide (key a = k)) = [] := by
      rw [List.filter_eq_nil_iff]
      intro y hy
      have := h2 y hy
      simp only [decide_eq_true_eq]
      intro h
      rw [h, ← hk] at this
      exact lt_irrefl _ this
    simp [hk, hA2]
  · simp [hk]

theorem linear_insert_sorted (key : β → κ) (lt : β → β → Bool)
    (hlt : ∀ a b, lt a b = true ↔ key a < key b) (val : β) (A B : List β)
    (hs : A.Pairwise (fun a b => key a ≤ key b)) (hstop : ∃ y ∈ A, key y ≤ key val) :
    ∃ A1 A2, A = A1 ++ A2 ∧ A1 ≠ [] ∧ (∀ y ∈ A1, key y ≤ key val) ∧
      (∀ y ∈ A2, key val < key y) ∧
      unguarded_linear_insert lt (A ++ val :: B) A.length = some (A1 ++ val :: (A2 ++ B)) := by
  obtain ⟨y0, hy0, hk0⟩ := hstop
  obtain ⟨A1, z, A2, e, hz, hA2, hrun⟩ :=
    unguarded_linear_insert_spec lt val A B ⟨y0, hy0, (lt_false_iff key lt hlt _ _).2 hk0⟩
  have hkz : key z ≤ key val := (lt_false_iff key lt hlt _ _).1 hz
  refine ⟨A1 ++ [z], A2, by rw [e]; simp, by simp, ?_, fun y hy => (hlt _ _).1 (hA2 y hy), ?_⟩
  · intro y hy
    rcases List.mem_append.1 hy with h | h
    · rw [e, List.pairwise_append] at hs
      exact le_trans (hs.2.2 y h z (List.mem_cons_self _ _)) hkz
    · simp only [List.mem_singleton] at h
      rw [h]; exact hkz
  · rw [hrun]
    simp

theorem insertion_sort_step_spec (key : β → κ) (lt : β → β → Bool)
    (hlt : ∀ a b, lt a b = true ↔ key a < key b) (val : β) (A B : List β) (hA : A ≠ [])
    (hs : A.Pairwise (fun a b => key a ≤ key b)) :
    ∃ A1 A2, A = A1 ++ A2 ∧ (∀ y ∈ A1, key y ≤ key val) ∧ (∀ y ∈ A2, key val < key y) ∧
      insertion_sort_step lt (A ++ val :: B) A.length = some (A1 ++ val :: (A2 ++ B)) := by
  obtain ⟨x0, A0, rfl⟩ := List.exists_cons_of_ne_nil hA
  have h0 : (x0 :: A0 ++ val :: B)[0]? = some x0 := by simp
  rw [insertion_sort_step, getElemOpt_append_cons, h0]
  simp only
  by_cases hc : lt val x0 = true
  · rw [if_pos hc]
    have hk := (hlt _ _).1 hc
    refine ⟨[], x0 :: A0, rfl, fun y hy => by simp at hy, ?_, ?_⟩
    · intro y hy
      rcases List.mem_cons.1 hy with h | h
      · rw [h]; exact hk
      · exact lt_of_lt_of_le hk ((List.pairwise_cons.1 hs).1 y h)
    · have h1 : (x0 :: A0 ++ val :: B).take (x0 :: A0).length = x0 :: A0 :=
        List.take_left' rfl
      have h2 : (x0 :: A0 ++ val :: B).drop ((x0 :: A0).length + 1) = B := by
        have : x0 :: A0 ++ val :: B = (x0 :: A0 ++ [val]) ++ B := by simp
        rw [this]
        exact List.drop_left' (by simp)
      rw [h1, h2]
      rfl
  · rw [if_neg hc]
    obtain ⟨A1, A2, e, _, hA1, hA2, hrun⟩ := linear_insert_sorted key lt hlt val (x0 :: A0) B hs
      ⟨x0, List.mem_cons_self _ _, (lt_false_iff key lt hlt _ _).1 (by simpa using hc)⟩
    exact ⟨A1, A2, e, hA1, hA2, hrun⟩

theorem insertion_sort_loop_spec (key : β → κ) (lt : β → β → Bool)
    (hlt : ∀ a b, lt a b = true ↔ key a < key b) (count : Nat) (A B : List β) (hA : A ≠ [])
    (hs : A.Pairwise (fun a b => key a ≤ key b)) (hc : count ≤ B.length) :
    ∃ A2, insertion_sort_loop lt count A.length (A ++ B) = some (A2 ++ B.drop count) ∧
      A2.Perm (A ++ B.take count) ∧ A2.Pairwise (fun a b => key a ≤ key b) ∧
      ∀ k, A2.filter (fun a => decide (key a = k))
        = (A ++ B.take count).filter (fun a => decide (key a = k)) := by
  induction count generalizing A B with
  | zero =>
    exact ⟨A, by simp [insertion_sort_loop], by simp, hs, fun k => by simp⟩
  | succ count ih =>
    cases B with
    | nil => simp at hc
    | cons val B =>
      obtain ⟨A1, A2, e, h1, h2, hrun⟩ := insertion_sort_step_spec key lt hlt val A B hA hs
      have hs2 := sorted_insert key A1 A2 val (e ▸ hs) h1 h2
      have hl : (A1 ++ val :: A2).length = A.length + 1 := by
        rw [e]; simp only [List.length_append, List.length_cons]; omega
      obtain ⟨A3, hrun3, hp3, hs3, hf3⟩ := ih (A1 ++ val :: A2) B (by simp) hs2
        (by simpa using hc)
      refine ⟨A3, ?_, ?_, hs3, ?_⟩
      · rw [insertion_sort_loop, hrun]
        simp only
        rw [← hl]
        have : A1 ++ val :: (A2 ++ B) = A1 ++ val :: A2 ++ B := by simp
        rw [this, hrun3]
        rfl
      · refine hp3.trans ?_
        rw [e]
        simp only [List.take_succ_cons, List.append_assoc, List.cons_append]
        exact List.Perm.append_left A1 List.perm_middle.symm
      · intro k
        rw [hf3 k, e]
        simp only [List.take_succ_cons, List.filter_append]
        have := filter_insert key A1 A2 val h2 k
        simp only [List.filter_append] at this
        rw [this]
        by_cases hk : key val = k <;> simp [List.filter_cons, hk]

theorem unguarded_insertion_sort_spec (key : β → κ) (lt : β → β → Bool)
    (hlt : ∀ a b, lt a b = true ↔ key a < key b) (count : Nat) (m : β) (A0 B : List β)
    (hmin : ∀ y ∈ B, key m ≤ key y)
    (hs : (m :: A0).Pairwise (fun a b => key a ≤ key b)) (hc : count ≤ B.length) :
    ∃ A2, unguarded_insertion_sort lt count (m :: A0).length (m :: A0 ++ B)
        = some (A2 ++ B.drop count) ∧
      A2.Perm (m :: A0 ++ B.take count) ∧ A2.Pairwise (fun a b => key a ≤ key b) := by
  induction count generalizing A0 B with
  | zero =>
    exact ⟨m :: A0, by simp [unguarded_insertion_sort], by simp, hs⟩
  | succ count ih =>
    cases B with
    | nil => simp at hc
    | cons val B =>
      obtain ⟨A1, A2, e, hne, h1, h2, hrun⟩ := linear_insert_sorted key lt hlt val (m :: A0) B hs
        ⟨m, List.mem_cons_self _ _, hmin val (List.mem_cons_self _ _)⟩
      obtain ⟨a1, A1t, rfl⟩ := List.exists_cons_of_ne_nil hne
      have ha1 : m = a1 := by
        simp only [List.cons_append, List.cons.injEq] at e
        exact e.1
      subst ha1
      have hs2 := sorted_insert key (m :: A1t) A2 val (e ▸ hs) h1 h2
      have hl : (m :: (A1t ++ val :: A2)).length = (m :: A0).length + 1 := by
        rw [e]; simp only [List.length_append, List.length_cons]; omega
      obtain ⟨A3, hrun3, hp3, hs3⟩ := ih (A1t ++ val :: A2) B
        (fun y hy => hmin y (List.mem_cons_of_mem _ hy)) hs2 (by simpa using hc)
      refine ⟨A3, ?_, ?_, hs3⟩
      · rw [unguarded_insertion_sort, hrun]
        simp only
        rw [← hl]
        have : m :: A1t ++ val :: (A2 ++ B) = m :: (A1t ++ val :: A2) ++ B := by simp
        rw [this, hrun3]
        rfl
      · refine hp3.trans ?_
        rw [e]
        simp only [List.take_succ_cons, List.append_assoc, List.cons_append]
        exact List.Perm.cons m (List.Perm.append_left A1t List.perm_middle.symm)

/-- The final insertion sort returns a sorted permutation, provided that in a
vector of more than 16 elements a minimum is among the first 16 (it stops the
unguarded loops). On at most 16 elements it keeps equal keys in input order. -/
theorem final_insertion_sort_spec (key : β → κ) (lt : β → β → Bool)
    (hlt : ∀ a b, lt a b = true ↔ key a < key b) (r : List β) (hr : r ≠ [])
    (hmin : 16 < r.length → ∃ m ∈ r.take 16, ∀ y ∈ r, key m ≤ key y) :
    ∃ out, final_insertion_sort lt r = some out ∧ out.Perm r ∧
      out.Pairwise (fun a b => key a ≤ key b) ∧
      (r.length ≤ 16 → ∀ k, out.filter (fun a => decide (key a = k))
        = r.filter (fun a => decide (key a = k))) := by
  obtain ⟨x0, tail, rfl⟩ := List.exists_cons_of_ne_nil hr
  have hs0 : [x0].Pairwise (fun a b => key a ≤ key b) := List.pairwise_singleton _ _
  unfold final_insertion_sort
  by_cases hlen : (x0 :: tail).length > 16
  · rw [if_pos hlen]
    have htl : 16 ≤ tail.length := by
      simp only [List.length_cons] at hlen; omega
    obtain ⟨A2, hrun, hp, hs, _⟩ := insertion_sort_loop_spec key lt hlt 15 [x0] tail (by simp)
      hs0 (by omega)
    have hA2len : A2.length = 16 := by
      rw [hp.length_eq]; simp; omega
    obtain ⟨m2, A0, rfl⟩ := List.exists_cons_of_ne_nil
      (fun h : A2 = [] => by rw [h] at hA2len; simp at hA2len)
    obtain ⟨m, hm, hmall⟩ := hmin hlen
    have hm2 : m ∈ m2 :: A0 := by
      rw [hp.mem_iff]
      simpa using hm
    have hkm : key m2 ≤ key m := by
      rcases List.mem_cons.1 hm2 with h | h
      · rw [h]
      · exact (List.pairwise_cons.1 hs).1 m h
    have hmin2 : ∀ y ∈ tail.drop 15, key m2 ≤ key y := fun y hy =>
      le_trans hkm (hmall y (List.mem_cons_of_mem _ (List.mem_of_mem_drop hy)))
    obtain ⟨A3, hrun3, hp3, hs3⟩ := unguarded_insertion_sort_spec key lt hlt
      (tail.length - 15) m2 A0 (tail.drop 15) hmin2 hs (by simp)
    have hdrop : (tail.drop 15).drop (tail.length - 15) = [] := by
      rw [List.drop_eq_nil_iff, List.length_drop]
    have htake : (tail.drop 15).take (tail.length - 15) = tail.drop 15 := by
      apply List.take_of_length_le
      simp
    rw [hdrop, List.append_nil] at hrun3
    rw [htake] at hp3
    have hins : insertion_sort lt (x0 :: tail) 16 = some (m2 :: A0 ++ tail.drop 15) := by
      unfold insertion_sort
      simp only [(by decide : (16 : Nat) ≠ 0), if_false]
      exact hrun
    rw [hins]
    simp only
    have hcount : (m2 :: A0 ++ tail.drop 15).length - 16 = tail.length - 15 := by
      rw [List.length_append, hA2len, List.length_drop]; omega
    rw [hcount, ← hA2len, hrun3]
    refine ⟨A3, rfl, ?_, hs3, fun h => by omega⟩
    refine hp3.trans ((List.Perm.append_right _ hp).trans ?_)
    simp
  · rw [if_neg hlen]
    obtain ⟨A2, hrun, hp, hs, hf⟩ := insertion_sort_loop_spec key lt hlt tail.length [x0] tail
      (by simp) hs0 (le_refl _)
    simp only [List.drop_length, List.append_nil, List.take_length] at hrun hp hf
    have hins : insertion_sort lt (x0 :: tail) (x0 :: tail).length = some A2 := by
      unfold insertion_sort
      simp only [List.length_cons, Nat.add_one_ne_zero, if_false, Nat.add_sub_cancel]
      exact hrun
    exact ⟨A2, hins, hp, hs, fun _ k => hf k⟩

theorem inSubtree_le (top h : Nat) (hs : InSubtree top h) : top ≤ h := by
  induction hs with
  | root => exact le_refl _
  | child c hc _ ih => omega

theorem inSubtree_parent (top h : Nat) (hs : InSubtree top h) (hne : h ≠ top) :
    0 < h ∧ top ≤ (h - 1) / 2 ∧ InSubtree top ((h - 1) / 2) := by
  cases hs with
  | root => exact absurd rfl hne
  | child c hc hp => exact ⟨hc, inSubtree_le _ _ hp, hp⟩

theorem getElemOpt_set (r : List β) (h : Nat) (v : β) (hh : h < r.length) (j : Nat) :
    (r.set h v)[j]? = if h = j then some v else r[j]? := by
  rw [List.getElem?_set]
  simp only [hh, if_true]

theorem perm_set_move (r : List β) (h c : Nat) (z v : β) (hh : h < r.length)
    (hc : r[c]? = some z) (hne : c ≠ h) : ((r.set h z).set c v).Perm (r.set h v) := by
  have h1 : (r.set h v)[h]? = some v := by
    rw [getElemOpt_set r h v hh, if_pos rfl]
  have h2 : (r.set h v)[c]? = some z := by
    rw [getElemOpt_set r h v hh, if_neg (Ne.symm hne)]
    exact hc
  have := perm_swap_set (r.set h v) h c v z h1 h2
  rw [List.set_set] at this
  exact this

theorem heap_move_down (key : β → κ) (r : List β) (len top h c : Nat) (z : β)
    (hJ : HeapHole key r len top h) (hc1 : (c - 1) / 2 = h) (hc0 : 0 < c)
    (hcl : c < len) (hlen : len ≤ r.length) (hth : top ≤ h) (hz : r[c]? = some z)
    (hmax : ∀ i x, 0 < i → i < len → (i - 1) / 2 = h → r[i]? = some x → key x ≤ key z) :
    HeapHole key (r.set h z) len top c := by
  have hhl : h < r.length := by omega
  intro i x y hi hil htop _ hx hy
  rw [getElemOpt_set r h z hhl] at hx hy
  by_cases e1 : h = (i - 1) / 2
  · rw [if_pos e1] at hy
    cases hy
    rw [if_neg (by omega)] at hx
    exact hmax i x hi hil e1.symm hx
  · rw [if_neg e1] at hy
    by_cases e2 : h = i
    · rw [if_pos e2] at hx
      cases hx
      subst e2
      have hne : h ≠ top := by omega
      have hh : r[h]? = some r[h] := List.getElem?_eq_getElem hhl
      have k1 := hJ c z r[h] hc0 hcl (by omega) (fun _ => hne) hz (by rw [hc1]; exact hh)
      have k2 := hJ h r[h] y hi hil htop (fun _ => hne) hh hy
      exact le_trans k1 k2
    · rw [if_neg e2] at hx
      exact hJ i x y hi hil htop (fun e => by omega) hx hy

theorem adjust_heap_down_spec (key : β → κ) (lt : β → β → Bool)
    (hlt : ∀ a b, lt a b = true ↔ key a < key b) (len top fuel : Nat) (r : List β) (h : Nat)
    (hJ : HeapHole key r len top h) (hsub : InSubtree top h) (hhl : h < len)
    (hlen : len ≤ r.length) (hfuel : len - h ≤ fuel) :
    ∃ r2 h2, adjust_heap_down lt len fuel r h = some (r2, h2) ∧ HeapHole key r2 len top h2 ∧
      InSubtree top h2 ∧ h2 < len ∧ ¬ h2 < (len - 1) / 2 ∧ r2.length = r.length ∧
      (∀ v, (r2.set h2 v).Perm (r.set h v)) ∧ (∀ j, len ≤ j → r2[j]? = r[j]?) := by
  induction fuel generalizing r h with
  | zero => omega
  | succ fuel ih =>
    rw [adjust_heap_down]
    by_cases hc : h < (len - 1) / 2
    · rw [if_pos hc]
      have hx : r[2 * (h + 1)]? = some r[2 * (h + 1)] := List.getElem?_eq_getElem (by omega)
      have hy : r[2 * (h + 1) - 1]? = some r[2 * (h + 1) - 1] :=
        List.getElem?_eq_getElem (by omega)
      simp only [hx, hy]
      have hth := inSubtree_le _ _ hsub
      have key_step : ∀ c z, (c = 2 * (h + 1) - 1 ∨ c = 2 * (h + 1)) → r[c]? = some z →
          (∀ i x, 0 < i → i < len → (i - 1) / 2 = h → r[i]? = some x → key x ≤ key z) →
          ∃ r2 h2, (if h < r.length then adjust_heap_down lt len fuel (r.set h z) c else none)
              = some (r2, h2) ∧ HeapHole key r2 len top h2 ∧
            InSubtree top h2 ∧ h2 < len ∧ ¬ h2 < (len - 1) / 2 ∧ r2.length = r.length ∧
            (∀ v, (r2.set h2 v).Perm (r.set h v)) ∧ (∀ j, len ≤ j → r2[j]? = r[j]?) := by
        intro c z hcc hz hmax
        have hc1 : (c - 1) / 2 = h := by omega
        have hc0 : 0 < c := by omega
        have hcl : c < len := by omega
        have hJ2 := heap_move_down key r len top h c z hJ hc1 hc0 hcl hlen hth hz hmax
        have hsub2 : InSubtree top c := InSubtree.child c hc0 (by rw [hc1]; exact hsub)
        obtain ⟨r2, h2, e, a1, a2, a3, a4, a5, a6, a7⟩ :=
          ih (r.set h z) c hJ2 hsub2 hcl (by rw [List.length_set]; exact hlen) (by omega)
        refine ⟨r2, h2, ?_, a1, a2, a3, a4, by rw [a5, List.length_set], ?_, ?_⟩
        · rw [if_pos (by omega)]
          exact e
        · intro v
          exact (a6 v).trans (perm_set_move r h c z v (by omega) hz (by omega))
        · intro j hj
          rw [a7 j hj, getElemOpt_set r h z (by omega), if_neg (by omega)]
      by_cases hcmp : lt r[2 * (h + 1)] r[2 * (h + 1) - 1] = true
      · simp only [hcmp, if_true, hy]
        refine key_step _ _ (Or.inl rfl) hy ?_
        intro i x hi hil hpar hxi
        have hcases : i = 2 * (h + 1) - 1 ∨ i = 2 * (h + 1) := by omega
        rcases hcases with e | e
        · subst e
          rw [hy] at hxi
          cases hxi
          exact le_refl _
        · subst e
          rw [hx] at hxi
          cases hxi
          exact le_of_lt ((hlt _ _).1 hcmp)
      · simp only [hcmp, Bool.false_eq_true, if_false, hx]
        refine key_step _ _ (Or.inr rfl) hx ?_
        intro i x hi hil hpar hxi
        have hcases : i = 2 * (h + 1) - 1 ∨ i = 2 * (h + 1) := by omega
        rcases hcases with e | e
        · subst e
          rw [hy] at hxi
          cases hxi
          exact (lt_false_iff key lt hlt _ _).1 (by simpa using hcmp)
        · subst e
          rw [hx] at hxi
          cases hxi
          exact le_refl _
    · rw [if_neg hc]
      exact ⟨r, h, rfl, hJ, hsub, hhl, hc, rfl, fun v => List.Perm.refl _, fun j _ => rfl⟩

theorem heap_fill (key : β → κ) (r : List β) (len top h : Nat) (value : β)
    (hH : HeapFrom key r len top) (hhl : h < r.length)
    (hch : ∀ i x, 0 < i → i < len → (i - 1) / 2 = h → r[i]? = some x → key x ≤ key value)
    (hpar : 0 < h → top ≤ (h - 1) / 2 → ∀ y, r[(h - 1) / 2]? = some y → key value ≤ key y) :
    HeapFrom key (r.set h value) len top := by
  intro i x y hi hil htop hx hy
  rw [getElemOpt_set r h value hhl] at hx hy
  by_cases e1 : h = (i - 1) / 2
  · rw [if_pos e1] at hy
    cases hy
    rw [if_neg (by omega)] at hx
    exact hch i x hi hil e1.symm hx
  · rw [if_neg e1] at hy
    by_cases e2 : h = i
    · rw [if_pos e2] at hx
      cases hx
      subst e2
      exact hpar hi htop y hy
    · rw [if_neg e2] at hx
      exact hH i x y hi hil htop hx hy

theorem push_heap_spec (key : β → κ) (lt : β → β → Bool)
    (hlt : ∀ a b, lt a b = true ↔ key a < key b) (value : β) (len top fuel : Nat)
    (r : List β) (h : Nat) (hH : HeapFrom key r len top) (hsub : InSubtree top h)
    (hhl : h < len) (hlen : len ≤ r.length) (hfuel : h < fuel)
    (hch : ∀ i x, 0 < i → i < len → (i - 1) / 2 = h → r[i]? = some x → key x ≤ key value) :
    ∃ r2, push_heap lt value top fuel r h = some r2 ∧ HeapFrom key r2 len top ∧
      r2.Perm (r.set h value) ∧ (∀ j, len ≤ j → r2[j]? = r[j]?) := by
  induction fuel generalizing r h with
  | zero => omega
  | succ fuel ih =>
    have hhr : h < r.length := by omega
    have hout : ∀ j, len ≤ j → (r.set h value)[j]? = r[j]? := fun j hj => by
      rw [getElemOpt_set r h value hhr, if_neg (by omega)]
    rw [push_heap]
    by_cases hc : h > top
    · rw [if_pos hc]
      obtain ⟨h0, htp, hsubp⟩ := inSubtree_parent top h hsub (by omega)
      have hpl : (h - 1) / 2 < r.length := by omega
      have hx : r[(h - 1) / 2]? = some r[(h - 1) / 2] := List.getElem?_eq_getElem hpl
      have hh : r[h]? = some r[h] := List.getElem?_eq_getElem hhr
      rw [hx]
      simp only [hhr, if_true]
      by_cases hcmp : lt r[(h - 1) / 2] value = true
      · rw [if_pos hcmp]
        have hkx : key r[(h - 1) / 2] < key value := (hlt _ _).1 hcmp
        have hH2 : HeapFrom key (r.set h r[(h - 1) / 2]) len top := by
          apply heap_fill key r len top h _ hH hhr
          · intro i x hi hil hpar hxi
            exact le_trans (hH i x r[h] hi hil (by omega) hxi (by rw [hpar]; exact hh))
              (hH h r[h] _ h0 hhl htp hh hx)
          · intro _ _ y hy
            rw [hx] at hy
            cases hy
            exact le_refl _
        obtain ⟨r2, e, a1, a2, a3⟩ := ih (r.set h r[(h - 1) / 2]) ((h - 1) / 2) hH2 hsubp
          (by omega) (by rw [List.length_set]; exact hlen) (by omega)
          (fun i x hi hil hpar hxi => by
            rw [getElemOpt_set r h _ hhr] at hxi
            by_cases e1 : h = i
            · rw [if_pos e1] at hxi
              cases hxi
              exact le_of_lt hkx
            · rw [if_neg e1] at hxi
              exact le_trans (hH i x _ hi hil (by omega) hxi (by rw [hpar]; exact hx))
                (le_of_lt hkx))
        refine ⟨r2, e, a1, ?_, ?_⟩
        · exact a2.trans (perm_set_move r h ((h - 1) / 2) _ value hhr hx (by omega))
        · intro j hj
          rw [a3 j hj, getElemOpt_set r h _ hhr, if_neg (by omega)]
      · rw [if_neg hcmp]
        refine ⟨_, rfl, ?_, List.Perm.refl _, hout⟩
        apply heap_fill key r len top h value hH hhr hch
        intro _ _ y hy
        rw [hx] at hy
        cases hy
        exact (lt_false_iff key lt hlt _ _).1 (by simpa using hcmp)
    · rw [if_neg hc]
      simp only [hhr, if_true]
      refine ⟨_, rfl, ?_, List.Perm.refl _, hout⟩
      apply heap_fill key r len top h value hH hhr hch
      intro h0 htp
      have := inSubtree_le _ _ hsub
      omega

/-- The routine `__adjust_heap` on a range that is a heap below `top`: it stays
inside the vector and returns a heap from `top` on that holds `value` in place
of the old element at `top`. -/
theorem adjust_heap_spec (key : β → κ) (lt : β → β → Bool)
    (hlt : ∀ a b, lt a b = true ↔ key a < key b) (r : List β) (top len : Nat) (value : β)
    (hH : HeapFrom key r len (top + 1)) (htl : top < len) (hlen : len ≤ r.length) :
    ∃ r2, adjust_heap lt r top len value = some r2 ∧ HeapFrom key r2 len top ∧
      r2.Perm (r.set top value) ∧ (∀ j, len ≤ j → r2[j]? = r[j]?) := by
  have hJ : HeapHole key r len top top := by
    intro i x y hi hil htop hcond hx hy
    have hne : (i - 1) / 2 ≠ top := fun e => hcond e rfl
    exact hH i x y hi hil (by omega) hx hy
  obtain ⟨r1, h1, e1, b1, b2, b3, b4, b5, b6, b7⟩ :=
    adjust_heap_down_spec key lt hlt len top len r top hJ InSubtree.root htl hlen (by omega)
  have hth1 := inSubtree_le _ _ b2
  unfold adjust_heap
  simp only [e1]
  by_cases hc : len % 2 = 0 ∧ h1 = (len - 2) / 2
  · rw [if_pos hc]
    have hcl : 2 * (h1 + 1) - 1 < r1.length := by omega
    have hz : r1[2 * (h1 + 1) - 1]? = some r1[2 * (h1 + 1) - 1] :=
      List.getElem?_eq_getElem hcl
    rw [hz]
    simp only [(by omega : h1 < r1.length), if_true]
    have hJ2 := heap_move_down key r1 len top h1 (2 * (h1 + 1) - 1) _ b1 (by omega) (by omega)
      (by omega) (by omega) hth1 hz
      (fun i x hi hil hpar hxi => by
        have hi2 : i = 2 * (h1 + 1) - 1 := by omega
        subst hi2
        rw [hz] at hxi
        cases hxi
        exact le_refl _)
    have hH2 : HeapFrom key (r1.set h1 r1[2 * (h1 + 1) - 1]) len top := by
      intro i x y hi hil htop hx hy
      exact hJ2 i x y hi hil htop (fun _ => by omega) hx hy
    obtain ⟨r2, e2, a1, a2, a3⟩ := push_heap_spec key lt hlt value len top len
      (r1.set h1 r1[2 * (h1 + 1) - 1]) (2 * (h1 + 1) - 1) hH2
      (InSubtree.child _ (by omega) (by
        have : (2 * (h1 + 1) - 1 - 1) / 2 = h1 := by omega
        rw [this]; exact b2))
      (by omega) (by rw [List.length_set]; omega) (by omega)
      (fun i x hi hil hpar hxi => by omega)
    refine ⟨r2, e2, a1, ?_, ?_⟩
    · refine a2.trans ((perm_set_move r1 h1 (2 * (h1 + 1) - 1) _ value (by omega) hz
        (by omega)).trans (b6 value))
    · intro j hj
      rw [a3 j hj, getElemOpt_set r1 h1 _ (by omega), if_neg (by omega), b7 j hj]
  · rw [if_neg hc]
    have hH2 : HeapFrom key r1 len top := by
      intro i x y hi hil htop hx hy
      exact b1 i x y hi hil htop (fun e1 e2 => by omega) hx hy
    obtain ⟨r2, e2, a1, a2, a3⟩ := push_heap_spec key lt hlt value len top len r1 h1 hH2 b2 b3
      (by omega) b3 (fun i x hi hil hpar hxi => by omega)
    exact ⟨r2, e2, a1, a2.trans (b6 value), fun j hj => by rw [a3 j hj, b7 j hj]⟩

theorem set_getElemOpt_self (r : List β) (i : Nat) (x : β) (h : r[i]? = some x) :
    r.set i x = r := by
  apply List.ext_getElem?
  intro j
  rw [getElemOpt_set r i x (List.getElem?_eq_some_iff.1 h).1]
  by_cases e : i = j
  · rw [if_pos e, ← e, h]
  · rw [if_neg e]

theorem make_heap_loop_spec (key : β → κ) (lt : β → β → Bool)
    (hlt : ∀ a b, lt a b = true ↔ key a < key b) (len parent : Nat) (r : List β)
    (hH : HeapFrom key r len (parent + 1)) (hpl : parent < len) (hlen : len ≤ r.length) :
    ∃ r2, make_heap_loop lt len parent r = some r2 ∧ HeapFrom key r2 len 0 ∧ r2.Perm r := by
  induction parent generalizing r with
  | zero =>
    have h0 : r[0]? = some r[0] := List.getElem?_eq_getElem (by omega)
    obtain ⟨r2, e, a1, a2, _⟩ := adjust_heap_spec key lt hlt r 0 len r[0] hH hpl hlen
    rw [set_getElemOpt_self r 0 _ h0] at a2
    refine ⟨r2, ?_, a1, a2⟩
    rw [make_heap_loop, h0]
    exact e
  | succ parent ih =>
    have h0 : r[parent + 1]? = some r[parent + 1] := List.getElem?_eq_getElem (by omega)
    obtain ⟨r1, e, a1, a2, _⟩ := adjust_heap_spec key lt hlt r (parent + 1) len r[parent + 1]
      hH hpl hlen
    rw [set_getElemOpt_self r _ _ h0] at a2
    obtain ⟨r2, e2, c1, c2⟩ := ih r1 a1 (by omega) (by rw [a2.length_eq]; exact hlen)
    refine ⟨r2, ?_, c1, c2.trans a2⟩
    rw [make_heap_loop, h0]
    simp only [e]
    exact e2

theorem make_heap_spec (key : β → κ) (lt : β → β → Bool)
    (hlt : ∀ a b, lt a b = true ↔ key a < key b) (r : List β) (hlen : 2 ≤ r.length) :
    ∃ r2, make_heap lt r = some r2 ∧ HeapFrom key r2 r.length 0 ∧ r2.Perm r := by
  unfold make_heap
  rw [if_neg (by omega)]
  apply make_heap_loop_spec key lt hlt r.length ((r.length - 2) / 2) r _ (by omega) (le_refl _)
  intro i x y hi hil htop _ _
  omega

theorem heap_root_max (key : β → κ) (r : List β) (n : Nat) (hH : HeapFrom key r n 0)
    (y : β) (h0 : r[0]? = some y) (i : Nat) (x : β) (hi : i < n) (hx : r[i]? = some x) :
    key x ≤ key y := by
  induction i using Nat.strong_induction_on generalizing x with
  | _ i ih =>
    by_cases e : i = 0
    · subst e
      rw [h0] at hx
      cases hx
      exact le_refl _
    · have hil : i < r.length := (List.getElem?_eq_some_iff.1 hx).1
      have hp : r[(i - 1) / 2]? = some r[(i - 1) / 2] := List.getElem?_eq_getElem (by omega)
      exact le_trans (hH i x _ (by omega) hi (Nat.zero_le _) hx hp)
        (ih ((i - 1) / 2) (by omega) _ (by omega) hp)

theorem drop_eq_of_getElemOpt (a b : List β) (k : Nat)
    (h : ∀ j, k ≤ j → a[j]? = b[j]?) : a.drop k = b.drop k := by
  apply List.ext_getElem?
  intro i
  rw [List.getElem?_drop, List.getElem?_drop]
  exact h (k + i) (by omega)

theorem perm_take_of_drop_eq (a b : List β) (k : Nat) (hp : a.Perm b)
    (hd : a.drop k = b.drop k) : (a.take k).Perm (b.take k) := by
  have h1 : (a.take k ++ a.drop k).Perm (b.take k ++ a.drop k) := by
    rw [List.take_append_drop, hd, List.take_append_drop]
    exact hp
  exact (List.perm_append_right_iff _).1 h1

theorem sort_heap_spec (key : β → κ) (lt : β → β → Bool)
    (hlt : ∀ a b, lt a b = true ↔ key a < key b) (k : Nat) (r : List β) (hk : 1 ≤ k)
    (hH : HeapFrom key r k 0) (hlen : k ≤ r.length)
    (hcross : ∀ x ∈ r.take k, ∀ y ∈ r.drop k, key x ≤ key y) :
    ∃ out, sort_heap lt k r = some out ∧ out.Perm r ∧
      ∃ m rest, out = m :: rest ∧ ∀ y ∈ rest, key m ≤ key y := by
  induction k generalizing r with
  | zero => omega
  | succ k ih =>
    rw [sort_heap]
    by_cases hc : k + 1 > 1
    · rw [if_pos hc]
      have hv : r[k]? = some r[k] := List.getElem?_eq_getElem (by omega)
      have ht : r[0]? = some r[0] := List.getElem?_eq_getElem (by omega)
      have hkl : k < r.length := by omega
      have hH1 : HeapFrom key (r.set k r[0]) k 1 := by
        intro i x y hi hil htop hx hy
        rw [getElemOpt_set r k _ hkl, if_neg (by omega)] at hx hy
        exact hH i x y hi (by omega) (Nat.zero_le _) hx hy
      obtain ⟨r2, e, a1, a2, a3⟩ := adjust_heap_spec key lt hlt (r.set k r[0]) 0 k r[k] hH1
        (by omega) (by rw [List.length_set]; omega)
      have hswap : ((r.set k r[0]).set 0 r[k]).Perm r := perm_swap_set r k 0 _ _ hv ht
      have hl0 : ((r.set k r[0]).set 0 r[k]).length = r.length := by simp
      have hl2 : r2.length = r.length := by rw [a2.length_eq, hl0]
      have hdrop : r2.drop k = ((r.set k r[0]).set 0 r[k]).drop k := by
        apply drop_eq_of_getElemOpt
        intro j hj
        rw [a3 j hj, getElemOpt_set _ 0 _ (by rw [List.length_set]; omega),
          if_neg (by omega)]
      have htake := perm_take_of_drop_eq _ _ k a2 hdrop
      have hmem : ∀ x ∈ r2.take k, x ∈ r.take (k + 1) := by
        intro x hx
        rw [htake.mem_iff] at hx
        obtain ⟨i, hi, hxi⟩ := List.mem_take_iff_getElem.1 hx
        have hik : i < k := by omega
        have hxi2 : ((r.set k r[0]).set 0 r[k])[i]? = some x := by
          rw [← hxi]; exact List.getElem?_eq_getElem _
        rw [getElemOpt_set _ 0 _ (by rw [List.length_set]; omega),
          getElemOpt_set r k _ hkl] at hxi2
        by_cases e0 : 0 = i
        · rw [if_pos e0] at hxi2
          cases hxi2
          exact List.mem_take_iff_getElem.2 ⟨k, by omega, rfl⟩
        · rw [if_neg e0, if_neg (by omega)] at hxi2
          have hil : i < r.length := (List.getElem?_eq_some_iff.1 hxi2).1
          have : r[i] = x := (List.getElem?_eq_some_iff.1 hxi2).2
          exact List.mem_take_iff_getElem.2 ⟨i, by omega, this⟩
      have hdrop2 : r2.drop k = r[0] :: r.drop (k + 1) := by
        rw [hdrop]
        apply List.ext_getElem?
        intro i
        rw [List.getElem?_drop, getElemOpt_set _ 0 _ (by rw [List.length_set]; omega),
          getElemOpt_set r k _ hkl, if_neg (by omega)]
        cases i with
        | zero => simp
        | succ i =>
          rw [if_neg (by omega)]
          simp only [List.getElem?_cons_succ, List.getElem?_drop]
          congr 1
          omega
      obtain ⟨out, e2, c1, c2⟩ := ih r2 (by omega) a1 (by omega) (by
        intro x hx y hy
        have hx2 := hmem x hx
        rw [hdrop2] at hy
        rcases List.mem_cons.1 hy with h | h
        · obtain ⟨i, hi, hxi⟩ := List.mem_take_iff_getElem.1 hx2
          rw [h]
          exact heap_root_max key r (k + 1) hH r[0] ht i x (by omega)
            (by rw [← hxi]; exact List.getElem?_eq_getElem _)
        · exact hcross x hx2 y h)
      refine ⟨out, ?_, c1.trans (a2.trans hswap), c2⟩
      unfold pop_heap
      simp only [hv, ht, e]
      exact e2
    · rw [if_neg hc]
      have hk1 : k = 0 := by omega
      subst hk1
      obtain ⟨m, rest, rfl⟩ := List.exists_cons_of_ne_nil
        (fun h : r = [] => by rw [h] at hlen; simp at hlen)
      exact ⟨m :: rest, rfl, List.Perm.refl _, m, rest, rfl, fun y hy =>
        hcross m (by simp) y (by simpa using hy)⟩

/-- The heap sort of `__introsort_loop` returns a permutation whose first
element is a minimum. -/
theorem heap_sort_range_spec (key : β → κ) (lt : β → β → Bool)
    (hlt : ∀ a b, lt a b = true ↔ key a < key b) (r : List β) (hlen : 2 ≤ r.length) :
    ∃ out, heap_sort_range lt r = some out ∧ out.Perm r ∧
      ∃ m rest, out = m :: rest ∧ ∀ y ∈ rest, key m ≤ key y := by
  obtain ⟨r1, e1, a1, a2⟩ := make_heap_spec key lt hlt r hlen
  have hl : r1.length = r.length := a2.length_eq
  obtain ⟨out, e2, b1, b2⟩ := sort_heap_spec key lt hlt r1.length r1 (by omega)
    (hl ▸ a1) (le_refl _) (fun x _ y hy => by simp at hy)
  refine ⟨out, ?_, b1.trans a2, b2⟩
  unfold heap_sort_range
  simp only [e1]
  exact e2

theorem exists_min_key (key : β → κ) (l : List β) (h : l ≠ []) :
    ∃ m ∈ l, ∀ y ∈ l, key m ≤ key y := by
  induction l with
  | nil => exact absurd rfl h
  | cons a l ih =>
    by_cases hl : l = []
    · subst hl
      exact ⟨a, by simp, fun y hy => by simp at hy; rw [hy]⟩
    · obtain ⟨m, hm, hmin⟩ := ih hl
      by_cases hc : key a ≤ key m
      · refine ⟨a, by simp, fun y hy => ?_⟩
        rcases List.mem_cons.1 hy with e | e
        · rw [e]
        · exact le_trans hc (hmin y e)
      · refine ⟨m, List.mem_cons_of_mem _ hm, fun y hy => ?_⟩
        rcases List.mem_cons.1 hy with e | e
        · rw [e]; exact le_of_lt (not_le.1 hc)
        · exact hmin y e

/-- The routine `__introsort_loop` returns a permutation of a non-empty range
in which a minimum is among the first 16 elements, and it leaves a range of at
most 16 elements as it is. -/
theorem introsort_loop_spec (key : β → κ) (lt : β → β → Bool)
    (hlt : ∀ a b, lt a b = true ↔ key a < key b) (depth : Nat) (r : List β) (hr : r ≠ []) :
    ∃ out, introsort_loop lt depth r = some out ∧ out.Perm r ∧
      (∃ m ∈ out.take 16, ∀ y ∈ out, key m ≤ key y) ∧ (r.length ≤ 16 → out = r) := by
  have hsmall : ∀ r : List β, r ≠ [] → ¬ r.length > 16 →
      ∃ m ∈ r.take 16, ∀ y ∈ r, key m ≤ key y := by
    intro r hr hlen
    rw [List.take_of_length_le (by omega)]
    exact exists_min_key key r hr
  induction depth generalizing r with
  | zero =>
    rw [introsort_loop]
    by_cases hlen : r.length > 16
    · rw [if_pos hlen]
      obtain ⟨out, e, hp, m, rest, ho, hmin⟩ := heap_sort_range_spec key lt hlt r (by omega)
      refine ⟨out, e, hp, ⟨m, by rw [ho]; simp, fun y hy => ?_⟩, fun h => by omega⟩
      rw [ho] at hy
      rcases List.mem_cons.1 hy with h | h
      · rw [h]
      · exact hmin y h
    · rw [if_neg hlen]
      exact ⟨r, rfl, List.Perm.refl _, hsmall r hr hlen, fun _ => rfl⟩
  | succ depth ih =>
    rw [introsort_loop]
    by_cases hlen : r.length > 16
    · rw [if_pos hlen]
      obtain ⟨r2, cut, p, e, hp, c1, c2, hL, hR⟩ :=
        unguarded_partition_pivot_spec key lt hlt r (by omega)
      have hl2 : r2.length = r.length := hp.length_eq
      have hleft : r2.take cut ≠ [] := by
        intro h
        have := congrArg List.length h
        rw [List.length_take] at this
        simp only [List.length_nil] at this
        omega
      have hright : r2.drop cut ≠ [] := by
        intro h
        have := congrArg List.length h
        rw [List.length_drop] at this
        simp only [List.length_nil] at this
        omega
      obtain ⟨right, er, hpr, _, _⟩ := ih (r2.drop cut) hright
      obtain ⟨left, el, hpl, ⟨m, hm, hmin⟩, _⟩ := ih (r2.take cut) hleft
      simp only [e, er, el]
      refine ⟨left ++ right, rfl, ?_, ⟨m, ?_, ?_⟩, fun h => by omega⟩
      · refine (List.Perm.append hpl hpr).trans ?_
        rw [List.take_append_drop]
        exact hp
      · rw [List.take_append_eq_append_take]
        exact List.mem_append_left _ hm
      · intro y hy
        rcases List.mem_append.1 hy with h | h
        · exact hmin y h
        · exact le_trans (hL m (hpl.mem_iff.1 (List.mem_of_mem_take hm)))
            (hR y (hpr.mem_iff.1 h))
    · rw [if_neg hlen]
      exact ⟨r, rfl, List.Perm.refl _, hsmall r hr hlen, fun _ => rfl⟩

/-- The `std::sort` of libstdc++, for a comparison `lt` that is the strict order
of a key: every run stays inside the vector and returns a permutation of the
input in non-decreasing key order; an input of at most 16 elements keeps
elements of equal key in input order. -/
theorem stdSort_spec (key : β → κ) (lt : β → β → Bool)
    (hlt : ∀ a b, lt a b = true ↔ key a < key b) (r : List β) :
    ∃ out, stdSort lt r = some out ∧ out.Perm r ∧
      out.Pairwise (fun a b => key a ≤ key b) ∧
      (r.length ≤ 16 → ∀ k, out.filter (fun a => decide (key a = k))
        = r.filter (fun a => decide (key a = k))) := by
  unfold stdSort
  by_cases h0 : r.length = 0
  · rw [if_pos h0]
    have : r = [] := List.length_eq_zero.1 h0
    subst this
    exact ⟨[], rfl, List.Perm.refl _, List.Pairwise.nil, fun _ _ => rfl⟩
  · rw [if_neg h0]
    have hr : r ≠ [] := fun h => h0 (by rw [h]; rfl)
    obtain ⟨r1, e1, hp1, hmin, hsame⟩ :=
      introsort_loop_spec key lt hlt (2 * Nat.log2 r.length) r hr
    have hr1 : r1 ≠ [] := fun h => hr (by
      have := hp1.length_eq
      rw [h] at this
      exact List.length_eq_zero.1 this.symm)
    obtain ⟨out, e2, hp2, hs, hf⟩ := final_insertion_sort_spec key lt hlt r1 hr1 (fun _ => hmin)
    simp only [e1]
    refine ⟨out, e2, hp2.trans hp1, hs, fun hlen k => ?_⟩
    have := hsame hlen
    subst this
    exact hf hlen k

end StdSortLemmas

/-! ## Sorting contract and ranking reports -/

section RankingLemmas

variable {α : Type} [LinearOrderedField α]

theorem isStdSort_insertionSort : IsStdSort (insertionSortMatches : List (ImageMatch α) → _) := by
  intro l
  haveI : IsTotal (ImageMatch α) (fun a b => a.distance ≤ b.distance) :=
    ⟨fun a b => le_total a.distance b.distance⟩
  haveI : IsTrans (ImageMatch α) (fun a b => a.distance ≤ b.distance) :=
    ⟨fun a b c hab hbc => le_trans hab hbc⟩
  refine ⟨List.perm_insertionSort _ l, ?_⟩
  have hs := List.sorted_insertionSort (fun a b : ImageMatch α => a.distance ≤ b.distance) l
  exact List.Pairwise.imp (fun h => not_lt.2 h) hs

theorem stdSort_sorted (sort : List (ImageMatch α) → List (ImageMatch α))
    (hsort : IsStdSort sort) (l : List (ImageMatch α)) :
    (sort l).Pairwise (fun a b => a.distance ≤ b.distance) :=
  List.Pairwise.imp (fun h => not_lt.1 h) (hsort l).2

theorem stdSort_nil (sort : List (ImageMatch α) → List (ImageMatch α))
    (hsort : IsStdSort sort) : sort [] = [] :=
  (hsort []).1.eq_nil

/-- In a list sorted by distance, an element of strictly smaller distance sits
at a smaller index. -/
theorem index_lt_of_distance_lt (out : List (ImageMatch α))
    (hs : out.Pairwise (fun a b => a.distance ≤ b.distance)) (i j : ℕ)
    (hi : i < out.length) (hj : j < out.length)
    (hlt : (out[i]).distance < (out[j]).distance) : i < j := by
  by_contra hij
  rcases Nat.lt_or_ge j i with h | h
  · have := (List.pairwise_iff_getElem.1 hs) j i hj hi h
    exact absurd hlt (not_lt.2 this)
  · have hji : j = i := by omega
    subst hji
    exact lt_irrefl _ hlt

theorem printFrom_ok {γ : Type} (found : List (ImageMatch γ)) (count i : ℕ)
    (h : i + count ≤ found.length) :
    printFrom found count i
      = Except.ok (((found.drop i).take count).map (fun m => m.filename)) := by
  induction count generalizing i with
  | zero => simp [printFrom]
  | succ n ih =>
    have hi : i < found.length := by omega
    rw [printFrom, List.getElem?_eq_getElem hi]
    simp only
    rw [ih (i + 1) (by omega), List.drop_eq_getElem_cons hi, List.take_succ_cons,
      List.map_cons]

theorem printTop_ok {γ : Type} (num_results : Int) (found : List (ImageMatch γ)) :
    printTop num_results found
      = Except.ok ((found.take (min num_results (found.length : Int)).toNat).map
          (fun m => m.filename)) := by
  unfold printTop
  rw [printFrom_ok found _ 0 (by omega)]
  simp

theorem map_injOn_eq {β γ : Type} (f : β → γ) (S : List β)
    (hinj : ∀ x ∈ S, ∀ y ∈ S, f x = f y → x = y) (l₁ l₂ : List β)
    (h1 : ∀ x ∈ l₁, x ∈ S) (h2 : ∀ y ∈ l₂, y ∈ S) (h : l₁.map f = l₂.map f) : l₁ = l₂ := by
  induction l₁ generalizing l₂ with
  | nil =>
    cases l₂ with
    | nil => rfl
    | cons y ys => simp at h
  | cons x xs ih =>
    cases l₂ with
    | nil => simp at h
    | cons y ys =>
      simp only [List.map_cons, List.cons.injEq] at h
      have hxy : x = y := hinj x (h1 x (List.mem_cons_self x xs)) y
        (h2 y (List.mem_cons_self y ys)) h.1
      have hrest := ih ys (fun z hz => h1 z (List.mem_cons_of_mem x hz))
        (fun z hz => h2 z (List.mem_cons_of_mem y hz)) h.2
      rw [hxy, hrest]

/-- With pairwise distinct distances every sorting function that meets the
contract returns the same list. -/
theorem stdSort_unique (sort : List (ImageMatch α) → List (ImageMatch α))
    (hsort : IsStdSort sort) (found : List (ImageMatch α))
    (hnd : (found.map (fun m => m.distance)).Nodup) :
    sort found = insertionSortMatches found := by
  have h1 := hsort found
  have h2 := @isStdSort_insertionSort α _ found
  have hs1 : ((sort found).map (fun m => m.distance)).Sorted (· ≤ ·) := by
    unfold List.Sorted
    rw [List.pairwise_map]
    exact stdSort_sorted sort hsort found
  have hs2 : ((insertionSortMatches found).map (fun m => m.distance)).Sorted (· ≤ ·) := by
    unfold List.Sorted
    rw [List.pairwise_map]
    exact stdSort_sorted insertionSortMatches isStdSort_insertionSort found
  have hp : ((sort found).map (fun m => m.distance)).Perm
      ((insertionSortMatches found).map (fun m => m.distance)) :=
    (h1.1.trans h2.1.symm).map _
  have hmap := List.eq_of_perm_of_sorted hp hs1 hs2
  exact map_injOn_eq (fun m : ImageMatch α => m.distance) found
    (List.inj_on_of_nodup_map hnd) _ _
    (fun x hx => h1.1.mem_iff.1 hx) (fun y hy => h2.1.mem_iff.1 hy) hmap

theorem insertionSort_scenarioD :
    insertionSortMatches (scenarioDMatches : List (ImageMatch α))
      = [⟨"entry2", 1 / 10⟩, ⟨"entry3", 5 / 10⟩, ⟨"entry1", 9 / 10⟩] := by
  norm_num [insertionSortMatches, scenarioDMatches, List.insertionSort, List.orderedInsert]

theorem scenarioD_nodup :
    ((scenarioDMatches : List (ImageMatch α)).map (fun m => m.distance)).Nodup := by
  simp only [scenarioDMatches, List.map_cons, List.map_nil, List.nodup_cons, List.mem_cons,
    List.mem_singleton, List.not_mem_nil, List.nodup_nil, and_true, not_false_eq_true]
  norm_num

theorem stdSort_scenarioD (sort : List (ImageMatch α) → List (ImageMatch α))
    (hsort : IsStdSort sort) :
    sort scenarioDMatches = [⟨"entry2", 1 / 10⟩, ⟨"entry3", 5 / 10⟩, ⟨"entry1", 9 / 10⟩] := by
  rw [stdSort_unique sort hsort _ scenarioD_nodup, insertionSort_scenarioD]

end RankingLemmas

/-! ## Claims about the ranking -/

section RankingClaims

variable {α : Type} [LinearOrderedField α]

theorem baselineMatchesFromCSV_eq (target_features : List α)
    (database_features : List (String × List α)) :
    baselineMatchesFromCSV target_features database_features
      = database_features.map
          (fun entry => ⟨entry.1, sumSquaredDifference target_features entry.2⟩) := by
  unfold baselineMatchesFromCSV
  simp only
  rw [foldl_append_flatMap
    (fun entry : String × List α =>
      [(⟨entry.1, sumSquaredDifference target_features entry.2⟩ : ImageMatch α)]),
    List.nil_append]
  induction database_features with
  | nil => rfl
  | cons x xs ih => rw [List.flatMap_cons, ih, List.map_cons, List.singleton_append]

theorem foldl_step_append {β ι : Type} (step : List β → ι → List β) (g : ι → List β)
    (hstep : ∀ acc x, step acc x = acc ++ g x) (l : List ι) (init : List β) :
    l.foldl step init = init ++ l.flatMap g := by
  induction l generalizing init with
  | nil => simp
  | cons x xs ih => rw [List.foldl_cons, ih, hstep, List.flatMap_cons, List.append_assoc]

theorem baselineMatchesFromImages_eq (imread : String → Option Mat)
    (target_features : List α) (image_files : List String) :
    baselineMatchesFromImages imread target_features image_files
      = image_files.flatMap (fun p => ((imread p).map (fun im =>
          (⟨p, sumSquaredDifference target_features (extractBaselineFeature im)⟩ :
            ImageMatch α))).toList) := by
  unfold baselineMatchesFromImages
  rw [foldl_step_append _ (fun p => ((imread p).map (fun im =>
      (⟨p, sumSquaredDifference target_features (extractBaselineFeature im)⟩ :
        ImageMatch α))).toList), List.nil_append]
  intro acc x
  rcases h : imread x with _ | v <;> simp

theorem mem_baselineMatchesFromImages (imread : String → Option Mat)
    (target_features : List α) (image_files : List String) (path : String) (img : Mat)
    (hp : path ∈ image_files) (hr : imread path = some img) :
    (⟨path, sumSquaredDifference target_features (extractBaselineFeature img)⟩ : ImageMatch α)
      ∈ baselineMatchesFromImages imread target_features image_files := by
  rw [baselineMatchesFromImages_eq, List.mem_flatMap]
  refine ⟨path, hp, ?_⟩
  rw [hr]
  simp

theorem ssd_nonneg_of_length_eq (a b : List α) (hl : a.length = b.length) :
    0 ≤ sumSquaredDifference a b := by
  rw [ssd_eq_sum a b hl]
  exact Finset.sum_nonneg (fun i _ => sq_nonneg _)

/-- C29: in baseline ranking, for every `std::sort` that meets its contract, a
catalog entry whose feature vector length differs from the query's is not
skipped: it is in the ranking with distance `-1` (from a CSV row, or from a
readable image whose patch has another length, such as an image smaller than
7x7 against a target of at least 7x7); every equal-length entry has a
distance `>= 0`, an exact match has distance `0`; and in the ascending ranking
every entry at distance `-1` precedes every entry at a distance `>= 0`. -/
theorem baseline_mismatch_ranks_first (sort : List (ImageMatch α) → List (ImageMatch α))
    (hsort : IsStdSort sort) (target_features : List α) :
    (∀ (database_features : List (String × List α)) (entry : String × List α),
      entry ∈ database_features → target_features.length ≠ entry.2.length →
      (⟨entry.1, -1⟩ : ImageMatch α)
        ∈ sort (baselineMatchesFromCSV target_features database_features)) ∧
    (∀ (imread : String → Option Mat) (image_files : List String) (path : String) (img : Mat),
      path ∈ image_files → imread path = some img →
      target_features.length ≠ (extractBaselineFeature img : List α).length →
      (⟨path, -1⟩ : ImageMatch α)
        ∈ sort (baselineMatchesFromImages imread target_features image_files)) ∧
    (∀ target img : Mat, 7 ≤ target.rows → 7 ≤ target.cols → (img.rows < 7 ∨ img.cols < 7) →
      (extractBaselineFeature target : List α).length
        ≠ (extractBaselineFeature img : List α).length) ∧
    (∀ features : List α, target_features.length = features.length →
      0 ≤ sumSquaredDifference target_features features) ∧
    sumSquaredDifference target_features target_features = 0 ∧
    (∀ (found : List (ImageMatch α)) (i j : ℕ) (hi : i < (sort found).length)
        (hj : j < (sort found).length),
      ((sort found)[i]).distance = -1 → 0 ≤ ((sort found)[j]).distance → i < j) := by
  refine ⟨?_, ?_, ?_, ?_, ssd_self target_features, ?_⟩
  · intro db entry hmem hlen
    rw [(hsort _).1.mem_iff, baselineMatchesFromCSV_eq, List.mem_map]
    exact ⟨entry, hmem, by rw [ssd_of_length_ne _ _ hlen]⟩
  · intro imread files path img hp hr hlen
    rw [(hsort _).1.mem_iff]
    have h := mem_baselineMatchesFromImages imread target_features files path img hp hr
    rw [ssd_of_length_ne _ _ hlen] at h
    exact h
  · intro target img h1 h2 h3
    rw [baseline_eq_window, baseline_eq_window, length_baselineWindowFlatten,
      length_baselineWindowFlatten, min_eq_right h1, min_eq_right h2]
    have hr : min img.rows 7 ≤ 7 := min_le_right _ _
    have hc : min img.cols 7 ≤ 7 := min_le_right _ _
    rcases h3 with h3 | h3
    · have h4 : min img.rows 7 ≤ 6 := by omega
      have h5 : min img.rows 7 * min img.cols 7 ≤ 6 * 7 := Nat.mul_le_mul h4 hc
      rw [Nat.mul_assoc 3 (min img.rows 7)]
      omega
    · have h4 : min img.cols 7 ≤ 6 := by omega
      have h5 : min img.rows 7 * min img.cols 7 ≤ 7 * 6 := Nat.mul_le_mul hr h4
      rw [Nat.mul_assoc 3 (min img.rows 7)]
      omega
  · intro features hl
    exact ssd_nonneg_of_length_eq _ _ hl
  · intro found i j hi hj h1 h0
    apply index_lt_of_distance_lt (sort found) (stdSort_sorted sort hsort found) i j hi hj
    rw [h1]
    linarith

/-- Witness for C29: against the query `[1, 2]`, the CSV rows `exact` (`[1, 2]`)
and `short` (`[5]`) are ranked `short` (distance `-1`) before `exact`
(distance `0`). -/
theorem baseline_mismatch_ranks_first_witness :
    (⟨"short", -1⟩ : ImageMatch ℚ)
      ∈ insertionSortMatches
          (baselineMatchesFromCSV [1, 2] [("exact", [1, 2]), ("short", [5])]) ∧
    (insertionSortMatches
        (baselineMatchesFromCSV ([1, 2] : List ℚ) [("exact", [1, 2]), ("short", [5])])).map
      (fun m => m.filename) = ["short", "exact"] :=
  ⟨(baseline_mismatch_ranks_first (insertionSortMatches : List (ImageMatch ℚ) → _)
      isStdSort_insertionSort [1, 2]).1 [("exact", [1, 2]), ("short", [5])] ("short", [5])
      (by simp) (by decide),
   by
    norm_num [baselineMatchesFromCSV, sumSquaredDifference, insertionSortMatches,
      List.insertionSort, List.orderedInsert, List.range_succ]⟩

theorem collectMatches_eq (imread : String → Option Mat) (texture : Mat → List α)
    (query : List α) (paths : List String) :
    collectMatches imread texture query paths
      = paths.flatMap (fun p => ((imread p).map (fun img =>
          (⟨p, histogramIntersectionDistance query
            (([] ++ (extractRGBHistogram img 8 : List α)) ++ texture img)⟩ :
              ImageMatch α))).toList) := by
  unfold collectMatches
  rw [foldl_step_append _ (fun p => ((imread p).map (fun img =>
      (⟨p, histogramIntersectionDistance query
        (([] ++ (extractRGBHistogram img 8 : List α)) ++ texture img)⟩ :
          ImageMatch α))).toList), List.nil_append]
  intro acc x
  rcases h : imread x with _ | v <;> simp

theorem collectMatches_none (imread : String → Option Mat) (texture : Mat → List α)
    (query : List α) (paths : List String) (hnone : ∀ p ∈ paths, imread p = none) :
    collectMatches imread texture query paths = [] := by
  rw [collectMatches_eq, List.flatMap_eq_nil_iff]
  intro p hp
  rw [hnone p hp]
  rfl

theorem imageMatch_lt_iff (a b : ImageMatch α) :
    ImageMatch.lt a b = true ↔ a.distance < b.distance := by
  simp [ImageMatch.lt]

/-- Every call of `std::sort` on a vector of matches stays inside the vector
and returns; its result is `sortMatches`. -/
theorem stdSort_sortMatches (l : List (ImageMatch α)) :
    stdSort ImageMatch.lt l = some (sortMatches l) := by
  obtain ⟨out, e, _⟩ := stdSort_spec (fun m : ImageMatch α => m.distance) ImageMatch.lt
    imageMatch_lt_iff l
  unfold sortMatches
  rw [e]
  rfl

theorem sortMatches_facts (l : List (ImageMatch α)) :
    (sortMatches l).Perm l ∧
    (sortMatches l).Pairwise (fun a b => a.distance ≤ b.distance) ∧
    (l.length ≤ 16 → ∀ d, (sortMatches l).filter (fun m => decide (m.distance = d))
      = l.filter (fun m => decide (m.distance = d))) := by
  obtain ⟨out, e, hp, hs, hf⟩ := stdSort_spec (fun m : ImageMatch α => m.distance)
    ImageMatch.lt imageMatch_lt_iff l
  have h : sortMatches l = out := by
    unfold sortMatches
    rw [e]
    rfl
  rw [h]
  exact ⟨hp, hs, hf⟩

/-- The `std::sort` of the ranking programs meets the contract `IsStdSort`. -/
theorem isStdSort_sortMatches : IsStdSort (sortMatches : List (ImageMatch α) → _) := by
  intro l
  obtain ⟨hp, hs, _⟩ := sortMatches_facts l
  exact ⟨hp, List.Pairwise.imp (fun h => not_lt.2 h) hs⟩

theorem pair_sublist_of_lt {β : Type} (l : List β) (i j : ℕ) (hij : i < j)
    (hj : j < l.length) : [l[i], l[j]].Sublist l := by
  have hmem : l[j] ∈ l.drop (i + 1) :=
    List.mem_drop_iff_getElem.2 ⟨j - (i + 1), by omega, by congr 1; omega⟩
  have h1 : [l[j]].Sublist (l.drop (i + 1)) := List.singleton_sublist.2 hmem
  have h2 : [l[i], l[j]].Sublist (l[i] :: l.drop (i + 1)) := h1.cons₂ _
  rw [← List.drop_eq_getElem_cons (by omega)] at h2
  exact h2.trans (List.drop_sublist i l)

/-- With at most 16 matches `std::sort` is an insertion sort, which keeps
matches of equal distance in their input order. -/
theorem sortMatches_stable_small (found : List (ImageMatch α)) (h16 : found.length ≤ 16)
    (i j : ℕ) (hij : i < j) (hj : j < found.length)
    (heq : (found[i]).distance = (found[j]).distance) :
    [found[i], found[j]].Sublist (sortMatches found) := by
  have hs := (pair_sublist_of_lt found i j hij hj).filter
    (fun m => decide (m.distance = (found[i]).distance))
  rw [← (sortMatches_facts found).2.2 h16] at hs
  have hpair : [found[i], found[j]].filter
      (fun m => decide (m.distance = (found[i]).distance)) = [found[i], found[j]] := by
    simp [List.filter_cons, heq]
  rw [hpair] at hs
  exact hs.trans (List.filter_sublist _)

theorem log2_twenty : Nat.log2 20 = 4 := by
  norm_num [Nat.log2]

/-- The run of `std::sort` on twenty matches of one distance: the median step
swaps the entries 0 and 10, the partition loop swaps 1 with 19, 2 with 18, up
to 9 with 11, and the insertion sort moves nothing. -/
theorem stdSort_tiedMatches (d : α) :
    stdSort ImageMatch.lt (tiedMatches d)
      = some [⟨"e10", d⟩, ⟨"e19", d⟩, ⟨"e18", d⟩, ⟨"e17", d⟩, ⟨"e16", d⟩, ⟨"e15", d⟩,
          ⟨"e14", d⟩, ⟨"e13", d⟩, ⟨"e12", d⟩, ⟨"e11", d⟩, ⟨"e00", d⟩, ⟨"e09", d⟩,
          ⟨"e08", d⟩, ⟨"e07", d⟩, ⟨"e06", d⟩, ⟨"e05", d⟩, ⟨"e04", d⟩, ⟨"e03", d⟩,
          ⟨"e02", d⟩, ⟨"e01", d⟩] := by
  unfold stdSort tiedMatches
  simp only [List.length_cons, List.length_nil, Nat.zero_add, Nat.reduceAdd, log2_twenty]
  simp [introsort_loop, unguarded_partition_pivot, move_median_to_first, iter_swap,
    unguarded_partition, scanUp, scanDown, ImageMatch.lt, final_insertion_sort,
    insertion_sort, insertion_sort_loop, insertion_sort_step, unguarded_insertion_sort,
    unguarded_linear_insert, unguarded_linear_insert_loop]

theorem sortMatches_tiedMatches (d : α) :
    (sortMatches (tiedMatches d)).map (fun m => m.filename)
      = ["e10", "e19", "e18", "e17", "e16", "e15", "e14", "e13", "e12", "e11",
         "e00", "e09", "e08", "e07", "e06", "e05", "e04", "e03", "e02", "e01"] := by
  unfold sortMatches
  rw [stdSort_tiedMatches]
  rfl

theorem collectMatches_tiedCatalog (img : Mat) (texture : Mat → List α) (query : List α) :
    collectMatches (fun _ => some img) texture query tiedCatalog
      = tiedMatches (histogramIntersectionDistance query
          (([] ++ (extractRGBHistogram img 8 : List α)) ++ texture img)) := by
  rw [collectMatches_eq]
  rfl

/-- C22: `std::sort` on the computed matches never leaves the vector and
returns the ranking `sortMatches found`; the ranking is a permutation of the
computed matches, ordered by non-decreasing distance, and the reported top `K`
are its first `min(K, n)` entries. The list `searchDatabase` returns is such a
ranking of the matches it computed. In scenario D the three matches with
distances `0.9, 0.1, 0.5` are ranked `entry2, entry3, entry1`. -/
theorem ranking_sorted_permutation (found : List (ImageMatch α)) (K : Int) :
    stdSort ImageMatch.lt found = some (sortMatches found) ∧
    (sortMatches found).Perm found ∧
    (sortMatches found).Pairwise (fun a b => a.distance ≤ b.distance) ∧
    printTop K (sortMatches found)
      = Except.ok (((sortMatches found).take (min K (found.length : Int)).toNat).map
          (fun m => m.filename)) ∧
    (∀ (getImageFilenames : String → List String) (imread : String → Option Mat)
        (texture : Mat → List α) (query : List α) (dir : String),
      (searchDatabase sortMatches getImageFilenames imread texture query dir).Perm
          (collectMatches imread texture query (getImageFilenames dir)) ∧
      (searchDatabase sortMatches getImageFilenames imread texture query dir).Pairwise
          (fun a b => a.distance ≤ b.distance)) ∧
    (sortMatches (scenarioDMatches : List (ImageMatch α))).map (fun m => m.filename)
      = ["entry2", "entry3", "entry1"] ∧
    printTop 3 (sortMatches (scenarioDMatches : List (ImageMatch α)))
      = Except.ok ["entry2", "entry3", "entry1"] := by
  have hD := stdSort_scenarioD (sortMatches : List (ImageMatch α) → _) isStdSort_sortMatches
  refine ⟨stdSort_sortMatches found, (sortMatches_facts found).1, (sortMatches_facts found).2.1,
    ?_, fun _ imread texture query _ => ⟨(sortMatches_facts _).1, (sortMatches_facts _).2.1⟩,
    ?_, ?_⟩
  · rw [printTop_ok, (sortMatches_facts found).1.length_eq]
  · rw [hD]
    rfl
  · rw [printTop_ok, hD]
    rfl

/-- C23, as stated, fails: `std::sort` does not keep entries of equal distance
in catalog order. For a catalog of twenty files `e00 .. e19` that are all read
as the same 1x1 black image, queried with the features of that image, the
computed matches all have the same distance; `e00` comes before `e10` in the
catalog, but the ranking starts with `e10` and has `e00` in eleventh place. The
same order comes out for twenty matches at distance `0.5`. -/
theorem ranking_ties_not_stable :
    collectMatches (fun _ => some (blackImage 1 1)) (fun _ => [])
        (extractRGBHistogram (blackImage 1 1) 8 : List ℚ) tiedCatalog
      = tiedMatches (histogramIntersectionDistance
          (extractRGBHistogram (blackImage 1 1) 8 : List ℚ)
          (([] ++ (extractRGBHistogram (blackImage 1 1) 8 : List ℚ)) ++ [])) ∧
    (tiedCatalog[0]? = some "e00" ∧ tiedCatalog[10]? = some "e10") ∧
    (searchDatabase sortMatches (fun _ => tiedCatalog) (fun _ => some (blackImage 1 1))
        (fun _ => []) (extractRGBHistogram (blackImage 1 1) 8 : List ℚ) "database").map
        (fun m => m.filename)
      = ["e10", "e19", "e18", "e17", "e16", "e15", "e14", "e13", "e12", "e11",
         "e00", "e09", "e08", "e07", "e06", "e05", "e04", "e03", "e02", "e01"] ∧
    (((searchDatabase sortMatches (fun _ => tiedCatalog) (fun _ => some (blackImage 1 1))
        (fun _ => []) (extractRGBHistogram (blackImage 1 1) 8 : List ℚ) "database").map
        (fun m => m.filename))[0]? = some "e10" ∧
      ((searchDatabase sortMatches (fun _ => tiedCatalog) (fun _ => some (blackImage 1 1))
        (fun _ => []) (extractRGBHistogram (blackImage 1 1) 8 : List ℚ) "database").map
        (fun m => m.filename))[10]? = some "e00") ∧
    stdSort ImageMatch.lt (tiedMatches (1 / 2 : ℚ))
      = some (sortMatches (tiedMatches (1 / 2 : ℚ))) ∧
    (sortMatches (tiedMatches (1 / 2 : ℚ))).map (fun m => m.filename)
      = ["e10", "e19", "e18", "e17", "e16", "e15", "e14", "e13", "e12", "e11",
         "e00", "e09", "e08", "e07", "e06", "e05", "e04", "e03", "e02", "e01"] := by
  have hrank : (searchDatabase sortMatches (fun _ => tiedCatalog)
      (fun _ => some (blackImage 1 1)) (fun _ => [])
      (extractRGBHistogram (blackImage 1 1) 8 : List ℚ) "database").map (fun m => m.filename)
      = ["e10", "e19", "e18", "e17", "e16", "e15", "e14", "e13", "e12", "e11",
         "e00", "e09", "e08", "e07", "e06", "e05", "e04", "e03", "e02", "e01"] := by
    unfold searchDatabase
    rw [collectMatches_tiedCatalog, sortMatches_tiedMatches]
  refine ⟨collectMatches_tiedCatalog _ _ _, ⟨rfl, rfl⟩, hrank, ?_, stdSort_sortMatches _,
    sortMatches_tiedMatches _⟩
  rw [hrank]
  exact ⟨rfl, rfl⟩

/-- C23 (amended): in the ranking an entry with strictly smaller distance
comes earlier, and when all distances are pairwise distinct the ranking is
fully determined (it is the insertion-sort ranking). Two entries of equal
distance keep their catalog order when there are at most 16 matches; with more
matches `std::sort` may reorder them. -/
theorem ranking_order_by_distance (found : List (ImageMatch α)) :
    (∀ (i j : ℕ) (hi : i < (sortMatches found).length) (hj : j < (sortMatches found).length),
      ((sortMatches found)[i]).distance < ((sortMatches found)[j]).distance → i < j) ∧
    ((found.map (fun m => m.distance)).Nodup →
      sortMatches found = insertionSortMatches found) ∧
    (found.length ≤ 16 → ∀ (i j : ℕ) (hij : i < j) (hj : j < found.length),
      (found[i]).distance = (found[j]).distance →
        [found[i], found[j]].Sublist (sortMatches found)) :=
  ⟨fun i j hi hj hlt =>
      index_lt_of_distance_lt (sortMatches found) (sortMatches_facts found).2.1 i j hi hj hlt,
    fun hnd => stdSort_unique sortMatches isStdSort_sortMatches found hnd,
    fun h16 i j hij hj heq => sortMatches_stable_small found h16 i j hij hj heq⟩

theorem searchDatabase_none (sort : List (ImageMatch α) → List (ImageMatch α))
    (hsort : IsStdSort sort) (getImageFilenames : String → List String)
    (imread : String → Option Mat) (texture : Mat → List α) (query : List α) (dir : String)
    (hnone : ∀ p ∈ getImageFilenames dir, imread p = none) :
    searchDatabase sort getImageFilenames imread texture query dir = [] := by
  unfold searchDatabase
  rw [collectMatches_none imread texture query _ hnone, stdSort_nil sort hsort]

/-- With no readable image in the database directory, a readable target and at
least one refinement round, `main` reads `matches[1]` of the empty list. -/
theorem refinementMain_empty_catalog (sort : List (ImageMatch α) → List (ImageMatch α))
    (hsort : IsStdSort sort) (getImageFilenames : String → List String)
    (imread : String → Option Mat) (texture : Mat → List α)
    (target_path database_dir : String) (num_results max_iter : Int) (target : Mat)
    (htarget : imread target_path = some target)
    (hnone : ∀ p ∈ getImageFilenames database_dir, imread p = none)
    (hiter : 1 ≤ max_iter) :
    refinementMain sort getImageFilenames imread texture target_path database_dir
      num_results max_iter = Except.error RunError.indexOutOfRange := by
  obtain ⟨n, hn⟩ : ∃ n, max_iter.toNat = n + 1 := ⟨max_iter.toNat - 1, by omega⟩
  unfold refinementMain
  rw [htarget]
  simp only
  rw [searchDatabase_none sort hsort getImageFilenames imread texture _ database_dir hnone,
    printTop_ok, hn]
  simp [refinementLoop]

/-- C24 fails on the code: for a database directory with no readable image,
`searchDatabase` does return the empty list, but `main` of the query-refinement
program then selects `matches[1]` in its first refinement round, an index
outside the empty list. The run below has a readable 8x8 target, an empty
directory listing and the default 3 iterations. -/
theorem refinement_empty_catalog_out_of_range :
    searchDatabase (insertionSortMatches : List (ImageMatch ℚ) → _) (fun _ => [])
      (fun p => if p = "target.jpg" then some (blackImage 8 8) else none) (fun _ => [])
      [] "database" = [] ∧
    refinementMain (insertionSortMatches : List (ImageMatch ℚ) → _) (fun _ => [])
      (fun p => if p = "target.jpg" then some (blackImage 8 8) else none) (fun _ => [])
      "target.jpg" "database" 3 3 = Except.error RunError.indexOutOfRange :=
  ⟨searchDatabase_none _ isStdSort_insertionSort _ _ _ _ _ (fun _ hp => by simp at hp),
   refinementMain_empty_catalog _ isStdSort_insertionSort _ _ _ _ _ _ _ (blackImage 8 8)
     (by simp) (fun _ hp => by simp at hp) (by decide)⟩

end RankingClaims

/-! ## Loops of element writes -/

section WriteLemmas

/-- A loop whose rounds each overwrite a set of positions `Q x` with values
`V` that do not depend on the round or on the matrix so far. -/
theorem fold_writes {ι : Type} (step : (ℕ → ℕ → ℕ → Int) → ι → (ℕ → ℕ → ℕ → Int))
    (Q : ι → ℕ → ℕ → ℕ → Prop) (V : ℕ → ℕ → ℕ → Int)
    (hhit : ∀ m x a b c, Q x a b c → step m x a b c = V a b c)
    (hmiss : ∀ m x a b c, ¬ Q x a b c → step m x a b c = m a b c)
    (L : List ι) (m0 : ℕ → ℕ → ℕ → Int) (a b c : ℕ) :
    ((∃ x ∈ L, Q x a b c) → L.foldl step m0 a b c = V a b c) ∧
    ((¬ ∃ x ∈ L, Q x a b c) → L.foldl step m0 a b c = m0 a b c) := by
  induction L generalizing m0 with
  | nil =>
    constructor
    · rintro ⟨x, hx, _⟩
      cases hx
    · intro _
      rfl
  | cons y ys ih =>
    obtain ⟨ih1, ih2⟩ := ih (step m0 y)
    rw [List.foldl_cons]
    by_cases hys : ∃ x ∈ ys, Q x a b c
    · constructor
      · intro _
        exact ih1 hys
      · intro hno
        obtain ⟨x, hx, hq⟩ := hys
        exact absurd ⟨x, List.mem_cons_of_mem y hx, hq⟩ hno
    · by_cases hy : Q y a b c
      · constructor
        · intro _
          rw [ih2 hys]
          exact hhit m0 y a b c hy
        · intro hno
          exact absurd ⟨y, List.mem_cons_self y ys, hy⟩ hno
      · constructor
        · rintro ⟨x, hx, hq⟩
          rcases List.mem_cons.1 hx with rfl | hx
          · exact absurd hq hy
          · exact absurd ⟨x, hx, hq⟩ hys
        · intro _
          rw [ih2 hys]
          exact hmiss m0 y a b c hy

theorem setElem_hit (m : ℕ → ℕ → ℕ → Int) (i j c : ℕ) (v : Int) :
    setElem m i j c v i j c = v := by
  unfold setElem
  simp

theorem setElem_miss (m : ℕ → ℕ → ℕ → Int) (i j c : ℕ) (v : Int) (a b d : ℕ)
    (h : ¬ (a = i ∧ b = j ∧ d = c)) : setElem m i j c v a b d = m a b d := by
  unfold setElem
  rw [if_neg h]

/-- The channel loop `for (c = 0; c < 3; c++) row[j][c] = val c`. -/
theorem channelLoop_spec (val : ℕ → Int) (m : ℕ → ℕ → ℕ → Int) (i j : ℕ) (a b c : ℕ) :
    ((a = i ∧ b = j ∧ c < 3) →
      (List.range 3).foldl (fun m (d : ℕ) => setElem m i j d (val d)) m a b c = val c) ∧
    (¬ (a = i ∧ b = j ∧ c < 3) →
      (List.range 3).foldl (fun m (d : ℕ) => setElem m i j d (val d)) m a b c = m a b c) := by
  obtain ⟨h1, h2⟩ := fold_writes (fun m (d : ℕ) => setElem m i j d (val d))
    (fun d a b c => a = i ∧ b = j ∧ c = d) (fun _ _ c => val c)
    (fun m d a b c hq => by
      obtain ⟨rfl, rfl, rfl⟩ := hq
      exact setElem_hit m a b c (val c))
    (fun m d a b c hq => setElem_miss m i j d (val d) a b c hq)
    (List.range 3) m a b c
  constructor
  · rintro ⟨ha, hb, hc⟩
    exact h1 ⟨c, List.mem_range.2 hc, ha, hb, rfl⟩
  · intro hno
    apply h2
    rintro ⟨d, hd, ha, hb, rfl⟩
    exact hno ⟨ha, hb, List.mem_range.1 hd⟩

theorem setVecZero_spec (m : ℕ → ℕ → ℕ → Int) (i j : ℕ) (a b c : ℕ) :
    ((a = i ∧ b = j ∧ c < 3) → setVecZero m i j a b c = 0) ∧
    (¬ (a = i ∧ b = j ∧ c < 3) → setVecZero m i j a b c = m a b c) := by
  unfold setVecZero setElem
  constructor
  · rintro ⟨rfl, rfl, hc⟩
    have : c = 0 ∨ c = 1 ∨ c = 2 := by omega
    rcases this with rfl | rfl | rfl <;> simp
  · intro hno
    have h0 : ¬ (a = i ∧ b = j ∧ c = 0) := fun h => hno ⟨h.1, h.2.1, by omega⟩
    have h1 : ¬ (a = i ∧ b = j ∧ c = 1) := fun h => hno ⟨h.1, h.2.1, by omega⟩
    have h2 : ¬ (a = i ∧ b = j ∧ c = 2) := fun h => hno ⟨h.1, h.2.1, by omega⟩
    rw [if_neg h2, if_neg h1, if_neg h0]

theorem setRowZero_spec (m : ℕ → ℕ → ℕ → Int) (cols i : ℕ) (a b c : ℕ) :
    ((a = i ∧ b < cols ∧ c < 3) → setRowZero m cols i a b c = 0) ∧
    (¬ (a = i ∧ b < cols ∧ c < 3) → setRowZero m cols i a b c = m a b c) := by
  unfold setRowZero
  obtain ⟨h1, h2⟩ := fold_writes (fun m (j : ℕ) => setVecZero m i j)
    (fun j a b c => a = i ∧ b = j ∧ c < 3) (fun _ _ _ => 0)
    (fun m j a b c hq => (setVecZero_spec m i j a b c).1 hq)
    (fun m j a b c hq => (setVecZero_spec m i j a b c).2 hq)
    (List.range cols) m a b c
  constructor
  · rintro ⟨ha, hb, hc⟩
    exact h1 ⟨b, List.mem_range.2 hb, ha, rfl, hc⟩
  · intro hno
    apply h2
    rintro ⟨j, hj, ha, rfl, hc⟩
    exact hno ⟨ha, List.mem_range.1 hj, hc⟩

/-- A column loop around the channel loop, over the columns in `L`. -/
theorem columnLoop_spec (val : ℕ → ℕ → Int) (L : List ℕ) (m : ℕ → ℕ → ℕ → Int) (i : ℕ)
    (a b c : ℕ) :
    ((a = i ∧ b ∈ L ∧ c < 3) →
      L.foldl (fun m (j : ℕ) =>
        (List.range 3).foldl (fun m (d : ℕ) => setElem m i j d (val j d)) m) m a b c
        = val b c) ∧
    (¬ (a = i ∧ b ∈ L ∧ c < 3) →
      L.foldl (fun m (j : ℕ) =>
        (List.range 3).foldl (fun m (d : ℕ) => setElem m i j d (val j d)) m) m a b c
        = m a b c) := by
  obtain ⟨h1, h2⟩ := fold_writes
    (fun m (j : ℕ) => (List.range 3).foldl (fun m (d : ℕ) => setElem m i j d (val j d)) m)
    (fun j a b c => a = i ∧ b = j ∧ c < 3) (fun _ b c => val b c)
    (fun m j a b c hq => by
      have h := (channelLoop_spec (val j) m i j a b c).1 hq
      have hb : b = j := hq.2.1
      show (List.range 3).foldl (fun m (d : ℕ) => setElem m i j d (val j d)) m a b c = val b c
      rw [h, hb])
    (fun m j a b c hq => (channelLoop_spec (val j) m i j a b c).2 hq)
    L m a b c
  constructor
  · rintro ⟨ha, hb, hc⟩
    exact h1 ⟨b, hb, ha, rfl, hc⟩
  · intro hno
    apply h2
    rintro ⟨j, hj, ha, rfl, hc⟩
    exact hno ⟨ha, hj, hc⟩

end WriteLemmas

/-! ## The two passes of the separable filters -/

section SeparableLemmas

theorem sobelX3x3_eq_separable (src : Mat) (tempInit dstInit : ℕ → ℕ → ℕ → Int) :
    sobelX3x3 src tempInit dstInit
      = separable3x3 (fun a _ c => -a + c) (fun p q r => p + 2 * q + r) src tempInit dstInit :=
  rfl

theorem sobelY3x3_eq_separable (src : Mat) (tempInit dstInit : ℕ → ℕ → ℕ → Int) :
    sobelY3x3 src tempInit dstInit
      = separable3x3 (fun a b c => a + 2 * b + c) (fun p _ r => -p + r) src tempInit dstInit :=
  rfl

/-- One row of the first pass. -/
theorem tempRow_spec (h : Int → Int → Int → Int) (src : Mat) (m : ℕ → ℕ → ℕ → Int) (i : ℕ)
    (a b c : ℕ) :
    ((a = i ∧ b ≤ src.cols - 1 ∧ c < 3) →
      setVecZero (setVecZero
        ((List.range' 1 (src.cols - 1 - 1)).foldl
          (fun temp (j : ℕ) =>
            (List.range 3).foldl
              (fun temp (d : ℕ) =>
                setElem temp i j d
                  (wrap16 (h (((src.pixel i (j - 1)).get d).val : Int)
                    (((src.pixel i j).get d).val : Int)
                    (((src.pixel i (j + 1)).get d).val : Int))))
              temp)
          m) i 0) i (src.cols - 1) a b c
        = if b = 0 ∨ b = src.cols - 1 then 0
          else wrap16 (h (((src.pixel a (b - 1)).get c).val : Int)
            (((src.pixel a b).get c).val : Int)
            (((src.pixel a (b + 1)).get c).val : Int))) ∧
    (¬ (a = i ∧ b ≤ src.cols - 1 ∧ c < 3) →
      setVecZero (setVecZero
        ((List.range' 1 (src.cols - 1 - 1)).foldl
          (fun temp (j : ℕ) =>
            (List.range 3).foldl
              (fun temp (d : ℕ) =>
                setElem temp i j d
                  (wrap16 (h (((src.pixel i (j - 1)).get d).val : Int)
                    (((src.pixel i j).get d).val : Int)
                    (((src.pixel i (j + 1)).get d).val : Int))))
              temp)
          m) i 0) i (src.cols - 1) a b c
        = m a b c) := by
  have hcol := columnLoop_spec
    (fun (j d : ℕ) => wrap16 (h (((src.pixel i (j - 1)).get d).val : Int)
      (((src.pixel i j).get d).val : Int) (((src.pixel i (j + 1)).get d).val : Int)))
    (List.range' 1 (src.cols - 1 - 1)) m i a b c
  constructor
  · rintro ⟨ha, hb, hc⟩
    by_cases hlast : b = src.cols - 1
    · rw [(setVecZero_spec _ i (src.cols - 1) a b c).1 ⟨ha, hlast, hc⟩, if_pos (Or.inr hlast)]
    · rw [(setVecZero_spec _ i (src.cols - 1) a b c).2 (fun hh => hlast hh.2.1)]
      by_cases hfirst : b = 0
      · rw [(setVecZero_spec _ i 0 a b c).1 ⟨ha, hfirst, hc⟩, if_pos (Or.inl hfirst)]
      · rw [(setVecZero_spec _ i 0 a b c).2 (fun hh => hfirst hh.2.1),
          if_neg (fun hh => hh.elim hfirst hlast)]
        have hmem : b ∈ List.range' 1 (src.cols - 1 - 1) := by
          rw [List.mem_range'_1]
          omega
        rw [hcol.1 ⟨ha, hmem, hc⟩, ha]
  · intro hno
    have h1 : ¬ (a = i ∧ b = src.cols - 1 ∧ c < 3) := fun hh => hno ⟨hh.1, by omega, hh.2.2⟩
    have h2 : ¬ (a = i ∧ b = 0 ∧ c < 3) := fun hh => hno ⟨hh.1, by omega, hh.2.2⟩
    have h3 : ¬ (a = i ∧ b ∈ List.range' 1 (src.cols - 1 - 1) ∧ c < 3) := by
      rintro ⟨ha, hb, hc⟩
      rw [List.mem_range'_1] at hb
      exact hno ⟨ha, by omega, hc⟩
    rw [(setVecZero_spec _ i (src.cols - 1) a b c).2 h1, (setVecZero_spec _ i 0 a b c).2 h2,
      hcol.2 h3]

/-- The first pass at every position of the image. -/
theorem separableTemp_spec (h : Int → Int → Int → Int) (src : Mat)
    (tempInit : ℕ → ℕ → ℕ → Int) (a b c : ℕ) (ha : a < src.rows) (hb : b < src.cols)
    (hc : c < 3) :
    separableTemp h src tempInit a b c
      = if b = 0 ∨ b = src.cols - 1 then 0
        else wrap16 (h (((src.pixel a (b - 1)).get c).val : Int)
          (((src.pixel a b).get c).val : Int)
          (((src.pixel a (b + 1)).get c).val : Int)) := by
  unfold separableTemp
  have hw := fold_writes
    (fun (temp : ℕ → ℕ → ℕ → Int) (i : ℕ) =>
      setVecZero (setVecZero
        ((List.range' 1 (src.cols - 1 - 1)).foldl
          (fun temp (j : ℕ) =>
            (List.range 3).foldl
              (fun temp (d : ℕ) =>
                setElem temp i j d
                  (wrap16 (h (((src.pixel i (j - 1)).get d).val : Int)
                    (((src.pixel i j).get d).val : Int)
                    (((src.pixel i (j + 1)).get d).val : Int))))
              temp)
          temp) i 0) i (src.cols - 1))
    (fun i a b c => a = i ∧ b ≤ src.cols - 1 ∧ c < 3)
    (fun a b c => if b = 0 ∨ b = src.cols - 1 then 0
      else wrap16 (h (((src.pixel a (b - 1)).get c).val : Int)
        (((src.pixel a b).get c).val : Int)
        (((src.pixel a (b + 1)).get c).val : Int)))
    (fun m i a b c hq => (tempRow_spec h src m i a b c).1 hq)
    (fun m i a b c hq => (tempRow_spec h src m i a b c).2 hq)
    (List.range src.rows) tempInit a b c
  exact hw.1 ⟨a, List.mem_range.2 ha, rfl, by omega, hc⟩

/-- The result of the two passes at every position of the image. -/
theorem separable3x3_spec (h v : Int → Int → Int → Int) (src : Mat)
    (tempInit dstInit : ℕ → ℕ → ℕ → Int) (a b c : ℕ) (ha : a < src.rows) (hb : b < src.cols)
    (hc : c < 3) :
    separable3x3 h v src tempInit dstInit a b c
      = if a = 0 ∨ a = src.rows - 1 then 0
        else wrap16 (v (separableTemp h src tempInit (a - 1) b c)
          (separableTemp h src tempInit a b c)
          (separableTemp h src tempInit (a + 1) b c)) := by
  unfold separable3x3
  by_cases hlast : a = src.rows - 1
  · rw [(setRowZero_spec _ src.cols (src.rows - 1) a b c).1 ⟨hlast, hb, hc⟩,
      if_pos (Or.inr hlast)]
  · rw [(setRowZero_spec _ src.cols (src.rows - 1) a b c).2 (fun hh => hlast hh.1)]
    by_cases hfirst : a = 0
    · rw [(setRowZero_spec _ src.cols 0 a b c).1 ⟨hfirst, hb, hc⟩, if_pos (Or.inl hfirst)]
    · rw [(setRowZero_spec _ src.cols 0 a b c).2 (fun hh => hfirst hh.1),
        if_neg (fun hh => hh.elim hfirst hlast)]
      have hmem : a ∈ List.range' 1 (src.rows - 1 - 1) := by
        rw [List.mem_range'_1]
        constructor
        · omega
        · omega
      have hw := fold_writes
        (fun (dst : ℕ → ℕ → ℕ → Int) (i : ℕ) =>
          (List.range src.cols).foldl
            (fun dst (j : ℕ) =>
              (List.range 3).foldl
                (fun dst (d : ℕ) =>
                  setElem dst i j d
                    (wrap16 (v (separableTemp h src tempInit (i - 1) j d)
                      (separableTemp h src tempInit i j d)
                      (separableTemp h src tempInit (i + 1) j d))))
                dst)
            dst)
        (fun i a b c => a = i ∧ b < src.cols ∧ c < 3)
        (fun a b c => wrap16 (v (separableTemp h src tempInit (a - 1) b c)
          (separableTemp h src tempInit a b c)
          (separableTemp h src tempInit (a + 1) b c)))
        (fun m i a b c hq => by
          have hcol := (columnLoop_spec
            (fun (j d : ℕ) => wrap16 (v (separableTemp h src tempInit (i - 1) j d)
              (separableTemp h src tempInit i j d)
              (separableTemp h src tempInit (i + 1) j d)))
            (List.range src.cols) m i a b c).1 ⟨hq.1, List.mem_range.2 hq.2.1, hq.2.2⟩
          have hai : a = i := hq.1
          rw [hai] at hcol ⊢
          exact hcol)
        (fun m i a b c hq =>
          (columnLoop_spec
            (fun (j d : ℕ) => wrap16 (v (separableTemp h src tempInit (i - 1) j d)
              (separableTemp h src tempInit i j d)
              (separableTemp h src tempInit (i + 1) j d)))
            (List.range src.cols) m i a b c).2
            (fun hh => hq ⟨hh.1, List.mem_range.1 hh.2.1, hh.2.2⟩))
        (List.range' 1 (src.rows - 1 - 1)) dstInit a b c
      exact hw.1 ⟨a, hmem, rfl, hb, hc⟩

theorem wrap16_of_small (x : Int) (h1 : -32768 ≤ x) (h2 : x ≤ 32767) : wrap16 x = x := by
  unfold wrap16
  omega

theorem sample_bounds (src : Mat) (i j c : ℕ) :
    (0 : Int) ≤ (((src.pixel i j).get c).val : Int) ∧
    (((src.pixel i j).get c).val : Int) ≤ 255 := by
  have h := ((src.pixel i j).get c).isLt
  omega

end SeparableLemmas

/-! ## Claim about the separable Sobel filters -/

section SobelClaims

/-- `sobelX3x3` at every position of the image, without the conversions. -/
theorem sobelX_formula (src : Mat) (tempInit dstInit : ℕ → ℕ → ℕ → Int) (a b c : ℕ)
    (ha : a < src.rows) (hb : b < src.cols) (hc : c < 3) :
    sobelX3x3 src tempInit dstInit a b c
      = if a = 0 ∨ a = src.rows - 1 then 0
        else if b = 0 ∨ b = src.cols - 1 then 0
        else ((((src.pixel (a - 1) (b + 1)).get c).val : Int)
              - (((src.pixel (a - 1) (b - 1)).get c).val : Int))
          + 2 * ((((src.pixel a (b + 1)).get c).val : Int)
              - (((src.pixel a (b - 1)).get c).val : Int))
          + ((((src.pixel (a + 1) (b + 1)).get c).val : Int)
              - (((src.pixel (a + 1) (b - 1)).get c).val : Int)) := by
  rw [sobelX3x3_eq_separable, separable3x3_spec _ _ _ _ _ a b c ha hb hc]
  by_cases hrow : a = 0 ∨ a = src.rows - 1
  · rw [if_pos hrow, if_pos hrow]
  · rw [if_neg hrow, if_neg hrow,
      separableTemp_spec _ src tempInit (a - 1) b c (by omega) hb hc,
      separableTemp_spec _ src tempInit a b c ha hb hc,
      separableTemp_spec _ src tempInit (a + 1) b c (by omega) hb hc]
    by_cases hcol : b = 0 ∨ b = src.cols - 1
    · simp only [if_pos hcol]
      rfl
    · simp only [if_neg hcol]
      have h1 := sample_bounds src (a - 1) (b + 1) c
      have h2 := sample_bounds src (a - 1) (b - 1) c
      have h3 := sample_bounds src a (b + 1) c
      have h4 := sample_bounds src a (b - 1) c
      have h5 := sample_bounds src (a + 1) (b + 1) c
      have h6 := sample_bounds src (a + 1) (b - 1) c
      rw [wrap16_of_small (-(((src.pixel (a - 1) (b - 1)).get c).val : Int)
          + (((src.pixel (a - 1) (b + 1)).get c).val : Int)) (by omega) (by omega),
        wrap16_of_small (-(((src.pixel a (b - 1)).get c).val : Int)
          + (((src.pixel a (b + 1)).get c).val : Int)) (by omega) (by omega),
        wrap16_of_small (-(((src.pixel (a + 1) (b - 1)).get c).val : Int)
          + (((src.pixel (a + 1) (b + 1)).get c).val : Int)) (by omega) (by omega),
        wrap16_of_small _ (by omega) (by omega)]
      omega

/-- `sobelY3x3` at every position of the image, without the conversions. -/
theorem sobelY_formula (src : Mat) (tempInit dstInit : ℕ → ℕ → ℕ → Int) (a b c : ℕ)
    (ha : a < src.rows) (hb : b < src.cols) (hc : c < 3) :
    sobelY3x3 src tempInit dstInit a b c
      = if a = 0 ∨ a = src.rows - 1 then 0
        else if b = 0 ∨ b = src.cols - 1 then 0
        else ((((src.pixel (a + 1) (b - 1)).get c).val : Int)
              - (((src.pixel (a - 1) (b - 1)).get c).val : Int))
          + 2 * ((((src.pixel (a + 1) b).get c).val : Int)
              - (((src.pixel (a - 1) b).get c).val : Int))
          + ((((src.pixel (a + 1) (b + 1)).get c).val : Int)
              - (((src.pixel (a - 1) (b + 1)).get c).val : Int)) := by
  rw [sobelY3x3_eq_separable, separable3x3_spec _ _ _ _ _ a b c ha hb hc]
  by_cases hrow : a = 0 ∨ a = src.rows - 1
  · rw [if_pos hrow, if_pos hrow]
  · rw [if_neg hrow, if_neg hrow,
      separableTemp_spec _ src tempInit (a - 1) b c (by omega) hb hc,
      separableTemp_spec _ src tempInit (a + 1) b c (by omega) hb hc]
    by_cases hcol : b = 0 ∨ b = src.cols - 1
    · simp only [if_pos hcol]
      rfl
    · simp only [if_neg hcol]
      have h1 := sample_bounds src (a - 1) (b + 1) c
      have h2 := sample_bounds src (a - 1) (b - 1) c
      have h3 := sample_bounds src (a - 1) b c
      have h4 := sample_bounds src (a + 1) b c
      have h5 := sample_bounds src (a + 1) (b + 1) c
      have h6 := sample_bounds src (a + 1) (b - 1) c
      rw [wrap16_of_small ((((src.pixel (a - 1) (b - 1)).get c).val : Int)
          + 2 * (((src.pixel (a - 1) b).get c).val : Int)
          + (((src.pixel (a - 1) (b + 1)).get c).val : Int)) (by omega) (by omega),
        wrap16_of_small ((((src.pixel (a + 1) (b - 1)).get c).val : Int)
          + 2 * (((src.pixel (a + 1) b).get c).val : Int)
          + (((src.pixel (a + 1) (b + 1)).get c).val : Int)) (by omega) (by omega),
        wrap16_of_small _ (by omega) (by omega)]
      omega

/-- C27: for every 3-channel 8-bit image (and whatever the freshly created
`temp` and `dst` hold), at every pixel `(i, j)` with a complete 3x3
neighbourhood and every channel, `sobelX3x3` is the sum over the rows
`i-1, i, i+1` of `w*(src[.][j+1] - src[.][j-1])` and `sobelY3x3` the sum over
the columns `j-1, j, j+1` of `w*(src[i+1][.] - src[i-1][.])`, with
`w = (1, 2, 1)`; every pixel of the first or last row or column is `0`; and
every value has magnitude at most `1020`, so it fits a signed 16-bit integer. -/
theorem sobel_separable_equals_full (src : Mat) (tempInit dstInit : ℕ → ℕ → ℕ → Int) :
    (∀ i j c, 1 ≤ i → i + 1 < src.rows → 1 ≤ j → j + 1 < src.cols → c < 3 →
      sobelX3x3 src tempInit dstInit i j c
        = 1 * ((((src.pixel (i - 1) (j + 1)).get c).val : Int)
              - (((src.pixel (i - 1) (j - 1)).get c).val : Int))
          + 2 * ((((src.pixel i (j + 1)).get c).val : Int)
              - (((src.pixel i (j - 1)).get c).val : Int))
          + 1 * ((((src.pixel (i + 1) (j + 1)).get c).val : Int)
              - (((src.pixel (i + 1) (j - 1)).get c).val : Int)) ∧
      sobelY3x3 src tempInit dstInit i j c
        = 1 * ((((src.pixel (i + 1) (j - 1)).get c).val : Int)
              - (((src.pixel (i - 1) (j - 1)).get c).val : Int))
          + 2 * ((((src.pixel (i + 1) j).get c).val : Int)
              - (((src.pixel (i - 1) j).get c).val : Int))
          + 1 * ((((src.pixel (i + 1) (j + 1)).get c).val : Int)
              - (((src.pixel (i - 1) (j + 1)).get c).val : Int))) ∧
    (∀ i j c, i < src.rows → j < src.cols → c < 3 →
      (i = 0 ∨ i = src.rows - 1 ∨ j = 0 ∨ j = src.cols - 1) →
      sobelX3x3 src tempInit dstInit i j c = 0 ∧ sobelY3x3 src tempInit dstInit i j c = 0) ∧
    (∀ i j c, i < src.rows → j < src.cols → c < 3 →
      (-1020 ≤ sobelX3x3 src tempInit dstInit i j c ∧
        sobelX3x3 src tempInit dstInit i j c ≤ 1020) ∧
      (-1020 ≤ sobelY3x3 src tempInit dstInit i j c ∧
        sobelY3x3 src tempInit dstInit i j c ≤ 1020) ∧
      wrap16 (sobelX3x3 src tempInit dstInit i j c) = sobelX3x3 src tempInit dstInit i j c ∧
      wrap16 (sobelY3x3 src tempInit dstInit i j c) = sobelY3x3 src tempInit dstInit i j c) := by
  have hbound : ∀ i j c, i < src.rows → j < src.cols → c < 3 →
      (-1020 ≤ sobelX3x3 src tempInit dstInit i j c ∧
        sobelX3x3 src tempInit dstInit i j c ≤ 1020) ∧
      (-1020 ≤ sobelY3x3 src tempInit dstInit i j c ∧
        sobelY3x3 src tempInit dstInit i j c ≤ 1020) := by
    intro i j c hi hj hc
    rw [sobelX_formula src tempInit dstInit i j c hi hj hc,
      sobelY_formula src tempInit dstInit i j c hi hj hc]
    have h1 := sample_bounds src (i - 1) (j + 1) c
    have h2 := sample_bounds src (i - 1) (j - 1) c
    have h3 := sample_bounds src i (j + 1) c
    have h4 := sample_bounds src i (j - 1) c
    have h5 := sample_bounds src (i + 1) (j + 1) c
    have h6 := sample_bounds src (i + 1) (j - 1) c
    have h7 := sample_bounds src (i - 1) j c
    have h8 := sample_bounds src (i + 1) j c
    by_cases hrow : i = 0 ∨ i = src.rows - 1
    · rw [if_pos hrow, if_pos hrow]
      omega
    · rw [if_neg hrow, if_neg hrow]
      by_cases hcol : j = 0 ∨ j = src.cols - 1
      · rw [if_pos hcol, if_pos hcol]
        omega
      · rw [if_neg hcol, if_neg hcol]
        omega
  refine ⟨?_, ?_, ?_⟩
  · intro i j c h1 h2 h3 h4 hc
    rw [sobelX_formula src tempInit dstInit i j c (by omega) (by omega) hc,
      sobelY_formula src tempInit dstInit i j c (by omega) (by omega) hc,
      if_neg (by omega), if_neg (by omega), if_neg (by omega), if_neg (by omega)]
    constructor <;> ring
  · intro i j c hi hj hc hborder
    rw [sobelX_formula src tempInit dstInit i j c hi hj hc,
      sobelY_formula src tempInit dstInit i j c hi hj hc]
    by_cases hrow : i = 0 ∨ i = src.rows - 1
    · rw [if_pos hrow, if_pos hrow]
      exact ⟨rfl, rfl⟩
    · have hcol : j = 0 ∨ j = src.cols - 1 := by
        rcases hborder with h | h | h | h
        · exact absurd (Or.inl h) hrow
        · exact absurd (Or.inr h) hrow
        · exact Or.inl h
        · exact Or.inr h
      rw [if_neg hrow, if_neg hrow, if_pos hcol, if_pos hcol]
      exact ⟨rfl, rfl⟩
  · intro i j c hi hj hc
    obtain ⟨hx, hy⟩ := hbound i j c hi hj hc
    exact ⟨hx, hy, wrap16_of_small _ (by omega) (by omega),
      wrap16_of_small _ (by omega) (by omega)⟩

theorem sobelX_ramp_centre :
    sobelX3x3 rampImage3x3 (fun _ _ _ => 7) (fun _ _ _ => 9) 1 1 0 = 8 := by
  decide

theorem sobelY_ramp_centre :
    sobelY3x3 rampImage3x3 (fun _ _ _ => 7) (fun _ _ _ => 9) 1 1 0 = 80 := by
  decide

/-- Witness for C27 on the 3x3 ramp image (blue channel `10*i + j`), whatever
`temp` and `dst` held before: at the centre `sobelX3x3` gives `8` and
`sobelY3x3` gives `80`, the full-kernel sums, and the border pixel `(0, 1)` is
`0`. -/
theorem sobel_separable_equals_full_witness :
    sobelX3x3 rampImage3x3 (fun _ _ _ => 7) (fun _ _ _ => 9) 1 1 0
      = 1 * ((((rampImage3x3.pixel (1 - 1) (1 + 1)).get 0).val : Int)
            - (((rampImage3x3.pixel (1 - 1) (1 - 1)).get 0).val : Int))
        + 2 * ((((rampImage3x3.pixel 1 (1 + 1)).get 0).val : Int)
            - (((rampImage3x3.pixel 1 (1 - 1)).get 0).val : Int))
        + 1 * ((((rampImage3x3.pixel (1 + 1) (1 + 1)).get 0).val : Int)
            - (((rampImage3x3.pixel (1 + 1) (1 - 1)).get 0).val : Int)) ∧
    sobelX3x3 rampImage3x3 (fun _ _ _ => 7) (fun _ _ _ => 9) 1 1 0 = 8 ∧
    sobelY3x3 rampImage3x3 (fun _ _ _ => 7) (fun _ _ _ => 9) 1 1 0
      = 1 * ((((rampImage3x3.pixel (1 + 1) (1 - 1)).get 0).val : Int)
            - (((rampImage3x3.pixel (1 - 1) (1 - 1)).get 0).val : Int))
        + 2 * ((((rampImage3x3.pixel (1 + 1) 1).get 0).val : Int)
            - (((rampImage3x3.pixel (1 - 1) 1).get 0).val : Int))
        + 1 * ((((rampImage3x3.pixel (1 + 1) (1 + 1)).get 0).val : Int)
            - (((rampImage3x3.pixel (1 - 1) (1 + 1)).get 0).val : Int)) ∧
    sobelY3x3 rampImage3x3 (fun _ _ _ => 7) (fun _ _ _ => 9) 1 1 0 = 80 ∧
    sobelX3x3 rampImage3x3 (fun _ _ _ => 7) (fun _ _ _ => 9) 0 1 0 = 0 ∧
    sobelY3x3 rampImage3x3 (fun _ _ _ => 7) (fun _ _ _ => 9) 0 1 0 = 0 :=
  have h := sobel_separable_equals_full rampImage3x3 (fun _ _ _ => 7) (fun _ _ _ => 9)
  have hc := h.1 1 1 0 (by decide) (by decide) (by decide) (by decide) (by decide)
  have hb := h.2.1 0 1 0 (by decide) (by decide) (by decide) (Or.inl rfl)
  ⟨hc.1, sobelX_ramp_centre, hc.2, sobelY_ramp_centre, hb.1, hb.2⟩

end SobelClaims

end CBIR
